import Mathlib

/-!
# EagleTree I/O scheduler (`ssd_io_scheduler.cpp`)

A shallow embedding of `IOScheduler` and a verification of its specification.

Modelling conventions.
* `Event*` pointers are natural numbers indexing `IOScheduler.heap`; queues hold pointers, so an
  in-place update of an event is seen by every queue holding the pointer, as in the C++.
* `double` is modelled by `ℚ` (exact arithmetic), `long` bucket keys by `ℤ`, `uint` by `ℕ`.
* `std::map` is a function into `Option`; `operator[]` on an absent key inserts the default value.
* The block manager, the FTL, the device, the statistics gatherer, the flexible-read payload and the
  random generator are outside `ssd_io_scheduler.cpp`.  They are the fields of `Collaborators`:
  every call is appended to `IOScheduler.log` and lets the collaborators' state `world` react.
* A failed `assert`, a null dereference and `front()` of an empty container stop the run with a
  `Fault` and the state reached; loops whose trip count is not bounded by a list carry fuel.
-/

namespace ssd

/-- Modelled from the spec: the enumeration `event_type` (declared in `ssd.h`), enumerators in the
order of the data model, the first one being the value a `std::map` inserts by default. -/
inductive event_type
  | READ | READ_COMMAND | READ_TRANSFER | WRITE | COPY_BACK | ERASE | TRIM | GARBAGE_COLLECTION
  deriving DecidableEq, Repr, Inhabited

/-- Modelled from the spec: the result of the device's `issue` (declared in `ssd.h`). -/
inductive status
  | SUCCESS | FAILURE
  deriving DecidableEq, Repr, Inhabited

/-- Modelled from the spec: validity level of a physical address (declared in `ssd.h`). -/
inductive address_valid
  | NONE | PACKAGE | DIE | PLANE | BLOCK | PAGE
  deriving DecidableEq, Repr, Inhabited

/-- Modelled from the spec: a physical address, a (package, die, plane, block, page) tuple. -/
structure Address where
  package : Nat
  die : Nat
  plane : Nat
  block : Nat
  page : Nat
  valid : address_valid
  deriving DecidableEq, Repr, Inhabited

/-- Modelled from the spec: the fields of class `Event` (declared in `ssd.h`) that the scheduler
reads or writes through getters and setters. -/
structure Event where
  id : Nat
  application_io_id : Nat
  logical_address : Nat
  type : event_type
  current_time : ℚ
  bus_wait_time : ℚ
  accumulated_wait_time : ℚ
  garbage_collection_op : Bool
  flexible_read : Bool
  mapping_op : Bool
  original_application_io : Bool
  noop : Bool
  address : Address
  replace_address : Address
  deriving DecidableEq, Inhabited

namespace Event

/-- Modelled from the spec: `Event::incr_bus_wait_time`; a suspended event is re-queued at
`now + wait`, so the wait is added to the bus wait and to the current time. -/
def incr_bus_wait_time (e : Event) (w : ℚ) : Event :=
  { e with bus_wait_time := e.bus_wait_time + w, current_time := e.current_time + w }

/-- Modelled from the spec: `Event::incr_accumulated_wait_time`. -/
def incr_accumulated_wait_time (e : Event) (w : ℚ) : Event :=
  { e with accumulated_wait_time := e.accumulated_wait_time + w }

/-- Modelled from the spec: `Event::get_overall_wait_time`, derived from the two waits. -/
def get_overall_wait_time (e : Event) : ℚ :=
  e.accumulated_wait_time + e.bus_wait_time

/-- Modelled from the spec: the constructor `Event(type, logical_address, size, start_time)`. -/
def create (t : event_type) (lba : Nat) (time : ℚ) : Event :=
  { (default : Event) with type := t, logical_address := lba, current_time := time }

end Event

/-- The calls the scheduler makes on its collaborators, with the arguments passed. -/
inductive Call
  | issue (e : Event)
  | register_event_completion (e : Event)
  | clear_register (package die : Nat)
  | register_register_cleared
  | register_trim_making_gc_redundant
  | register_write_arrival (e : Event)
  | register_write_completion (e : Event) (outcome : status)
  | register_write_outcome (e : Event) (outcome : status)
  | register_erase_outcome (e : Event) (outcome : status)
  | register_read_command_outcome (e : Event) (outcome : status)
  | register_read_completion (e : Event) (outcome : status)
  | register_read_transfer_outcome (e : Event) (outcome : status)
  | register_trim_completion (e : Event)
  | trim (e : Event)
  | register_completed_event (e : Event)
  | register_events_queue_length (size : Nat) (time : ℚ)
  | set_read_address (e : Event)
  | set_replace_address (e : Event)
  | in_how_long_can_this_event_be_scheduled (a : Address) (time : ℚ)
  | can_schedule_on_die (a : Address) (t : event_type) (op : Nat)
  | choose_write_address (e : Event)
  | choose_flexible_read_address (e : Event)
  | migrate (e : Event)
  | find_alternative_immediate_candidate (e : Event) (package die : Nat)
  | register_read_commencement (e : Event)
  | random_shuffle
  deriving DecidableEq

/-- The code outside `ssd_io_scheduler.cpp` that the scheduler calls, over a state `W`, and the
configuration constants of `ssd.h`. -/
structure Collaborators (W : Type) where
  /-- how the collaborators' state changes at a call -/
  react : W → Call → W
  /-- Modelled from the spec: `Ssd::issue`, the device timing model; it returns the completion
  status, and the time the operation takes is added to the event's current time -/
  issue : W → Event → status × ℚ
  in_how_long_can_this_event_be_scheduled : W → Address → ℚ → ℚ
  can_schedule_on_die : W → Address → event_type → Nat → Bool
  choose_write_address : W → Event → Address
  choose_flexible_read_address : W → Event → Address
  /-- `Block_manager_parent::migrate`: the migrations, each a queue of new events -/
  migrate : W → Event → List (List Event)
  /-- Modelled from the spec: `FtlParent::set_read_address` gives the event its physical address -/
  set_read_address : W → Event → Address
  /-- Modelled from the spec: `FtlParent::set_replace_address` gives the event the address it
  replaces -/
  set_replace_address : W → Event → Address
  /-- `Flexible_Read_Event::get_candidates_lba()[package][die]`; the candidates of a flexible read
  are part of the collaborators' state -/
  candidates_lba : W → Event → Nat → Nat → Nat
  /-- `random_shuffle` driven by `random_number_generator` -/
  shuffle : W → List Nat → List Nat
  shuffle_perm : ∀ w l, (shuffle w l).Perm l
  SCHEDULING_SCHEME : Nat
  BLOCK_SIZE : Nat

/-- The constant `WAIT_TIME` of line 14. -/
def WAIT_TIME : ℚ := 3

/-- A `std::map` with keys in `uint`. -/
abbrev Table (α : Type) := Nat → Option α

namespace Table

/-- The map without entries. -/
def empty {α : Type} : Table α := fun _ => none

/-- Assignment through `m[k] = v`. -/
def set {α : Type} (m : Table α) (k : Nat) (v : α) : Table α :=
  fun x => if x = k then some v else m x

/-- The member `erase(k)`. -/
def erase {α : Type} (m : Table α) (k : Nat) : Table α :=
  fun x => if x = k then none else m x

/-- The member `count(k)`. -/
def count {α : Type} (m : Table α) (k : Nat) : Nat :=
  if (m k).isSome then 1 else 0

/-- The value `m[k]` of a read through `operator[]`. -/
def get {α : Type} [Inhabited α] (m : Table α) (k : Nat) : α :=
  (m k).getD default

/-- The map after a read through `operator[]`: the key is present, with the value it had or,
if it was absent, with the default. -/
def touch {α : Type} [Inhabited α] (m : Table α) (k : Nat) : Table α :=
  fun x => if x = k then some (m.get k) else m x

end Table

/-- The data members of `IOScheduler`, the heap of events and the record of external calls. -/
structure IOScheduler (W : Type) where
  heap : Nat → Event
  next_free : Nat
  future_events : List Nat
  current_events : List (Int × List Nat)
  dependencies : Table (List Nat)
  LBA_currently_executing : Table Nat
  dependency_code_to_LBA : Table Nat
  dependency_code_to_type : Table event_type
  op_code_to_dependent_op_codes : Table (List Nat)
  num_write_cancellations : Nat
  world : W
  log : List Call

/-- Why a run stopped. -/
inductive Fault
  | assertion | null_dereference | empty_container | out_of_fuel
  deriving DecidableEq, Repr

/-- A computation of the scheduler: a value, or a fault with the state reached. -/
abbrev Run (W : Type) (α : Type) := Except (Fault × IOScheduler W) α

namespace IOScheduler

variable {W : Type}

/-- The scheduler as constructed (lines 16-40). -/
def init (w : W) : IOScheduler W :=
  { heap := fun _ => default, next_free := 0, future_events := [], current_events := [],
    dependencies := Table.empty, LBA_currently_executing := Table.empty,
    dependency_code_to_LBA := Table.empty, dependency_code_to_type := Table.empty,
    op_code_to_dependent_op_codes := Table.empty, num_write_cancellations := 0,
    world := w, log := [] }

/-- A call on a collaborator: recorded, and the collaborators react. -/
def call (C : Collaborators W) (c : Call) (s : IOScheduler W) : IOScheduler W :=
  { s with world := C.react s.world c, log := s.log ++ [c] }

/-- An in-place update of the event at pointer `p`. -/
def modify (p : Nat) (f : Event → Event) (s : IOScheduler W) : IOScheduler W :=
  { s with heap := fun q => if q = p then f (s.heap p) else s.heap q }

/-- Allocation by `new Event`. -/
def alloc (e : Event) (s : IOScheduler W) : Nat × IOScheduler W :=
  (s.next_free,
    { s with heap := fun q => if q = s.next_free then e else s.heap q,
             next_free := s.next_free + 1 })

/-- Allocation of the events of one queue, in order. -/
def alloc_list : List Event → IOScheduler W → List Nat × IOScheduler W
  | [], s => ([], s)
  | e :: es, s =>
    let r := s.alloc e
    let rs := alloc_list es r.2
    (r.1 :: rs.1, rs.2)

/-- Insertion into the ordered map `current_events` at key `k` (lines 341-348). -/
def bucket_insert (k : Int) (p : Nat) : List (Int × List Nat) → List (Int × List Nat)
  | [] => [(k, [p])]
  | (k', es) :: rest =>
    if k < k' then (k, [p]) :: (k', es) :: rest
    else if k = k' then (k', es ++ [p]) :: rest
    else (k', es) :: bucket_insert k p rest

/-- The pointers held in `current_events`, in iteration order. -/
def current_pointers (s : IOScheduler W) : List Nat :=
  (s.current_events.map Prod.snd).flatten

/-- Lines 335-349. -/
def push_into_current_events (event : Nat) (s : IOScheduler W) : IOScheduler W :=
  { s with current_events := bucket_insert ⌊(s.heap event).current_time⌋ event s.current_events }

/-- Lines 469-481. -/
def find_scheduled_event (s : IOScheduler W) (dependency_code : Nat) : Option Nat :=
  s.current_pointers.find? (fun p => (s.heap p).application_io_id == dependency_code)

/-- Lines 483-492. -/
def remove_current_operation (C : Collaborators W) (event : Nat) (s : IOScheduler W) :
    IOScheduler W :=
  let s1 := s.modify event (fun e => { e with noop := true })
  let e := s1.heap event
  if e.type = event_type.READ_TRANSFER then
    (s1.call C (Call.clear_register e.address.package e.address.die)).call C
      Call.register_register_cleared
  else if e.type = event_type.COPY_BACK then
    (s1.call C (Call.clear_register e.replace_address.package e.replace_address.die)).call C
      Call.register_register_cleared
  else s1

/-- Lines 514-520. -/
def promote_to_gc (event_to_promote : Nat) (s : IOScheduler W) : IOScheduler W :=
  let s1 := s.modify event_to_promote (fun e => { e with garbage_collection_op := true })
  let code := (s1.heap event_to_promote).application_io_id
  let s2 := { s1 with dependencies := s1.dependencies.touch code }
  (s2.dependencies.get code).foldl
    (fun acc p => acc.modify p (fun e => { e with garbage_collection_op := true })) s2

/-- Lines 522-526. -/
def make_dependent (dependent_event : Nat) (independent_code : Nat) (s : IOScheduler W) :
    IOScheduler W :=
  let dependent_code := (s.heap dependent_event).application_io_id
  let q := s.op_code_to_dependent_op_codes.get independent_code
  let s1 := { s with op_code_to_dependent_op_codes :=
                s.op_code_to_dependent_op_codes.set independent_code (q ++ [dependent_code]) }
  { s1 with dependencies :=
      s1.dependencies.set dependent_code (dependent_event :: s1.dependencies.get dependent_code) }


/-- A run stopped by fault `f` in state `s`. -/
def fail {α : Type} (f : Fault) (s : IOScheduler W) : Run W α :=
  Except.error (f, s)

/-- Lines 816-866: the decision chain of `remove_redundant_events` from the branch
`new_op_code == COPY_BACK && scheduled_op_code == READ` on. -/
def remove_redundant_events_rest (C : Collaborators W) (new_event : Nat)
    (existing_event : Option Nat) (new_op_code scheduled_op_code : event_type)
    (dependency_code_of_new_event dependency_code_of_other_event common_logical_address : Nat)
    (s : IOScheduler W) : Run W (IOScheduler W) :=
  if new_op_code = event_type.COPY_BACK ∧ scheduled_op_code = event_type.READ
      ∧ existing_event ≠ none then
    match existing_event with
    | none => fail Fault.null_dereference s
    | some e =>
      let s1 := s.remove_current_operation C e
      pure { s1 with LBA_currently_executing :=
               s1.LBA_currently_executing.set common_logical_address dependency_code_of_new_event }
  else if new_op_code = event_type.WRITE ∧ (scheduled_op_code = event_type.READ
      ∨ scheduled_op_code = event_type.READ_COMMAND
      ∨ scheduled_op_code = event_type.READ_TRANSFER) then
    pure (s.make_dependent new_event dependency_code_of_other_event)
  else if new_op_code = event_type.READ ∧ (scheduled_op_code = event_type.WRITE
      ∨ scheduled_op_code = event_type.COPY_BACK) then
    pure (s.make_dependent new_event dependency_code_of_other_event)
  else if (new_op_code = event_type.READ ∨ new_op_code = event_type.READ_COMMAND
      ∨ new_op_code = event_type.READ_TRANSFER) ∧ (scheduled_op_code = event_type.READ
      ∨ scheduled_op_code = event_type.READ_COMMAND
      ∨ scheduled_op_code = event_type.READ_TRANSFER) then
    let s1 := s.make_dependent new_event dependency_code_of_other_event
    if ¬ (s1.heap new_event).garbage_collection_op = true then
      pure (s1.remove_current_operation C new_event)
    else pure s1
  else if new_op_code = event_type.TRIM ∧ scheduled_op_code = event_type.WRITE then
    match existing_event with
    | none => fail Fault.null_dereference s
    | some e =>
      let s1 := s.remove_current_operation C e
      let s2 := if (s1.heap e).garbage_collection_op = true then
                  s1.call C Call.register_trim_making_gc_redundant else s1
      pure { s2 with LBA_currently_executing :=
               s2.LBA_currently_executing.set common_logical_address dependency_code_of_new_event }
  else if new_op_code = event_type.WRITE ∧ scheduled_op_code = event_type.TRIM then
    pure (s.make_dependent new_event dependency_code_of_other_event)
  else if new_op_code = event_type.TRIM ∧ (scheduled_op_code = event_type.READ
      ∨ scheduled_op_code = event_type.READ_TRANSFER
      ∨ scheduled_op_code = event_type.READ_COMMAND) then
    pure (s.make_dependent new_event dependency_code_of_other_event)
  else if (new_op_code = event_type.READ ∨ new_op_code = event_type.READ_TRANSFER
      ∨ new_op_code = event_type.READ_COMMAND) ∧ scheduled_op_code = event_type.TRIM then
    if (s.heap new_event).garbage_collection_op = true then
      pure ((s.call C Call.register_trim_making_gc_redundant).remove_current_operation C new_event)
    else pure s
  else fail Fault.assertion s

/-- Lines 732-867.  The debug traps on fixed op ids and the empty `if` bodies have no effect and
are left out. -/
def remove_redundant_events (C : Collaborators W) (new_event : Nat) (s : IOScheduler W) :
    Run W (IOScheduler W) :=
  let la := (s.heap new_event).logical_address
  let dependency_code_of_new_event := (s.heap new_event).application_io_id
  match s.LBA_currently_executing la with
  | none =>
    pure { s with LBA_currently_executing :=
             s.LBA_currently_executing.set la dependency_code_of_new_event }
  | some dependency_code_of_other_event =>
    if dependency_code_of_other_event = dependency_code_of_new_event then pure s
    else
      let existing_event := s.find_scheduled_event dependency_code_of_other_event
      let t1 := s.dependency_code_to_type.touch dependency_code_of_new_event
      let new_op_code := t1.get dependency_code_of_new_event
      let t2 := t1.touch dependency_code_of_other_event
      let scheduled_op_code := t2.get dependency_code_of_other_event
      let s0 := { s with dependency_code_to_type := t2 }
      if (s0.heap new_event).garbage_collection_op = true
          ∧ scheduled_op_code = event_type.WRITE then
        match existing_event with
        | none => fail Fault.null_dereference s0
        | some e =>
          let s1 := s0.promote_to_gc e
          let s2 := s1.remove_current_operation C new_event
          let s3 := s2.push_into_current_events new_event
          pure { s3 with
            LBA_currently_executing :=
              s3.LBA_currently_executing.set la dependency_code_of_other_event,
            num_write_cancellations := s3.num_write_cancellations + 1 }
      else if (s0.heap new_event).garbage_collection_op = true
          ∧ scheduled_op_code = event_type.TRIM then
        let s1 := s0.remove_current_operation C new_event
        let s2 := s1.push_into_current_events new_event
        let s3 := s2.call C Call.register_trim_making_gc_redundant
        pure { s3 with LBA_currently_executing :=
                 s3.LBA_currently_executing.set la dependency_code_of_other_event }
      else if existing_event.any (fun e => (s0.heap e).garbage_collection_op) = true
          ∧ (new_op_code = event_type.WRITE ∨ new_op_code = event_type.TRIM) then
        match existing_event with
        | none => fail Fault.null_dereference s0
        | some e =>
          let s1 := if new_op_code = event_type.TRIM then
                      s0.call C Call.register_trim_making_gc_redundant else s0
          let s2 := s1.promote_to_gc new_event
          let s3 := s2.remove_current_operation C e
          pure { s3 with
            LBA_currently_executing :=
              s3.LBA_currently_executing.set la dependency_code_of_new_event,
            num_write_cancellations := s3.num_write_cancellations + 1 }
      else if new_op_code = event_type.WRITE ∧ scheduled_op_code = event_type.WRITE then
        match existing_event with
        | none => fail Fault.null_dereference s0
        | some e =>
          let s1 := s0.remove_current_operation C e
          pure { s1 with
            LBA_currently_executing :=
              s1.LBA_currently_executing.set la dependency_code_of_new_event,
            num_write_cancellations := s1.num_write_cancellations + 1 }
      else if new_op_code = event_type.WRITE ∧ scheduled_op_code = event_type.READ then
        match existing_event with
        | none => fail Fault.null_dereference s0
        | some e =>
          if (s0.heap e).mapping_op = true then
            let s1 := s0.remove_current_operation C e
            pure { s1 with LBA_currently_executing :=
                     s1.LBA_currently_executing.set la dependency_code_of_new_event }
          else
            remove_redundant_events_rest C new_event existing_event new_op_code scheduled_op_code
              dependency_code_of_new_event dependency_code_of_other_event la s0
      else
        remove_redundant_events_rest C new_event existing_event new_op_code scheduled_op_code
          dependency_code_of_new_event dependency_code_of_other_event la s0

/-- Lines 452-456. -/
def should_event_be_scheduled (C : Collaborators W) (event : Nat) (s : IOScheduler W) :
    Run W (Bool × IOScheduler W) := do
  let s1 ← remove_redundant_events C event s
  let la := (s1.heap event).logical_address
  pure (decide (s1.LBA_currently_executing.count la = 1
          ∧ s1.LBA_currently_executing la = some (s1.heap event).application_io_id), s1)

/-- Lines 693-725, the body of the loop over the migrations: `migration` holds the pointers of
one queue returned by `migrate`, `k` is the call `init_event(first)`. -/
def init_migration (k : Nat → IOScheduler W → Run W (IOScheduler W)) (migration : List Nat)
    (s : IOScheduler W) : Run W (IOScheduler W) :=
  match migration with
  | [] => fail Fault.empty_container s
  | [_] => fail Fault.empty_container s
  | first :: second :: rest =>
    let code := (s.heap first).application_io_id
    let s1 := { s with dependencies := s.dependencies.set code (second :: rest) }
    let s2 := { s1 with dependency_code_to_LBA :=
                  s1.dependency_code_to_LBA.set code (s1.heap first).logical_address }
    let s3 := { s2 with dependency_code_to_type :=
                  s2.dependency_code_to_type.set code (s2.heap second).type }
    k first s3

/-- Allocation of the queues returned by `migrate`. -/
def alloc_migrations : List (List Event) → IOScheduler W → List (List Nat) × IOScheduler W
  | [], s => ([], s)
  | m :: ms, s =>
    let r := s.alloc_list m
    let rs := alloc_migrations ms r.2
    (r.1 :: rs.1, rs.2)

/-- Lines 677-680: the READ becomes a READ_COMMAND, and a copy of it of type READ_TRANSFER is
put at the front of the dependency queue of `dep_code`. -/
def decompose_read (event : Nat) (dep_code : Nat) (s : IOScheduler W) : IOScheduler W :=
  let s2 := s.modify event (fun e => { e with type := event_type.READ_COMMAND })
  let r := s2.alloc { s2.heap event with type := event_type.READ_TRANSFER }
  let s3 := { r.2 with dependencies := r.2.dependencies.touch dep_code }
  { s3 with dependencies := s3.dependencies.set dep_code (r.1 :: s3.dependencies.get dep_code) }

/-- Lines 655-729.  The first argument is fuel for the recursion through READ decomposition and
through the migrations of a GARBAGE_COLLECTION request. -/
def init_event (C : Collaborators W) : Nat → Nat → IOScheduler W → Run W (IOScheduler W)
  | 0, _, s => fail Fault.out_of_fuel s
  | fuel + 1, event, s =>
    let dep_code := (s.heap event).application_io_id
    let type := (s.heap event).type
    if (s.heap event).noop = true ∧ type ≠ event_type.GARBAGE_COLLECTION then
      pure (s.push_into_current_events event)
    else do
      let s1 ←
        if (s.heap event).flexible_read = true
            ∧ (type = event_type.READ_COMMAND ∨ type = event_type.READ_TRANSFER) then
          pure (f := Run W) (s.push_into_current_events event)
        else if type = event_type.TRIM ∨ type = event_type.READ_COMMAND
            ∨ type = event_type.READ_TRANSFER ∨ type = event_type.WRITE
            ∨ type = event_type.COPY_BACK then do
          let r ← should_event_be_scheduled C event s
          if r.1 = true then pure (r.2.push_into_current_events event) else pure r.2
        else pure s
      if (s1.heap event).type = event_type.READ then
        init_event C fuel event (s1.decompose_read event dep_code)
      else if type = event_type.READ_COMMAND ∨ type = event_type.READ_TRANSFER then
        pure ((s1.modify event
                (fun e => { e with address := C.set_read_address s1.world e })).call C
                (Call.set_read_address (s1.heap event)))
      else if type = event_type.WRITE then
        pure (s1.call C (Call.register_write_arrival (s1.heap event)))
      else if type = event_type.TRIM then
        pure ((s1.modify event
                (fun e => { e with replace_address := C.set_replace_address s1.world e })).call C
                (Call.set_replace_address (s1.heap event)))
      else if type = event_type.GARBAGE_COLLECTION then
        let r := (s1.call C (Call.migrate (s1.heap event))).alloc_migrations
                   (C.migrate s1.world (s1.heap event))
        r.1.reverse.foldlM (fun acc migration => init_migration (init_event C fuel) migration acc)
          r.2
      else if type = event_type.ERASE then
        pure (s1.push_into_current_events event)
      else pure s1


/-- Lines 586-594, the loop of `manage_operation_completion`; the first argument is fuel. -/
def admit_dependents (C : Collaborators W) :
    Nat → Nat → Nat → IOScheduler W → Run W (IOScheduler W)
  | 0, _, _, s => fail Fault.out_of_fuel s
  | fuel + 1, event, dependency_code, s =>
    match s.op_code_to_dependent_op_codes dependency_code with
    | none => pure s
    | some [] => pure s
    | some (dependent_code :: rest) =>
      let s1 := { s with op_code_to_dependent_op_codes :=
                    s.op_code_to_dependent_op_codes.set dependency_code rest }
      let s2 := { s1 with dependencies := s1.dependencies.touch dependent_code }
      match s2.dependencies.get dependent_code with
      | [] => fail Fault.empty_container s2
      | dependant_event :: tail =>
        let diff := (s2.heap event).current_time - (s2.heap dependant_event).current_time
        let s3 := s2.modify dependant_event (fun e => e.incr_bus_wait_time diff)
        let s4 := { s3 with dependencies := s3.dependencies.set dependent_code tail }
        do
          let s5 ← init_event C fuel dependant_event s4
          admit_dependents C fuel event dependency_code s5

/-- Lines 582-596. -/
def manage_operation_completion (C : Collaborators W) (fuel : Nat) (event : Nat)
    (s : IOScheduler W) : Run W (IOScheduler W) := do
  let dependency_code := (s.heap event).application_io_id
  let s1 := { s with dependency_code_to_LBA := s.dependency_code_to_LBA.erase dependency_code }
  let s2 := { s1 with dependency_code_to_type :=
                s1.dependency_code_to_type.erase dependency_code }
  let s3 ← admit_dependents C fuel event dependency_code s2
  pure { s3 with op_code_to_dependent_op_codes :=
           s3.op_code_to_dependent_op_codes.erase dependency_code }

/-- Lines 598-645. -/
def handle_finished_event (C : Collaborators W) (event : Nat) (outcome : status)
    (s : IOScheduler W) : Run W (IOScheduler W) :=
  if outcome = status.FAILURE then fail Fault.assertion s
  else
    let e := s.heap event
    let s1 := s.call C (Call.register_completed_event e)
    if e.type = event_type.WRITE ∨ e.type = event_type.COPY_BACK then
      pure ((s1.call C (Call.register_write_completion e outcome)).call C
              (Call.register_write_outcome e outcome))
    else if e.type = event_type.ERASE then
      pure (s1.call C (Call.register_erase_outcome e outcome))
    else if e.type = event_type.READ_COMMAND then
      pure (s1.call C (Call.register_read_command_outcome e outcome))
    else if e.type = event_type.READ_TRANSFER then
      pure ((s1.call C (Call.register_read_completion e outcome)).call C
              (Call.register_read_transfer_outcome e outcome))
    else if e.type = event_type.TRIM then
      pure ((s1.call C (Call.register_trim_completion e)).call C (Call.trim e))
    else pure s1

/-- Lines 528-580. -/
def execute_next (C : Collaborators W) (fuel : Nat) (event : Nat) (s : IOScheduler W) :
    Run W (status × IOScheduler W) := do
  let r := C.issue s.world (s.heap event)
  let result := r.1
  let s1 := (s.call C (Call.issue (s.heap event))).modify event
              (fun e => { e with current_time := e.current_time + r.2 })
  let s2 ← handle_finished_event C event result s1
  let s3 ←
    if result = status.SUCCESS then
      let dependency_code := (s2.heap event).application_io_id
      let s3 := { s2 with dependencies := s2.dependencies.touch dependency_code }
      match s3.dependencies.get dependency_code with
      | dependent :: tail =>
        let s4 := { s3 with LBA_currently_executing :=
                      s3.LBA_currently_executing.erase (s3.heap event).logical_address }
        let s5 := s4.modify dependent (fun e => { e with application_io_id := dependency_code })
        let diff := (s5.heap event).current_time - (s5.heap dependent).current_time
        let s6 := s5.modify dependent (fun e => e.incr_accumulated_wait_time diff)
        let s7 := s6.modify dependent (fun e => { e with noop := (s6.heap event).noop })
        let s8 := { s7 with dependencies := s7.dependencies.set dependency_code tail }
        let lba9 := (s8.heap dependent).logical_address
        let s9 := { s8 with LBA_currently_executing :=
                      s8.LBA_currently_executing.set lba9 (s8.heap dependent).application_io_id }
        let s10 := { s9 with dependency_code_to_LBA :=
                       s9.dependency_code_to_LBA.set dependency_code lba9 }
        let s11 := { s10 with dependency_code_to_type :=
                       s10.dependency_code_to_type.set dependency_code (s10.heap dependent).type }
        init_event C fuel dependent s11
      | [] =>
        let s4 := { s3 with dependencies := s3.dependencies.erase dependency_code }
        let s5 := { s4 with dependency_code_to_LBA :=
                      s4.dependency_code_to_LBA.touch dependency_code }
        let lba := s5.dependency_code_to_LBA.get dependency_code
        if (s5.heap event).type ≠ event_type.ERASE ∧ ¬ (s5.heap event).flexible_read = true then
          if s5.LBA_currently_executing.count lba = 1 then
            manage_operation_completion C fuel event
              { s5 with LBA_currently_executing := s5.LBA_currently_executing.erase lba }
          else fail Fault.assertion s5
        else manage_operation_completion C fuel event s5
    else
      pure (f := Run W)
        { s2 with dependencies := s2.dependencies.erase (s2.heap event).application_io_id }
  pure (result, s3.call C (Call.register_event_completion (s3.heap event)))

/-- Lines 441-450. -/
def transform_copyback (event : Nat) (s : IOScheduler W) : IOScheduler W :=
  let s1 := s.modify event (fun e => { e with type := event_type.READ_TRANSFER })
  let s2 := s1.modify event (fun e => { e with address := e.replace_address })
  let e := s2.heap event
  let r := s2.alloc
    { Event.create event_type.WRITE e.logical_address e.current_time with
      garbage_collection_op := true, replace_address := e.replace_address,
      application_io_id := e.application_io_id }
  let s3 := { r.2 with dependencies := r.2.dependencies.touch e.application_io_id }
  let q := s3.dependencies.get e.application_io_id ++ [r.1]
  let s4 := { s3 with dependencies := s3.dependencies.set e.application_io_id q }
  { s4 with dependency_code_to_type :=
      s4.dependency_code_to_type.set e.application_io_id event_type.WRITE }

/-- Lines 375-387. -/
def handle_event (C : Collaborators W) (fuel : Nat) (event : Nat) (s : IOScheduler W) :
    Run W (IOScheduler W) :=
  let e := s.heap event
  let time := C.in_how_long_can_this_event_be_scheduled s.world e.address e.current_time
  let s1 := s.call C (Call.in_how_long_can_this_event_be_scheduled e.address e.current_time)
  let can_schedule := C.can_schedule_on_die s1.world e.address e.type e.application_io_id
  let s2 := s1.call C (Call.can_schedule_on_die e.address e.type e.application_io_id)
  if can_schedule = true ∧ time = 0 then do
    let r ← execute_next C fuel event s2
    pure r.2
  else
    let bus_wait_time := if can_schedule = true then time else WAIT_TIME
    pure ((s2.modify event (fun e => e.incr_bus_wait_time bus_wait_time)).push_into_current_events
            event)

/-- The wait computed at lines 392-395 and 422-425, with the state after the calls made. -/
def wait_time_at (C : Collaborators W) (addr : Address) (event : Nat) (s : IOScheduler W) :
    ℚ × IOScheduler W :=
  let e := s.heap event
  let wait_time := C.in_how_long_can_this_event_be_scheduled s.world addr e.current_time
  let s1 := s.call C (Call.in_how_long_can_this_event_be_scheduled addr e.current_time)
  if wait_time = 0 then
    let can := C.can_schedule_on_die s1.world addr e.type e.application_io_id
    let s2 := s1.call C (Call.can_schedule_on_die addr e.type e.application_io_id)
    (if can = true then wait_time else WAIT_TIME, s2)
  else (wait_time, s1)

/-- Lines 389-417. -/
def handle_flexible_read (C : Collaborators W) (fuel : Nat) (event : Nat) (s : IOScheduler W) :
    Run W (IOScheduler W) :=
  let addr := C.choose_flexible_read_address s.world (s.heap event)
  let s1 := s.call C (Call.choose_flexible_read_address (s.heap event))
  let w := wait_time_at C addr event s1
  let wait_time := w.1
  let s2 := w.2
  let logical_address := C.candidates_lba s2.world (s2.heap event) addr.package addr.die
  let logical_address_locked := s2.LBA_currently_executing.count logical_address = 1
  let s3 :=
    if logical_address_locked then
      s2.call C (Call.find_alternative_immediate_candidate (s2.heap event) addr.package addr.die)
    else s2
  if wait_time = 0 ∧ ¬ logical_address_locked then
    let s4 := s3.modify event (fun e => { e with address := addr })
    let s5 := s4.call C (Call.register_read_commencement (s4.heap event))
    let code := (s5.heap event).application_io_id
    let s6 := { s5 with dependencies := s5.dependencies.touch code }
    match s6.dependencies.get code with
    | [] => fail Fault.empty_container s6
    | front :: _ =>
      let s7 := s6.modify front
        (fun e => { e with logical_address := (s6.heap event).logical_address })
      if addr.page < C.BLOCK_SIZE then do
        let r ← execute_next C fuel event s7
        pure r.2
      else fail Fault.assertion s7
  else
    pure ((s3.modify event (fun e => e.incr_bus_wait_time wait_time)).push_into_current_events
            event)

/-- Lines 419-439. -/
def handle_write (C : Collaborators W) (fuel : Nat) (event : Nat) (s : IOScheduler W) :
    Run W (IOScheduler W) :=
  let addr := C.choose_write_address s.world (s.heap event)
  let s1 := s.call C (Call.choose_write_address (s.heap event))
  let w := wait_time_at C addr event s1
  let wait_time := w.1
  let s2 := w.2
  if wait_time = 0 then
    let s3 := s2.modify event (fun e => { e with address := addr })
    let s4 := (s3.modify event
                (fun e => { e with replace_address := C.set_replace_address s3.world e })).call C
                (Call.set_replace_address (s3.heap event))
    if addr.page < C.BLOCK_SIZE then do
      let r ← execute_next C fuel event s4
      pure r.2
    else fail Fault.assertion s4
  else
    let s3 := s2.modify event (fun e => e.incr_bus_wait_time wait_time)
    let s4 := if (s3.heap event).type = event_type.COPY_BACK ∧ addr.valid = address_valid.NONE
              then s3.transform_copyback event else s3
    pure (s4.push_into_current_events event)

/-- Lines 351-373; `events` is the vector, consumed from the back. -/
def handle (C : Collaborators W) (fuel : Nat) (events : List Nat) (s : IOScheduler W) :
    Run W (IOScheduler W) :=
  events.reverse.foldlM
    (fun acc event =>
      let type := (acc.heap event).type
      if type = event_type.WRITE ∨ type = event_type.COPY_BACK then handle_write C fuel event acc
      else if type = event_type.READ_COMMAND ∧ (acc.heap event).flexible_read = true then
        handle_flexible_read C fuel event acc
      else handle_event C fuel event acc)
    s

/-- Lines 494-512; `events` is the vector, consumed from the back. -/
def handle_noop_events (C : Collaborators W) (fuel : Nat) (events : List Nat)
    (s : IOScheduler W) : Run W (IOScheduler W) :=
  events.reverse.foldlM
    (fun acc event => do
      let dependency_code := (acc.heap event).application_io_id
      let s1 := { acc with dependencies := acc.dependencies.touch dependency_code }
      let s2 := (s1.dependencies.get dependency_code).foldl
        (fun st e => st.call C (Call.register_event_completion (st.heap e))) s1
      let s3 := { s2 with dependencies := s2.dependencies.erase dependency_code }
      let s4 := { s3 with dependency_code_to_LBA :=
                    s3.dependency_code_to_LBA.erase dependency_code }
      let s5 := { s4 with dependency_code_to_type :=
                    s4.dependency_code_to_type.erase dependency_code }
      let s6 ← manage_operation_completion C fuel event s5
      pure (s6.call C (Call.register_event_completion (s6.heap event))))
    s


/-- Lines 284-292, on a vector with first element `e` and remaining elements `es`. -/
def get_soonest_event_time (s : IOScheduler W) (e : Nat) (es : List Nat) : ℚ :=
  es.foldl
    (fun earliest_time p =>
      if (s.heap p).current_time < earliest_time then (s.heap p).current_time else earliest_time)
    (s.heap e).current_time

/-- Lines 294-301. -/
def get_current_time (s : IOScheduler W) : ℚ :=
  match s.current_events with
  | (k, _) :: _ => (k : ℚ)
  | [] =>
    match s.future_events with
    | [] => 0
    | e :: es => (⌊s.get_soonest_event_time e es⌋ : ℚ)

/-- Lines 308-316. -/
def get_current_events_size (s : IOScheduler W) : Nat :=
  s.current_events.foldl (fun size b => size + b.2.length) 0

/-- Lines 130-133. -/
def is_empty (s : IOScheduler W) : Bool :=
  decide (s.current_events.length > 0) || decide (s.future_events.length > 0)

/-- Lines 135-140. -/
def collect_soonest_events (s : IOScheduler W) : Run W (List Nat × IOScheduler W) :=
  match s.current_events with
  | [] => fail Fault.empty_container s
  | (_, soonest_events) :: rest => pure (soonest_events, { s with current_events := rest })

/-- The local vectors of `execute_current_waiting_ios` (lines 154-163). -/
structure Classes where
  read_commands : List Nat
  read_commands_copybacks : List Nat
  read_commands_flexible : List Nat
  read_transfers : List Nat
  gc_writes : List Nat
  writes : List Nat
  erases : List Nat
  copy_backs : List Nat
  noop_events : List Nat
  deriving DecidableEq

/-- The vectors as declared, all empty. -/
def Classes.empty : Classes :=
  { read_commands := [], read_commands_copybacks := [], read_commands_flexible := [],
    read_transfers := [], gc_writes := [], writes := [], erases := [], copy_backs := [],
    noop_events := [] }

/-- Lines 165-203; the list holds the events in the order they are taken, from the back of the
bucket to its front. -/
def classify (C : Collaborators W) (fuel : Nat) :
    List Nat → Classes → IOScheduler W → Run W (Classes × IOScheduler W)
  | [], cl, s => pure (cl, s)
  | event :: rest, cl, s =>
    let type := (s.heap event).type
    let is_GC := (s.heap event).garbage_collection_op
    if (s.heap event).noop = true then
      classify C fuel rest { cl with noop_events := cl.noop_events ++ [event] } s
    else if type = event_type.READ_COMMAND then
      let code := (s.heap event).application_io_id
      let s1 := { s with dependency_code_to_type := s.dependency_code_to_type.touch code }
      if s1.dependency_code_to_type.get code = event_type.COPY_BACK then
        classify C fuel rest
          { cl with read_commands_copybacks := cl.read_commands_copybacks ++ [event] } s1
      else if (s1.heap event).flexible_read = true then
        classify C fuel rest
          { cl with read_commands_flexible := cl.read_commands_flexible ++ [event] } s1
      else
        classify C fuel rest { cl with read_commands := cl.read_commands ++ [event] } s1
    else if type = event_type.READ_TRANSFER then
      classify C fuel rest { cl with read_transfers := cl.read_transfers ++ [event] } s
    else if type = event_type.WRITE then
      if is_GC = true then
        classify C fuel rest { cl with gc_writes := cl.gc_writes ++ [event] } s
      else
        classify C fuel rest { cl with writes := cl.writes ++ [event] } s
    else if type = event_type.ERASE then
      classify C fuel rest { cl with erases := cl.erases ++ [event] } s
    else if type = event_type.COPY_BACK then
      classify C fuel rest { cl with copy_backs := cl.copy_backs ++ [event] } s
    else if type = event_type.TRIM then do
      let r ← execute_next C fuel event s
      classify C fuel rest cl r.2
    else classify C fuel rest cl s

/-- The call `sort(v.begin(), v.end(), current_wait_time_comparator)` (lines 146-148); the order
of events with equal keys, which `std::sort` leaves open, is that of an insertion sort. -/
def sort_by_current_wait_time (s : IOScheduler W) (v : List Nat) : List Nat :=
  v.insertionSort (fun i j => (s.heap i).bus_wait_time ≤ (s.heap j).bus_wait_time)

/-- The call `sort(v.begin(), v.end(), overall_wait_time_comparator)` (lines 142-144). -/
def sort_by_overall_wait_time (s : IOScheduler W) (v : List Nat) : List Nat :=
  v.insertionSort
    (fun i j => (s.heap i).get_overall_wait_time ≤ (s.heap j).get_overall_wait_time)

/-- Lines 207-279: the vectors handed to `handle`, in the order of the calls. -/
def dispatch_order (C : Collaborators W) (s : IOScheduler W) (cl : Classes) : List (List Nat) :=
  if C.SCHEDULING_SCHEME = 0 then
    let read_commands := cl.read_commands ++ cl.read_commands_flexible
    [s.sort_by_current_wait_time read_commands, s.sort_by_overall_wait_time cl.read_transfers,
     s.sort_by_current_wait_time cl.writes, s.sort_by_overall_wait_time cl.gc_writes,
     s.sort_by_current_wait_time cl.erases]
  else if C.SCHEDULING_SCHEME = 1 then
    let read_commands := cl.read_commands ++ cl.read_commands_flexible
    [cl.erases, cl.gc_writes, read_commands, cl.writes, cl.read_transfers]
  else if C.SCHEDULING_SCHEME = 2 then
    let read_commands := cl.read_commands ++ cl.read_commands_flexible
    let writes := cl.writes ++ cl.gc_writes
    let read_transfers := cl.read_transfers ++ cl.copy_backs
    [s.sort_by_current_wait_time cl.erases, s.sort_by_overall_wait_time read_commands,
     s.sort_by_overall_wait_time cl.read_commands_copybacks, s.sort_by_current_wait_time writes,
     s.sort_by_overall_wait_time read_transfers]
  else if C.SCHEDULING_SCHEME = 3 then
    let writes := (cl.writes ++ cl.gc_writes) ++ cl.read_commands_flexible
    let read_transfers := cl.read_transfers ++ cl.copy_backs
    [s.sort_by_current_wait_time cl.erases, s.sort_by_overall_wait_time cl.read_commands,
     s.sort_by_overall_wait_time cl.read_commands_copybacks, s.sort_by_current_wait_time writes,
     s.sort_by_overall_wait_time read_transfers]
  else []

/-- Lines 150-282. -/
def execute_current_waiting_ios (C : Collaborators W) (fuel : Nat) (s : IOScheduler W) :
    Run W (IOScheduler W) := do
  let r ← s.collect_soonest_events
  let c ← classify C fuel r.1.reverse Classes.empty r.2
  let s1 ← (dispatch_order C c.2 c.1).foldlM (fun acc v => handle C fuel v acc) c.2
  handle_noop_events C fuel c.1.noop_events s1

/-- Lines 326-332: `c` is the clock read before the loop, `kept` the events already passed over,
the list the events still to visit. -/
def sweep_future_events (C : Collaborators W) (fuel : Nat) (c : ℚ) :
    List Nat → List Nat → IOScheduler W → Run W (IOScheduler W)
  | _, [], s => pure s
  | kept, e :: rest, s =>
    if (s.heap e).current_time < c + 1 then do
      let s1 ← init_event C fuel e s
      sweep_future_events C fuel c kept rest { s1 with future_events := kept ++ rest }
    else sweep_future_events C fuel c (kept ++ [e]) rest s

/-- Lines 318-333. -/
def update_current_events (C : Collaborators W) (fuel : Nat) (s : IOScheduler W) :
    Run W (IOScheduler W) :=
  let s1 := s.call C (Call.register_events_queue_length s.get_current_events_size
              s.get_current_time)
  let current_time := s1.get_current_time
  let s2 := { s1 with future_events := C.shuffle s1.world s1.future_events }
  let s3 := s2.call C Call.random_shuffle
  sweep_future_events C fuel current_time [] s3.future_events s3

/-- Lines 119-122, the loop of `finish_all_events_until_this_time`; the first argument is fuel. -/
def finish_loop (C : Collaborators W) : Nat → ℚ → IOScheduler W → Run W (IOScheduler W)
  | 0, _, s => fail Fault.out_of_fuel s
  | fuel + 1, time, s =>
    if s.get_current_time < time ∧ s.current_events.length > 0 then do
      let s1 ← execute_current_waiting_ios C fuel s
      let s2 ← update_current_events C fuel s1
      finish_loop C fuel time s2
    else pure s

/-- Lines 117-123. -/
def finish_all_events_until_this_time (C : Collaborators W) (fuel : Nat) (time : ℚ)
    (s : IOScheduler W) : Run W (IOScheduler W) := do
  let s1 ← update_current_events C fuel s
  finish_loop C fuel time s1

/-- Lines 126-128. -/
def execute_soonest_events (C : Collaborators W) (fuel : Nat) (s : IOScheduler W) :
    Run W (IOScheduler W) :=
  finish_all_events_until_this_time C fuel (s.get_current_time + 1) s

/-- Lines 84-108; `events` holds the pointers of the queue passed by the caller. -/
def schedule_events_queue (events : List Nat) (s : IOScheduler W) : Run W (IOScheduler W) :=
  match events.getLast? with
  | none => fail Fault.empty_container s
  | some back =>
    let logical_address := (s.heap back).logical_address
    let type := (s.heap back).type
    let operation_code := (s.heap back).application_io_id
    let s1 := if type ≠ event_type.GARBAGE_COLLECTION ∧ type ≠ event_type.ERASE then
                { s with dependency_code_to_LBA :=
                    s.dependency_code_to_LBA.set operation_code logical_address }
              else s
    let s2 := { s1 with dependency_code_to_type :=
                  s1.dependency_code_to_type.set operation_code type }
    if s2.dependencies.count operation_code = 0 then
      match events with
      | [] => fail Fault.empty_container s2
      | first :: tail =>
        let s3 := { s2 with dependencies := s2.dependencies.set operation_code tail }
        let s4 :=
          if (s3.heap back).original_application_io = true ∧ (s3.heap first).mapping_op = true
              ∧ (s3.heap first).type = event_type.READ then
            let id := (s3.heap first).id
            let s5 := s3.modify first (fun e => { e with application_io_id := id })
            let s6 := { s5 with dependency_code_to_type :=
                          s5.dependency_code_to_type.set id event_type.READ }
            let s7 := { s6 with dependency_code_to_LBA :=
                          s6.dependency_code_to_LBA.set id (s6.heap first).logical_address }
            { s7 with op_code_to_dependent_op_codes :=
                s7.op_code_to_dependent_op_codes.set id [operation_code] }
          else s3
        pure { s4 with future_events := s4.future_events ++ [first] }
    else fail Fault.assertion s2

/-- Lines 110-115. -/
def schedule_event (event : Nat) (s : IOScheduler W) : Run W (IOScheduler W) :=
  schedule_events_queue [event] s


/-- A caller creates the events of one operation and passes the queue to
`schedule_events_queue`. -/
def submit_queue (events : List Event) (s : IOScheduler W) : Run W (IOScheduler W) :=
  schedule_events_queue (s.alloc_list events).1 (s.alloc_list events).2

/-- A caller creates one event and passes it to `schedule_event`. -/
def submit (e : Event) (s : IOScheduler W) : Run W (IOScheduler W) :=
  schedule_event (s.alloc e).1 (s.alloc e).2

/-- The states reached from the scheduler as constructed through its public operations. -/
inductive Reachable (C : Collaborators W) : IOScheduler W → Prop
  | init (w : W) : Reachable C (IOScheduler.init w)
  | schedule_events_queue {s s' : IOScheduler W} (events : List Event) :
      Reachable C s → submit_queue events s = Except.ok s' → Reachable C s'
  | execute_soonest_events {s s' : IOScheduler W} (fuel : Nat) :
      Reachable C s → execute_soonest_events C fuel s = Except.ok s' → Reachable C s'
  | finish_all_events_until_this_time {s s' : IOScheduler W} (fuel : Nat) (time : ℚ) :
      Reachable C s → finish_all_events_until_this_time C fuel time s = Except.ok s' →
      Reachable C s'

end IOScheduler

/-- The result of a run, when it ends without a fault. -/
def Run.final {W α : Type} (r : Run W α) : Option α :=
  match r with
  | Except.ok a => some a
  | Except.error _ => none

/-- The state a run ends in, with or without a fault. -/
def Run.state {W : Type} (r : Run W (IOScheduler W)) : IOScheduler W :=
  match r with
  | Except.ok s => s
  | Except.error (_, s) => s

/-- The event handed to the device, for an `issue` call. -/
def Call.issued : Call → Option Event
  | Call.issue e => some e
  | _ => none

/-! ## Properties kept by every elementary step -/

/-- The property `P` holds of the state in which the run ends, with a value or with a fault. -/
@[irreducible] def Run.All {W α : Type} (P : IOScheduler W → Prop) (π : α → IOScheduler W) (r : Run W α) :
    Prop :=
  match r with
  | Except.ok a => P (π a)
  | Except.error (_, t) => P t

namespace IOScheduler
variable {W : Type}

/-- A property of the scheduler state kept by every elementary step of admission and completion:
a call on a collaborator other than `issue`, a write to the heap, and an assignment to any data
member but `future_events`, `current_events` changing by insertion only. -/
structure Stable (C : Collaborators W) (P : IOScheduler W → Prop) : Prop where
  call : ∀ c s, Call.issued c = none → P s → P (s.call C c)
  heap : ∀ (s : IOScheduler W) (h : Nat → Event) (n : Nat), P s →
    P { s with heap := h, next_free := n }
  dependencies : ∀ (s : IOScheduler W) v, P s → P { s with dependencies := v }
  LBA_currently_executing : ∀ (s : IOScheduler W) v, P s →
    P { s with LBA_currently_executing := v }
  dependency_code_to_LBA : ∀ (s : IOScheduler W) v, P s →
    P { s with dependency_code_to_LBA := v }
  dependency_code_to_type : ∀ (s : IOScheduler W) v, P s →
    P { s with dependency_code_to_type := v }
  op_code_to_dependent_op_codes : ∀ (s : IOScheduler W) v, P s →
    P { s with op_code_to_dependent_op_codes := v }
  num_write_cancellations : ∀ (s : IOScheduler W) v, P s →
    P { s with num_write_cancellations := v }
  push : ∀ (s : IOScheduler W) (k : Int) (p : Nat), P s →
    P { s with current_events := bucket_insert k p s.current_events }

/-- A stable property kept by the steps of a tick as well: the call of `issue`, the removal of
the first bucket of `current_events` and an assignment to `future_events`. -/
structure StableTick (C : Collaborators W) (P : IOScheduler W → Prop) extends Stable C P : Prop where
  issue : ∀ e s, P s → P (s.call C (Call.issue e))
  future_events : ∀ (s : IOScheduler W) v, P s → P { s with future_events := v }
  pop : ∀ (s : IOScheduler W) b rest, s.current_events = b :: rest → P s →
    P { s with current_events := rest }

end IOScheduler

/-- The classes into which `execute_current_waiting_ios` partitions a bucket (the local vectors
of lines 154-163). -/
inductive dispatch_class
  | noop_event | read_command | read_command_copyback | read_command_flexible | read_transfer
  | gc_write | write | erase | copy_back
  deriving DecidableEq, Repr

namespace IOScheduler

/-- Modelled on the specification's partition rule (Dispatch Loop, step 3): the class of the
event at pointer `p` in state `s`; `none` for a TRIM, which is executed during the partition, and
for the types READ and GARBAGE_COLLECTION, which the partition drops. -/
def class_of {W : Type} (s : IOScheduler W) (p : Nat) : Option dispatch_class :=
  if (s.heap p).noop = true then some dispatch_class.noop_event
  else
    match (s.heap p).type with
    | event_type.READ_COMMAND =>
      if s.dependency_code_to_type.get (s.heap p).application_io_id = event_type.COPY_BACK then
        some dispatch_class.read_command_copyback
      else if (s.heap p).flexible_read = true then some dispatch_class.read_command_flexible
      else some dispatch_class.read_command
    | event_type.READ_TRANSFER => some dispatch_class.read_transfer
    | event_type.WRITE =>
      if (s.heap p).garbage_collection_op = true then some dispatch_class.gc_write
      else some dispatch_class.write
    | event_type.ERASE => some dispatch_class.erase
    | event_type.COPY_BACK => some dispatch_class.copy_back
    | _ => none

/-- The events of `l` that are of class `k` in state `s`, in the order of `l`. -/
def of_class {W : Type} (s : IOScheduler W) (k : dispatch_class) (l : List Nat) : List Nat :=
  l.filter (fun p => decide (s.class_of p = some k))

end IOScheduler

namespace IOScheduler
variable {W : Type}

/-- A property of the scheduler state kept by every elementary step of admission: a call on a
collaborator, a write to an event that keeps its current time, the allocation of an event, an
assignment to a table or to the counter, and an insertion into `current_events`. -/
structure Quiet (C : Collaborators W) (P : IOScheduler W → Prop) : Prop where
  call : ∀ c s, P s → P (s.call C c)
  modify : ∀ (s : IOScheduler W) (p : Nat) (f : Event → Event),
    (∀ x, (f x).current_time = x.current_time) → P s → P (s.modify p f)
  alloc : ∀ (s : IOScheduler W) (e : Event), P s → P (s.alloc e).2
  dependencies : ∀ (s : IOScheduler W) v, P s → P { s with dependencies := v }
  LBA_currently_executing : ∀ (s : IOScheduler W) v, P s →
    P { s with LBA_currently_executing := v }
  dependency_code_to_LBA : ∀ (s : IOScheduler W) v, P s →
    P { s with dependency_code_to_LBA := v }
  dependency_code_to_type : ∀ (s : IOScheduler W) v, P s →
    P { s with dependency_code_to_type := v }
  op_code_to_dependent_op_codes : ∀ (s : IOScheduler W) v, P s →
    P { s with op_code_to_dependent_op_codes := v }
  num_write_cancellations : ∀ (s : IOScheduler W) v, P s →
    P { s with num_write_cancellations := v }
  push : ∀ (s : IOScheduler W) (k : Int) (p : Nat), P s →
    P { s with current_events := bucket_insert k p s.current_events }

/-- Modelled on the spec: the events of the list are passed to admission (`init_event`) one
after the other, each one once, and between two admissions nothing changes but
`future_events`. -/
inductive Admitted (C : Collaborators W) (fuel : Nat) :
    List Nat → IOScheduler W → IOScheduler W → Prop
  | nil (s : IOScheduler W) : Admitted C fuel [] s s
  | cons (e : Nat) (es : List Nat) (s s1 s' : IOScheduler W) (v : List Nat) :
      init_event C fuel e s = Except.ok s1 →
      Admitted C fuel es { s1 with future_events := v } s' → Admitted C fuel (e :: es) s s'

end IOScheduler

/-- The fault a run stops with, when it stops with one. -/
def Run.fault {W α : Type} (r : Run W α) : Option Fault :=
  match r with
  | Except.ok _ => none
  | Except.error (f, _) => some f

/-- The event registered as completed, for a `register_event_completion` call. -/
def Call.completed : Call → Option Event
  | Call.register_event_completion e => some e
  | _ => none

namespace IOScheduler
variable {W : Type}

/-- Op `N` has left the bookkeeping: it has no entry in `dependencies`, `dependency_code_to_LBA`
and `dependency_code_to_type`, it owns no logical address, no pending event and no event of
`keep` carries its op id, its dependents are `Q`, and the events registered as completed so far
are `L`. -/
structure Cleared (N : Nat) (keep : Nat → Prop) (Q : Option (List Nat)) (L : List Event)
    (t : IOScheduler W) : Prop where
  pending : t.dependencies N = none
  lba : t.dependency_code_to_LBA N = none
  type : t.dependency_code_to_type N = none
  owner : ∀ l, t.LBA_currently_executing l ≠ some N
  queued : ∀ k p, p ∈ t.dependencies.get k → (t.heap p).application_io_id ≠ N
  kept : ∀ p, keep p → (t.heap p).application_io_id ≠ N
  dependents : t.op_code_to_dependent_op_codes N = Q
  completed : t.log.filterMap Call.completed = L

/-- Modelled on the spec: dependent admission at the completion of `event` of op `code`.  The
ops of the list are served in the order of the list: the head of the pending events of the op is
taken off its queue, credited with the time waited since its own current time, and passed to
admission (`init_event`), the dependents still to be served being the rest of the list. -/
inductive DependentsAdmitted (C : Collaborators W) (event code : Nat) :
    List Nat → IOScheduler W → IOScheduler W → Prop
  | nil (s : IOScheduler W) : DependentsAdmitted C event code [] s s
  | cons (D : Nat) (Ds : List Nat) (head : Nat) (tail : List Nat) (k : Nat)
      (s s1 s' : IOScheduler W) :
      s.dependencies.get D = head :: tail →
      init_event C k head
          { (({ s with op_code_to_dependent_op_codes :=
                  s.op_code_to_dependent_op_codes.set code Ds } : IOScheduler W).modify head
              (fun x => x.incr_bus_wait_time
                ((s.heap event).current_time - (s.heap head).current_time))) with
            dependencies := s.dependencies.set D tail } = Except.ok s1 →
      DependentsAdmitted C event code Ds s1 s' →
      DependentsAdmitted C event code (D :: Ds) s s'

end IOScheduler

/-- The part of a scheduler state on which the lock discipline depends: for every pointer the
op id, the logical address, the noop flag of the event and whether the event is one that
admission guards (not flexible, neither ERASE nor GARBAGE_COLLECTION); the pending events and
the dependents of every op; the lock table and the address recorded for every op. -/
structure Skeleton where
  next_free : Nat
  op : Nat → Nat
  lba : Nat → Nat
  noop : Nat → Bool
  ok : Nat → Bool
  pending : Nat → List Nat
  dependents : Nat → List Nat
  owner : Nat → Option Nat
  lba_of : Nat → Option Nat

namespace Skeleton

/-- The invariant of the lock discipline.  `Act` holds the events in `current_events` and the
events of the bucket being processed whose class is not known yet or is noop, `Fx` the events of
the bucket that were found not to be noop and wait for their handler, `Fut` the events in
`future_events`. -/
structure Inv (k : Skeleton) (Act Fx Fut : List Nat) : Prop where
  bound : ∀ p ∈ Act ++ (Fx ++ Fut), p < k.next_free
  bound_pending : ∀ N, ∀ q ∈ k.pending N, q < k.next_free
  ok_all : ∀ p, p < k.next_free → k.ok p = true
  same_lba : ∀ p q, p < k.next_free → q < k.next_free → k.op p = k.op q → k.lba p = k.lba q
  pending_op : ∀ N, ∀ q ∈ k.pending N, k.op q = N
  nodup : ((Act ++ (Fx ++ Fut)).map k.op).Nodup
  held_fresh : ∀ O, ∀ D ∈ k.dependents O, ∀ p ∈ Act ++ (Fx ++ Fut), k.op p ≠ D
  held_used : ∀ O, ∀ D ∈ k.dependents O, ∃ p, p < k.next_free ∧ k.op p = D
  held_once : ∀ O, ∀ D ∈ k.dependents O,
    (k.dependents O).count D = 1 ∧ ∀ O', O' ≠ O → D ∉ k.dependents O'
  excl : ∀ p ∈ Act ++ Fx, k.noop p = false → k.owner (k.lba p) = some (k.op p)
  known_live : ∀ q ∈ Act ++ (Fx ++ Fut), k.lba_of (k.op q) = some (k.lba q)
  known_held : ∀ O, ∀ D ∈ k.dependents O, ∀ q ∈ k.pending D, k.lba_of D = some (k.lba q)
  nn : ∀ p ∈ Fx, k.noop p = false

/-- The event `e` may be passed to admission when the events of `L` are live. -/
structure Adm (k : Skeleton) (L : List Nat) (e : Nat) : Prop where
  bound : e < k.next_free
  fresh : ∀ p ∈ L, k.op p ≠ k.op e
  not_held : ∀ O, k.op e ∉ k.dependents O
  known : k.lba_of (k.op e) = some (k.lba e)

end Skeleton

namespace IOScheduler
variable {W : Type}

/-- The skeleton of a scheduler state. -/
def skeleton (s : IOScheduler W) : Skeleton :=
  { next_free := s.next_free
    op := fun p => (s.heap p).application_io_id
    lba := fun p => (s.heap p).logical_address
    noop := fun p => (s.heap p).noop
    ok := fun p => !(s.heap p).flexible_read
      && decide ((s.heap p).type ≠ event_type.ERASE)
      && decide ((s.heap p).type ≠ event_type.GARBAGE_COLLECTION)
    pending := fun N => s.dependencies.get N
    dependents := fun O => s.op_code_to_dependent_op_codes.get O
    owner := s.LBA_currently_executing
    lba_of := s.dependency_code_to_LBA }

/-- The lock discipline holds of the state `s` during a tick: `Fn` holds the events of the bucket
taken out of `current_events` that are not classified yet or are noop, `Fx` those classified for
a handler, `Fut` the events waiting for admission. -/
def Safe (s : IOScheduler W) (Fn Fx Fut : List Nat) : Prop :=
  Skeleton.Inv s.skeleton (s.current_pointers ++ Fn) Fx Fut

/-- The event `e` may be passed to `init_event` in the state `s`. -/
def Admissible (s : IOScheduler W) (Fn Fx Fut : List Nat) (e : Nat) : Prop :=
  Skeleton.Adm s.skeleton ((s.current_pointers ++ Fn) ++ (Fx ++ Fut)) e

/-- The state `t` differs from `s` in nothing the lock discipline depends on. -/
structure Same (s t : IOScheduler W) : Prop where
  next_free : t.next_free = s.next_free
  current : t.current_events = s.current_events
  op : ∀ p, (t.heap p).application_io_id = (s.heap p).application_io_id
  lba : ∀ p, (t.heap p).logical_address = (s.heap p).logical_address
  noop : ∀ p, (t.heap p).noop = (s.heap p).noop
  flexible_read : ∀ p, (t.heap p).flexible_read = (s.heap p).flexible_read
  type : ∀ p, (t.heap p).type = (s.heap p).type
  pending : ∀ N, t.dependencies.get N = s.dependencies.get N
  dependents : t.op_code_to_dependent_op_codes = s.op_code_to_dependent_op_codes
  owner : t.LBA_currently_executing = s.LBA_currently_executing
  lba_of : t.dependency_code_to_LBA = s.dependency_code_to_LBA

/-- The state `t` has the events of `s`, with their op ids, addresses, types and flexible
flags. -/
structure Kept (s t : IOScheduler W) : Prop where
  next_free : t.next_free = s.next_free
  op : ∀ p, (t.heap p).application_io_id = (s.heap p).application_io_id
  lba : ∀ p, (t.heap p).logical_address = (s.heap p).logical_address
  type : ∀ p, (t.heap p).type = (s.heap p).type
  flexible_read : ∀ p, (t.heap p).flexible_read = (s.heap p).flexible_read

/-- What `remove_redundant_events` establishes for the new event `e`: the lock discipline holds
of the state `t` it returns, and if the lock of the address of `e` is held by the op of `e` the
event may still be inserted. -/
structure Resolved (s t : IOScheduler W) (Fn Fx Fut : List Nat) (e : Nat) : Prop where
  safe : Safe t Fn Fx Fut
  admissible : t.LBA_currently_executing (s.heap e).logical_address
      = some (s.heap e).application_io_id → Admissible t Fn Fx Fut e
  kept : Kept s t

end IOScheduler

namespace IOScheduler
variable {W : Type}

/-- Lines 539-573, the branch of `execute_next` taken when `issue` succeeds. -/
def execute_next_rest (C : Collaborators W) (fuel : Nat) (event : Nat) (s2 : IOScheduler W) :
    Run W (IOScheduler W) :=
  let dependency_code := (s2.heap event).application_io_id
  let s3 := { s2 with dependencies := s2.dependencies.touch dependency_code }
  match s3.dependencies.get dependency_code with
  | dependent :: tail =>
    let s4 := { s3 with LBA_currently_executing :=
                  s3.LBA_currently_executing.erase (s3.heap event).logical_address }
    let s5 := s4.modify dependent (fun e => { e with application_io_id := dependency_code })
    let diff := (s5.heap event).current_time - (s5.heap dependent).current_time
    let s6 := s5.modify dependent (fun e => e.incr_accumulated_wait_time diff)
    let s7 := s6.modify dependent (fun e => { e with noop := (s6.heap event).noop })
    let s8 := { s7 with dependencies := s7.dependencies.set dependency_code tail }
    let lba9 := (s8.heap dependent).logical_address
    let s9 := { s8 with LBA_currently_executing :=
                  s8.LBA_currently_executing.set lba9 (s8.heap dependent).application_io_id }
    let s10 := { s9 with dependency_code_to_LBA :=
                   s9.dependency_code_to_LBA.set dependency_code lba9 }
    let s11 := { s10 with dependency_code_to_type :=
                   s10.dependency_code_to_type.set dependency_code (s10.heap dependent).type }
    init_event C fuel dependent s11
  | [] =>
    let s4 := { s3 with dependencies := s3.dependencies.erase dependency_code }
    let s5 := { s4 with dependency_code_to_LBA :=
                  s4.dependency_code_to_LBA.touch dependency_code }
    let lba := s5.dependency_code_to_LBA.get dependency_code
    if (s5.heap event).type ≠ event_type.ERASE ∧ ¬ (s5.heap event).flexible_read = true then
      if s5.LBA_currently_executing.count lba = 1 then
        manage_operation_completion C fuel event
          { s5 with LBA_currently_executing := s5.LBA_currently_executing.erase lba }
      else fail Fault.assertion s5
    else manage_operation_completion C fuel event s5

/-- The events classified for a handler. -/
def Classes.handled (cl : Classes) : List Nat :=
  cl.read_commands ++ (cl.read_commands_copybacks ++ (cl.read_commands_flexible ++
    (cl.read_transfers ++ (cl.gc_writes ++ (cl.writes ++ (cl.erases ++ cl.copy_backs))))))

/-- A stable property kept by the steps of `execute_current_waiting_ios` as well: the call of
`issue` and the removal of the first bucket of `current_events`. -/
structure Steady (C : Collaborators W) (P : IOScheduler W → Prop) extends Stable C P : Prop where
  issue : ∀ e s, P s → P (s.call C (Call.issue e))
  pop : ∀ (s : IOScheduler W) b rest, s.current_events = b :: rest → P s →
    P { s with current_events := rest }

/-- Modelled on the spec: the events of a queue passed by a caller are the events of one
operation `O` that no event created before belongs to, for one logical address `L`; none is a
flexible read, an ERASE, a GARBAGE_COLLECTION request or a mapping operation. -/
def WellFormed (s : IOScheduler W) (events : List Event) (O L : Nat) : Prop :=
  (∀ ev ∈ events, ev.application_io_id = O ∧ ev.logical_address = L
      ∧ ev.flexible_read = false ∧ ev.type ≠ event_type.ERASE
      ∧ ev.type ≠ event_type.GARBAGE_COLLECTION ∧ ev.mapping_op = false)
    ∧ ∀ p, p < s.next_free → (s.heap p).application_io_id ≠ O

/-- Modelled on the spec: the states reached from the scheduler as constructed through its
public operations when every queue passed by a caller is well formed. -/
inductive ReachableWellFormed (C : Collaborators W) : IOScheduler W → Prop
  | init (w : W) : ReachableWellFormed C (IOScheduler.init w)
  | schedule_events_queue {s s' : IOScheduler W} (events : List Event) (O L : Nat) :
      ReachableWellFormed C s → WellFormed s events O L →
      submit_queue events s = Except.ok s' → ReachableWellFormed C s'
  | execute_soonest_events {s s' : IOScheduler W} (fuel : Nat) :
      ReachableWellFormed C s → execute_soonest_events C fuel s = Except.ok s' →
      ReachableWellFormed C s'
  | finish_all_events_until_this_time {s s' : IOScheduler W} (fuel : Nat) (time : ℚ) :
      ReachableWellFormed C s → finish_all_events_until_this_time C fuel time s = Except.ok s' →
      ReachableWellFormed C s'

end IOScheduler

namespace IOScheduler
variable {W : Type}

/-- Modelled on the specification's partition rule (Dispatch Loop, step 3): the vectors after
the event `p` has been appended to the vector of the class `k`. -/
def Classes.add (cl : Classes) (k : dispatch_class) (p : Nat) : Classes :=
  match k with
  | dispatch_class.noop_event => { cl with noop_events := cl.noop_events ++ [p] }
  | dispatch_class.read_command => { cl with read_commands := cl.read_commands ++ [p] }
  | dispatch_class.read_command_copyback =>
    { cl with read_commands_copybacks := cl.read_commands_copybacks ++ [p] }
  | dispatch_class.read_command_flexible =>
    { cl with read_commands_flexible := cl.read_commands_flexible ++ [p] }
  | dispatch_class.read_transfer => { cl with read_transfers := cl.read_transfers ++ [p] }
  | dispatch_class.gc_write => { cl with gc_writes := cl.gc_writes ++ [p] }
  | dispatch_class.write => { cl with writes := cl.writes ++ [p] }
  | dispatch_class.erase => { cl with erases := cl.erases ++ [p] }
  | dispatch_class.copy_back => { cl with copy_backs := cl.copy_backs ++ [p] }

/-- Modelled on the specification's partition rule (Dispatch Loop, step 3):
`Partition C fuel l cl s cl' t` says that taking the events of `l` one after the other, starting
with the vectors `cl` in the state `s`, ends with the vectors `cl'` in the state `t`, where an
event that has a class (`class_of`) in the state in which it is taken is appended to the vector
of its class (reading the type recorded for its op may insert a default entry into
`dependency_code_to_type`, which changes no recorded type), a TRIM that is not noop is executed
at once by `execute_next`, and an event of any other type is passed over. -/
inductive Partition (C : Collaborators W) (fuel : Nat) :
    List Nat → Classes → IOScheduler W → Classes → IOScheduler W → Prop
  | done (cl : Classes) (s : IOScheduler W) : Partition C fuel [] cl s cl s
  | classed {p : Nat} {rest : List Nat} {cl cl' : Classes} {s t : IOScheduler W}
      {k : dispatch_class} (ty : Table event_type) :
      s.class_of p = some k →
      (∀ x, ty.get x = s.dependency_code_to_type.get x) →
      Partition C fuel rest (cl.add k p) { s with dependency_code_to_type := ty } cl' t →
      Partition C fuel (p :: rest) cl s cl' t
  | trim {p : Nat} {rest : List Nat} {cl cl' : Classes} {s t : IOScheduler W}
      {r : status × IOScheduler W} :
      (s.heap p).noop = false → (s.heap p).type = event_type.TRIM →
      execute_next C fuel p s = Except.ok r →
      Partition C fuel rest cl r.2 cl' t →
      Partition C fuel (p :: rest) cl s cl' t
  | passed {p : Nat} {rest : List Nat} {cl cl' : Classes} {s t : IOScheduler W} :
      s.class_of p = none → (s.heap p).type ≠ event_type.TRIM →
      Partition C fuel rest cl s cl' t →
      Partition C fuel (p :: rest) cl s cl' t

end IOScheduler

/-! ## Concrete collaborators and events for the scenarios -/

namespace Scenario

open IOScheduler

/-- Collaborators without state: the device always succeeds and takes no time, every die is
free (`wait` is 0) or busy for `wait` time units, no migration is ever proposed, the shuffle
leaves the order, scheme 0. -/
def device (wait : ℚ) : Collaborators Unit :=
  { react := fun w _ => w,
    issue := fun _ _ => (status.SUCCESS, 0),
    in_how_long_can_this_event_be_scheduled := fun _ _ _ => wait,
    can_schedule_on_die := fun _ _ _ _ => true,
    choose_write_address := fun _ _ => default,
    choose_flexible_read_address := fun _ _ => default,
    migrate := fun _ _ => [],
    set_read_address := fun _ _ => default,
    set_replace_address := fun _ _ => default,
    candidates_lba := fun _ _ _ _ => 0,
    shuffle := fun _ l => l,
    shuffle_perm := fun _ _ => List.Perm.refl _,
    SCHEDULING_SCHEME := 0,
    BLOCK_SIZE := 64 }

/-- An event of type `t` of operation `op` for logical address `lba` at time `time`. -/
def event (t : event_type) (op lba : Nat) (time : ℚ) : Event :=
  { Event.create t lba time with application_io_id := op, id := op }

/-- The empty scheduler. -/
def empty : IOScheduler Unit := IOScheduler.init ()

/-- The scheduler after the events were submitted one by one, each an operation of its own. -/
def after_submitting (es : List Event) : Run Unit (IOScheduler Unit) :=
  es.foldlM (fun s e => s.submit e) empty

/-- S-a: one WRITE (op 1, LBA 7) submitted at time 5. -/
def one_write : IOScheduler Unit :=
  (after_submitting [event event_type.WRITE 1 7 5]).state

/-- S-b: a GARBAGE_COLLECTION request (op 1) at time 50 and a WRITE (op 2, LBA 9) at time 60. -/
def gc_request_then_write : IOScheduler Unit :=
  (after_submitting [event event_type.GARBAGE_COLLECTION 1 0 50,
    event event_type.WRITE 2 9 60]).state

/-- The scheduler in which the operation of `first` has been submitted and admitted to
`current_events`, and the operation of `second` has then been submitted (pointer 0 is `first`,
pointer 1 is `second`). -/
def pending_then (first second : Event) : IOScheduler Unit :=
  (do
    let s1 ← empty.submit first
    let s2 ← s1.update_current_events (device 0) 4
    s2.submit second : Run Unit (IOScheduler Unit)).state

/-- S2: WRITE(LBA 7, time 0) of op 1 is pending, WRITE(LBA 7, time 0) of op 2 arrives. -/
def write_then_write : IOScheduler Unit :=
  pending_then (event event_type.WRITE 1 7 0) (event event_type.WRITE 2 7 0)

/-- S4: WRITE(LBA 7, time 0) of op 1 is pending, TRIM(LBA 7, time 0) of op 2 arrives. -/
def write_then_trim : IOScheduler Unit :=
  pending_then (event event_type.WRITE 1 7 0) (event event_type.TRIM 2 7 0)

/-- S3: WRITE(LBA 7, time 0) of op 1 is pending, READ(LBA 7, time 0) of op 2 arrives. -/
def write_then_read : IOScheduler Unit :=
  pending_then (event event_type.WRITE 1 7 0) (event event_type.READ 2 7 0)

/-- TRIM(LBA 7, time 0) of op 1 is pending, READ(LBA 7, time 0) of op 2 arrives. -/
def trim_then_read : IOScheduler Unit :=
  pending_then (event event_type.TRIM 1 7 0) (event event_type.READ 2 7 0)

/-- S5: op 1, a queue of two WRITEs for LBA 7, has its first WRITE pending (pointer 0) and its
second waiting in the dependency queue (pointer 1); a GC-flagged WRITE for LBA 7 of op 2
arrives (pointer 2). -/
def write_chain_then_gc_write : IOScheduler Unit :=
  (do
    let s1 ← empty.submit_queue [event event_type.WRITE 1 7 0, event event_type.WRITE 1 7 0]
    let s2 ← s1.update_current_events (device 0) 4
    s2.submit { event event_type.WRITE 2 7 0 with garbage_collection_op := true } :
      Run Unit (IOScheduler Unit)).state

/-- S1: a single READ (op 1) at LBA 100, time 0, submitted. -/
def one_read : IOScheduler Unit :=
  (after_submitting [event event_type.READ 1 100 0]).state

/-- A single flexible READ (op 1) at LBA 100, time 0, submitted. -/
def one_flexible_read : IOScheduler Unit :=
  (after_submitting [{ event event_type.READ 1 100 0 with flexible_read := true }]).state

/-- Collaborators without state, with the answers of the block manager, the device and the FTL
and the scheduling scheme as parameters: every die is ready after `wait` time units,
`can_schedule_on_die` answers `can`, the device answers `outcome` and takes no time, the FTL
gives every read an address with page number `read_page`; no migration is ever proposed and the
shuffle leaves the order. -/
def configured (wait : ℚ) (can : Bool) (outcome : status) (read_page : Nat) (scheme : Nat) :
    Collaborators Unit :=
  { react := fun w _ => w,
    issue := fun _ _ => (outcome, 0),
    in_how_long_can_this_event_be_scheduled := fun _ _ _ => wait,
    can_schedule_on_die := fun _ _ _ _ => can,
    choose_write_address := fun _ _ => default,
    choose_flexible_read_address := fun _ _ => default,
    migrate := fun _ _ => [],
    set_read_address := fun _ _ => { (default : Address) with page := read_page },
    set_replace_address := fun _ _ => default,
    candidates_lba := fun _ _ _ _ => 0,
    shuffle := fun _ l => l,
    shuffle_perm := fun _ _ => List.Perm.refl _,
    SCHEDULING_SCHEME := scheme,
    BLOCK_SIZE := 64 }

/-- The scheduler in which the operation of `first` has been submitted and admitted. -/
def pending (first : Event) : IOScheduler Unit :=
  (do
    let s1 ← empty.submit first
    s1.update_current_events (device 0) 4 : Run Unit (IOScheduler Unit)).state

/-- Op 1 is a queue of two WRITEs and an ERASE for LBA 7 (pointers 0, 1, 2; times 0, 10, 20).
The first WRITE has been executed; a READ of LBA 7 (op 2, pointer 3, its READ_TRANSFER is
pointer 4) has been submitted and made a dependent of op 1; the second WRITE has been executed
and the ERASE, the last event of op 1, waits in `current_events`. -/
def erase_ends_locked_chain : IOScheduler Unit :=
  (execute_soonest_events (device 0) 10
    (submit (event event_type.READ 2 7 0)
      (execute_soonest_events (device 0) 10
        (submit_queue [event event_type.WRITE 1 7 0, event event_type.WRITE 1 7 10,
          event event_type.ERASE 1 7 20] empty).state).state).state).state

/-- A WRITE (op 1, LBA 7, time 0, pointer 0) has been submitted and admitted. -/
def write_pending : IOScheduler Unit :=
  pending (event event_type.WRITE 1 7 0)

/-- The scheduler in which the events have been submitted one by one, each an operation of its
own, and passed to admission by `update_current_events`. -/
def admitted (es : List Event) : IOScheduler Unit :=
  (update_current_events (device 0) 10 (after_submitting es).state).state

/-- A READ of LBA 100 (op 1), a WRITE of LBA 7 (op 2) and a GC-flagged WRITE of LBA 8 (op 3),
all at time 0, have been submitted and admitted: the READ_COMMAND of op 1 and the two WRITEs
(pointers 0, 1, 2) form the bucket of time 0. -/
def mixed_bucket : IOScheduler Unit :=
  admitted [event event_type.READ 1 100 0, event event_type.WRITE 2 7 0,
    { event event_type.WRITE 3 8 0 with garbage_collection_op := true }]

/-- A queue of two WRITEs for LBA 7 of op 1 (pointers 0 and 1) submitted at time 0 and admitted:
the first WRITE waits in `current_events`, the second one is pending. -/
def write_chain_pending : IOScheduler Unit :=
  (update_current_events (device 0) 10
    (submit_queue [event event_type.WRITE 1 7 0, event event_type.WRITE 1 7 0] empty).state).state

/-- A GC-flagged WRITE(LBA 7, time 0) of op 1 is pending (pointer 0), a TRIM(LBA 7, time 0) of
op 2 arrives (pointer 1). -/
def gc_write_then_trim : IOScheduler Unit :=
  pending_then { event event_type.WRITE 1 7 0 with garbage_collection_op := true }
    (event event_type.TRIM 2 7 0)

/-- Two WRITEs submitted, none admitted: op 1 for LBA 7 at time 0 (pointer 0) and op 2 for
LBA 8 at time 5 (pointer 1). -/
def two_writes_submitted : IOScheduler Unit :=
  (after_submitting [event event_type.WRITE 1 7 0, event event_type.WRITE 2 8 5]).state

/-- Op 1 is a queue of a WRITE and a READ for LBA 7 (pointers 0 and 1), submitted at time 0 and
admitted: the WRITE waits in `current_events`, the READ is pending. -/
def write_read_chain_pending : IOScheduler Unit :=
  (update_current_events (device 0) 10
    (submit_queue [event event_type.WRITE 1 7 0, event event_type.READ 1 7 0] empty).state).state

/-- A COPY_BACK (op 1, LBA 7, time 0, pointer 0) has been submitted and admitted: it waits in
`current_events` and holds the lock of LBA 7. -/
def copy_back_pending : IOScheduler Unit :=
  admitted [event event_type.COPY_BACK 1 7 0]

/-- Two GC-flagged WRITEs at time 0, submitted and admitted (pointers 0 and 1): op 1 for LBA 7
has waited 1 on the bus and 11 over all, op 2 for LBA 8 has waited 5 on the bus and 5 over
all. -/
def two_gc_writes_pending : IOScheduler Unit :=
  admitted
    [{ event event_type.WRITE 1 7 0 with
        garbage_collection_op := true, bus_wait_time := 1, accumulated_wait_time := 10 },
     { event event_type.WRITE 2 8 0 with garbage_collection_op := true, bus_wait_time := 5 }]

/-- A flexible READ (op 1, LBA 100, pointer 0) and a COPY_BACK (op 2, LBA 0, pointer 1), both at
time 0, have been submitted and admitted: the READ_COMMAND of the flexible read and the
COPY_BACK form the bucket of time 0, and op 2 holds the lock of LBA 0, the address of the
candidate the flexible read is offered by the collaborators of `device`. -/
def flexible_read_candidate_locked : IOScheduler Unit :=
  admitted [{ event event_type.READ 1 100 0 with flexible_read := true },
    event event_type.COPY_BACK 2 0 0]

/-- The queue of op 1 for LBA 7, a WRITE at time 0 and an ERASE at time 10, has been submitted and
executed to its end by two calls of `execute_soonest_events`: both queues are empty and op 1 has
no entry left in `dependencies`. -/
def erase_chain_completed : IOScheduler Unit :=
  (execute_soonest_events (device 0) 10
    (execute_soonest_events (device 0) 10
      (submit_queue [event event_type.WRITE 1 7 0, event event_type.ERASE 1 7 10]
        empty).state).state).state

/-- A WRITE of LBA 7 (op 2, time 30, pointer 2) is submitted after the queue of op 1 has been
executed to its end. -/
def write_after_erase_chain : IOScheduler Unit :=
  (submit (event event_type.WRITE 2 7 30) erase_chain_completed).state

/-- A WRITE (op 1, pointer 0), a READ (op 2, pointer 1) and a WRITE (op 3, pointer 2) of LBA 7,
all at time 0, have been submitted and admitted in this order: the READ waits as a dependent of
op 1 (its READ_TRANSFER is pointer 3), and the second WRITE has cancelled the first, which is
flagged noop, and owns LBA 7. -/
def cancelled_write_with_dependent : IOScheduler Unit :=
  admitted [event event_type.WRITE 1 7 0, event event_type.READ 2 7 0,
    event event_type.WRITE 3 7 0]

/-- A WRITE of op 1 and an ERASE of op 2, both for LBA 7 at time 0, are submitted, and
`execute_soonest_events` is called with every die busy for 5 time units: both events are
admitted and re-queued. -/
def erase_beside_locked_write : IOScheduler Unit :=
  (execute_soonest_events (device 5) 10
    (after_submitting [event event_type.WRITE 1 7 0, event event_type.ERASE 2 7 0]).state).state

/-- Collaborators as those of `device 0`, but the block manager puts the writes of op 2 on a
die of their own (package 2), which is busy for 5 time units. -/
def second_die_busy : Collaborators Unit :=
  { device 0 with
    choose_write_address := fun _ e => { (default : Address) with package := e.application_io_id },
    in_how_long_can_this_event_be_scheduled := fun _ a _ => if a.package = 2 then 5 else 0 }

/-- Op 1 is the queue of a WRITE of LBA 7 at time 0 and a WRITE of LBA 8 at time 3 (pointers 0
and 1), op 2 a WRITE of LBA 8 at time 0 (pointer 2).  Both ops are submitted and
`execute_soonest_events` is called under `second_die_busy`: op 2 takes the lock of LBA 8 and is
re-queued, the first WRITE of op 1 is executed and its successor admitted. -/
def chain_moves_to_locked_lba : IOScheduler Unit :=
  (execute_soonest_events second_die_busy 10
    (submit (event event_type.WRITE 2 8 0)
      (submit_queue [event event_type.WRITE 1 7 0, event event_type.WRITE 1 8 3]
        empty).state).state).state

/-- Two WRITEs of LBA 7 at time 0, op 1 (pointer 0) and op 2 (pointer 1), have been submitted,
each as a queue of its own, and `finish_all_events_until_this_time(0)` has passed them to
admission; the dies are busy. -/
def two_writes_of_one_lba_admitted : IOScheduler Unit :=
  (finish_all_events_until_this_time (device 3) 4 0
    (submit_queue [event event_type.WRITE 2 7 0]
      (submit_queue [event event_type.WRITE 1 7 0] empty).state).state).state

/-- The queue [WRITE, ERASE] of op 1 for LBA 7 has been executed to its end, which leaves LBA 7
locked by op 1 (`erase_chain_completed`).  Then a WRITE of LBA 9 under the op id 1 (pointer 2),
a READ of LBA 7 of op 2 (pointer 3) and a WRITE of LBA 9 of op 3 (pointer 4), all at time 30,
have been submitted and passed to admission by `finish_all_events_until_this_time(0)`: the READ
waits as a dependent of op 1, the owner of LBA 7, and the WRITE of op 3 has cancelled the WRITE
of op 1, which is flagged noop. -/
def cancelled_write_of_lock_holder : IOScheduler Unit :=
  (finish_all_events_until_this_time (device 0) 10 0
    (submit_queue [event event_type.WRITE 3 9 30]
      (submit_queue [event event_type.READ 2 7 30]
        (submit_queue [event event_type.WRITE 1 9 30] erase_chain_completed).state).state
      ).state).state

end Scenario

/-! ## Auxiliary facts -/

theorem Run.eq_ok_state {W : Type} (r : Run W (IOScheduler W)) (h : r.final.isSome = true) :
    r = Except.ok r.state := by
  cases r with
  | error e => simp [Run.final] at h
  | ok a => rfl

namespace IOScheduler

variable {W : Type}

theorem bind_ok {α β : Type} {x : Run W α} {f : α → Run W β} {b : β}
    (h : (x >>= f) = Except.ok b) : ∃ a, x = Except.ok a ∧ f a = Except.ok b := by
  cases x with
  | error e => simp [bind, Except.bind] at h
  | ok a => exact ⟨a, rfl, h⟩

theorem finish_loop_exit (C : Collaborators W) (time : ℚ) :
    ∀ (fuel : Nat) (s s' : IOScheduler W), finish_loop C fuel time s = Except.ok s' →
      ¬ (s'.get_current_time < time ∧ s'.current_events.length > 0) := by
  intro fuel
  induction fuel with
  | zero => intro s s' h; simp [finish_loop, fail] at h
  | succ n ih =>
    intro s s' h
    unfold finish_loop at h
    split at h
    · obtain ⟨s1, _, h1⟩ := bind_ok h
      obtain ⟨s2, _, h2⟩ := bind_ok h1
      exact ih s2 s' h2
    · cases h
      assumption

theorem Table.touch_of_some {α : Type} [Inhabited α] {m : Table α} {k : Nat} {v : α}
    (h : m k = some v) : m.touch k = m := by
  funext x
  by_cases hx : x = k
  · subst hx; simp [Table.touch, Table.get, h]
  · simp [Table.touch, hx]

theorem Table.get_of_some {α : Type} [Inhabited α] {m : Table α} {k : Nat} {v : α}
    (h : m k = some v) : m.get k = v := by
  simp [Table.get, h]

theorem mem_bucket_insert (k : Int) (p q : Nat) (l : List (Int × List Nat)) :
    q ∈ ((bucket_insert k p l).map Prod.snd).flatten ↔ q = p ∨ q ∈ (l.map Prod.snd).flatten := by
  induction l with
  | nil => simp [bucket_insert]
  | cons b rest ih =>
    obtain ⟨k', es⟩ := b
    unfold bucket_insert
    split
    · simp
    · split
      · simp; tauto
      · simp [ih]; tauto

theorem count_bucket_insert (k : Int) (p q : Nat) (l : List (Int × List Nat)) :
    ((bucket_insert k p l).map Prod.snd).flatten.count q
      = (l.map Prod.snd).flatten.count q + (if p = q then 1 else 0) := by
  induction l with
  | nil => simp [bucket_insert, List.count_cons]
  | cons b rest ih =>
    obtain ⟨k', es⟩ := b
    unfold bucket_insert
    split
    · simp [List.count_cons]
    · split
      · simp [List.count_cons]; omega
      · simp [ih]; omega

theorem remove_current_operation_heap_self (C : Collaborators W) (s : IOScheduler W) (E : Nat) :
    (s.remove_current_operation C E).heap E = { s.heap E with noop := true } := by
  unfold remove_current_operation
  dsimp only
  split_ifs <;> simp [modify, call]

theorem remove_current_operation_heap_ne (C : Collaborators W) (s : IOScheduler W) {E q : Nat}
    (h : q ≠ E) : (s.remove_current_operation C E).heap q = s.heap q := by
  unfold remove_current_operation
  dsimp only
  split_ifs <;> simp [modify, call, h]

theorem remove_current_operation_frame (C : Collaborators W) (s : IOScheduler W) (E : Nat) :
    (s.remove_current_operation C E).current_events = s.current_events
    ∧ (s.remove_current_operation C E).future_events = s.future_events
    ∧ (s.remove_current_operation C E).dependencies = s.dependencies
    ∧ (s.remove_current_operation C E).LBA_currently_executing = s.LBA_currently_executing
    ∧ (s.remove_current_operation C E).dependency_code_to_LBA = s.dependency_code_to_LBA
    ∧ (s.remove_current_operation C E).dependency_code_to_type = s.dependency_code_to_type
    ∧ (s.remove_current_operation C E).op_code_to_dependent_op_codes
        = s.op_code_to_dependent_op_codes
    ∧ (s.remove_current_operation C E).num_write_cancellations = s.num_write_cancellations
    ∧ (s.remove_current_operation C E).next_free = s.next_free := by
  unfold remove_current_operation
  dsimp only
  split_ifs <;> simp [modify, call]

theorem find_scheduled_event_spec (s : IOScheduler W) (O E : Nat)
    (h : s.find_scheduled_event O = some E) :
    E ∈ s.current_pointers ∧ (s.heap E).application_io_id = O := by
  unfold find_scheduled_event at h
  have h1 := List.find?_some h
  have h2 := List.mem_of_find?_eq_some h
  exact ⟨h2, by simpa using h1⟩

/-- The branch of lines 804-810. -/
theorem remove_redundant_events_write_write (C : Collaborators W) (s : IOScheduler W)
    (e E N O : Nat) (hN : (s.heap e).application_io_id = N)
    (hown : s.LBA_currently_executing (s.heap e).logical_address = some O) (hne : O ≠ N)
    (htN : s.dependency_code_to_type N = some event_type.WRITE)
    (htO : s.dependency_code_to_type O = some event_type.WRITE)
    (hE : s.find_scheduled_event O = some E)
    (hgN : (s.heap e).garbage_collection_op = false)
    (hgE : (s.heap E).garbage_collection_op = false) :
    remove_redundant_events C e s =
      Except.ok { (s.remove_current_operation C E) with
        LBA_currently_executing :=
          (s.remove_current_operation C E).LBA_currently_executing.set
            (s.heap e).logical_address N,
        num_write_cancellations :=
          (s.remove_current_operation C E).num_write_cancellations + 1 } := by
  simp [remove_redundant_events, hN, hown, hne, Table.touch_of_some htN,
    Table.touch_of_some htO, Table.get_of_some htN, Table.get_of_some htO, hE, hgN, hgE, pure,
    Except.pure]

/-- Setting the GC flag, as `set_garbage_collection_op(true)` does. -/
theorem foldl_promote_heap (l : List Nat) : ∀ (s : IOScheduler W) (q : Nat),
    (l.foldl (fun acc p => acc.modify p (fun e => { e with garbage_collection_op := true })) s).heap q
      = if q ∈ l then { s.heap q with garbage_collection_op := true } else s.heap q := by
  induction l with
  | nil => intro s q; simp
  | cons p l ih =>
    intro s q
    rw [List.foldl_cons, ih]
    by_cases hq : q = p
    · subst hq
      by_cases hl : q ∈ l <;> simp [hl, modify]
    · by_cases hl : q ∈ l <;> simp [hl, hq, modify]

theorem foldl_promote_frame (l : List Nat) : ∀ (s : IOScheduler W),
    let s' := l.foldl (fun acc p => acc.modify p (fun e => { e with garbage_collection_op := true })) s
    s'.current_events = s.current_events ∧ s'.future_events = s.future_events
    ∧ s'.dependencies = s.dependencies
    ∧ s'.LBA_currently_executing = s.LBA_currently_executing
    ∧ s'.dependency_code_to_LBA = s.dependency_code_to_LBA
    ∧ s'.dependency_code_to_type = s.dependency_code_to_type
    ∧ s'.op_code_to_dependent_op_codes = s.op_code_to_dependent_op_codes
    ∧ s'.num_write_cancellations = s.num_write_cancellations
    ∧ s'.next_free = s.next_free ∧ s'.world = s.world ∧ s'.log = s.log := by
  induction l with
  | nil => intro s; simp
  | cons p l ih =>
    intro s
    simp only [List.foldl_cons]
    have := ih (s.modify p (fun e => { e with garbage_collection_op := true }))
    simpa [modify] using this

theorem Table.get_touch {α : Type} [Inhabited α] (m : Table α) (k : Nat) :
    (m.touch k).get k = m.get k := by
  simp [Table.touch, Table.get]

theorem promote_to_gc_heap (s : IOScheduler W) (E q : Nat) :
    (s.promote_to_gc E).heap q
      = if q = E ∨ q ∈ s.dependencies.get (s.heap E).application_io_id then
          { s.heap q with garbage_collection_op := true } else s.heap q := by
  unfold promote_to_gc
  dsimp only
  rw [foldl_promote_heap]
  simp only [modify, Table.get_touch, if_true]
  by_cases hq : q = E
  · subst hq; simp
  · simp [hq]

theorem promote_to_gc_frame (s : IOScheduler W) (E : Nat) :
    (s.promote_to_gc E).current_events = s.current_events
    ∧ (s.promote_to_gc E).future_events = s.future_events
    ∧ (s.promote_to_gc E).dependencies = s.dependencies.touch (s.heap E).application_io_id
    ∧ (s.promote_to_gc E).LBA_currently_executing = s.LBA_currently_executing
    ∧ (s.promote_to_gc E).dependency_code_to_LBA = s.dependency_code_to_LBA
    ∧ (s.promote_to_gc E).dependency_code_to_type = s.dependency_code_to_type
    ∧ (s.promote_to_gc E).op_code_to_dependent_op_codes = s.op_code_to_dependent_op_codes
    ∧ (s.promote_to_gc E).num_write_cancellations = s.num_write_cancellations
    ∧ (s.promote_to_gc E).next_free = s.next_free ∧ (s.promote_to_gc E).world = s.world
    ∧ (s.promote_to_gc E).log = s.log := by
  unfold promote_to_gc
  have := foldl_promote_frame
    (({ (s.modify E (fun e => { e with garbage_collection_op := true })) with
        dependencies := (s.modify E (fun e => { e with garbage_collection_op := true })).dependencies.touch
          ((s.modify E (fun e => { e with garbage_collection_op := true })).heap E).application_io_id } :
        IOScheduler W).dependencies.get
      ((s.modify E (fun e => { e with garbage_collection_op := true })).heap E).application_io_id)
    ({ (s.modify E (fun e => { e with garbage_collection_op := true })) with
        dependencies := (s.modify E (fun e => { e with garbage_collection_op := true })).dependencies.touch
          ((s.modify E (fun e => { e with garbage_collection_op := true })).heap E).application_io_id } :
        IOScheduler W)
  simpa [modify] using this

theorem Table.touch_apply {α : Type} [Inhabited α] (m : Table α) (k x : Nat) :
    (m.touch k) x = if x = k then some (m.get k) else m x := rfl

theorem promote_to_gc_heap_fields (s : IOScheduler W) (E q : Nat) :
    ((s.promote_to_gc E).heap q).logical_address = (s.heap q).logical_address
    ∧ ((s.promote_to_gc E).heap q).application_io_id = (s.heap q).application_io_id
    ∧ ((s.promote_to_gc E).heap q).type = (s.heap q).type
    ∧ ((s.promote_to_gc E).heap q).noop = (s.heap q).noop
    ∧ ((s.promote_to_gc E).heap q).flexible_read = (s.heap q).flexible_read
    ∧ ((s.promote_to_gc E).heap q).current_time = (s.heap q).current_time
    ∧ ((s.promote_to_gc E).heap q).address = (s.heap q).address
    ∧ ((s.promote_to_gc E).heap q).replace_address = (s.heap q).replace_address := by
  rw [promote_to_gc_heap]
  split <;> simp

theorem remove_current_operation_heap_fields (C : Collaborators W) (s : IOScheduler W)
    (E q : Nat) :
    ((s.remove_current_operation C E).heap q).logical_address = (s.heap q).logical_address
    ∧ ((s.remove_current_operation C E).heap q).application_io_id
        = (s.heap q).application_io_id
    ∧ ((s.remove_current_operation C E).heap q).type = (s.heap q).type
    ∧ ((s.remove_current_operation C E).heap q).garbage_collection_op
        = (s.heap q).garbage_collection_op
    ∧ ((s.remove_current_operation C E).heap q).flexible_read = (s.heap q).flexible_read
    ∧ ((s.remove_current_operation C E).heap q).current_time = (s.heap q).current_time
    ∧ ((s.remove_current_operation C E).heap q).address = (s.heap q).address
    ∧ ((s.remove_current_operation C E).heap q).replace_address = (s.heap q).replace_address := by
  by_cases hq : q = E
  · subst hq; rw [remove_current_operation_heap_self]; simp
  · rw [remove_current_operation_heap_ne C s hq]; simp

/-- The branch of lines 780-786. -/
theorem remove_redundant_events_gc_write (C : Collaborators W) (s : IOScheduler W)
    (e E N O : Nat) (hN : (s.heap e).application_io_id = N)
    (hown : s.LBA_currently_executing (s.heap e).logical_address = some O) (hne : O ≠ N)
    (htO : s.dependency_code_to_type O = some event_type.WRITE)
    (hE : s.find_scheduled_event O = some E)
    (hgN : (s.heap e).garbage_collection_op = true) :
    remove_redundant_events C e s =
      Except.ok
        { (push_into_current_events e
            (remove_current_operation C e
              (promote_to_gc E
                { s with dependency_code_to_type := s.dependency_code_to_type.touch N }))) with
          LBA_currently_executing := s.LBA_currently_executing.set (s.heap e).logical_address O,
          num_write_cancellations := s.num_write_cancellations + 1 } := by
  have h1 : (s.dependency_code_to_type.touch N) O = some event_type.WRITE := by
    rw [Table.touch_apply]; simp [hne, htO]
  obtain ⟨-, -, -, g4, -, -, -, g8, -⟩ := promote_to_gc_frame
    ({ s with dependency_code_to_type := s.dependency_code_to_type.touch N }) E
  obtain ⟨-, -, -, f4, -, -, -, f8, -⟩ := remove_current_operation_frame C
    (promote_to_gc E { s with dependency_code_to_type := s.dependency_code_to_type.touch N }) e
  simp [remove_redundant_events, hN, hown, hne, Table.touch_of_some h1, Table.get_of_some h1,
    hE, hgN, pure, Except.pure, push_into_current_events, f4, f8, g4, g8]

/-- The branch of lines 840-847, for an owner whose scheduled event is not GC-flagged. -/
theorem remove_redundant_events_trim_write (C : Collaborators W) (s : IOScheduler W)
    (e E N O : Nat) (hN : (s.heap e).application_io_id = N)
    (hown : s.LBA_currently_executing (s.heap e).logical_address = some O) (hne : O ≠ N)
    (htN : s.dependency_code_to_type N = some event_type.TRIM)
    (htO : s.dependency_code_to_type O = some event_type.WRITE)
    (hE : s.find_scheduled_event O = some E)
    (hgN : (s.heap e).garbage_collection_op = false)
    (hgE : (s.heap E).garbage_collection_op = false) :
    remove_redundant_events C e s =
      Except.ok { (s.remove_current_operation C E) with
        LBA_currently_executing :=
          s.LBA_currently_executing.set (s.heap e).logical_address N } := by
  obtain ⟨-, -, -, f4, -⟩ := remove_current_operation_frame C s E
  have hg : ((s.remove_current_operation C E).heap E).garbage_collection_op = false := by
    rw [(remove_current_operation_heap_fields C s E E).2.2.2.1]; exact hgE
  simp [remove_redundant_events, remove_redundant_events_rest, hN, hown, hne,
    Table.touch_of_some htN, Table.touch_of_some htO, Table.get_of_some htN,
    Table.get_of_some htO, hE, hgN, hgE, hg, f4, pure, Except.pure]

/-- The branch of lines 825-830. -/
theorem remove_redundant_events_read_write (C : Collaborators W) (s : IOScheduler W)
    (e N O : Nat) (hN : (s.heap e).application_io_id = N)
    (hown : s.LBA_currently_executing (s.heap e).logical_address = some O) (hne : O ≠ N)
    (htN : s.dependency_code_to_type N = some event_type.READ)
    (htO : s.dependency_code_to_type O = some event_type.WRITE
      ∨ s.dependency_code_to_type O = some event_type.COPY_BACK)
    (hgN : (s.heap e).garbage_collection_op = false) :
    remove_redundant_events C e s = Except.ok (s.make_dependent e O) := by
  rcases htO with htO | htO <;>
  simp [remove_redundant_events, remove_redundant_events_rest, hN, hown, hne,
    Table.touch_of_some htN, Table.touch_of_some htO, Table.get_of_some htN,
    Table.get_of_some htO, hgN, pure, Except.pure]

theorem init_event_read_made_dependent (C : Collaborators W) (fuel : Nat) (s : IOScheduler W)
    (e N O : Nat)
    (htype : (s.heap e).type = event_type.READ_COMMAND
      ∨ (s.heap e).type = event_type.READ_TRANSFER)
    (hnoop : (s.heap e).noop = false) (hflex : (s.heap e).flexible_read = false)
    (hgN : (s.heap e).garbage_collection_op = false)
    (hN : (s.heap e).application_io_id = N)
    (htN : s.dependency_code_to_type N = some event_type.READ)
    (hown : s.LBA_currently_executing (s.heap e).logical_address = some O) (hne : O ≠ N)
    (htO : s.dependency_code_to_type O = some event_type.WRITE
      ∨ s.dependency_code_to_type O = some event_type.COPY_BACK) :
    init_event C (fuel + 1) e s = Except.ok
      (((s.make_dependent e O).modify e
          (fun x => { x with address := C.set_read_address s.world x })).call C
        (Call.set_read_address (s.heap e))) := by
  have hrun := remove_redundant_events_read_write C s e N O hN hown hne htN htO hgN
  rcases htype with htype | htype <;>
  simp [init_event, htype, hnoop, hflex, should_event_be_scheduled, hrun, bind, Except.bind,
    pure, Except.pure, make_dependent, Table.count, hown, hN, hne]

theorem init_event_read (C : Collaborators W) (fuel : Nat) (s : IOScheduler W) (e : Nat)
    (htype : (s.heap e).type = event_type.READ) (hnoop : (s.heap e).noop = false) :
    init_event C (fuel + 1) e s
      = init_event C fuel e (s.decompose_read e (s.heap e).application_io_id) := by
  simp [init_event, htype, hnoop, bind, Except.bind, pure, Except.pure]

theorem decompose_read_heap_self (s : IOScheduler W) (e N : Nat) (h : e < s.next_free) :
    (s.decompose_read e N).heap e = { s.heap e with type := event_type.READ_COMMAND } := by
  have : e ≠ s.next_free := Nat.ne_of_lt h
  simp [decompose_read, alloc, modify, this]

theorem decompose_read_heap_ne (s : IOScheduler W) (e N p : Nat) (h : p < s.next_free)
    (hp : p ≠ e) : (s.decompose_read e N).heap p = s.heap p := by
  have : p ≠ s.next_free := Nat.ne_of_lt h
  simp [decompose_read, alloc, modify, this, hp]

theorem decompose_read_heap_new (s : IOScheduler W) (e N : Nat) :
    (s.decompose_read e N).heap s.next_free
      = { s.heap e with type := event_type.READ_TRANSFER } := by
  simp [decompose_read, alloc, modify]

theorem decompose_read_frame (s : IOScheduler W) (e N : Nat) :
    (s.decompose_read e N).current_events = s.current_events
    ∧ (s.decompose_read e N).future_events = s.future_events
    ∧ (s.decompose_read e N).dependencies
        = s.dependencies.set N (s.next_free :: s.dependencies.get N)
    ∧ (s.decompose_read e N).LBA_currently_executing = s.LBA_currently_executing
    ∧ (s.decompose_read e N).dependency_code_to_LBA = s.dependency_code_to_LBA
    ∧ (s.decompose_read e N).dependency_code_to_type = s.dependency_code_to_type
    ∧ (s.decompose_read e N).op_code_to_dependent_op_codes = s.op_code_to_dependent_op_codes
    ∧ (s.decompose_read e N).num_write_cancellations = s.num_write_cancellations
    ∧ (s.decompose_read e N).next_free = s.next_free + 1
    ∧ (s.decompose_read e N).world = s.world ∧ (s.decompose_read e N).log = s.log := by
  refine ⟨rfl, rfl, ?_, rfl, rfl, rfl, rfl, rfl, rfl, rfl, rfl⟩
  funext x
  by_cases hx : x = N
  · simp [decompose_read, alloc, modify, Table.set, Table.get_touch, hx]
  · simp [decompose_read, alloc, modify, Table.set, Table.touch_apply, hx]


/-- The first step of `manage_operation_completion`: the head of the first dependent op is
taken from its queue, credited with the time waited and passed to `init_event`. -/
theorem manage_operation_completion_admits_head (C : Collaborators W) (k : Nat)
    (t : IOScheduler W) (ev O N e : Nat) (tl rest : List Nat)
    (hev : (t.heap ev).application_io_id = O)
    (hd : t.op_code_to_dependent_op_codes O = some (N :: rest))
    (hp : t.dependencies N = some (e :: tl)) :
    ∃ T : IOScheduler W, T.dependencies N = some tl
      ∧ T.op_code_to_dependent_op_codes O = some rest
      ∧ T.current_events = t.current_events
      ∧ T.LBA_currently_executing = t.LBA_currently_executing
      ∧ manage_operation_completion C (k + 1) ev t
        = (init_event C k e T >>= fun s5 => admit_dependents C k ev O s5) >>= fun s3 =>
            pure { s3 with op_code_to_dependent_op_codes :=
                     s3.op_code_to_dependent_op_codes.erase O } := by
  refine ⟨{ (({ t with
      dependency_code_to_LBA := t.dependency_code_to_LBA.erase O,
      dependency_code_to_type := t.dependency_code_to_type.erase O,
      op_code_to_dependent_op_codes := t.op_code_to_dependent_op_codes.set O rest } :
      IOScheduler W).modify e
        (fun x => x.incr_bus_wait_time ((t.heap ev).current_time - (t.heap e).current_time))) with
      dependencies := t.dependencies.set N tl }, ?_, ?_, rfl, rfl, ?_⟩
  · simp [Table.set]
  · simp [Table.set, modify]
  · simp [manage_operation_completion, admit_dependents, hev, hd, Table.touch_of_some hp,
      Table.get_of_some hp, modify]


theorem made_dependent_state (C : Collaborators W) (s : IOScheduler W) (e N O : Nat)
    (hN : (s.heap e).application_io_id = N) (w : W) (c : Call) :
    let X := ((s.make_dependent e O).modify e
      (fun x => { x with address := C.set_read_address w x })).call C c
    X.current_events = s.current_events ∧ X.future_events = s.future_events
    ∧ X.dependencies N = some (e :: s.dependencies.get N)
    ∧ X.op_code_to_dependent_op_codes O = some (s.op_code_to_dependent_op_codes.get O ++ [N])
    ∧ X.LBA_currently_executing = s.LBA_currently_executing
    ∧ (∀ p, p ≠ e → X.heap p = s.heap p)
    ∧ (X.heap e).noop = (s.heap e).noop := by
  refine ⟨rfl, rfl, ?_, ?_, rfl, ?_, ?_⟩
  · simp [make_dependent, modify, call, Table.set, hN]
  · simp [make_dependent, modify, call, Table.set, hN]
  · intro p hp
    simp [make_dependent, modify, call, hp]
  · simp [make_dependent, modify, call]

/-- The branch of lines 734-737: the LBA has no owner. -/
theorem remove_redundant_events_no_owner (C : Collaborators W) (s : IOScheduler W) (e : Nat)
    (hown : s.LBA_currently_executing (s.heap e).logical_address = none) :
    remove_redundant_events C e s = Except.ok
      { s with LBA_currently_executing :=
          (s.LBA_currently_executing.set (s.heap e).logical_address
            (s.heap e).application_io_id) } := by
  simp [remove_redundant_events, hown, pure, Except.pure]

/-- `init_event` on a READ_COMMAND or READ_TRANSFER whose LBA has no owner. -/
theorem init_event_read_command_no_owner (C : Collaborators W) (fuel : Nat) (s : IOScheduler W)
    (e : Nat)
    (htype : (s.heap e).type = event_type.READ_COMMAND
      ∨ (s.heap e).type = event_type.READ_TRANSFER)
    (hnoop : (s.heap e).noop = false) (hflex : (s.heap e).flexible_read = false)
    (hown : s.LBA_currently_executing (s.heap e).logical_address = none) :
    init_event C (fuel + 1) e s = Except.ok
      (((push_into_current_events e { s with LBA_currently_executing :=
          (s.LBA_currently_executing.set (s.heap e).logical_address
            (s.heap e).application_io_id) }).modify e
          (fun x => { x with address := C.set_read_address s.world x })).call C
        (Call.set_read_address (s.heap e))) := by
  rcases htype with htype | htype <;>
  simp [init_event, htype, hnoop, hflex, should_event_be_scheduled,
    remove_redundant_events_no_owner C s e hown, bind, Except.bind, pure, Except.pure,
    Table.count, Table.set, push_into_current_events, call, modify]

end IOScheduler

/-! ## Stable properties hold of every reachable state -/

theorem Run.All_ok {W α : Type} {P : IOScheduler W → Prop} {π : α → IOScheduler W} {a : α}
    (h : P (π a)) : Run.All P π (Except.ok a) := by
  unfold Run.All; exact h

theorem Run.All_pure {W α : Type} {P : IOScheduler W → Prop} {π : α → IOScheduler W} {a : α}
    (h : P (π a)) : Run.All P π (pure a : Run W α) := by
  unfold Run.All; exact h

theorem Run.All_fail {W α : Type} {P : IOScheduler W → Prop} {π : α → IOScheduler W} {f : Fault}
    {s : IOScheduler W} (h : P s) : Run.All P π (IOScheduler.fail f s : Run W α) := by
  unfold Run.All; exact h

theorem Run.All_bind {W α β : Type} {P : IOScheduler W → Prop} {π₁ : α → IOScheduler W}
    {π₂ : β → IOScheduler W} {x : Run W α} {f : α → Run W β}
    (hx : Run.All P π₁ x) (hf : ∀ a, P (π₁ a) → Run.All P π₂ (f a)) :
    Run.All P π₂ (x >>= f) := by
  cases x with
  | error e => unfold Run.All at hx ⊢; exact hx
  | ok a => exact hf a (by unfold Run.All at hx; exact hx)

theorem Run.All_bind_state {W β : Type} {P : IOScheduler W → Prop} {π₂ : β → IOScheduler W}
    {x : Run W (IOScheduler W)} {f : IOScheduler W → Run W β}
    (hx : Run.All P id x) (hf : ∀ a, P a → Run.All P π₂ (f a)) :
    Run.All P π₂ (x >>= f) :=
  Run.All_bind hx hf

theorem Run.All_bind_snd {W α β : Type} {P : IOScheduler W → Prop} {π₂ : β → IOScheduler W}
    {x : Run W (α × IOScheduler W)} {f : α × IOScheduler W → Run W β}
    (hx : Run.All P Prod.snd x) (hf : ∀ a, P a.2 → Run.All P π₂ (f a)) :
    Run.All P π₂ (x >>= f) :=
  Run.All_bind hx hf

theorem Run.All_foldlM {W β : Type} {P : IOScheduler W → Prop}
    (f : IOScheduler W → β → Run W (IOScheduler W))
    (hf : ∀ s b, P s → Run.All P id (f s b)) :
    ∀ (l : List β) (s : IOScheduler W), P s → Run.All P id (l.foldlM f s) := by
  intro l
  induction l with
  | nil => intro s h; exact Run.All_pure h
  | cons b l ih =>
    intro s h
    rw [List.foldlM_cons]
    exact Run.All_bind (hf s b h) (fun a ha => ih a ha)

theorem Run.All_of_ok {W α : Type} {P : IOScheduler W → Prop} {π : α → IOScheduler W}
    {r : Run W α} {a : α} (h : Run.All P π r) (hr : r = Except.ok a) : P (π a) := by
  subst hr; unfold Run.All at h; exact h

namespace IOScheduler
variable {W : Type}

variable {C : Collaborators W} {P : IOScheduler W → Prop}

theorem Stable.modify (St : Stable C P) (p : Nat) (f : Event → Event) {s : IOScheduler W} (h : P s) :
    P (s.modify p f) :=
  St.heap s _ s.next_free h

theorem Stable.alloc (St : Stable C P) (e : Event) {s : IOScheduler W} (h : P s) : P (s.alloc e).2 :=
  St.heap s _ _ h

theorem Stable.alloc_list (St : Stable C P) (es : List Event) :
    ∀ {s : IOScheduler W}, P s → P (s.alloc_list es).2 := by
  induction es with
  | nil => intro s h; exact h
  | cons e es ih => intro s h; exact ih (St.alloc e h)

theorem Stable.alloc_migrations (St : Stable C P) (ms : List (List Event)) :
    ∀ {s : IOScheduler W}, P s → P (s.alloc_migrations ms).2 := by
  induction ms with
  | nil => intro s h; exact h
  | cons m ms ih => intro s h; exact ih (St.alloc_list m h)

theorem Stable.push_into_current_events (St : Stable C P) (e : Nat) {s : IOScheduler W} (h : P s) :
    P (s.push_into_current_events e) :=
  St.push s _ e h

theorem Stable.remove_current_operation (St : Stable C P) (e : Nat) {s : IOScheduler W} (h : P s) :
    P (s.remove_current_operation C e) := by
  unfold IOScheduler.remove_current_operation
  dsimp only
  split
  · exact St.call _ _ rfl (St.call _ _ rfl (St.modify _ _ h))
  · split
    · exact St.call _ _ rfl (St.call _ _ rfl (St.modify _ _ h))
    · exact St.modify _ _ h

theorem Stable.foldl_modify (St : Stable C P) (f : Event → Event) (l : List Nat) :
    ∀ {s : IOScheduler W}, P s → P (l.foldl (fun acc p => acc.modify p f) s) := by
  induction l with
  | nil => intro s h; exact h
  | cons p l ih => intro s h; exact ih (St.modify p f h)

theorem Stable.promote_to_gc (St : Stable C P) (e : Nat) {s : IOScheduler W} (h : P s) :
    P (s.promote_to_gc e) := by
  unfold IOScheduler.promote_to_gc
  exact St.foldl_modify _ _ (St.dependencies _ _ (St.modify _ _ h))

theorem Stable.make_dependent (St : Stable C P) (e O : Nat) {s : IOScheduler W} (h : P s) :
    P (s.make_dependent e O) :=
  St.dependencies _ _ (St.op_code_to_dependent_op_codes _ _ h)

theorem Stable.decompose_read (St : Stable C P) (e N : Nat) {s : IOScheduler W} (h : P s) :
    P (s.decompose_read e N) :=
  St.dependencies _ _ (St.dependencies _ _ (St.alloc _ (St.modify _ _ h)))

theorem Stable.transform_copyback (St : Stable C P) (e : Nat) {s : IOScheduler W} (h : P s) :
    P (s.transform_copyback e) :=
  St.dependency_code_to_type _ _ (St.dependencies _ _ (St.dependencies _ _
    (St.alloc _ (St.modify _ _ (St.modify _ _ h)))))

end IOScheduler

namespace IOScheduler
variable {W : Type}
variable {C : Collaborators W} {P : IOScheduler W → Prop}

theorem Stable.fields (St : Stable C P) {s : IOScheduler W} (h : P s) (hp : Nat → Event) (n : Nat)
    (d : Table (List Nat)) (o a : Table Nat) (t : Table event_type) (q : Table (List Nat))
    (c : Nat) :
    P { s with heap := hp, next_free := n, dependencies := d, LBA_currently_executing := o,
               dependency_code_to_LBA := a, dependency_code_to_type := t,
               op_code_to_dependent_op_codes := q, num_write_cancellations := c } :=
  St.num_write_cancellations _ c (St.op_code_to_dependent_op_codes _ q
    (St.dependency_code_to_type _ t (St.dependency_code_to_LBA _ a
      (St.LBA_currently_executing _ o (St.dependencies _ d (St.heap _ hp n h))))))

theorem Stable.remove_redundant_events_rest (St : Stable C P) (e : Nat) (E : Option Nat)
    (tn ts : event_type) (N O l : Nat) {s : IOScheduler W} (h : P s) :
    Run.All P id (IOScheduler.remove_redundant_events_rest C e E tn ts N O l s) := by
  unfold IOScheduler.remove_redundant_events_rest
  dsimp only
  repeat' first
    | assumption
    | rfl
    | apply Run.All_pure
    | apply Run.All_fail
    | apply St.make_dependent
    | apply St.remove_current_operation
    | apply St.call
    | split
    | apply St.fields

theorem Stable.remove_redundant_events (St : Stable C P) (e : Nat) {s : IOScheduler W} (h : P s) :
    Run.All P id (IOScheduler.remove_redundant_events C e s) := by
  unfold IOScheduler.remove_redundant_events
  dsimp only
  repeat' first
    | assumption
    | rfl
    | apply Run.All_pure
    | apply Run.All_fail
    | apply St.remove_redundant_events_rest
    | apply St.make_dependent
    | apply St.remove_current_operation
    | apply St.promote_to_gc
    | apply St.push_into_current_events
    | apply St.call
    | split
    | apply St.fields

theorem Stable.should_event_be_scheduled (St : Stable C P) (e : Nat) {s : IOScheduler W} (h : P s) :
    Run.All P Prod.snd (IOScheduler.should_event_be_scheduled C e s) := by
  unfold IOScheduler.should_event_be_scheduled
  exact Run.All_bind (St.remove_redundant_events e h) (fun a ha => Run.All_pure ha)

end IOScheduler

namespace IOScheduler
variable {W : Type}

/-- `init_event` with fuel left, as the sequence of its two decision chains. -/
theorem init_event_succ (C : Collaborators W) (fuel event : Nat) (s : IOScheduler W) :
    init_event C (fuel + 1) event s =
      if (s.heap event).noop = true ∧ (s.heap event).type ≠ event_type.GARBAGE_COLLECTION then
        pure (s.push_into_current_events event)
      else
        (if (s.heap event).flexible_read = true
            ∧ ((s.heap event).type = event_type.READ_COMMAND
              ∨ (s.heap event).type = event_type.READ_TRANSFER) then
          pure (f := Run W) (s.push_into_current_events event)
        else if (s.heap event).type = event_type.TRIM
            ∨ (s.heap event).type = event_type.READ_COMMAND
            ∨ (s.heap event).type = event_type.READ_TRANSFER
            ∨ (s.heap event).type = event_type.WRITE
            ∨ (s.heap event).type = event_type.COPY_BACK then
          should_event_be_scheduled C event s >>= fun r =>
            if r.1 = true then pure (r.2.push_into_current_events event) else pure r.2
        else pure s) >>= fun s1 =>
        if (s1.heap event).type = event_type.READ then
          init_event C fuel event (s1.decompose_read event (s.heap event).application_io_id)
        else if (s.heap event).type = event_type.READ_COMMAND
            ∨ (s.heap event).type = event_type.READ_TRANSFER then
          pure ((s1.modify event
                  (fun e => { e with address := C.set_read_address s1.world e })).call C
                  (Call.set_read_address (s1.heap event)))
        else if (s.heap event).type = event_type.WRITE then
          pure (s1.call C (Call.register_write_arrival (s1.heap event)))
        else if (s.heap event).type = event_type.TRIM then
          pure ((s1.modify event
                  (fun e => { e with replace_address := C.set_replace_address s1.world e })).call C
                  (Call.set_replace_address (s1.heap event)))
        else if (s.heap event).type = event_type.GARBAGE_COLLECTION then
          ((s1.call C (Call.migrate (s1.heap event))).alloc_migrations
              (C.migrate s1.world (s1.heap event))).1.reverse.foldlM
            (fun acc migration => init_migration (init_event C fuel) migration acc)
            ((s1.call C (Call.migrate (s1.heap event))).alloc_migrations
              (C.migrate s1.world (s1.heap event))).2
        else if (s.heap event).type = event_type.ERASE then
          pure (s1.push_into_current_events event)
        else pure s1 := by
  rw [init_event]
  by_cases h1 : (s.heap event).noop = true ∧ (s.heap event).type ≠ event_type.GARBAGE_COLLECTION
  · rw [if_pos h1, if_pos h1]
  · rw [if_neg h1, if_neg h1]
    by_cases h2 : (s.heap event).flexible_read = true
            ∧ ((s.heap event).type = event_type.READ_COMMAND
              ∨ (s.heap event).type = event_type.READ_TRANSFER)
    · rw [if_pos h2, if_pos h2]
    · rw [if_neg h2, if_neg h2]
      by_cases h3 : (s.heap event).type = event_type.TRIM
            ∨ (s.heap event).type = event_type.READ_COMMAND
            ∨ (s.heap event).type = event_type.READ_TRANSFER
            ∨ (s.heap event).type = event_type.WRITE
            ∨ (s.heap event).type = event_type.COPY_BACK
      · rw [if_pos h3, if_pos h3]
        cases should_event_be_scheduled C event s with
        | error x => rfl
        | ok r =>
          by_cases h4 : r.1 = true
          · simp only [bind, Except.bind, if_pos h4]
          · simp only [bind, Except.bind, if_neg h4]
      · rw [if_neg h3, if_neg h3]

end IOScheduler

namespace IOScheduler
variable {W : Type}
variable {C : Collaborators W} {P : IOScheduler W → Prop}

theorem Stable.init_migration (St : Stable C P) (k : Nat → IOScheduler W → Run W (IOScheduler W))
    (hk : ∀ e s, P s → Run.All P id (k e s)) (m : List Nat) {s : IOScheduler W} (h : P s) :
    Run.All P id (IOScheduler.init_migration k m s) := by
  unfold IOScheduler.init_migration
  split
  · exact Run.All_fail h
  · exact Run.All_fail h
  · exact hk _ _ (St.fields h _ _ _ _ _ _ _ _)

theorem Stable.init_event (St : Stable C P) : ∀ (fuel e : Nat) {s : IOScheduler W}, P s →
    Run.All P id (IOScheduler.init_event C fuel e s) := by
  intro fuel
  induction fuel with
  | zero => intro e s h; exact Run.All_fail h
  | succ n ih =>
    intro e s h
    rw [init_event_succ]
    repeat' first
      | assumption
      | rfl
      | apply Run.All_pure
      | apply ih
      | refine Run.All_bind_snd (St.should_event_be_scheduled e h) ?_
      | refine Run.All_bind_state ?_ ?_
      | intro _ _
      | apply St.decompose_read
      | apply St.push_into_current_events
      | apply St.modify
      | apply St.call
      | (apply Run.All_foldlM; intro acc m hacc;
         exact St.init_migration _ (fun e s hs => ih e hs) m hacc)
      | apply St.alloc_migrations
      | split

theorem Stable.admit_dependents (St : Stable C P) : ∀ (fuel e code : Nat) {s : IOScheduler W}, P s →
    Run.All P id (IOScheduler.admit_dependents C fuel e code s) := by
  intro fuel
  induction fuel with
  | zero => intro e code s h; exact Run.All_fail h
  | succ n ih =>
    intro e code s h
    unfold IOScheduler.admit_dependents
    split
    · exact Run.All_pure h
    · exact Run.All_pure h
    · dsimp only
      split
      · exact Run.All_fail (St.fields h _ _ _ _ _ _ _ _)
      · refine Run.All_bind_state (St.init_event n _ ?_) (fun a ha => ih e code ha)
        exact St.fields (St.modify _ _ (St.fields h _ _ _ _ _ _ _ _)) _ _ _ _ _ _ _ _

theorem Stable.manage_operation_completion (St : Stable C P) (fuel e : Nat) {s : IOScheduler W}
    (h : P s) : Run.All P id (IOScheduler.manage_operation_completion C fuel e s) := by
  unfold IOScheduler.manage_operation_completion
  refine Run.All_bind_state (St.admit_dependents fuel e _ ?_) ?_
  · exact St.fields h _ _ _ _ _ _ _ _
  · intro a ha
    exact Run.All_pure (St.fields ha _ _ _ _ _ _ _ _)

theorem Stable.handle_finished_event (St : Stable C P) (e : Nat) (o : status) {s : IOScheduler W}
    (h : P s) : Run.All P id (IOScheduler.handle_finished_event C e o s) := by
  unfold IOScheduler.handle_finished_event
  dsimp only
  repeat' first
    | assumption
    | rfl
    | apply Run.All_pure
    | apply Run.All_fail
    | apply St.call
    | split

/-- After the call of `issue`, `execute_next` consists of stable steps. -/
theorem Stable.execute_next (St : Stable C P) (fuel e : Nat) {s : IOScheduler W}
    (h : P (s.call C (Call.issue (s.heap e)))) :
    Run.All P Prod.snd (IOScheduler.execute_next C fuel e s) := by
  unfold IOScheduler.execute_next
  simp only []
  refine Run.All_bind_state (St.handle_finished_event e _ (St.modify _ _ h)) ?_
  intro s2 h2
  repeat' first
    | assumption
    | rfl
    | apply Run.All_pure
    | apply Run.All_fail
    | refine Run.All_bind_state (St.init_event _ _ ?_) ?_
    | refine Run.All_bind_state (St.manage_operation_completion _ _ ?_) ?_
    | refine Run.All_bind_state (Run.All_pure ?_) ?_
    | refine Run.All_bind_state (Run.All_fail ?_) ?_
    | intro _ _
    | apply St.modify
    | apply St.call
    | split
    | apply St.fields

end IOScheduler

namespace IOScheduler
variable {W : Type}
variable {C : Collaborators W} {P : IOScheduler W → Prop}

theorem StableTick.issue_and_execute_next (St : StableTick C P) (fuel e : Nat)
    {s : IOScheduler W} (h : P s) :
    Run.All P Prod.snd (IOScheduler.execute_next C fuel e s) :=
  St.toStable.execute_next fuel e (St.issue _ _ h)

theorem StableTick.any_call (St : StableTick C P) (c : Call) {s : IOScheduler W} (h : P s) : P (s.call C c) := by
  cases hc : Call.issued c with
  | none => exact St.toStable.call c s hc h
  | some e =>
    cases c <;> simp [Call.issued] at hc
    subst hc
    exact St.issue _ _ h

theorem StableTick.handle_event (St : StableTick C P) (fuel e : Nat) {s : IOScheduler W} (h : P s) :
    Run.All P id (IOScheduler.handle_event C fuel e s) := by
  unfold IOScheduler.handle_event
  simp only []
  split
  · exact Run.All_bind (St.issue_and_execute_next fuel e (St.any_call _ (St.any_call _ h)))
      (fun a ha => Run.All_pure ha)
  · exact Run.All_pure (St.toStable.push_into_current_events _
      (St.toStable.modify _ _ (St.any_call _ (St.any_call _ h))))

theorem StableTick.any_wait_time_at (St : StableTick C P) (a : Address) (e : Nat) {s : IOScheduler W}
    (h : P s) : P (IOScheduler.wait_time_at C a e s).2 := by
  unfold IOScheduler.wait_time_at
  simp only []
  split
  · exact St.any_call _ (St.any_call _ h)
  · exact St.any_call _ h

theorem StableTick.handle_flexible_read (St : StableTick C P) (fuel e : Nat) {s : IOScheduler W}
    (h : P s) : Run.All P id (IOScheduler.handle_flexible_read C fuel e s) := by
  unfold IOScheduler.handle_flexible_read
  simp only []
  have h2 := St.any_wait_time_at (C.choose_flexible_read_address s.world (s.heap e)) e
    (St.any_call (Call.choose_flexible_read_address (s.heap e)) h)
  repeat' first
    | assumption
    | apply Run.All_pure
    | apply Run.All_fail
    | refine Run.All_bind_snd (St.issue_and_execute_next _ _ ?_) ?_
    | intro _ _
    | apply St.toStable.push_into_current_events
    | apply St.toStable.modify
    | apply St.any_call
    | split
    | apply St.toStable.fields

theorem StableTick.handle_write (St : StableTick C P) (fuel e : Nat) {s : IOScheduler W}
    (h : P s) : Run.All P id (IOScheduler.handle_write C fuel e s) := by
  unfold IOScheduler.handle_write
  simp only []
  have h2 := St.any_wait_time_at (C.choose_write_address s.world (s.heap e)) e
    (St.any_call (Call.choose_write_address (s.heap e)) h)
  repeat' first
    | assumption
    | apply Run.All_pure
    | apply Run.All_fail
    | refine Run.All_bind_snd (St.issue_and_execute_next _ _ ?_) ?_
    | intro _ _
    | apply St.toStable.push_into_current_events
    | apply St.toStable.transform_copyback
    | apply St.toStable.modify
    | apply St.any_call
    | split

theorem StableTick.handle (St : StableTick C P) (fuel : Nat) (v : List Nat) {s : IOScheduler W}
    (h : P s) : Run.All P id (IOScheduler.handle C fuel v s) := by
  unfold IOScheduler.handle
  apply Run.All_foldlM _ _ _ _ h
  intro acc e hacc
  simp only []
  split
  · exact St.handle_write fuel e hacc
  · split
    · exact St.handle_flexible_read fuel e hacc
    · exact St.handle_event fuel e hacc

theorem StableTick.foldl_call (St : StableTick C P) (f : IOScheduler W → Nat → Call) (l : List Nat) :
    ∀ {s : IOScheduler W}, P s → P (l.foldl (fun st e => st.call C (f st e)) s) := by
  induction l with
  | nil => intro s h; exact h
  | cons p l ih => intro s h; exact ih (St.any_call _ h)

theorem StableTick.handle_noop_events (St : StableTick C P) (fuel : Nat) (v : List Nat)
    {s : IOScheduler W} (h : P s) : Run.All P id (IOScheduler.handle_noop_events C fuel v s) := by
  unfold IOScheduler.handle_noop_events
  apply Run.All_foldlM _ _ _ _ h
  intro acc e hacc
  simp only []
  refine Run.All_bind_state (St.toStable.manage_operation_completion fuel e ?_) ?_
  · refine St.toStable.fields ?_ _ _ _ _ _ _ _ _
    refine St.foldl_call (fun st e => Call.register_event_completion (st.heap e)) _ ?_
    exact St.toStable.fields hacc _ _ _ _ _ _ _ _
  · intro a ha
    exact Run.All_pure (St.any_call _ ha)

theorem StableTick.collect_soonest_events (St : StableTick C P) {s : IOScheduler W} (h : P s) :
    Run.All P Prod.snd (IOScheduler.collect_soonest_events s) := by
  unfold IOScheduler.collect_soonest_events
  split
  · exact Run.All_fail h
  · next b rest heq => exact Run.All_pure (St.pop s _ rest heq h)

theorem StableTick.classify (St : StableTick C P) (fuel : Nat) (l : List Nat) :
    ∀ (cl : Classes) {s : IOScheduler W}, P s →
      Run.All P Prod.snd (IOScheduler.classify C fuel l cl s) := by
  induction l with
  | nil => intro cl s h; exact Run.All_pure h
  | cons e rest ih =>
    intro cl s h
    rw [IOScheduler.classify]
    simp only []
    have ht : P { s with dependency_code_to_type :=
        s.dependency_code_to_type.touch (s.heap e).application_io_id } :=
      St.toStable.fields h _ _ _ _ _ _ _ _
    repeat' first
      | assumption
      | apply ih
      | refine Run.All_bind_snd (St.issue_and_execute_next _ _ h) ?_
      | intro _ _
      | split

theorem StableTick.execute_current_waiting_ios (St : StableTick C P) (fuel : Nat) {s : IOScheduler W}
    (h : P s) : Run.All P id (IOScheduler.execute_current_waiting_ios C fuel s) := by
  unfold IOScheduler.execute_current_waiting_ios
  refine Run.All_bind (St.collect_soonest_events h) ?_
  intro r hr
  refine Run.All_bind (St.classify fuel _ _ hr) ?_
  intro c hc
  refine Run.All_bind_state ?_ ?_
  · exact Run.All_foldlM _ (fun acc v hacc => St.handle fuel v hacc) _ _ hc
  · intro s1 h1
    exact St.handle_noop_events fuel _ h1

theorem StableTick.sweep_future_events (St : StableTick C P) (fuel : Nat) (c : ℚ) (l : List Nat) :
    ∀ (kept : List Nat) {s : IOScheduler W}, P s →
      Run.All P id (IOScheduler.sweep_future_events C fuel c kept l s) := by
  induction l with
  | nil => intro kept s h; exact Run.All_pure h
  | cons e rest ih =>
    intro kept s h
    unfold IOScheduler.sweep_future_events
    split
    · refine Run.All_bind_state (St.toStable.init_event fuel e h) ?_
      intro s1 h1
      exact ih _ (St.future_events _ _ h1)
    · exact ih _ h

theorem StableTick.update_current_events (St : StableTick C P) (fuel : Nat) {s : IOScheduler W}
    (h : P s) : Run.All P id (IOScheduler.update_current_events C fuel s) := by
  unfold IOScheduler.update_current_events
  exact St.sweep_future_events fuel _ _ _ (St.any_call _ (St.future_events _ _ (St.any_call _ h)))

theorem StableTick.finish_loop (St : StableTick C P) (time : ℚ) : ∀ (fuel : Nat) {s : IOScheduler W},
    P s → Run.All P id (IOScheduler.finish_loop C fuel time s) := by
  intro fuel
  induction fuel with
  | zero => intro s h; exact Run.All_fail h
  | succ n ih =>
    intro s h
    unfold IOScheduler.finish_loop
    split
    · refine Run.All_bind_state (St.execute_current_waiting_ios n h) ?_
      intro s1 h1
      refine Run.All_bind_state (St.update_current_events n h1) ?_
      intro s2 h2
      exact ih h2
    · exact Run.All_pure h

theorem StableTick.finish_all_events_until_this_time (St : StableTick C P) (fuel : Nat) (time : ℚ)
    {s : IOScheduler W} (h : P s) :
    Run.All P id (IOScheduler.finish_all_events_until_this_time C fuel time s) := by
  unfold IOScheduler.finish_all_events_until_this_time
  exact Run.All_bind_state (St.update_current_events fuel h)
    (fun s1 h1 => St.finish_loop time fuel h1)

theorem StableTick.execute_soonest_events (St : StableTick C P) (fuel : Nat) {s : IOScheduler W}
    (h : P s) : Run.All P id (IOScheduler.execute_soonest_events C fuel s) :=
  St.finish_all_events_until_this_time fuel _ h

theorem StableTick.schedule_events_queue (St : StableTick C P) (events : List Nat) {s : IOScheduler W}
    (h : P s) : Run.All P id (IOScheduler.schedule_events_queue events s) := by
  unfold IOScheduler.schedule_events_queue
  split
  · exact Run.All_fail h
  · simp only []
    split_ifs <;>
    first
      | exact Run.All_fail (St.toStable.fields h _ _ _ _ _ _ _ _)
      | (split
         · exact Run.All_fail (St.toStable.fields h _ _ _ _ _ _ _ _)
         · apply Run.All_pure
           apply St.future_events
           split
           · exact St.toStable.fields (St.toStable.modify _ _
               (St.toStable.fields h _ _ _ _ _ _ _ _)) _ _ _ _ _ _ _ _
           · exact St.toStable.fields h _ _ _ _ _ _ _ _)

theorem StableTick.submit_queue (St : StableTick C P) (events : List Event) {s : IOScheduler W}
    (h : P s) : Run.All P id (IOScheduler.submit_queue events s) :=
  St.schedule_events_queue _ (St.toStable.alloc_list events h)

/-- A property that holds of the scheduler as constructed and is kept by every elementary step
holds of every reachable state. -/
theorem StableTick.reachable (St : StableTick C P) (h0 : ∀ w, P (IOScheduler.init w)) {s : IOScheduler W}
    (h : Reachable C s) : P s := by
  induction h with
  | init w => exact h0 w
  | schedule_events_queue events _ hrun ih => exact Run.All_of_ok (St.submit_queue events ih) hrun
  | execute_soonest_events fuel _ hrun ih =>
    exact Run.All_of_ok (St.execute_soonest_events fuel ih) hrun
  | finish_all_events_until_this_time fuel time _ hrun ih =>
    exact Run.All_of_ok (St.finish_all_events_until_this_time fuel time ih) hrun

end IOScheduler

namespace IOScheduler
variable {W : Type}

theorem bucket_insert_keys (k : Int) (p : Nat) (l : List (Int × List Nat)) :
    ∀ x ∈ (bucket_insert k p l).map Prod.fst, x = k ∨ x ∈ l.map Prod.fst := by
  induction l with
  | nil => simp [bucket_insert]
  | cons b rest ih =>
    obtain ⟨k', es⟩ := b
    intro x hx
    unfold bucket_insert at hx
    split at hx
    · simp at hx ⊢; tauto
    · split at hx
      · simp at hx ⊢; tauto
      · simp only [List.map_cons, List.mem_cons] at hx ⊢
        rcases hx with hx | hx
        · exact Or.inr (Or.inl hx)
        · rcases ih x hx with h | h
          · exact Or.inl h
          · exact Or.inr (Or.inr h)

theorem bucket_insert_sorted (k : Int) (p : Nat) (l : List (Int × List Nat))
    (h : (l.map Prod.fst).Pairwise (fun a b => a < b)) :
    ((bucket_insert k p l).map Prod.fst).Pairwise (fun a b => a < b) := by
  induction l with
  | nil => simp [bucket_insert]
  | cons b rest ih =>
    obtain ⟨k', es⟩ := b
    simp only [List.map_cons, List.pairwise_cons] at h
    unfold bucket_insert
    split
    · next hlt =>
      simp only [List.map_cons, List.pairwise_cons, List.mem_cons]
      refine ⟨?_, h.1, h.2⟩
      intro x hx
      rcases hx with hx | hx
      · rw [hx]; exact hlt
      · exact lt_trans hlt (h.1 x hx)
    · split
      · simp only [List.map_cons, List.pairwise_cons]
        exact h
      · next hnlt hne =>
        simp only [List.map_cons, List.pairwise_cons]
        refine ⟨?_, ih h.2⟩
        intro x hx
        rcases bucket_insert_keys k p rest x hx with hx | hx
        · rw [hx]; omega
        · exact h.1 x hx

/-- The keys of `current_events` are strictly increasing: the list models an ordered map. -/
theorem stable_sorted_keys (C : Collaborators W) :
    StableTick C (fun s => (s.current_events.map Prod.fst).Pairwise (fun a b => a < b)) where
  call := fun _ _ _ h => h
  heap := fun _ _ _ h => h
  dependencies := fun _ _ h => h
  LBA_currently_executing := fun _ _ h => h
  dependency_code_to_LBA := fun _ _ h => h
  dependency_code_to_type := fun _ _ h => h
  op_code_to_dependent_op_codes := fun _ _ h => h
  num_write_cancellations := fun _ _ h => h
  push := fun s k p h => bucket_insert_sorted k p s.current_events h
  issue := fun _ _ h => h
  future_events := fun _ _ h => h
  pop := fun s b rest heq h => by
    simp only [heq, List.map_cons, List.pairwise_cons] at h
    exact h.2

theorem reachable_sorted_keys (C : Collaborators W) {s : IOScheduler W} (h : Reachable C s) :
    (s.current_events.map Prod.fst).Pairwise (fun a b => a < b) :=
  (stable_sorted_keys C).reachable (fun _ => List.Pairwise.nil) h

theorem get_soonest_event_time_min (s : IOScheduler W) (es : List Nat) :
    ∀ (e : Nat), (∃ m ∈ e :: es, s.get_soonest_event_time e es = (s.heap m).current_time)
      ∧ ∀ p ∈ e :: es, s.get_soonest_event_time e es ≤ (s.heap p).current_time := by
  unfold get_soonest_event_time
  suffices H : ∀ (es : List Nat) (t : ℚ),
      (es.foldl (fun earliest_time p =>
          if (s.heap p).current_time < earliest_time then (s.heap p).current_time
          else earliest_time) t = t
        ∨ ∃ m ∈ es, es.foldl (fun earliest_time p =>
          if (s.heap p).current_time < earliest_time then (s.heap p).current_time
          else earliest_time) t = (s.heap m).current_time)
      ∧ es.foldl (fun earliest_time p =>
          if (s.heap p).current_time < earliest_time then (s.heap p).current_time
          else earliest_time) t ≤ t
      ∧ ∀ p ∈ es, es.foldl (fun earliest_time p =>
          if (s.heap p).current_time < earliest_time then (s.heap p).current_time
          else earliest_time) t ≤ (s.heap p).current_time by
    intro e
    obtain ⟨h1, h2, h3⟩ := H es (s.heap e).current_time
    constructor
    · rcases h1 with h1 | ⟨m, hm, h1⟩
      · exact ⟨e, List.mem_cons_self _ _, h1⟩
      · exact ⟨m, List.mem_cons_of_mem _ hm, h1⟩
    · intro p hp
      rcases List.mem_cons.mp hp with hp | hp
      · rw [hp]; exact h2
      · exact h3 p hp
  intro es
  induction es with
  | nil => intro t; simp
  | cons a rest ih =>
    intro t
    simp only [List.foldl_cons]
    obtain ⟨h1, h2, h3⟩ := ih (if (s.heap a).current_time < t then (s.heap a).current_time else t)
    refine ⟨?_, ?_, ?_⟩
    · rcases h1 with h1 | ⟨m, hm, h1⟩
      · by_cases hlt : (s.heap a).current_time < t
        · right; exact ⟨a, List.mem_cons_self _ _, by rw [h1, if_pos hlt]⟩
        · left; rw [h1, if_neg hlt]
      · right; exact ⟨m, List.mem_cons_of_mem _ hm, h1⟩
    · refine le_trans h2 ?_
      split
      · next hlt => exact le_of_lt hlt
      · exact le_refl _
    · intro p hp
      rcases List.mem_cons.mp hp with hp | hp
      · rw [hp]
        refine le_trans h2 ?_
        split
        · exact le_refl _
        · next hlt => exact le_of_not_lt hlt
      · exact h3 p hp

end IOScheduler

namespace IOScheduler
variable {W : Type}

theorem Stable.wait_time_at {C : Collaborators W} {P : IOScheduler W → Prop} (St : Stable C P)
    (a : Address) (e : Nat) {s : IOScheduler W} (h : P s) :
    P (IOScheduler.wait_time_at C a e s).2 := by
  unfold IOScheduler.wait_time_at
  simp only []
  split
  · exact St.call _ _ rfl (St.call _ _ rfl h)
  · exact St.call _ _ rfl h

/-- The calls made since the log was `L` hand to `issue` only events with a page number below
`B`: a property kept by every step that is not a call of `issue`. -/
theorem stable_issued_pages (C : Collaborators W) (L : List Call) (B : Nat) :
    Stable C (fun s => ∃ l, s.log = L ++ l
      ∧ ∀ ev, Call.issue ev ∈ l → ev.address.page < B) where
  call := fun c s hc h => by
    obtain ⟨l, hl, hp⟩ := h
    refine ⟨l ++ [c], by simp [call, hl], ?_⟩
    intro ev hev
    rcases List.mem_append.mp hev with hev | hev
    · exact hp ev hev
    · rw [List.mem_singleton] at hev
      rw [← hev] at hc
      simp [Call.issued] at hc
  heap := fun _ _ _ h => h
  dependencies := fun _ _ h => h
  LBA_currently_executing := fun _ _ h => h
  dependency_code_to_LBA := fun _ _ h => h
  dependency_code_to_type := fun _ _ h => h
  op_code_to_dependent_op_codes := fun _ _ h => h
  num_write_cancellations := fun _ _ h => h
  push := fun _ _ _ h => h

theorem issued_pages_issue (C : Collaborators W) (L : List Call) (B : Nat) (ev : Event)
    (hev : ev.address.page < B) {s : IOScheduler W}
    (h : ∃ l, s.log = L ++ l ∧ ∀ ev, Call.issue ev ∈ l → ev.address.page < B) :
    ∃ l, (s.call C (Call.issue ev)).log = L ++ l
      ∧ ∀ ev, Call.issue ev ∈ l → ev.address.page < B := by
  obtain ⟨l, hl, hp⟩ := h
  refine ⟨l ++ [Call.issue ev], by simp [call, hl], ?_⟩
  intro ev' hev'
  rcases List.mem_append.mp hev' with hev' | hev'
  · exact hp ev' hev'
  · rw [List.mem_singleton] at hev'
    cases hev'
    exact hev

theorem modify_logical_address_address (p e : Nat) (v : Nat) (t : IOScheduler W) :
    ((t.modify p (fun x => { x with logical_address := v })).heap e).address
      = (t.heap e).address := by
  simp only [IOScheduler.modify]
  split
  · next h => rw [h]
  · rfl

theorem modify_address_self (e : Nat) (a : Address) (t : IOScheduler W) :
    ((t.modify e (fun x => { x with address := a })).heap e).address = a := by
  simp [IOScheduler.modify]

theorem handle_write_issued_pages (C : Collaborators W) (fuel e : Nat) (s : IOScheduler W) :
    Run.All (fun t => ∃ l, t.log = s.log ++ l
      ∧ ∀ ev, Call.issue ev ∈ l → ev.address.page < C.BLOCK_SIZE) id
      (handle_write C fuel e s) := by
  have St := stable_issued_pages C s.log C.BLOCK_SIZE
  have h0 : ∃ l, s.log = s.log ++ l ∧ ∀ ev, Call.issue ev ∈ l → ev.address.page < C.BLOCK_SIZE :=
    ⟨[], by simp, by simp⟩
  have h2 := St.wait_time_at (C.choose_write_address s.world (s.heap e)) e
    (St.call (Call.choose_write_address (s.heap e)) s rfl h0)
  unfold handle_write
  simp only []
  split
  · split
    · next hpage =>
      refine Run.All_bind_snd (St.execute_next fuel e ?_) (fun a ha => Run.All_pure ha)
      refine issued_pages_issue C _ _ _ ?_ (St.call _ _ rfl (St.modify _ _ (St.modify _ _ h2)))
      simpa [IOScheduler.modify, call] using hpage
    · exact Run.All_fail (St.call _ _ rfl (St.modify _ _ (St.modify _ _ h2)))
  · apply Run.All_pure
    apply St.push_into_current_events
    split
    · exact St.transform_copyback _ (St.modify _ _ h2)
    · exact St.modify _ _ h2

theorem handle_flexible_read_issued_pages (C : Collaborators W) (fuel e : Nat)
    (s : IOScheduler W) :
    Run.All (fun t => ∃ l, t.log = s.log ++ l
      ∧ ∀ ev, Call.issue ev ∈ l → ev.address.page < C.BLOCK_SIZE) id
      (handle_flexible_read C fuel e s) := by
  have St := stable_issued_pages C s.log C.BLOCK_SIZE
  have h0 : ∃ l, s.log = s.log ++ l ∧ ∀ ev, Call.issue ev ∈ l → ev.address.page < C.BLOCK_SIZE :=
    ⟨[], by simp, by simp⟩
  have h2 := St.wait_time_at (C.choose_flexible_read_address s.world (s.heap e)) e
    (St.call (Call.choose_flexible_read_address (s.heap e)) s rfl h0)
  unfold handle_flexible_read
  simp only []
  have h3 : ∀ (c : Prop) [Decidable c] (q : Call), Call.issued q = none →
      (∃ l, (if c then (wait_time_at C (C.choose_flexible_read_address s.world (s.heap e)) e
          (s.call C (Call.choose_flexible_read_address (s.heap e)))).2.call C q
        else (wait_time_at C (C.choose_flexible_read_address s.world (s.heap e)) e
          (s.call C (Call.choose_flexible_read_address (s.heap e)))).2).log = s.log ++ l
        ∧ ∀ ev, Call.issue ev ∈ l → ev.address.page < C.BLOCK_SIZE) := by
    intro c _ q hq
    split
    · exact St.call _ _ hq h2
    · exact h2
  split
  · split
    · exact Run.All_fail (St.dependencies _ _ (St.call _ _ rfl (St.modify _ _ (h3 _ _ rfl))))
    · split
      · next hpage =>
        refine Run.All_bind_snd (St.execute_next fuel e ?_) (fun a ha => Run.All_pure ha)
        refine issued_pages_issue C _ _ _ ?_
          (St.modify _ _ (St.dependencies _ _ (St.call _ _ rfl (St.modify _ _ (h3 _ _ rfl)))))
        rw [modify_logical_address_address]
        exact lt_of_eq_of_lt (congrArg Address.page (modify_address_self e _ _)) hpage
      · exact Run.All_fail
          (St.modify _ _ (St.dependencies _ _ (St.call _ _ rfl (St.modify _ _ (h3 _ _ rfl)))))
  · exact Run.All_pure (St.push_into_current_events _ (St.modify _ _ (h3 _ _ rfl)))

end IOScheduler

theorem Run.All_ok_iff {W α : Type} {P : IOScheduler W → Prop} {π : α → IOScheduler W}
    {a : α} : Run.All P π (Except.ok a) ↔ P (π a) := by
  unfold Run.All; exact Iff.rfl

theorem Run.All_error_iff {W α : Type} {P : IOScheduler W → Prop} {π : α → IOScheduler W}
    {f : Fault} {t : IOScheduler W} :
    Run.All P π (Except.error (f, t) : Run W α) ↔ P t := by
  unfold Run.All; exact Iff.rfl

namespace IOScheduler
variable {W : Type}

theorem handle_finished_event_success (C : Collaborators W) (e : Nat) (s : IOScheduler W) :
    ∃ w l, handle_finished_event C e status.SUCCESS s
      = Except.ok { s with world := w, log := s.log ++ l }
      ∧ ∀ ev, Call.issue ev ∉ l := by
  have key : ∀ (l : List Call), (∀ ev, Call.issue ev ∉ l) →
      ∃ w l', (pure (l.foldl (fun t c => t.call C c) s) : Run W (IOScheduler W))
          = Except.ok { s with world := w, log := s.log ++ l' }
        ∧ ∀ ev, Call.issue ev ∉ l' := by
    intro l hl
    refine ⟨(l.foldl (fun t c => t.call C c) s).world, l, congrArg Except.ok ?_, hl⟩
    clear hl
    induction l generalizing s with
    | nil => simp
    | cons c l ih =>
      rw [List.foldl_cons, ih]
      simp [call]
  unfold handle_finished_event
  simp only [reduceCtorEq, if_false]
  split
  · exact key [Call.register_completed_event (s.heap e),
      Call.register_write_completion (s.heap e) status.SUCCESS,
      Call.register_write_outcome (s.heap e) status.SUCCESS] (by simp)
  · split
    · exact key [Call.register_completed_event (s.heap e),
        Call.register_erase_outcome (s.heap e) status.SUCCESS] (by simp)
    · split
      · exact key [Call.register_completed_event (s.heap e),
          Call.register_read_command_outcome (s.heap e) status.SUCCESS] (by simp)
      · split
        · exact key [Call.register_completed_event (s.heap e),
            Call.register_read_completion (s.heap e) status.SUCCESS,
            Call.register_read_transfer_outcome (s.heap e) status.SUCCESS] (by simp)
        · split
          · exact key [Call.register_completed_event (s.heap e),
              Call.register_trim_completion (s.heap e), Call.trim (s.heap e)] (by simp)
          · exact key [Call.register_completed_event (s.heap e)] (by simp)

theorem admit_dependents_drains (C : Collaborators W) :
    ∀ (fuel event code : Nat) (s s' : IOScheduler W),
      admit_dependents C fuel event code s = Except.ok s' →
      s'.op_code_to_dependent_op_codes.get code = [] := by
  intro fuel
  induction fuel with
  | zero => intro event code s s' h; simp [admit_dependents, fail] at h
  | succ n ih =>
    intro event code s s' h
    unfold admit_dependents at h
    split at h
    · next hn => cases h; simp [Table.get, hn]; rfl
    · next hn => cases h; simp [Table.get, hn]
    · simp only [] at h
      split at h
      · simp [fail] at h
      · obtain ⟨s5, _, h5⟩ := bind_ok h
        exact ih _ _ _ _ h5

theorem admit_dependents_step (C : Collaborators W) (fuel event code D f : Nat)
    (rest tl : List Nat) (s : IOScheduler W)
    (hd : s.op_code_to_dependent_op_codes code = some (D :: rest))
    (hp : s.dependencies D = some (f :: tl)) :
    admit_dependents C (fuel + 1) event code s
      = init_event C fuel f
          { (({ s with op_code_to_dependent_op_codes :=
                  s.op_code_to_dependent_op_codes.set code rest } : IOScheduler W).modify f
              (fun x => x.incr_bus_wait_time
                ((s.heap event).current_time - (s.heap f).current_time))) with
            dependencies := s.dependencies.set D tl }
        >>= admit_dependents C fuel event code := by
  simp [admit_dependents, hd, Table.touch_of_some hp, Table.get_of_some hp, IOScheduler.modify]

end IOScheduler

namespace IOScheduler
variable {W : Type}

theorem handle_singleton (C : Collaborators W) (fuel e : Nat) (s : IOScheduler W) :
    handle C fuel [e] s =
      (if (s.heap e).type = event_type.WRITE ∨ (s.heap e).type = event_type.COPY_BACK then
        handle_write C fuel e s
      else if (s.heap e).type = event_type.READ_COMMAND ∧ (s.heap e).flexible_read = true then
        handle_flexible_read C fuel e s
      else handle_event C fuel e s) := by
  simp only [handle, List.reverse_singleton, List.foldlM_cons, List.foldlM_nil]
  exact bind_pure _

theorem handle_eq_foldlM (C : Collaborators W) (fuel : Nat) (v : List Nat) (s : IOScheduler W) :
    handle C fuel v s = v.reverse.foldlM (fun acc e => handle C fuel [e] acc) s := by
  have h : (fun (acc : IOScheduler W) (e : Nat) => handle C fuel [e] acc)
      = (fun acc event =>
          if (acc.heap event).type = event_type.WRITE
              ∨ (acc.heap event).type = event_type.COPY_BACK then
            handle_write C fuel event acc
          else if (acc.heap event).type = event_type.READ_COMMAND
              ∧ (acc.heap event).flexible_read = true then
            handle_flexible_read C fuel event acc
          else handle_event C fuel event acc) := by
    funext acc e
    exact handle_singleton C fuel e acc
  rw [h]
  rfl

theorem foldlM_handle_lists (C : Collaborators W) (fuel : Nat) (ls : List (List Nat)) :
    ∀ (s : IOScheduler W), ls.foldlM (fun acc v => handle C fuel v acc) s
      = (ls.map List.reverse).flatten.foldlM (fun acc e => handle C fuel [e] acc) s := by
  induction ls with
  | nil => intro s; rfl
  | cons v rest ih =>
    intro s
    rw [List.foldlM_cons, List.map_cons, List.flatten_cons, List.foldlM_append,
      handle_eq_foldlM]
    congr 1
    funext s1
    exact ih s1

theorem execute_current_waiting_ios_eq (C : Collaborators W) (fuel : Nat) (s : IOScheduler W)
    (r : List Nat × IOScheduler W) (hr : s.collect_soonest_events = Except.ok r)
    (c : Classes × IOScheduler W)
    (hc : classify C fuel r.1.reverse Classes.empty r.2 = Except.ok c) :
    execute_current_waiting_ios C fuel s
      = (((dispatch_order C c.2 c.1).map List.reverse).flatten.foldlM
            (fun acc e => handle C fuel [e] acc) c.2
          >>= handle_noop_events C fuel c.1.noop_events) := by
  simp only [execute_current_waiting_ios, hr, hc, bind, Except.bind]
  rw [← foldlM_handle_lists]

end IOScheduler
namespace IOScheduler
variable {W : Type}

theorem class_of_congr (s t : IOScheduler W) (hh : t.heap = s.heap)
    (ht : ∀ k, t.dependency_code_to_type.get k = s.dependency_code_to_type.get k) (p : Nat) :
    t.class_of p = s.class_of p := by
  simp only [class_of, hh, ht]

theorem of_class_congr (s t : IOScheduler W) (hh : t.heap = s.heap)
    (ht : ∀ k, t.dependency_code_to_type.get k = s.dependency_code_to_type.get k)
    (k : dispatch_class) (l : List Nat) : t.of_class k l = s.of_class k l := by
  simp only [of_class, class_of_congr s t hh ht]

theorem of_class_cons (s : IOScheduler W) (k : dispatch_class) (p : Nat) (l : List Nat) :
    s.of_class k (p :: l) = if s.class_of p = some k then p :: s.of_class k l
      else s.of_class k l := by
  simp only [of_class, List.filter_cons]
  split <;> simp_all

/-- The partition of a list without TRIM that is not noop: every vector receives the events
of its class, in order; the heap is unchanged, and so is the type recorded for every op. -/
theorem classify_of_class (C : Collaborators W) (fuel : Nat) (l : List Nat) :
    ∀ (cl : Classes) (s : IOScheduler W),
      (∀ p ∈ l, (s.heap p).noop = true ∨ (s.heap p).type ≠ event_type.TRIM) →
      ∃ t : IOScheduler W, t.heap = s.heap
        ∧ (∀ k, t.dependency_code_to_type.get k = s.dependency_code_to_type.get k)
        ∧ t.current_events = s.current_events ∧ t.log = s.log
        ∧ classify C fuel l cl s = Except.ok
            ({ read_commands := cl.read_commands ++ s.of_class dispatch_class.read_command l,
               read_commands_copybacks := cl.read_commands_copybacks
                 ++ s.of_class dispatch_class.read_command_copyback l,
               read_commands_flexible := cl.read_commands_flexible
                 ++ s.of_class dispatch_class.read_command_flexible l,
               read_transfers := cl.read_transfers ++ s.of_class dispatch_class.read_transfer l,
               gc_writes := cl.gc_writes ++ s.of_class dispatch_class.gc_write l,
               writes := cl.writes ++ s.of_class dispatch_class.write l,
               erases := cl.erases ++ s.of_class dispatch_class.erase l,
               copy_backs := cl.copy_backs ++ s.of_class dispatch_class.copy_back l,
               noop_events := cl.noop_events ++ s.of_class dispatch_class.noop_event l }, t) := by
  induction l with
  | nil =>
    intro cl s _
    exact ⟨s, rfl, fun _ => rfl, rfl, rfl, by simp [classify, of_class, pure, Except.pure]⟩
  | cons e rest ih =>
    intro cl s hT
    have hTe := hT e (List.mem_cons_self _ _)
    have hTr : ∀ p ∈ rest, (s.heap p).noop = true ∨ (s.heap p).type ≠ event_type.TRIM :=
      fun p hp => hT p (List.mem_cons_of_mem _ hp)
    have hs1 : ∀ k, ({ s with dependency_code_to_type :=
        s.dependency_code_to_type.touch (s.heap e).application_io_id }
        : IOScheduler W).dependency_code_to_type.get k = s.dependency_code_to_type.get k := by
      intro k
      simp only [Table.get, Table.touch]
      split
      · next h => rw [h]; simp [Table.get]
      · rfl
    rw [classify]
    simp only []
    by_cases hn : (s.heap e).noop = true
    · obtain ⟨t, h1, h2, h3, h4, h5⟩ :=
        ih { cl with noop_events := cl.noop_events ++ [e] } s hTr
      refine ⟨t, h1, h2, h3, h4, ?_⟩
      rw [if_pos hn, h5]
      simp [of_class_cons, class_of, hn]
    · rw [if_neg hn]
      have hne : (s.heap e).type ≠ event_type.TRIM := by
        rcases hTe with h | h
        · exact absurd h hn
        · exact h
      cases hty : (s.heap e).type with
      | TRIM => exact absurd hty hne
      | READ =>
        obtain ⟨t, h1, h2, h3, h4, h5⟩ := ih cl s hTr
        refine ⟨t, h1, h2, h3, h4, ?_⟩
        simp [h5, of_class_cons, class_of, hn, hty]
      | GARBAGE_COLLECTION =>
        obtain ⟨t, h1, h2, h3, h4, h5⟩ := ih cl s hTr
        refine ⟨t, h1, h2, h3, h4, ?_⟩
        simp [h5, of_class_cons, class_of, hn, hty]
      | READ_TRANSFER =>
        obtain ⟨t, h1, h2, h3, h4, h5⟩ :=
          ih { cl with read_transfers := cl.read_transfers ++ [e] } s hTr
        refine ⟨t, h1, h2, h3, h4, ?_⟩
        simp [h5, of_class_cons, class_of, hn, hty]
      | ERASE =>
        obtain ⟨t, h1, h2, h3, h4, h5⟩ := ih { cl with erases := cl.erases ++ [e] } s hTr
        refine ⟨t, h1, h2, h3, h4, ?_⟩
        simp [h5, of_class_cons, class_of, hn, hty]
      | COPY_BACK =>
        obtain ⟨t, h1, h2, h3, h4, h5⟩ :=
          ih { cl with copy_backs := cl.copy_backs ++ [e] } s hTr
        refine ⟨t, h1, h2, h3, h4, ?_⟩
        simp [h5, of_class_cons, class_of, hn, hty]
      | WRITE =>
        by_cases hg : (s.heap e).garbage_collection_op = true
        · obtain ⟨t, h1, h2, h3, h4, h5⟩ :=
            ih { cl with gc_writes := cl.gc_writes ++ [e] } s hTr
          refine ⟨t, h1, h2, h3, h4, ?_⟩
          simp [h5, of_class_cons, class_of, hn, hty, hg]
        · obtain ⟨t, h1, h2, h3, h4, h5⟩ := ih { cl with writes := cl.writes ++ [e] } s hTr
          refine ⟨t, h1, h2, h3, h4, ?_⟩
          simp [h5, of_class_cons, class_of, hn, hty, hg]
      | READ_COMMAND =>
        have hoc : ∀ k, ({ s with dependency_code_to_type :=
            s.dependency_code_to_type.touch (s.heap e).application_io_id }
            : IOScheduler W).of_class k rest = s.of_class k rest :=
          fun k => of_class_congr s { s with dependency_code_to_type :=
            (s.dependency_code_to_type.touch (s.heap e).application_io_id) } rfl hs1 k rest
        by_cases hcb : s.dependency_code_to_type.get (s.heap e).application_io_id
            = event_type.COPY_BACK
        · obtain ⟨t, h1, h2, h3, h4, h5⟩ :=
            ih { cl with read_commands_copybacks := cl.read_commands_copybacks ++ [e] }
              { s with dependency_code_to_type :=
                  s.dependency_code_to_type.touch (s.heap e).application_io_id } hTr
          refine ⟨t, h1, fun k => (h2 k).trans (hs1 k), h3, h4, ?_⟩
          simp only [hoc] at h5
          simp [h5, of_class_cons, class_of, hn, hty, hcb, hs1]
        · by_cases hf : (s.heap e).flexible_read = true
          · obtain ⟨t, h1, h2, h3, h4, h5⟩ :=
              ih { cl with read_commands_flexible := cl.read_commands_flexible ++ [e] }
                { s with dependency_code_to_type :=
                    s.dependency_code_to_type.touch (s.heap e).application_io_id } hTr
            refine ⟨t, h1, fun k => (h2 k).trans (hs1 k), h3, h4, ?_⟩
            simp only [hoc] at h5
            simp [h5, of_class_cons, class_of, hn, hty, hcb, hs1, hf]
          · obtain ⟨t, h1, h2, h3, h4, h5⟩ :=
              ih { cl with read_commands := cl.read_commands ++ [e] }
                { s with dependency_code_to_type :=
                    s.dependency_code_to_type.touch (s.heap e).application_io_id } hTr
            refine ⟨t, h1, fun k => (h2 k).trans (hs1 k), h3, h4, ?_⟩
            simp only [hoc] at h5
            simp [h5, of_class_cons, class_of, hn, hty, hcb, hs1, hf]

theorem count_of_class (s : IOScheduler W) (k : dispatch_class) (l : List Nat) (p : Nat) :
    (s.of_class k l).count p = if s.class_of p = some k then l.count p else 0 := by
  unfold of_class
  split
  · next h => exact List.count_filter (by simpa using h)
  · next h =>
    apply List.count_eq_zero.mpr
    intro hm
    rw [List.mem_filter] at hm
    exact h (by simpa using hm.2)

theorem collect_soonest_events_ok (s : IOScheduler W) (r : List Nat × IOScheduler W)
    (hr : s.collect_soonest_events = Except.ok r) :
    r.2.heap = s.heap ∧ r.2.dependency_code_to_type = s.dependency_code_to_type
      ∧ ∃ k rest, s.current_events = (k, r.1) :: rest ∧ r.2.current_events = rest := by
  unfold collect_soonest_events at hr
  split at hr
  · simp [fail] at hr
  · next k b rest heq =>
    cases hr
    exact ⟨rfl, rfl, k, rest, heq, rfl⟩

end IOScheduler
theorem Run.eq_ok_of_isSome {W α : Type} (r : Run W α) (h : r.final.isSome = true) :
    ∃ a, r = Except.ok a := by
  cases r with
  | error e => simp [Run.final] at h
  | ok a => exact ⟨a, rfl⟩

theorem Scenario.mixed_bucket_collect :
    Scenario.mixed_bucket.collect_soonest_events
      = Except.ok ([0, 1, 2], { Scenario.mixed_bucket with current_events := [] }) := by
  have h : Scenario.mixed_bucket.current_events = [(0, [0, 1, 2])] := by decide!
  simp only [IOScheduler.collect_soonest_events, h]
  rfl

namespace IOScheduler
variable {W : Type}

/-- The branch of lines 793-802. -/
theorem remove_redundant_events_gc_superseded (C : Collaborators W) (s : IOScheduler W)
    (e E N O : Nat) (T : event_type) (hN : (s.heap e).application_io_id = N)
    (hown : s.LBA_currently_executing (s.heap e).logical_address = some O) (hne : O ≠ N)
    (htN : s.dependency_code_to_type N = some T)
    (hT : T = event_type.WRITE ∨ T = event_type.TRIM)
    (hE : s.find_scheduled_event O = some E)
    (hgE : (s.heap E).garbage_collection_op = true)
    (hgN : (s.heap e).garbage_collection_op = false) :
    remove_redundant_events C e s =
      Except.ok
        { (remove_current_operation C E
            (promote_to_gc e
              (if T = event_type.TRIM then
                ({ s with dependency_code_to_type := s.dependency_code_to_type.touch O }
                  : IOScheduler W).call C Call.register_trim_making_gc_redundant
              else { s with dependency_code_to_type := s.dependency_code_to_type.touch O }))) with
          LBA_currently_executing := s.LBA_currently_executing.set (s.heap e).logical_address N,
          num_write_cancellations := s.num_write_cancellations + 1 } := by
  have h1 : s.dependency_code_to_type.touch N = s.dependency_code_to_type :=
    Table.touch_of_some htN
  have h2 : s.dependency_code_to_type.get N = T := Table.get_of_some htN
  obtain ⟨-, -, -, f4, -, -, -, f8, -⟩ := remove_current_operation_frame C
    (promote_to_gc e
      (if T = event_type.TRIM then
        ({ s with dependency_code_to_type := s.dependency_code_to_type.touch O }
          : IOScheduler W).call C Call.register_trim_making_gc_redundant
      else { s with dependency_code_to_type := s.dependency_code_to_type.touch O })) E
  obtain ⟨-, -, -, g4, -, -, -, g8, -⟩ := promote_to_gc_frame
    (if T = event_type.TRIM then
      ({ s with dependency_code_to_type := s.dependency_code_to_type.touch O }
        : IOScheduler W).call C Call.register_trim_making_gc_redundant
    else { s with dependency_code_to_type := s.dependency_code_to_type.touch O }) e
  have h3 : (if T = event_type.TRIM then
      ({ s with dependency_code_to_type := s.dependency_code_to_type.touch O }
        : IOScheduler W).call C Call.register_trim_making_gc_redundant
      else { s with dependency_code_to_type := s.dependency_code_to_type.touch O }
      ).LBA_currently_executing = s.LBA_currently_executing := by
    split <;> rfl
  have h4 : (if T = event_type.TRIM then
      ({ s with dependency_code_to_type := s.dependency_code_to_type.touch O }
        : IOScheduler W).call C Call.register_trim_making_gc_redundant
      else { s with dependency_code_to_type := s.dependency_code_to_type.touch O }
      ).num_write_cancellations = s.num_write_cancellations := by
    split <;> rfl
  unfold remove_redundant_events
  simp only [hown, hN, hne, if_false, h1, h2, hE, hgN, Bool.false_eq_true, false_and,
    Option.any_some, hgE, hT, and_self, true_and, if_true, pure, Except.pure, f4, f8, g4, g8,
    h3, h4]

end IOScheduler

namespace IOScheduler
variable {W : Type}
variable {C : Collaborators W} {P : IOScheduler W → Prop}

theorem Quiet.alloc_list_quiet (St : Quiet C P) (es : List Event) :
    ∀ {s : IOScheduler W}, P s → P (s.alloc_list es).2 := by
  induction es with
  | nil => intro s h; exact h
  | cons e es ih => intro s h; exact ih (St.alloc _ e h)

theorem Quiet.alloc_migrations_quiet (St : Quiet C P) (ms : List (List Event)) :
    ∀ {s : IOScheduler W}, P s → P (s.alloc_migrations ms).2 := by
  induction ms with
  | nil => intro s h; exact h
  | cons m ms ih => intro s h; exact ih (St.alloc_list_quiet m h)

theorem Quiet.push_into_current_events_quiet (St : Quiet C P) (e : Nat) {s : IOScheduler W}
    (h : P s) : P (s.push_into_current_events e) :=
  St.push s _ e h

theorem Quiet.remove_current_operation_quiet (St : Quiet C P) (e : Nat) {s : IOScheduler W}
    (h : P s) : P (s.remove_current_operation C e) := by
  unfold IOScheduler.remove_current_operation
  dsimp only
  split
  · exact St.call _ _ (St.call _ _ (St.modify _ _ _ (by intro _; rfl) h))
  · split
    · exact St.call _ _ (St.call _ _ (St.modify _ _ _ (by intro _; rfl) h))
    · exact St.modify _ _ _ (by intro _; rfl) h

theorem Quiet.foldl_modify_quiet (St : Quiet C P) (f : Event → Event)
    (hf : ∀ x, (f x).current_time = x.current_time) (l : List Nat) :
    ∀ {s : IOScheduler W}, P s → P (l.foldl (fun acc p => acc.modify p f) s) := by
  induction l with
  | nil => intro s h; exact h
  | cons p l ih => intro s h; exact ih (St.modify _ p f hf h)

theorem Quiet.promote_to_gc_quiet (St : Quiet C P) (e : Nat) {s : IOScheduler W} (h : P s) :
    P (s.promote_to_gc e) := by
  unfold IOScheduler.promote_to_gc
  exact St.foldl_modify_quiet _ (by intro _; rfl) _
    (St.dependencies _ _ (St.modify _ _ _ (by intro _; rfl) h))

theorem Quiet.make_dependent_quiet (St : Quiet C P) (e O : Nat) {s : IOScheduler W} (h : P s) :
    P (s.make_dependent e O) :=
  St.dependencies _ _ (St.op_code_to_dependent_op_codes _ _ h)

theorem Quiet.decompose_read_quiet (St : Quiet C P) (e N : Nat) {s : IOScheduler W} (h : P s) :
    P (s.decompose_read e N) :=
  St.dependencies _ _ (St.dependencies _ _ (St.alloc _ _ (St.modify _ _ _ (by intro _; rfl) h)))

theorem Quiet.fields_quiet (St : Quiet C P) {s : IOScheduler W} (h : P s)
    (d : Table (List Nat)) (o a : Table Nat) (t : Table event_type) (q : Table (List Nat))
    (c : Nat) :
    P { s with dependencies := d, LBA_currently_executing := o,
               dependency_code_to_LBA := a, dependency_code_to_type := t,
               op_code_to_dependent_op_codes := q, num_write_cancellations := c } :=
  St.num_write_cancellations _ c (St.op_code_to_dependent_op_codes _ q
    (St.dependency_code_to_type _ t (St.dependency_code_to_LBA _ a
      (St.LBA_currently_executing _ o (St.dependencies _ d h)))))

theorem Quiet.remove_redundant_events_rest_quiet (St : Quiet C P) (e : Nat) (E : Option Nat)
    (tn ts : event_type) (N O l : Nat) {s : IOScheduler W} (h : P s) :
    Run.All P id (IOScheduler.remove_redundant_events_rest C e E tn ts N O l s) := by
  unfold IOScheduler.remove_redundant_events_rest
  dsimp only
  repeat' first
    | assumption
    | rfl
    | apply Run.All_pure
    | apply Run.All_fail
    | apply St.make_dependent_quiet
    | apply St.remove_current_operation_quiet
    | apply St.call
    | split
    | apply St.fields_quiet

theorem Quiet.remove_redundant_events_quiet (St : Quiet C P) (e : Nat) {s : IOScheduler W}
    (h : P s) : Run.All P id (IOScheduler.remove_redundant_events C e s) := by
  unfold IOScheduler.remove_redundant_events
  dsimp only
  repeat' first
    | assumption
    | rfl
    | apply Run.All_pure
    | apply Run.All_fail
    | apply St.remove_redundant_events_rest_quiet
    | apply St.make_dependent_quiet
    | apply St.remove_current_operation_quiet
    | apply St.promote_to_gc_quiet
    | apply St.push_into_current_events_quiet
    | apply St.call
    | split
    | apply St.fields_quiet

theorem Quiet.should_event_be_scheduled_quiet (St : Quiet C P) (e : Nat) {s : IOScheduler W}
    (h : P s) : Run.All P Prod.snd (IOScheduler.should_event_be_scheduled C e s) := by
  unfold IOScheduler.should_event_be_scheduled
  exact Run.All_bind (St.remove_redundant_events_quiet e h) (fun a ha => Run.All_pure ha)

theorem Quiet.init_migration_quiet (St : Quiet C P) (k : Nat → IOScheduler W → Run W (IOScheduler W))
    (hk : ∀ e s, P s → Run.All P id (k e s)) (m : List Nat) {s : IOScheduler W} (h : P s) :
    Run.All P id (IOScheduler.init_migration k m s) := by
  unfold IOScheduler.init_migration
  split
  · exact Run.All_fail h
  · exact Run.All_fail h
  · exact hk _ _ (St.fields_quiet h _ _ _ _ _ _)

theorem Quiet.init_event_quiet (St : Quiet C P) : ∀ (fuel e : Nat) {s : IOScheduler W}, P s →
    Run.All P id (IOScheduler.init_event C fuel e s) := by
  intro fuel
  induction fuel with
  | zero => intro e s h; exact Run.All_fail h
  | succ n ih =>
    intro e s h
    rw [init_event_succ]
    repeat' first
      | assumption
      | rfl
      | apply Run.All_pure
      | apply ih
      | refine Run.All_bind_snd (St.should_event_be_scheduled_quiet e h) ?_
      | refine Run.All_bind_state ?_ ?_
      | intro _ _
      | apply St.decompose_read_quiet
      | apply St.push_into_current_events_quiet
      | (apply St.modify; intro _; rfl)
      | apply St.call
      | (apply Run.All_foldlM; intro acc m hacc;
         exact St.init_migration_quiet _ (fun e s hs => ih e hs) m hacc)
      | apply St.alloc_migrations_quiet
      | split

end IOScheduler

namespace IOScheduler
variable {W : Type}

/-- The current times of the events allocated so far are kept by the steps of admission. -/
theorem quiet_times (C : Collaborators W) (n : Nat) (T : Nat → ℚ) :
    Quiet C (fun s => n ≤ s.next_free ∧ ∀ p, p < n → (s.heap p).current_time = T p) where
  call := fun _ _ h => h
  modify := fun s p f hf h => ⟨h.1, fun q hq => by
    show ((if q = p then f (s.heap p) else s.heap q) : Event).current_time = T q
    split
    · next hqp => rw [hf, ← hqp]; exact h.2 q hq
    · exact h.2 q hq⟩
  alloc := fun s e h => ⟨Nat.le_succ_of_le h.1, fun q hq => by
    show ((if q = s.next_free then e else s.heap q) : Event).current_time = T q
    rw [if_neg (Nat.ne_of_lt (Nat.lt_of_lt_of_le hq h.1))]
    exact h.2 q hq⟩
  dependencies := fun _ _ h => h
  LBA_currently_executing := fun _ _ h => h
  dependency_code_to_LBA := fun _ _ h => h
  dependency_code_to_type := fun _ _ h => h
  op_code_to_dependent_op_codes := fun _ _ h => h
  num_write_cancellations := fun _ _ h => h
  push := fun _ _ _ h => h

/-- The loop of `update_current_events`: the events whose time is before `c + 1` are passed to
admission in the order of the list, the other ones are kept in their order. -/
theorem sweep_future_events_spec (C : Collaborators W) (fuel : Nat) (c : ℚ) (n : Nat)
    (T : Nat → ℚ) : ∀ (l kept : List Nat) (s s' : IOScheduler W),
    (n ≤ s.next_free ∧ ∀ p, p < n → (s.heap p).current_time = T p) →
    (∀ e ∈ l, e < n) → s.future_events = kept ++ l →
    sweep_future_events C fuel c kept l s = Except.ok s' →
    (n ≤ s'.next_free ∧ ∀ p, p < n → (s'.heap p).current_time = T p)
    ∧ s'.future_events = kept ++ l.filter (fun e => decide (c + 1 ≤ T e))
    ∧ Admitted C fuel (l.filter (fun e => decide (T e < c + 1))) s s' := by
  intro l
  induction l with
  | nil =>
    intro kept s s' hP _ hfut hrun
    simp only [sweep_future_events, pure, Except.pure, Except.ok.injEq] at hrun
    subst hrun
    exact ⟨hP, by simpa using hfut, Admitted.nil _⟩
  | cons e rest ih =>
    intro kept s s' hP hl hfut hrun
    have he : e < n := hl e (List.mem_cons_self _ _)
    have hrest : ∀ x ∈ rest, x < n := fun x hx => hl x (List.mem_cons_of_mem _ hx)
    rw [sweep_future_events, hP.2 e he] at hrun
    by_cases hdue : T e < c + 1
    · rw [if_pos hdue] at hrun
      cases hinit : init_event C fuel e s with
      | error x => rw [hinit] at hrun; cases hrun
      | ok s1 =>
        rw [hinit] at hrun
        simp only [bind, Except.bind] at hrun
        have hP1 := Run.All_of_ok ((quiet_times C n T).init_event_quiet fuel e hP) hinit
        obtain ⟨hP', hfut', hadm⟩ := ih kept { s1 with future_events := kept ++ rest } s' hP1
          hrest rfl hrun
        refine ⟨hP', ?_, ?_⟩
        · rw [hfut', List.filter_cons_of_neg (by simpa using hdue)]
        · rw [List.filter_cons_of_pos (by simpa using hdue)]
          exact Admitted.cons e _ s s1 s' _ hinit hadm
    · rw [if_neg hdue] at hrun
      obtain ⟨hP', hfut', hadm⟩ := ih (kept ++ [e]) s s' hP hrest
        (by rw [hfut, List.append_assoc]; rfl) hrun
      refine ⟨hP', ?_, ?_⟩
      · rw [hfut', List.filter_cons_of_pos (by simpa using hdue), List.append_assoc]; rfl
      · rw [List.filter_cons_of_neg (by simpa using hdue)]
        exact hadm

end IOScheduler

namespace IOScheduler
variable {W : Type}

/-- The resolver leaves the state as it is when the lock is held by the op of the new event. -/
theorem remove_redundant_events_same_owner (C : Collaborators W) (s : IOScheduler W) (e : Nat)
    (hown : s.LBA_currently_executing (s.heap e).logical_address
      = some (s.heap e).application_io_id) :
    remove_redundant_events C e s = Except.ok s := by
  unfold remove_redundant_events
  simp only [hown, if_true]
  rfl

/-- Admission of an event whose op holds the lock of its address, and whose type is neither READ
nor GARBAGE_COLLECTION: the event is inserted into `current_events`; the tables, the op id, the
address, the type and the noop flag of every event stay as they are. -/
theorem init_event_of_owner (C : Collaborators W) (fuel h : Nat) (s s' : IOScheduler W)
    (hown : s.LBA_currently_executing (s.heap h).logical_address
      = some (s.heap h).application_io_id)
    (hR : (s.heap h).type ≠ event_type.READ)
    (hG : (s.heap h).type ≠ event_type.GARBAGE_COLLECTION)
    (hrun : init_event C fuel h s = Except.ok s') :
    h ∈ s'.current_pointers
    ∧ s'.dependencies = s.dependencies
    ∧ s'.LBA_currently_executing = s.LBA_currently_executing
    ∧ s'.dependency_code_to_LBA = s.dependency_code_to_LBA
    ∧ s'.dependency_code_to_type = s.dependency_code_to_type
    ∧ s'.op_code_to_dependent_op_codes = s.op_code_to_dependent_op_codes
    ∧ ∀ p, (s'.heap p).application_io_id = (s.heap p).application_io_id
        ∧ (s'.heap p).logical_address = (s.heap p).logical_address
        ∧ (s'.heap p).type = (s.heap p).type
        ∧ (s'.heap p).noop = (s.heap p).noop := by
  have hpush : h ∈ (s.push_into_current_events h).current_pointers :=
    (mem_bucket_insert _ _ _ _).mpr (Or.inl rfl)
  have hheap : ∀ (f : Event → Event) (p : Nat),
      (∀ x, (f x).application_io_id = x.application_io_id ∧
        (f x).logical_address = x.logical_address ∧ (f x).type = x.type ∧ (f x).noop = x.noop) →
      ((s.push_into_current_events h).modify h f).heap p = (if p = h then f (s.heap h)
        else s.heap p) := fun f p _ => rfl
  have hshould : should_event_be_scheduled C h s = Except.ok (true, s) := by
    unfold should_event_be_scheduled
    rw [remove_redundant_events_same_owner C s h hown]
    simp [bind, Except.bind, pure, Except.pure, Table.count, hown]
  cases fuel with
  | zero => rw [init_event] at hrun; cases hrun
  | succ fuel =>
    rw [init_event_succ] at hrun
    split at hrun
    · simp only [pure, Except.pure, Except.ok.injEq] at hrun
      subst hrun
      exact ⟨hpush, rfl, rfl, rfl, rfl, rfl, fun _ => ⟨rfl, rfl, rfl, rfl⟩⟩
    · have key : ∀ t : IOScheduler W, t = s.push_into_current_events h →
          (if (t.heap h).type = event_type.READ then
            init_event C fuel h (t.decompose_read h (s.heap h).application_io_id)
          else if (s.heap h).type = event_type.READ_COMMAND
              ∨ (s.heap h).type = event_type.READ_TRANSFER then
            pure ((t.modify h
                    (fun e => { e with address := C.set_read_address t.world e })).call C
                    (Call.set_read_address (t.heap h)))
          else if (s.heap h).type = event_type.WRITE then
            pure (t.call C (Call.register_write_arrival (t.heap h)))
          else if (s.heap h).type = event_type.TRIM then
            pure ((t.modify h
                    (fun e => { e with replace_address := C.set_replace_address t.world e })).call
                    C (Call.set_replace_address (t.heap h)))
          else if (s.heap h).type = event_type.GARBAGE_COLLECTION then
            ((t.call C (Call.migrate (t.heap h))).alloc_migrations
                (C.migrate t.world (t.heap h))).1.reverse.foldlM
              (fun acc migration => init_migration (init_event C fuel) migration acc)
              ((t.call C (Call.migrate (t.heap h))).alloc_migrations
                (C.migrate t.world (t.heap h))).2
          else if (s.heap h).type = event_type.ERASE then
            pure (t.push_into_current_events h)
          else pure t : Run W (IOScheduler W)) = Except.ok s' →
          h ∈ s'.current_pointers
          ∧ s'.dependencies = s.dependencies
          ∧ s'.LBA_currently_executing = s.LBA_currently_executing
          ∧ s'.dependency_code_to_LBA = s.dependency_code_to_LBA
          ∧ s'.dependency_code_to_type = s.dependency_code_to_type
          ∧ s'.op_code_to_dependent_op_codes = s.op_code_to_dependent_op_codes
          ∧ ∀ p, (s'.heap p).application_io_id = (s.heap p).application_io_id
              ∧ (s'.heap p).logical_address = (s.heap p).logical_address
              ∧ (s'.heap p).type = (s.heap p).type
              ∧ (s'.heap p).noop = (s.heap p).noop := by
        intro t ht hrun
        subst ht
        rw [if_neg (show ¬ ((s.push_into_current_events h).heap h).type = event_type.READ
          from hR)] at hrun
        split at hrun
        · cases hrun
          refine ⟨hpush, rfl, rfl, rfl, rfl, rfl, fun p => ?_⟩
          by_cases hp : p = h <;> simp [IOScheduler.modify, call, push_into_current_events, hp]
        · split at hrun
          · cases hrun
            exact ⟨hpush, rfl, rfl, rfl, rfl, rfl, fun _ => ⟨rfl, rfl, rfl, rfl⟩⟩
          · split at hrun
            · cases hrun
              refine ⟨hpush, rfl, rfl, rfl, rfl, rfl, fun p => ?_⟩
              by_cases hp : p = h <;>
                simp [IOScheduler.modify, call, push_into_current_events, hp]
            · split at hrun
              · cases hrun
                exact ⟨(mem_bucket_insert _ _ _ _).mpr (Or.inl rfl), rfl, rfl, rfl, rfl, rfl,
                  fun _ => ⟨rfl, rfl, rfl, rfl⟩⟩
              · cases hrun
                exact ⟨hpush, rfl, rfl, rfl, rfl, rfl, fun _ => ⟨rfl, rfl, rfl, rfl⟩⟩
      by_cases hfl : (s.heap h).flexible_read = true
          ∧ ((s.heap h).type = event_type.READ_COMMAND
            ∨ (s.heap h).type = event_type.READ_TRANSFER)
      · rw [if_pos hfl] at hrun
        exact key _ rfl (by simpa only [bind, Except.bind, pure, Except.pure, hG, if_false]
          using hrun)
      · rw [if_neg hfl] at hrun
        by_cases hgd : (s.heap h).type = event_type.TRIM
            ∨ (s.heap h).type = event_type.READ_COMMAND
            ∨ (s.heap h).type = event_type.READ_TRANSFER
            ∨ (s.heap h).type = event_type.WRITE
            ∨ (s.heap h).type = event_type.COPY_BACK
        · rw [if_pos hgd, hshould] at hrun
          exact key _ rfl (by simpa only [bind, Except.bind, pure, Except.pure, if_true, hG,
            if_false] using hrun)
        · rw [if_neg hgd] at hrun
          have hE : (s.heap h).type = event_type.ERASE := by
            cases hty : (s.heap h).type <;> simp_all
          simp only [bind, Except.bind, pure, Except.pure, hE, reduceCtorEq, if_false, if_true,
            or_self] at hrun
          cases hrun
          exact ⟨hpush, rfl, rfl, rfl, rfl, rfl, fun _ => ⟨rfl, rfl, rfl, rfl⟩⟩

end IOScheduler

namespace IOScheduler
variable {W : Type}

/-- A vector sorted by bus wait time, read from the back. -/
theorem sort_by_current_wait_time_reverse (s : IOScheduler W) (v : List Nat) :
    (s.sort_by_current_wait_time v).reverse.Pairwise
      (fun a b => (s.heap b).bus_wait_time ≤ (s.heap a).bus_wait_time) := by
  haveI : IsTotal Nat (fun i j => (s.heap i).bus_wait_time ≤ (s.heap j).bus_wait_time) :=
    ⟨fun a b => le_total _ _⟩
  haveI : IsTrans Nat (fun i j => (s.heap i).bus_wait_time ≤ (s.heap j).bus_wait_time) :=
    ⟨fun a b c hab hbc => le_trans hab hbc⟩
  rw [List.pairwise_reverse]
  exact List.sorted_insertionSort _ v

/-- A vector sorted by overall wait time, read from the back. -/
theorem sort_by_overall_wait_time_reverse (s : IOScheduler W) (v : List Nat) :
    (s.sort_by_overall_wait_time v).reverse.Pairwise
      (fun a b => (s.heap b).get_overall_wait_time ≤ (s.heap a).get_overall_wait_time) := by
  haveI : IsTotal Nat
      (fun i j => (s.heap i).get_overall_wait_time ≤ (s.heap j).get_overall_wait_time) :=
    ⟨fun a b => le_total _ _⟩
  haveI : IsTrans Nat
      (fun i j => (s.heap i).get_overall_wait_time ≤ (s.heap j).get_overall_wait_time) :=
    ⟨fun a b c hab hbc => le_trans hab hbc⟩
  rw [List.pairwise_reverse]
  exact List.sorted_insertionSort _ v

end IOScheduler

namespace IOScheduler
variable {W : Type}

theorem wait_time_at_heap (C : Collaborators W) (a : Address) (e : Nat) (s : IOScheduler W) :
    (wait_time_at C a e s).2.heap = s.heap
    ∧ (wait_time_at C a e s).2.LBA_currently_executing = s.LBA_currently_executing
    ∧ (wait_time_at C a e s).2.next_free = s.next_free := by
  unfold wait_time_at
  simp only []
  split <;> exact ⟨rfl, rfl, rfl⟩

theorem wait_time_at_nonneg (C : Collaborators W)
    (hnn : ∀ w a t, 0 ≤ C.in_how_long_can_this_event_be_scheduled w a t)
    (a : Address) (e : Nat) (s : IOScheduler W) : 0 ≤ (wait_time_at C a e s).1 := by
  unfold wait_time_at
  simp only []
  split
  · split
    · exact hnn _ _ _
    · unfold WAIT_TIME; norm_num
  · exact hnn _ _ _

end IOScheduler

namespace IOScheduler
variable {W : Type}

/-- The computation of the wait makes calls only. -/
theorem wait_time_at_frame (C : Collaborators W) (a : Address) (e : Nat) (s : IOScheduler W) :
    (wait_time_at C a e s).2.heap = s.heap
    ∧ (wait_time_at C a e s).2.next_free = s.next_free
    ∧ (wait_time_at C a e s).2.dependencies = s.dependencies
    ∧ (wait_time_at C a e s).2.dependency_code_to_type = s.dependency_code_to_type
    ∧ (wait_time_at C a e s).2.current_events = s.current_events
    ∧ (wait_time_at C a e s).2.LBA_currently_executing = s.LBA_currently_executing := by
  unfold wait_time_at
  simp only []
  split <;> exact ⟨rfl, rfl, rfl, rfl, rfl, rfl⟩

end IOScheduler

theorem Run.fault_pure {W α : Type} (a : α) : (pure a : Run W α).fault = none := rfl

theorem Run.fault_fail {W α : Type} (f : Fault) (s : IOScheduler W) :
    (IOScheduler.fail f s : Run W α).fault = some f := rfl

theorem Run.fault_ite_ne {W α : Type} {c : Prop} [Decidable c] (a b : Run W α) (f : Fault)
    (ha : a.fault ≠ some f) (hb : b.fault ≠ some f) : (if c then a else b).fault ≠ some f := by
  split <;> assumption

theorem Run.fault_pure_ne {W α : Type} (a : α) (f : Fault) : (pure a : Run W α).fault ≠ some f :=
  nofun

theorem Run.fault_assertion_ne {W α : Type} (s : IOScheduler W) :
    (IOScheduler.fail Fault.assertion s : Run W α).fault ≠ some Fault.null_dereference := by
  simp [Run.fault, IOScheduler.fail]

theorem remove_redundant_events_rest_fault {W : Type} (C : Collaborators W) (e E : Nat)
    (new sched : event_type) (N O l : Nat) (s : IOScheduler W) :
    (IOScheduler.remove_redundant_events_rest C e (some E) new sched N O l s).fault
      ≠ some Fault.null_dereference := by
  unfold IOScheduler.remove_redundant_events_rest
  repeat' first
    | exact Run.fault_pure_ne _ _
    | exact Run.fault_assertion_ne _
    | apply Run.fault_ite_ne

theorem Table.get_touch_all {α : Type} [Inhabited α] (m : Table α) (k x : Nat) :
    (m.touch k).get x = m.get x := by
  by_cases h : x = k
  · subst h; simp [Table.touch, Table.get]
  · simp [Table.touch, Table.get, h]

theorem Table.touch_none {α : Type} [Inhabited α] (m : Table α) (k N : Nat) (hk : k ≠ N)
    (h : m N = none) : (m.touch k) N = none := by
  simp [Table.touch, Ne.symm hk, h]

theorem Table.set_none {α : Type} (m : Table α) (k N : Nat) (v : α) (hk : k ≠ N)
    (h : m N = none) : (m.set k v) N = none := by
  simp [Table.set, Ne.symm hk, h]

theorem Table.erase_none {α : Type} (m : Table α) (k N : Nat) (h : m N = none) :
    (m.erase k) N = none := by
  simp only [Table.erase]; split <;> simp [h]

theorem Table.get_set {α : Type} [Inhabited α] (m : Table α) (k x : Nat) (v : α) :
    (m.set k v).get x = if x = k then v else m.get x := by
  by_cases h : x = k
  · subst h; simp [Table.set, Table.get]
  · simp [Table.set, Table.get, h]

namespace IOScheduler
variable {W : Type}
variable {C : Collaborators W} {N : Nat} {keep : Nat → Prop} {Q : Option (List Nat)}
  {L : List Event}

theorem Cleared.mono_cleared {keep' : Nat → Prop} {s : IOScheduler W} (h : Cleared N keep Q L s)
    (hk : ∀ p, keep' p → keep p) : Cleared N keep' Q L s :=
  ⟨h.pending, h.lba, h.type, h.owner, h.queued, fun p hp => h.kept p (hk p hp), h.dependents,
    h.completed⟩

theorem Cleared.extend_cleared {s : IOScheduler W} (h : Cleared N keep Q L s)
    (K : Nat → Prop) (hK : ∀ p, K p → (s.heap p).application_io_id ≠ N) :
    Cleared N (fun p => keep p ∨ K p) Q L s :=
  ⟨h.pending, h.lba, h.type, h.owner, h.queued,
    fun p hp => hp.elim (h.kept p) (hK p), h.dependents, h.completed⟩

theorem Cleared.call_cleared {s : IOScheduler W} (h : Cleared N keep Q L s) (c : Call)
    (hc : Call.completed c = none) : Cleared N keep Q L (s.call C c) :=
  ⟨h.pending, h.lba, h.type, h.owner, h.queued, h.kept, h.dependents, by
    show (s.log ++ [c]).filterMap Call.completed = L
    rw [List.filterMap_append, h.completed]
    simp [hc]⟩

theorem Cleared.heap_cleared {s : IOScheduler W} (h : Cleared N keep Q L s) (hp : Nat → Event)
    (n : Nat)
    (hop : ∀ q, (hp q).application_io_id = (s.heap q).application_io_id
      ∨ (hp q).application_io_id ≠ N) :
    Cleared N keep Q L { s with heap := hp, next_free := n } :=
  ⟨h.pending, h.lba, h.type, h.owner,
    fun k p hm => (hop p).elim (fun e => e ▸ h.queued k p hm) id,
    fun p hk => (hop p).elim (fun e => e ▸ h.kept p hk) id,
    h.dependents, h.completed⟩

theorem Cleared.modify_cleared {s : IOScheduler W} (h : Cleared N keep Q L s) (p : Nat)
    (f : Event → Event) (hf : ∀ x, (f x).application_io_id = x.application_io_id) :
    Cleared N keep Q L (s.modify p f) := by
  refine h.heap_cleared _ s.next_free (fun q => Or.inl ?_)
  by_cases hq : q = p
  · subst hq; simp [hf]
  · simp [hq]

theorem Cleared.alloc_cleared {s : IOScheduler W} (h : Cleared N keep Q L s) (x : Event)
    (hx : x.application_io_id ≠ N) :
    Cleared N (fun p => keep p ∨ p = s.next_free) Q L (s.alloc x).2 := by
  have h1 : Cleared N keep Q L (s.alloc x).2 := by
    refine h.heap_cleared _ (s.next_free + 1) (fun q => ?_)
    by_cases hq : q = s.next_free
    · right; simp [hq, hx]
    · left; simp [hq]
  refine ⟨h1.pending, h1.lba, h1.type, h1.owner, h1.queued, ?_, h1.dependents, h1.completed⟩
  intro p hp
  rcases hp with hp | hp
  · exact h1.kept p hp
  · subst hp; simp [alloc, hx]

theorem Cleared.push_cleared {s : IOScheduler W} (h : Cleared N keep Q L s) (e : Nat) :
    Cleared N keep Q L (s.push_into_current_events e) :=
  ⟨h.pending, h.lba, h.type, h.owner, h.queued, h.kept, h.dependents, h.completed⟩

theorem Cleared.set_owner_cleared {s : IOScheduler W} (h : Cleared N keep Q L s) (l v : Nat)
    (hv : v ≠ N) :
    Cleared N keep Q L
      { s with LBA_currently_executing := s.LBA_currently_executing.set l v } :=
  ⟨h.pending, h.lba, h.type, fun l' => by
      show (s.LBA_currently_executing.set l v) l' ≠ some N
      unfold Table.set
      split
      · intro hc; exact hv (Option.some.inj hc)
      · exact h.owner l',
    h.queued, h.kept, h.dependents, h.completed⟩

theorem Cleared.set_owner_count_cleared {s : IOScheduler W} (h : Cleared N keep Q L s)
    (l v n : Nat) (hv : v ≠ N) :
    Cleared N keep Q L
      { s with LBA_currently_executing := s.LBA_currently_executing.set l v,
               num_write_cancellations := n } :=
  let h1 := h.set_owner_cleared l v hv
  ⟨h1.pending, h1.lba, h1.type, h1.owner, h1.queued, h1.kept, h1.dependents, h1.completed⟩

theorem Cleared.touch_types_cleared {s : IOScheduler W} (h : Cleared N keep Q L s) (a b : Nat)
    (ha : a ≠ N) (hb : b ≠ N) :
    Cleared N keep Q L
      { s with dependency_code_to_type := (s.dependency_code_to_type.touch a).touch b } :=
  ⟨h.pending, h.lba, Table.touch_none _ _ _ hb (Table.touch_none _ _ _ ha h.type), h.owner,
    h.queued, h.kept, h.dependents, h.completed⟩

theorem Cleared.remove_current_operation_cleared {s : IOScheduler W}
    (h : Cleared N keep Q L s) (e : Nat) :
    Cleared N keep Q L (s.remove_current_operation C e) := by
  unfold remove_current_operation
  dsimp only
  have h1 := h.modify_cleared e (fun x => { x with noop := true }) (fun _ => rfl)
  split
  · refine Cleared.call_cleared (Cleared.call_cleared h1 _ ?_) _ ?_ <;> rfl
  · split
    · refine Cleared.call_cleared (Cleared.call_cleared h1 _ ?_) _ ?_ <;> rfl
    · exact h1

theorem Cleared.foldl_modify_cleared (f : Event → Event)
    (hf : ∀ x, (f x).application_io_id = x.application_io_id) (l : List Nat) :
    ∀ {s : IOScheduler W}, Cleared N keep Q L s →
      Cleared N keep Q L (l.foldl (fun acc p => acc.modify p f) s) := by
  induction l with
  | nil => intro s h; exact h
  | cons p l ih => intro s h; exact ih (h.modify_cleared p f hf)

theorem Cleared.promote_to_gc_cleared {s : IOScheduler W} (h : Cleared N keep Q L s) (e : Nat)
    (he : keep e) : Cleared N keep Q L (s.promote_to_gc e) := by
  unfold promote_to_gc
  have h1 := h.modify_cleared e (fun x => { x with garbage_collection_op := true })
    (fun _ => rfl)
  dsimp only
  refine Cleared.foldl_modify_cleared (fun x => { x with garbage_collection_op := true })
    (fun _ => rfl) _ ?_
  refine ⟨Table.touch_none _ _ _ (h1.kept e he) h1.pending, h1.lba, h1.type, h1.owner, ?_,
    h1.kept, h1.dependents, h1.completed⟩
  intro k p hm
  rw [Table.get_touch_all] at hm
  exact h1.queued k p hm

theorem Cleared.make_dependent_cleared {s : IOScheduler W} (h : Cleared N keep Q L s)
    (e O : Nat) (he : keep e) (hO : O ≠ N) : Cleared N keep Q L (s.make_dependent e O) := by
  unfold make_dependent
  refine ⟨Table.set_none _ _ _ _ (h.kept e he) h.pending, h.lba, h.type, h.owner, ?_, h.kept,
    ?_, h.completed⟩
  · intro k p hm
    rw [Table.get_set] at hm
    split at hm
    · rcases List.mem_cons.mp hm with hp | hp
      · subst hp; exact h.kept _ he
      · exact h.queued _ p hp
    · exact h.queued k p hm
  · show (s.op_code_to_dependent_op_codes.set O _) N = Q
    simp [Table.set, Ne.symm hO, h.dependents]

theorem Cleared.decompose_read_cleared {s : IOScheduler W} (h : Cleared N keep Q L s)
    (e d : Nat) (he : keep e) (hd : d ≠ N) :
    Cleared N keep Q L (s.decompose_read e d) := by
  have hN := h.kept e he
  unfold decompose_read
  have h1 := h.modify_cleared e (fun x => { x with type := event_type.READ_COMMAND })
    (fun _ => rfl)
  have hx : ({ (s.modify e (fun x => { x with type := event_type.READ_COMMAND })).heap e with
      type := event_type.READ_TRANSFER } : Event).application_io_id ≠ N := by
    simpa [IOScheduler.modify] using hN
  have h2 := (h1.alloc_cleared _ hx)
  refine ⟨Table.set_none _ _ _ _ hd (Table.touch_none _ _ _ hd h2.pending), h2.lba, h2.type,
    h2.owner, ?_, fun p hp => h2.kept p (Or.inl hp), h2.dependents, h2.completed⟩
  intro k p hm
  rw [Table.get_set] at hm
  split at hm
  · rcases List.mem_cons.mp hm with hp | hp
    · subst hp; exact h2.kept _ (Or.inr rfl)
    · rw [Table.get_touch_all] at hp
      exact h2.queued _ p hp
  · rw [Table.get_touch_all] at hm
    exact h2.queued k p hm

end IOScheduler


theorem Run.All_mono {W α : Type} (P : IOScheduler W → Prop) {P' : IOScheduler W → Prop}
    {π : α → IOScheduler W} {r : Run W α} (hP : ∀ t, P t → P' t) (h : Run.All P π r) :
    Run.All P' π r := by
  unfold Run.All at h ⊢
  cases r with
  | ok a => exact hP _ h
  | error x => exact hP _ h

namespace IOScheduler
variable {W : Type}
variable {C : Collaborators W} {N : Nat} {keep : Nat → Prop} {Q : Option (List Nat)}
  {L : List Event}

theorem Cleared.remove_redundant_events_rest_cleared {s : IOScheduler W}
    (h : Cleared N keep Q L s) (e : Nat) (E : Option Nat) (tn ts : event_type) (Nn O l : Nat)
    (he : keep e) (hE : ∀ x, E = some x → keep x) (hNn : Nn ≠ N) (hO : O ≠ N) :
    Run.All (Cleared N keep Q L) id
      (IOScheduler.remove_redundant_events_rest C e E tn ts Nn O l s) := by
  unfold IOScheduler.remove_redundant_events_rest
  dsimp only
  repeat' first
    | assumption
    | apply Run.All_pure
    | apply Run.All_fail
    | apply Cleared.set_owner_cleared
    | apply Cleared.make_dependent_cleared
    | apply Cleared.remove_current_operation_cleared
    | refine Cleared.call_cleared ?_ _ rfl
    | split

theorem Cleared.remove_redundant_events_cleared {s : IOScheduler W}
    (h : Cleared N keep Q L s) (e : Nat) (he : keep e) :
    Run.All (Cleared N keep Q L) id (IOScheduler.remove_redundant_events C e s) := by
  have hNn := h.kept e he
  unfold IOScheduler.remove_redundant_events
  dsimp only
  split
  · exact Run.All_pure (h.set_owner_cleared _ _ hNn)
  · next O hO =>
    have hON : O ≠ N := fun hc => h.owner _ (hc ▸ hO)
    split
    · exact Run.All_pure h
    · have h0 := h.touch_types_cleared (s.heap e).application_io_id O hNn hON
      cases hf : s.find_scheduled_event O with
      | none =>
        have h1 : Cleared N keep Q L _ := h0
        simp only [Option.any_none, Bool.false_eq_true, false_and, if_false]
        repeat' first
          | assumption
          | apply Run.All_pure
          | apply Run.All_fail
          | (apply Cleared.remove_redundant_events_rest_cleared <;>
              first | assumption | (intro x hx; cases hx))
          | apply Cleared.set_owner_cleared
          | apply Cleared.push_cleared
          | apply Cleared.remove_current_operation_cleared
          | refine Cleared.call_cleared ?_ _ rfl
          | split
      | some E =>
        obtain ⟨hEm, hEo⟩ := find_scheduled_event_spec s O E hf
        have hEN : (s.heap E).application_io_id ≠ N := hEo ▸ hON
        have h1 : Cleared N (fun p => keep p ∨ p = E) Q L _ :=
          h0.extend_cleared (fun p => p = E) (fun p hp => hp ▸ hEN)
        have hke : (fun p => keep p ∨ p = E) e := Or.inl he
        have hkE : (fun p => keep p ∨ p = E) E := Or.inr rfl
        refine Run.All_mono (Cleared N (fun p => keep p ∨ p = E) Q L)
          (fun t ht => Cleared.mono_cleared ht (fun p hp => Or.inl hp)) ?_
        repeat' first
          | assumption
          | apply Run.All_pure
          | apply Run.All_fail
          | (apply Cleared.remove_redundant_events_rest_cleared <;>
              first | assumption | (intro x hx; cases hx; assumption))
          | apply Cleared.set_owner_count_cleared
          | apply Cleared.set_owner_cleared
          | apply Cleared.push_cleared
          | apply Cleared.remove_current_operation_cleared
          | apply Cleared.promote_to_gc_cleared
          | refine Cleared.call_cleared ?_ _ rfl
          | split

end IOScheduler


theorem Run.All_foldlM_mem {W β : Type} {P : IOScheduler W → Prop}
    (f : IOScheduler W → β → Run W (IOScheduler W)) :
    ∀ (l : List β), (∀ s b, b ∈ l → P s → Run.All P id (f s b)) →
      ∀ (s : IOScheduler W), P s → Run.All P id (l.foldlM f s) := by
  intro l
  induction l with
  | nil => intro _ s h; exact Run.All_pure h
  | cons b l ih =>
    intro hf s h
    rw [List.foldlM_cons]
    exact Run.All_bind (hf s b (List.mem_cons_self _ _) h)
      (fun a ha => ih (fun s' b' hb' hs' => hf s' b' (List.mem_cons_of_mem _ hb') hs') a ha)

namespace IOScheduler
variable {W : Type}
variable {C : Collaborators W} {N : Nat} {keep : Nat → Prop} {Q : Option (List Nat)}
  {L : List Event}

theorem Cleared.should_event_be_scheduled_cleared {s : IOScheduler W}
    (h : Cleared N keep Q L s) (e : Nat) (he : keep e) :
    Run.All (Cleared N keep Q L) Prod.snd (IOScheduler.should_event_be_scheduled C e s) := by
  unfold IOScheduler.should_event_be_scheduled
  exact Run.All_bind (h.remove_redundant_events_cleared e he) (fun a ha => Run.All_pure ha)

theorem Cleared.alloc_list_cleared (es : List Event) :
    ∀ {keep : Nat → Prop} {s : IOScheduler W}, Cleared N keep Q L s →
      (∀ x ∈ es, x.application_io_id ≠ N) →
      Cleared N (fun p => keep p ∨ p ∈ (s.alloc_list es).1) Q L (s.alloc_list es).2 := by
  induction es with
  | nil =>
    intro keep s h _
    exact h.extend_cleared _ (fun p hp => absurd hp (List.not_mem_nil p))
  | cons x es ih =>
    intro keep s h hx
    have h1 := h.alloc_cleared x (hx x (List.mem_cons_self _ _))
    have h2 := ih h1 (fun y hy => hx y (List.mem_cons_of_mem _ hy))
    refine Cleared.mono_cleared h2 ?_
    intro p hp
    simp only [alloc_list] at hp
    rcases hp with hp | hp
    · exact Or.inl (Or.inl hp)
    · rcases List.mem_cons.mp hp with hp | hp
      · exact Or.inl (Or.inr hp)
      · exact Or.inr hp

theorem Cleared.alloc_migrations_cleared (ms : List (List Event)) :
    ∀ {keep : Nat → Prop} {s : IOScheduler W}, Cleared N keep Q L s →
      (∀ q ∈ ms, ∀ x ∈ q, x.application_io_id ≠ N) →
      Cleared N (fun p => keep p ∨ ∃ m ∈ (s.alloc_migrations ms).1, p ∈ m) Q L
        (s.alloc_migrations ms).2 := by
  induction ms with
  | nil =>
    intro keep s h _
    exact h.extend_cleared _ (fun p hp => by simp [alloc_migrations] at hp)
  | cons q ms ih =>
    intro keep s h hx
    have h1 := Cleared.alloc_list_cleared q h (hx q (List.mem_cons_self _ _))
    have h2 := ih h1 (fun y hy => hx y (List.mem_cons_of_mem _ hy))
    refine Cleared.mono_cleared h2 ?_
    intro p hp
    simp only [alloc_migrations] at hp
    rcases hp with hp | ⟨m, hm, hpm⟩
    · exact Or.inl (Or.inl hp)
    · rcases List.mem_cons.mp hm with hm | hm
      · subst hm; exact Or.inl (Or.inr hpm)
      · exact Or.inr ⟨m, hm, hpm⟩

theorem Cleared.init_migration_cleared (k : Nat → IOScheduler W → Run W (IOScheduler W))
    (hk : ∀ e s, Cleared N keep Q L s → keep e → Run.All (Cleared N keep Q L) id (k e s))
    (m : List Nat) (hm : ∀ p ∈ m, keep p) {s : IOScheduler W} (h : Cleared N keep Q L s) :
    Run.All (Cleared N keep Q L) id (IOScheduler.init_migration k m s) := by
  unfold IOScheduler.init_migration
  split
  · exact Run.All_fail h
  · exact Run.All_fail h
  · next first second rest =>
    have hf : keep first := hm _ (List.mem_cons_self _ _)
    have hN := h.kept first hf
    refine hk _ _ ?_ hf
    refine ⟨Table.set_none _ _ _ _ hN h.pending, Table.set_none _ _ _ _ hN h.lba,
      Table.set_none _ _ _ _ hN h.type, h.owner, ?_, h.kept, h.dependents, h.completed⟩
    intro k' p hp
    rw [Table.get_set] at hp
    split at hp
    · exact h.kept p (hm p (List.mem_cons_of_mem _ hp))
    · exact h.queued k' p hp

theorem Cleared.init_event_cleared
    (HM : ∀ w ev, ∀ q ∈ C.migrate w ev, ∀ x ∈ q, x.application_io_id ≠ N) :
    ∀ (fuel : Nat) (keep : Nat → Prop) (e : Nat) {s : IOScheduler W}, Cleared N keep Q L s →
      keep e → Run.All (Cleared N keep Q L) id (IOScheduler.init_event C fuel e s) := by
  intro fuel
  induction fuel with
  | zero => intro keep e s h _; exact Run.All_fail h
  | succ n ih =>
    intro keep e s h he
    have hN := h.kept e he
    rw [init_event_succ]
    split
    · exact Run.All_pure (h.push_cleared e)
    · refine Run.All_bind_state ?_ ?_
      · split
        · exact Run.All_pure (h.push_cleared e)
        · split
          · refine Run.All_bind_snd (h.should_event_be_scheduled_cleared e he) ?_
            intro r hr
            split
            · exact Run.All_pure (hr.push_cleared e)
            · exact Run.All_pure hr
          · exact Run.All_pure h
      · intro s1 h1
        split
        · exact ih keep e (h1.decompose_read_cleared e _ he hN) he
        · split
          · refine Run.All_pure (Cleared.call_cleared (Cleared.modify_cleared h1 _ _ ?_) _ ?_) <;>
              first | rfl | (intro _; rfl)
          · split
            · exact Run.All_pure (h1.call_cleared _ rfl)
            · split
              · refine Run.All_pure (Cleared.call_cleared (Cleared.modify_cleared h1 _ _ ?_) _ ?_) <;>
              first | rfl | (intro _; rfl)
              · split
                · have h2 : Cleared N keep Q L (s1.call C (Call.migrate (s1.heap e))) :=
                    h1.call_cleared _ rfl
                  have h3 := Cleared.alloc_migrations_cleared
                    (C.migrate s1.world (s1.heap e)) h2 (HM _ _)
                  refine Run.All_mono (Cleared N (fun p => keep p ∨ ∃ m ∈
                      ((s1.call C (Call.migrate (s1.heap e))).alloc_migrations
                        (C.migrate s1.world (s1.heap e))).1, p ∈ m) Q L)
                    (fun t ht => Cleared.mono_cleared ht (fun p hp => Or.inl hp)) ?_
                  refine Run.All_foldlM_mem _ _ ?_ _ h3
                  intro acc m hm hacc
                  refine Cleared.init_migration_cleared _ (fun e' s' hs' he' => ih _ e' hs' he')
                    m ?_ hacc
                  intro p hp
                  exact Or.inr ⟨m, List.mem_reverse.mp hm, hp⟩
                · split
                  · exact Run.All_pure (h1.push_cleared e)
                  · exact Run.All_pure h1

end IOScheduler

namespace IOScheduler
variable {W : Type}
variable {C : Collaborators W} {N : Nat} {keep : Nat → Prop} {Q : Option (List Nat)}
  {L : List Event}

/-- The admission loop of `manage_operation_completion`, for an op that has left the
bookkeeping: it serves the dependents in their order and leaves the op cleared. -/
theorem Cleared.admit_dependents_cleared
    (HM : ∀ w ev, ∀ q ∈ C.migrate w ev, ∀ x ∈ q, x.application_io_id ≠ N) :
    ∀ (fuel ev : Nat) (Q : Option (List Nat)) (s t : IOScheduler W),
      Cleared N (fun _ => False) Q L s →
      admit_dependents C fuel ev N s = Except.ok t →
      (∃ Q', Cleared N (fun _ => False) Q' L t)
        ∧ DependentsAdmitted C ev N (Q.getD []) s t := by
  intro fuel
  induction fuel with
  | zero => intro ev Q s t _ h; simp [admit_dependents, fail] at h
  | succ n ih =>
    intro ev Q s t h hrun
    have hQ := h.dependents
    cases Q with
    | none =>
      simp only [admit_dependents, hQ, pure, Except.pure, Except.ok.injEq] at hrun
      subst hrun
      exact ⟨⟨none, h⟩, DependentsAdmitted.nil _⟩
    | some Qs =>
      cases Qs with
      | nil =>
        simp only [admit_dependents, hQ, pure, Except.pure, Except.ok.injEq] at hrun
        subst hrun
        exact ⟨⟨_, h⟩, DependentsAdmitted.nil _⟩
      | cons D rest =>
        cases hp : s.dependencies D with
        | none =>
          simp [admit_dependents, hQ, Table.touch, Table.get, hp, fail] at hrun
        | some l =>
          cases l with
          | nil =>
            simp [admit_dependents, hQ, Table.touch, Table.get, hp, fail] at hrun
          | cons f tl =>
            rw [admit_dependents_step C n ev N D f rest tl s hQ hp] at hrun
            obtain ⟨s5, h5, hrest⟩ := bind_ok hrun
            have hget : s.dependencies.get D = f :: tl := Table.get_of_some hp
            have hDN : D ≠ N := fun hc => by rw [hc, h.pending] at hp; cases hp
            have hfN : (s.heap f).application_io_id ≠ N :=
              h.queued D f (by rw [hget]; exact List.mem_cons_self _ _)
            have hT : Cleared N (fun p => p = f) (some rest) L
                { (({ s with op_code_to_dependent_op_codes :=
                        s.op_code_to_dependent_op_codes.set N rest } : IOScheduler W).modify f
                    (fun x => x.incr_bus_wait_time
                      ((s.heap ev).current_time - (s.heap f).current_time))) with
                  dependencies := s.dependencies.set D tl } := by
              refine ⟨Table.set_none _ _ _ _ hDN h.pending, h.lba, h.type, h.owner, ?_, ?_, ?_,
                h.completed⟩
              · intro k p hm
                have hp' : (s.heap p).application_io_id ≠ N := by
                  rw [Table.get_set] at hm
                  split at hm
                  · exact h.queued D p (by rw [hget]; exact List.mem_cons_of_mem _ hm)
                  · exact h.queued k p hm
                show ((if p = f then _ else s.heap p) : Event).application_io_id ≠ N
                split
                · next hpf => subst hpf; exact hp'
                · exact hp'
              · intro p hp'
                subst hp'
                show ((if p = p then _ else s.heap p) : Event).application_io_id ≠ N
                rw [if_pos rfl]
                exact hfN
              · show (s.op_code_to_dependent_op_codes.set N rest) N = some rest
                simp [Table.set]
            have h5c := Run.All_of_ok (Cleared.init_event_cleared HM n _ f hT rfl) h5
            have h5' : Cleared N (fun _ => False) (some rest) L s5 :=
              h5c.mono_cleared (fun _ hp => hp.elim)
            obtain ⟨hc, hadm⟩ := ih ev (some rest) s5 t h5' hrest
            exact ⟨hc, DependentsAdmitted.cons D rest f tl n s s5 t hget h5 hadm⟩

theorem foldl_register_event_completion (C : Collaborators W) (l : List Nat) :
    ∀ s : IOScheduler W, ∃ w,
      l.foldl (fun st p => st.call C (Call.register_event_completion (st.heap p))) s
        = { s with world := w,
                   log := s.log ++ l.map (fun p => Call.register_event_completion (s.heap p)) } := by
  induction l with
  | nil => intro s; exact ⟨s.world, by simp⟩
  | cons p l ih =>
    intro s
    obtain ⟨w, hw⟩ := ih (s.call C (Call.register_event_completion (s.heap p)))
    refine ⟨w, ?_⟩
    rw [List.foldl_cons, hw]
    simp [call, List.append_assoc]

/-- The events handed to `issue` so far are `I`: a property kept by every step that is not a
call of `issue`. -/
theorem stable_issued (C : Collaborators W) (I : List Event) :
    Stable C (fun s => s.log.filterMap Call.issued = I) where
  call := fun c s hc h => by
    show (s.log ++ [c]).filterMap Call.issued = I
    rw [List.filterMap_append, h]
    simp [hc]
  heap := fun _ _ _ h => h
  dependencies := fun _ _ h => h
  LBA_currently_executing := fun _ _ h => h
  dependency_code_to_LBA := fun _ _ h => h
  dependency_code_to_type := fun _ _ h => h
  op_code_to_dependent_op_codes := fun _ _ h => h
  num_write_cancellations := fun _ _ h => h
  push := fun _ _ _ h => h

theorem Stable.foldl_register {P : IOScheduler W → Prop} (St : Stable C P) (l : List Nat) :
    ∀ {s : IOScheduler W}, P s →
      P (l.foldl (fun st p => st.call C (Call.register_event_completion (st.heap p))) s) := by
  induction l with
  | nil => intro s h; exact h
  | cons p l ih => intro s h; exact ih (St.call _ _ rfl h)

theorem Stable.handle_noop_events_stable {P : IOScheduler W → Prop} (St : Stable C P)
    (fuel : Nat) (v : List Nat) {s : IOScheduler W} (h : P s) :
    Run.All P id (IOScheduler.handle_noop_events C fuel v s) := by
  unfold IOScheduler.handle_noop_events
  apply Run.All_foldlM _ _ _ _ h
  intro acc e hacc
  simp only []
  refine Run.All_bind_state (St.manage_operation_completion fuel e ?_) ?_
  · refine St.fields ?_ _ _ _ _ _ _ _ _
    refine St.foldl_register _ ?_
    exact St.fields hacc _ _ _ _ _ _ _ _
  · intro a ha
    exact Run.All_pure (St.call _ _ rfl ha)

end IOScheduler

namespace IOScheduler

theorem foldlM_reverse_snoc {W β : Type} (f : IOScheduler W → β → Run W (IOScheduler W))
    (l : List β) (x : β) (s : IOScheduler W) :
    (l ++ [x]).reverse.foldlM f s
      = [x].reverse.foldlM f s >>= fun s' => l.reverse.foldlM f s' := by
  simp [List.foldlM_cons]

theorem filterMap_some {α β : Type} (f : α → β) (l : List α) :
    l.filterMap (fun x => some (f x)) = l.map f := by
  induction l with
  | nil => rfl
  | cons a l ih => simp [List.filterMap_cons, ih]

theorem admit_dependents_none {W : Type} (C : Collaborators W) (fuel e N : Nat)
    (s : IOScheduler W) (h : s.op_code_to_dependent_op_codes.get N = []) :
    admit_dependents C (fuel + 1) e N s = Except.ok s := by
  unfold admit_dependents
  cases hq : s.op_code_to_dependent_op_codes N with
  | none => rfl
  | some l =>
    have : l = [] := by simpa [Table.get, hq] using h
    subst this
    rfl

end IOScheduler

namespace Skeleton

theorem Adm.of_eq_adm {k k' : Skeleton} {L : List Nat} {e : Nat} (h : Adm k L e)
    (hnf : k.next_free ≤ k'.next_free) (hopL : ∀ p ∈ L, k'.op p = k.op p)
    (hope : k'.op e = k.op e) (hlba : k'.lba e = k.lba e)
    (hdts : ∀ O, ∀ D ∈ k'.dependents O, D ∈ k.dependents O)
    (hlbaof : k'.lba_of (k.op e) = k.lba_of (k.op e)) : Adm k' L e where
  bound := lt_of_lt_of_le h.bound hnf
  fresh := fun p hp => by rw [hopL p hp, hope]; exact h.fresh p hp
  not_held := fun O hm => h.not_held O (by rw [hope] at hm; exact hdts O _ hm)
  known := by rw [hope, hlba, hlbaof]; exact h.known

theorem Adm.mono {k : Skeleton} {L L' : List Nat} {e : Nat} (h : Adm k L e)
    (hsub : ∀ p ∈ L', p ∈ L) : Adm k L' e where
  bound := h.bound
  fresh := fun p hp => h.fresh p (hsub p hp)
  not_held := h.not_held
  known := h.known

/-- The lists may be replaced by lists holding fewer events. -/
theorem Inv.relist {k : Skeleton} {Act Fx Fut Act' Fx' Fut' : List Nat}
    (h : Inv k Act Fx Fut)
    (hsub : (Act' ++ (Fx' ++ Fut')).Subperm (Act ++ (Fx ++ Fut)))
    (hact : ∀ p ∈ Act' ++ Fx', p ∈ Act ++ Fx ∨ k.noop p = true)
    (hnn : ∀ p ∈ Fx', k.noop p = false) : Inv k Act' Fx' Fut' where
  bound := fun p hp => h.bound p (hsub.subset hp)
  bound_pending := h.bound_pending
  ok_all := h.ok_all
  same_lba := h.same_lba
  pending_op := h.pending_op
  nodup := by
    obtain ⟨l, hl, hs⟩ := hsub
    exact (hl.map k.op).nodup_iff.mp ((hs.map k.op).nodup h.nodup)
  held_fresh := fun O D hD p hp => h.held_fresh O D hD p (hsub.subset hp)
  held_used := h.held_used
  held_once := h.held_once
  excl := fun p hp hn => by
    rcases hact p hp with hp' | hp'
    · exact h.excl p hp' hn
    · rw [hn] at hp'; cases hp'
  known_live := fun q hq => h.known_live q (hsub.subset hq)
  known_held := h.known_held
  nn := hnn

/-- An event of the live lists may be passed to admission once it is taken out of them. -/
theorem Inv.adm {k : Skeleton} {Act Fx Fut L : List Nat} {e : Nat}
    (h : Inv k Act Fx Fut) (hp : (Act ++ (Fx ++ Fut)).Perm (e :: L)) : Adm k L e where
  bound := h.bound e (hp.symm.subset (List.mem_cons_self _ _))
  fresh := fun p hpL => by
    have hn := (hp.map k.op).nodup_iff.mp h.nodup
    rw [List.map_cons, List.nodup_cons] at hn
    intro heq
    exact hn.1 (heq ▸ List.mem_map_of_mem k.op hpL)
  not_held := fun O hm =>
    h.held_fresh O _ hm e (hp.symm.subset (List.mem_cons_self _ _)) rfl
  known := h.known_live e (hp.symm.subset (List.mem_cons_self _ _))

/-- The noop flag of an event may be set; it may be given any value if the event is in none of
the lists of events that are or are to be in `current_events`. -/
theorem Inv.set_noop {k : Skeleton} {Act Fx Fut : List Nat} (h : Inv k Act Fx Fut)
    (E : Nat) (b : Bool) (hFx : E ∉ Fx) (hb : b = true ∨ E ∉ Act) :
    Inv { k with noop := fun p => if p = E then b else k.noop p } Act Fx Fut where
  bound := h.bound
  bound_pending := h.bound_pending
  ok_all := h.ok_all
  same_lba := h.same_lba
  pending_op := h.pending_op
  nodup := h.nodup
  held_fresh := h.held_fresh
  held_used := h.held_used
  held_once := h.held_once
  excl := fun p hp hn => by
    simp only at hn ⊢
    by_cases hpE : p = E
    · rw [if_pos hpE] at hn
      rcases hb with hb | hb
      · rw [hb] at hn; cases hn
      · subst hpE
        rcases List.mem_append.mp hp with hp | hp
        · exact absurd hp hb
        · exact absurd hp hFx
    · rw [if_neg hpE] at hn
      exact h.excl p hp hn
  known_live := h.known_live
  known_held := h.known_held
  nn := fun p hp => by
    simp only
    have hpE : p ≠ E := fun heq => hFx (heq ▸ hp)
    rw [if_neg hpE]
    exact h.nn p hp

/-- The lock table may be replaced by one in which every event that is not noop still finds
its op as the owner of its address. -/
theorem Inv.set_owner {k : Skeleton} {Act Fx Fut : List Nat} (h : Inv k Act Fx Fut)
    (o : Nat → Option Nat)
    (ho : ∀ p ∈ Act ++ Fx, k.noop p = false → o (k.lba p) = some (k.op p)) :
    Inv { k with owner := o } Act Fx Fut where
  bound := h.bound
  bound_pending := h.bound_pending
  ok_all := h.ok_all
  same_lba := h.same_lba
  pending_op := h.pending_op
  nodup := h.nodup
  held_fresh := h.held_fresh
  held_used := h.held_used
  held_once := h.held_once
  excl := ho
  known_live := h.known_live
  known_held := h.known_held
  nn := h.nn

/-- An event that may be passed to admission and is noop or owns its address may be added to
the events of `current_events`. -/
theorem Inv.add_act {k : Skeleton} {Act Fx Fut : List Nat} {e : Nat} (h : Inv k Act Fx Fut)
    (ha : Adm k (Act ++ (Fx ++ Fut)) e)
    (ho : k.noop e = false → k.owner (k.lba e) = some (k.op e)) :
    Inv k (e :: Act) Fx Fut where
  bound := fun p hp => by
    rcases List.mem_cons.mp hp with hp | hp
    · rw [hp]; exact ha.bound
    · exact h.bound p hp
  bound_pending := h.bound_pending
  ok_all := h.ok_all
  same_lba := h.same_lba
  pending_op := h.pending_op
  nodup := by
    simp only [List.cons_append, List.map_cons, List.nodup_cons]
    refine ⟨?_, h.nodup⟩
    intro hm
    obtain ⟨p, hp, hpe⟩ := List.mem_map.mp hm
    exact ha.fresh p hp hpe
  held_fresh := fun O D hD p hp => by
    rcases List.mem_cons.mp hp with hp | hp
    · rw [hp]; intro heq; exact ha.not_held O (heq ▸ hD)
    · exact h.held_fresh O D hD p hp
  held_used := h.held_used
  held_once := h.held_once
  excl := fun p hp hn => by
    rcases List.mem_cons.mp hp with hp | hp
    · rw [hp] at hn ⊢; exact ho hn
    · exact h.excl p hp hn
  known_live := fun q hq => by
    rcases List.mem_cons.mp hq with hq | hq
    · rw [hq]; exact ha.known
    · exact h.known_live q hq
  known_held := h.known_held
  nn := h.nn

/-- The pending events of an op may be replaced by some of them. -/
theorem Inv.set_pending {k : Skeleton} {Act Fx Fut : List Nat} (h : Inv k Act Fx Fut)
    (N : Nat) (l : List Nat) (hl : ∀ q ∈ l, q ∈ k.pending N) :
    Inv { k with pending := fun x => if x = N then l else k.pending x } Act Fx Fut where
  bound := h.bound
  bound_pending := fun M q hq => by
    simp only at hq
    split at hq
    · next hM => exact h.bound_pending N q (hl q hq)
    · exact h.bound_pending M q hq
  ok_all := h.ok_all
  same_lba := h.same_lba
  pending_op := fun M q hq => by
    simp only at hq
    split at hq
    · next hM => rw [hM]; exact h.pending_op N q (hl q hq)
    · exact h.pending_op M q hq
  nodup := h.nodup
  held_fresh := h.held_fresh
  held_used := h.held_used
  held_once := h.held_once
  excl := h.excl
  known_live := h.known_live
  known_held := fun O D hD q hq => by
    simp only at hq
    split at hq
    · next hM => exact h.known_held O D hD q (by rw [hM]; exact hl q hq)
    · exact h.known_held O D hD q hq
  nn := h.nn

/-- The dependents of an op may be replaced by a sublist of them. -/
theorem Inv.set_dependents {k : Skeleton} {Act Fx Fut : List Nat} (h : Inv k Act Fx Fut)
    (O : Nat) (l : List Nat) (hl : l.Sublist (k.dependents O)) :
    Inv { k with dependents := fun x => if x = O then l else k.dependents x } Act Fx Fut := by
  have hmem : ∀ X D, D ∈ (if X = O then l else k.dependents X) → D ∈ k.dependents X := by
    intro X D hD
    split at hD
    · next hX => rw [hX]; exact hl.subset hD
    · exact hD
  exact
  { bound := h.bound
    bound_pending := h.bound_pending
    ok_all := h.ok_all
    same_lba := h.same_lba
    pending_op := h.pending_op
    nodup := h.nodup
    held_fresh := fun X D hD p hp => h.held_fresh X D (hmem X D hD) p hp
    held_used := fun X D hD => h.held_used X D (hmem X D hD)
    held_once := fun X D hD => by
      obtain ⟨h1, h2⟩ := h.held_once X D (hmem X D hD)
      constructor
      · simp only at hD ⊢
        split at hD
        · next hX =>
          rw [if_pos hX]
          have hle := hl.count_le D
          rw [← hX, h1] at hle
          have hpos := List.count_pos_iff.mpr hD
          omega
        · next hX => rw [if_neg hX]; exact h1
      · intro X' hX' hm
        exact h2 X' hX' (hmem X' D hm)
    excl := h.excl
    known_live := h.known_live
    known_held := fun X D hD q hq => h.known_held X D (hmem X D hD) q hq
    nn := h.nn }

/-- The address recorded for the ops may be replaced as long as the address recorded for the
ops of live events and for the ops held as dependents is kept. -/
theorem Inv.set_lba_of {k : Skeleton} {Act Fx Fut : List Nat} (h : Inv k Act Fx Fut)
    (f : Nat → Option Nat)
    (hlive : ∀ q ∈ Act ++ (Fx ++ Fut), f (k.op q) = k.lba_of (k.op q))
    (hheld : ∀ O, ∀ D ∈ k.dependents O, f D = k.lba_of D) :
    Inv { k with lba_of := f } Act Fx Fut where
  bound := h.bound
  bound_pending := h.bound_pending
  ok_all := h.ok_all
  same_lba := h.same_lba
  pending_op := h.pending_op
  nodup := h.nodup
  held_fresh := h.held_fresh
  held_used := h.held_used
  held_once := h.held_once
  excl := h.excl
  known_live := fun q hq => by
    show f (k.op q) = _
    rw [hlive q hq]; exact h.known_live q hq
  known_held := fun O D hD q hq => by
    show f D = _
    rw [hheld O D hD]; exact h.known_held O D hD q hq
  nn := h.nn

/-- The event `e`, which may be passed to admission, is made a dependent of the op `O`: it is
put at the front of the pending events of its op, and its op at the back of the dependents of
`O`. -/
theorem Inv.make_dependent_inv {k : Skeleton} {Act Fx Fut : List Nat} {e : Nat}
    (h : Inv k Act Fx Fut) (ha : Adm k (Act ++ (Fx ++ Fut)) e) (O : Nat) :
    Inv { k with
          dependents := fun x => if x = O then k.dependents O ++ [k.op e] else k.dependents x,
          pending := fun x => if x = k.op e then e :: k.pending (k.op e) else k.pending x }
      Act Fx Fut := by
  have hmem : ∀ X D, D ∈ (if X = O then k.dependents O ++ [k.op e] else k.dependents X) →
      D ∈ k.dependents X ∨ (X = O ∧ D = k.op e) := by
    intro X D hD
    split at hD
    · next hX =>
      rcases List.mem_append.mp hD with hD | hD
      · left; rw [hX]; exact hD
      · right; exact ⟨hX, List.mem_singleton.mp hD⟩
    · left; exact hD
  have hpend : ∀ M q, q ∈ (if M = k.op e then e :: k.pending (k.op e) else k.pending M) →
      q ∈ k.pending M ∨ (M = k.op e ∧ q = e) := by
    intro M q hq
    split at hq
    · next hM =>
      rcases List.mem_cons.mp hq with hq | hq
      · right; exact ⟨hM, hq⟩
      · left; rw [hM]; exact hq
    · left; exact hq
  exact
  { bound := h.bound
    bound_pending := fun M q hq => by
      rcases hpend M q hq with hq | ⟨_, hq⟩
      · exact h.bound_pending M q hq
      · rw [hq]; exact ha.bound
    ok_all := h.ok_all
    same_lba := h.same_lba
    pending_op := fun M q hq => by
      rcases hpend M q hq with hq | ⟨hM, hq⟩
      · exact h.pending_op M q hq
      · rw [hq, hM]
    nodup := h.nodup
    held_fresh := fun X D hD p hp => by
      rcases hmem X D hD with hD | ⟨_, hD⟩
      · exact h.held_fresh X D hD p hp
      · rw [hD]; exact ha.fresh p hp
    held_used := fun X D hD => by
      rcases hmem X D hD with hD | ⟨_, hD⟩
      · exact h.held_used X D hD
      · exact ⟨e, ha.bound, hD.symm⟩
    held_once := fun X D hD => by
      rcases hmem X D hD with hD' | ⟨hX, hDe⟩
      · obtain ⟨h1, h2⟩ := h.held_once X D hD'
        have hne : D ≠ k.op e := fun heq => ha.not_held X (heq ▸ hD')
        constructor
        · simp only
          split
          · next hX =>
            rw [List.count_append, ← hX, h1]
            simp [List.count_cons, Ne.symm hne]
          · exact h1
        · intro X' hX' hm
          rcases hmem X' D hm with hm | ⟨_, hm⟩
          · exact h2 X' hX' hm
          · exact hne hm
      · subst hX hDe
        constructor
        · simp only [if_true, List.count_append]
          have h0 : (k.dependents X).count (k.op e) = 0 :=
            List.count_eq_zero.mpr (ha.not_held X)
          simp [h0]
        · intro X' hX' hm
          simp only [if_neg hX'] at hm
          exact ha.not_held X' hm
    excl := h.excl
    known_live := h.known_live
    known_held := fun X D hD q hq => by
      rcases hmem X D hD with hD' | ⟨_, hDe⟩
      · rcases hpend D q hq with hq | ⟨hM, _⟩
        · exact h.known_held X D hD' q hq
        · exact absurd (hM ▸ hD') (ha.not_held X)
      · rw [hDe] at hq ⊢
        rcases hpend (k.op e) q hq with hq | ⟨_, hq⟩
        · have hq1 := h.bound_pending _ q hq
          have hq2 := h.pending_op _ q hq
          rw [h.same_lba q e hq1 ha.bound hq2]
          exact ha.known
        · rw [hq]; exact ha.known
    nn := h.nn }

/-- A new event with the op id and the address of `e`, whose op is not held as a dependent, is
allocated and put among the pending events of that op. -/
theorem Inv.alloc_pending {k : Skeleton} {Act Fx Fut : List Nat} (h : Inv k Act Fx Fut)
    (e : Nat) (he : e < k.next_free) (hheld : ∀ O, k.op e ∉ k.dependents O)
    (b : Bool) (l : List Nat) (hl : ∀ q ∈ l, q = k.next_free ∨ q ∈ k.pending (k.op e)) :
    Inv { k with
          next_free := k.next_free + 1,
          op := fun p => if p = k.next_free then k.op e else k.op p,
          lba := fun p => if p = k.next_free then k.lba e else k.lba p,
          noop := fun p => if p = k.next_free then b else k.noop p,
          ok := fun p => if p = k.next_free then true else k.ok p,
          pending := fun x => if x = k.op e then l else k.pending x } Act Fx Fut := by
  have hne : ∀ p, p < k.next_free → p ≠ k.next_free := fun p hp => Nat.ne_of_lt hp
  have hL : ∀ p ∈ Act ++ (Fx ++ Fut), p ≠ k.next_free := fun p hp => hne p (h.bound p hp)
  have hA : ∀ p ∈ Act ++ Fx, p ≠ k.next_free := fun p hp => hL p (by
    rcases List.mem_append.mp hp with hp | hp
    · exact List.mem_append_left _ hp
    · exact List.mem_append_right _ (List.mem_append_left _ hp))
  have hmap : (Act ++ (Fx ++ Fut)).map
      (fun p => if p = k.next_free then k.op e else k.op p)
      = (Act ++ (Fx ++ Fut)).map k.op :=
    List.map_congr_left (fun p hp => by simp only [if_neg (hL p hp)])
  exact
  { bound := fun p hp => Nat.lt_succ_of_lt (h.bound p hp)
    bound_pending := fun M q hq => by
      simp only at hq ⊢
      split at hq
      · rcases hl q hq with hq | hq
        · rw [hq]; exact Nat.lt_succ_self _
        · exact Nat.lt_succ_of_lt (h.bound_pending _ q hq)
      · exact Nat.lt_succ_of_lt (h.bound_pending M q hq)
    ok_all := fun p hp => by
      simp only at hp ⊢
      split
      · rfl
      · next hpn => exact h.ok_all p (by omega)
    same_lba := fun p q hp hq hpq => by
      simp only at hp hq hpq ⊢
      by_cases hpn : p = k.next_free
      · by_cases hqn : q = k.next_free
        · rw [if_pos hpn, if_pos hqn]
        · rw [if_pos hpn, if_neg hqn]
          rw [if_pos hpn, if_neg hqn] at hpq
          exact h.same_lba e q he (by omega) hpq
      · by_cases hqn : q = k.next_free
        · rw [if_neg hpn, if_pos hqn]
          rw [if_neg hpn, if_pos hqn] at hpq
          exact h.same_lba p e (by omega) he hpq
        · rw [if_neg hpn, if_neg hqn]
          rw [if_neg hpn, if_neg hqn] at hpq
          exact h.same_lba p q (by omega) (by omega) hpq
    pending_op := fun M q hq => by
      simp only at hq ⊢
      split at hq
      · next hM =>
        rcases hl q hq with hq | hq
        · rw [if_pos hq, hM]
        · rw [if_neg (hne q (h.bound_pending _ q hq)), hM]
          exact h.pending_op _ q hq
      · rw [if_neg (hne q (h.bound_pending M q hq))]
        exact h.pending_op M q hq
    nodup := by
      show ((Act ++ (Fx ++ Fut)).map
        (fun p => if p = k.next_free then k.op e else k.op p)).Nodup
      rw [hmap]; exact h.nodup
    held_fresh := fun O D hD p hp => by
      simp only [if_neg (hL p hp)]
      exact h.held_fresh O D hD p hp
    held_used := fun O D hD => by
      obtain ⟨p, hp, hpD⟩ := h.held_used O D hD
      exact ⟨p, Nat.lt_succ_of_lt hp, by simp only [if_neg (hne p hp)]; exact hpD⟩
    held_once := h.held_once
    excl := fun p hp hn => by
      simp only [if_neg (hA p hp)] at hn ⊢
      exact h.excl p hp hn
    known_live := fun q hq => by
      simp only [if_neg (hL q hq)]
      exact h.known_live q hq
    known_held := fun O D hD q hq => by
      simp only at hq ⊢
      split at hq
      · next hM => exact absurd (hM ▸ hD) (hheld O)
      · rw [if_neg (hne q (h.bound_pending D q hq))]
        exact h.known_held O D hD q hq
    nn := fun p hp => by
      have hp' : p ∈ Act ++ Fx := List.mem_append_right _ hp
      simp only [if_neg (hA p hp')]
      exact h.nn p hp }

/-- The first dependent of an op is taken off the list and the head of its pending events may
be passed to admission. -/
theorem Inv.pop_dependent {k : Skeleton} {Act Fx Fut : List Nat} (h : Inv k Act Fx Fut)
    (O D f : Nat) (rest tl : List Nat) (hd : k.dependents O = D :: rest)
    (hp : k.pending D = f :: tl) :
    Inv { k with
          dependents := fun x => if x = O then rest else k.dependents x,
          pending := fun x => if x = D then tl else k.pending x } Act Fx Fut
    ∧ Adm { k with
          dependents := fun x => if x = O then rest else k.dependents x,
          pending := fun x => if x = D then tl else k.pending x } (Act ++ (Fx ++ Fut)) f := by
  have hDm : D ∈ k.dependents O := by rw [hd]; exact List.mem_cons_self _ _
  have hfm : f ∈ k.pending D := by rw [hp]; exact List.mem_cons_self _ _
  have h1 := h.set_dependents O rest (by rw [hd]; exact List.sublist_cons_self _ _)
  have h2 := h1.set_pending D tl (fun q hq => by
    show q ∈ k.pending D
    rw [hp]; exact List.mem_cons_of_mem _ hq)
  refine ⟨h2, ?_⟩
  have hop : k.op f = D := h.pending_op D f hfm
  exact
  { bound := h.bound_pending D f hfm
    fresh := fun p hpL => by
      show k.op p ≠ k.op f
      rw [hop]; exact h.held_fresh O D hDm p hpL
    not_held := fun X hm => by
      simp only at hm
      rw [hop] at hm
      obtain ⟨hc, hother⟩ := h.held_once O D hDm
      split at hm
      · rw [hd, List.count_cons_self] at hc
        have : rest.count D = 0 := by omega
        exact List.count_eq_zero.mp this hm
      · next hX => exact hother X hX hm
    known := by
      show k.lba_of (k.op f) = some (k.lba f)
      rw [hop]; exact h.known_held O D hDm f hfm }

/-- The chain of an op advances: the head of the pending events of the op of `e`, an event that
holds the lock of its address and has been taken out of the live lists, takes its place. -/
theorem Inv.advance {k : Skeleton} {Act Fx Fut : List Nat} {e : Nat} (h : Inv k Act Fx Fut)
    (ha : Adm k (Act ++ (Fx ++ Fut)) e) (dep : Nat) (tl : List Nat) (b : Bool)
    (hp : k.pending (k.op e) = dep :: tl) :
    Inv { k with
          noop := fun p => if p = dep then b else k.noop p,
          pending := fun x => if x = k.op e then tl else k.pending x } Act Fx Fut
    ∧ Adm { k with
          noop := fun p => if p = dep then b else k.noop p,
          pending := fun x => if x = k.op e then tl else k.pending x } (Act ++ (Fx ++ Fut)) dep
    ∧ k.lba dep = k.lba e ∧ k.op dep = k.op e := by
  have hdm : dep ∈ k.pending (k.op e) := by rw [hp]; exact List.mem_cons_self _ _
  have hop : k.op dep = k.op e := h.pending_op _ dep hdm
  have hb : dep < k.next_free := h.bound_pending _ dep hdm
  have hlba : k.lba dep = k.lba e := h.same_lba dep e hb ha.bound hop
  have hnL : dep ∉ Act ++ (Fx ++ Fut) := fun hm => ha.fresh dep hm hop
  have h1 := h.set_noop dep b
    (fun hm => hnL (List.mem_append_right _ (List.mem_append_left _ hm)))
    (Or.inr (fun hm => hnL (List.mem_append_left _ hm)))
  have h2 := h1.set_pending (k.op e) tl (fun q hq => by
    show q ∈ k.pending (k.op e)
    rw [hp]; exact List.mem_cons_of_mem _ hq)
  refine ⟨h2, ?_, hlba, hop⟩
  exact
  { bound := hb
    fresh := fun p hpL => by
      show k.op p ≠ k.op dep
      rw [hop]; exact ha.fresh p hpL
    not_held := fun X hm => by
      have hm' : k.op dep ∈ k.dependents X := hm
      rw [hop] at hm'
      exact ha.not_held X hm'
    known := by
      show k.lba_of (k.op dep) = some (k.lba dep)
      rw [hop, hlba]; exact ha.known }

/-- A lock may be removed when no live event that is not noop needs it: when its address is
the address of an event that owns it and has been taken out of the live lists. -/
theorem Inv.release {k : Skeleton} {Act Fx Fut : List Nat} {e : Nat} (h : Inv k Act Fx Fut)
    (ha : Adm k (Act ++ (Fx ++ Fut)) e) (ho : k.owner (k.lba e) = some (k.op e))
    (v : Option Nat) :
    Inv { k with owner := fun x => if x = k.lba e then v else k.owner x } Act Fx Fut := by
  apply h.set_owner
  intro p hp hn
  have hpL : p ∈ Act ++ (Fx ++ Fut) := by
    rcases List.mem_append.mp hp with hp | hp
    · exact List.mem_append_left _ hp
    · exact List.mem_append_right _ (List.mem_append_left _ hp)
  have hex := h.excl p hp hn
  by_cases hl : k.lba p = k.lba e
  · rw [hl, ho] at hex
    exact absurd (Option.some.inj hex).symm (ha.fresh p hpL)
  · rw [if_neg hl]; exact hex

/-- The invariant depends on the values of the skeleton only; the guard flags may change for as
long as they hold of every allocated event. -/
theorem Inv.of_eq {k k' : Skeleton} {Act Fx Fut : List Nat} (h : Inv k Act Fx Fut)
    (hnf : k'.next_free = k.next_free) (hop : ∀ p, k'.op p = k.op p)
    (hlba : ∀ p, k'.lba p = k.lba p) (hnoop : ∀ p, k'.noop p = k.noop p)
    (hok : ∀ p, p < k.next_free → k'.ok p = true)
    (hpend : ∀ N, k'.pending N = k.pending N)
    (hdts : ∀ O, k'.dependents O = k.dependents O)
    (hown : ∀ l, k'.owner l = k.owner l)
    (hlbaof : ∀ N, k'.lba_of N = k.lba_of N) : Inv k' Act Fx Fut := by
  obtain ⟨nf, op, lba, noop, ok, pending, dependents, owner, lba_of⟩ := k'
  simp only at hnf hop hlba hnoop hok hpend hdts hown hlbaof
  obtain rfl : op = k.op := funext hop
  obtain rfl : lba = k.lba := funext hlba
  obtain rfl : noop = k.noop := funext hnoop
  obtain rfl : pending = k.pending := funext hpend
  obtain rfl : dependents = k.dependents := funext hdts
  obtain rfl : owner = k.owner := funext hown
  obtain rfl : lba_of = k.lba_of := funext hlbaof
  subst hnf
  exact
  { bound := h.bound
    bound_pending := h.bound_pending
    ok_all := hok
    same_lba := h.same_lba
    pending_op := h.pending_op
    nodup := h.nodup
    held_fresh := h.held_fresh
    held_used := h.held_used
    held_once := h.held_once
    excl := h.excl
    known_live := h.known_live
    known_held := h.known_held
    nn := h.nn }

/-- The order of the live events does not matter. -/
theorem Inv.perm {k : Skeleton} {Act Fx Fut Act' Fx' Fut' : List Nat} (h : Inv k Act Fx Fut)
    (hA : Act'.Perm Act) (hF : Fx'.Perm Fx) (hT : Fut'.Perm Fut) : Inv k Act' Fx' Fut' :=
  h.relist ((hA.append (hF.append hT)).subperm)
    (fun p hp => Or.inl ((hA.append hF).subset hp))
    (fun p hp => h.nn p (hF.subset hp))

/-- Two live events of one op are one event. -/
theorem Inv.live_inj {k : Skeleton} {Act Fx Fut : List Nat} (h : Inv k Act Fx Fut)
    {p q : Nat} (hp : p ∈ Act ++ (Fx ++ Fut)) (hq : q ∈ Act ++ (Fx ++ Fut))
    (hpq : k.op p = k.op q) : p = q :=
  List.inj_on_of_nodup_map h.nodup hp hq hpq

/-- An event is in one of the live lists only. -/
theorem Inv.not_mem_Fx {k : Skeleton} {Act Fx Fut : List Nat} (h : Inv k Act Fx Fut)
    {E : Nat} (hE : E ∈ Act) : E ∉ Fx := by
  intro hF
  have hnd := (List.nodup_append.mp (List.Nodup.of_map _ h.nodup)).2.2
  exact hnd hE (List.mem_append_left _ hF)

/-- An event that may be admitted is not live. -/
theorem Adm.not_mem {k : Skeleton} {L : List Nat} {e : Nat} (h : Adm k L e) : e ∉ L :=
  fun hm => h.fresh e hm rfl

/-- The scheduled event of the owner is cancelled and the lock passes to another op. -/
theorem Inv.cancel_existing {k : Skeleton} {Act Fx Fut : List Nat} (h : Inv k Act Fx Fut)
    (E : Nat) (hE : E ∈ Act) (la : Nat) (v : Option Nat) (ho : k.owner la = some (k.op E)) :
    Inv { k with noop := fun p => if p = E then true else k.noop p,
                 owner := fun x => if x = la then v else k.owner x } Act Fx Fut := by
  have h1 := h.set_noop E true (h.not_mem_Fx hE) (Or.inl rfl)
  refine h1.set_owner _ ?_
  intro p hp hn
  have hn' : (if p = E then true else k.noop p) = false := hn
  have hpE : p ≠ E := by
    intro hpe
    rw [if_pos hpe] at hn'
    exact Bool.noConfusion hn'
  rw [if_neg hpE] at hn'
  have hex := h.excl p hp hn'
  show (if k.lba p = la then v else k.owner (k.lba p)) = some (k.op p)
  by_cases hl : k.lba p = la
  · rw [hl, ho] at hex
    have hpL : p ∈ Act ++ (Fx ++ Fut) := by
      rcases List.mem_append.mp hp with hp | hp
      · exact List.mem_append_left _ hp
      · exact List.mem_append_right _ (List.mem_append_left _ hp)
    exact absurd (h.live_inj hpL (List.mem_append_left _ hE) (Option.some.inj hex).symm) hpE
  · rw [if_neg hl]; exact hex

/-- A lock is taken at an address without owner. -/
theorem Inv.take {k : Skeleton} {Act Fx Fut : List Nat} (h : Inv k Act Fx Fut)
    (la : Nat) (v : Option Nat) (ho : k.owner la = none) :
    Inv { k with owner := fun x => if x = la then v else k.owner x } Act Fx Fut := by
  refine h.set_owner _ ?_
  intro p hp hn
  have hex := h.excl p hp hn
  by_cases hl : k.lba p = la
  · rw [hl, ho] at hex; exact Option.noConfusion hex
  · rw [if_neg hl]; exact hex

end Skeleton

namespace IOScheduler
variable {W : Type}

theorem Same.refl (s : IOScheduler W) : Same s s :=
  ⟨rfl, rfl, fun _ => rfl, fun _ => rfl, fun _ => rfl, fun _ => rfl, fun _ => rfl, fun _ => rfl,
    rfl, rfl, rfl⟩

theorem Same.trans {s t u : IOScheduler W} (h1 : Same s t) (h2 : Same t u) : Same s u where
  next_free := h2.next_free.trans h1.next_free
  current := h2.current.trans h1.current
  op := fun p => (h2.op p).trans (h1.op p)
  lba := fun p => (h2.lba p).trans (h1.lba p)
  noop := fun p => (h2.noop p).trans (h1.noop p)
  flexible_read := fun p => (h2.flexible_read p).trans (h1.flexible_read p)
  type := fun p => (h2.type p).trans (h1.type p)
  pending := fun N => (h2.pending N).trans (h1.pending N)
  dependents := h2.dependents.trans h1.dependents
  owner := h2.owner.trans h1.owner
  lba_of := h2.lba_of.trans h1.lba_of

theorem Same.skeleton_eq {s t : IOScheduler W} (h : Same s t) : t.skeleton = s.skeleton := by
  unfold skeleton
  rw [h.next_free, h.dependents, h.owner, h.lba_of]
  simp only [h.op, h.lba, h.noop, h.flexible_read, h.type, h.pending]

theorem Same.current_pointers_eq {s t : IOScheduler W} (h : Same s t) :
    t.current_pointers = s.current_pointers := by
  unfold current_pointers; rw [h.current]

theorem Same.safe {s t : IOScheduler W} (h : Same s t) {Fn Fx Fut : List Nat}
    (hs : Safe s Fn Fx Fut) : Safe t Fn Fx Fut := by
  unfold Safe; rw [h.skeleton_eq, h.current_pointers_eq]; exact hs

theorem Same.admissible {s t : IOScheduler W} (h : Same s t) {Fn Fx Fut : List Nat} {e : Nat}
    (hs : Admissible s Fn Fx Fut e) : Admissible t Fn Fx Fut e := by
  unfold Admissible; rw [h.skeleton_eq, h.current_pointers_eq]; exact hs

theorem Same.of_fields {s t : IOScheduler W} (h1 : t.heap = s.heap)
    (h2 : t.next_free = s.next_free) (h3 : t.current_events = s.current_events)
    (h4 : t.dependencies = s.dependencies)
    (h5 : t.op_code_to_dependent_op_codes = s.op_code_to_dependent_op_codes)
    (h6 : t.LBA_currently_executing = s.LBA_currently_executing)
    (h7 : t.dependency_code_to_LBA = s.dependency_code_to_LBA) : Same s t :=
  ⟨h2, h3, fun _ => by rw [h1], fun _ => by rw [h1], fun _ => by rw [h1], fun _ => by rw [h1],
    fun _ => by rw [h1], fun _ => by rw [h4], h5, h6, h7⟩

theorem Same.call (C : Collaborators W) (c : Call) (s : IOScheduler W) : Same s (s.call C c) :=
  Same.of_fields rfl rfl rfl rfl rfl rfl rfl

theorem Same.modify_same (s : IOScheduler W) (p : Nat) (f : Event → Event)
    (hop : ∀ x, (f x).application_io_id = x.application_io_id)
    (hlba : ∀ x, (f x).logical_address = x.logical_address)
    (hnoop : ∀ x, (f x).noop = x.noop)
    (hflex : ∀ x, (f x).flexible_read = x.flexible_read)
    (htype : ∀ x, (f x).type = x.type) : Same s (s.modify p f) := by
  refine ⟨rfl, rfl, ?_, ?_, ?_, ?_, ?_, fun _ => rfl, rfl, rfl, rfl⟩ <;> intro q <;>
    by_cases hq : q = p <;> simp [IOScheduler.modify, hq, hop, hlba, hnoop, hflex, htype]

theorem Same.promote_to_gc_same (s : IOScheduler W) (E : Nat) : Same s (s.promote_to_gc E) := by
  have hf := promote_to_gc_frame s E
  have hh := promote_to_gc_heap s E
  refine ⟨hf.2.2.2.2.2.2.2.2.1, hf.1, ?_, ?_, ?_, ?_, ?_, ?_, hf.2.2.2.2.2.2.1, hf.2.2.2.1,
    hf.2.2.2.2.1⟩
  · intro p; rw [hh]; split <;> rfl
  · intro p; rw [hh]; split <;> rfl
  · intro p; rw [hh]; split <;> rfl
  · intro p; rw [hh]; split <;> rfl
  · intro p; rw [hh]; split <;> rfl
  · intro N
    rw [hf.2.2.1]
    by_cases h : N = (s.heap E).application_io_id
    · subst h; exact Table.get_touch _ _
    · simp [Table.get, Table.touch, h]

theorem rco_next_free (C : Collaborators W) (s : IOScheduler W) (E : Nat) :
    (s.remove_current_operation C E).next_free = s.next_free :=
  (remove_current_operation_frame C s E).2.2.2.2.2.2.2.2

theorem rco_current_events (C : Collaborators W) (s : IOScheduler W) (E : Nat) :
    (s.remove_current_operation C E).current_events = s.current_events :=
  (remove_current_operation_frame C s E).1

theorem rco_dependencies (C : Collaborators W) (s : IOScheduler W) (E : Nat) :
    (s.remove_current_operation C E).dependencies = s.dependencies :=
  (remove_current_operation_frame C s E).2.2.1

theorem rco_LBA_currently_executing (C : Collaborators W) (s : IOScheduler W) (E : Nat) :
    (s.remove_current_operation C E).LBA_currently_executing = s.LBA_currently_executing :=
  (remove_current_operation_frame C s E).2.2.2.1

theorem rco_dependency_code_to_LBA (C : Collaborators W) (s : IOScheduler W) (E : Nat) :
    (s.remove_current_operation C E).dependency_code_to_LBA = s.dependency_code_to_LBA :=
  (remove_current_operation_frame C s E).2.2.2.2.1

theorem rco_op_code_to_dependent_op_codes (C : Collaborators W) (s : IOScheduler W) (E : Nat) :
    (s.remove_current_operation C E).op_code_to_dependent_op_codes = s.op_code_to_dependent_op_codes :=
  (remove_current_operation_frame C s E).2.2.2.2.2.2.1

theorem rco_heap_application_io_id (C : Collaborators W) (s : IOScheduler W) (E p : Nat) :
    ((s.remove_current_operation C E).heap p).application_io_id = (s.heap p).application_io_id := by
  by_cases hp : p = E
  · subst hp; rw [remove_current_operation_heap_self]
  · rw [remove_current_operation_heap_ne C s hp]

theorem rco_heap_logical_address (C : Collaborators W) (s : IOScheduler W) (E p : Nat) :
    ((s.remove_current_operation C E).heap p).logical_address = (s.heap p).logical_address := by
  by_cases hp : p = E
  · subst hp; rw [remove_current_operation_heap_self]
  · rw [remove_current_operation_heap_ne C s hp]

theorem rco_heap_type (C : Collaborators W) (s : IOScheduler W) (E p : Nat) :
    ((s.remove_current_operation C E).heap p).type = (s.heap p).type := by
  by_cases hp : p = E
  · subst hp; rw [remove_current_operation_heap_self]
  · rw [remove_current_operation_heap_ne C s hp]

theorem rco_heap_flexible_read (C : Collaborators W) (s : IOScheduler W) (E p : Nat) :
    ((s.remove_current_operation C E).heap p).flexible_read = (s.heap p).flexible_read := by
  by_cases hp : p = E
  · subst hp; rw [remove_current_operation_heap_self]
  · rw [remove_current_operation_heap_ne C s hp]

theorem rco_heap_garbage_collection_op (C : Collaborators W) (s : IOScheduler W) (E p : Nat) :
    ((s.remove_current_operation C E).heap p).garbage_collection_op = (s.heap p).garbage_collection_op := by
  by_cases hp : p = E
  · subst hp; rw [remove_current_operation_heap_self]
  · rw [remove_current_operation_heap_ne C s hp]

theorem rco_heap_noop (C : Collaborators W) (s : IOScheduler W) (E p : Nat) :
    ((s.remove_current_operation C E).heap p).noop = if p = E then true else (s.heap p).noop := by
  by_cases hp : p = E
  · subst hp; rw [remove_current_operation_heap_self, if_pos rfl]
  · rw [remove_current_operation_heap_ne C s hp, if_neg hp]

theorem current_pointers_rco (C : Collaborators W) (s : IOScheduler W) (E : Nat) :
    (s.remove_current_operation C E).current_pointers = s.current_pointers := by
  unfold current_pointers; rw [rco_current_events]

theorem promote_next_free (s : IOScheduler W) (E : Nat) :
    (s.promote_to_gc E).next_free = s.next_free :=
  (Same.promote_to_gc_same s E).next_free

theorem promote_current_events (s : IOScheduler W) (E : Nat) :
    (s.promote_to_gc E).current_events = s.current_events :=
  (Same.promote_to_gc_same s E).current

theorem promote_LBA_currently_executing (s : IOScheduler W) (E : Nat) :
    (s.promote_to_gc E).LBA_currently_executing = s.LBA_currently_executing :=
  (Same.promote_to_gc_same s E).owner

theorem promote_dependency_code_to_LBA (s : IOScheduler W) (E : Nat) :
    (s.promote_to_gc E).dependency_code_to_LBA = s.dependency_code_to_LBA :=
  (Same.promote_to_gc_same s E).lba_of

theorem promote_op_code_to_dependent_op_codes (s : IOScheduler W) (E : Nat) :
    (s.promote_to_gc E).op_code_to_dependent_op_codes = s.op_code_to_dependent_op_codes :=
  (Same.promote_to_gc_same s E).dependents

theorem promote_heap_application_io_id (s : IOScheduler W) (E p : Nat) :
    ((s.promote_to_gc E).heap p).application_io_id = (s.heap p).application_io_id :=
  (Same.promote_to_gc_same s E).op p

theorem promote_heap_logical_address (s : IOScheduler W) (E p : Nat) :
    ((s.promote_to_gc E).heap p).logical_address = (s.heap p).logical_address :=
  (Same.promote_to_gc_same s E).lba p

theorem promote_heap_type (s : IOScheduler W) (E p : Nat) :
    ((s.promote_to_gc E).heap p).type = (s.heap p).type :=
  (Same.promote_to_gc_same s E).type p

theorem promote_heap_flexible_read (s : IOScheduler W) (E p : Nat) :
    ((s.promote_to_gc E).heap p).flexible_read = (s.heap p).flexible_read :=
  (Same.promote_to_gc_same s E).flexible_read p

theorem promote_heap_noop (s : IOScheduler W) (E p : Nat) :
    ((s.promote_to_gc E).heap p).noop = (s.heap p).noop :=
  (Same.promote_to_gc_same s E).noop p

theorem promote_dependencies_get (s : IOScheduler W) (E N : Nat) :
    (s.promote_to_gc E).dependencies.get N = s.dependencies.get N :=
  (Same.promote_to_gc_same s E).pending N

theorem current_pointers_promote (s : IOScheduler W) (E : Nat) :
    (s.promote_to_gc E).current_pointers = s.current_pointers :=
  (Same.promote_to_gc_same s E).current_pointers_eq

theorem bucket_insert_perm (k : Int) (p : Nat) (l : List (Int × List Nat)) :
    ((bucket_insert k p l).map Prod.snd).flatten.Perm (p :: (l.map Prod.snd).flatten) := by
  induction l with
  | nil => simp [bucket_insert]
  | cons b rest ih =>
    obtain ⟨k', es⟩ := b
    unfold bucket_insert
    split
    · simp
    · split
      · simp only [List.map_cons, List.flatten_cons, List.append_assoc]
        exact List.perm_middle
      · simp only [List.map_cons, List.flatten_cons]
        exact (List.Perm.append_left es ih).trans List.perm_middle

theorem current_pointers_push_perm (p : Nat) (s : IOScheduler W) :
    (s.push_into_current_events p).current_pointers.Perm (p :: s.current_pointers) :=
  bucket_insert_perm _ _ _

theorem Kept.refl_kept (s : IOScheduler W) : Kept s s :=
  ⟨rfl, fun _ => rfl, fun _ => rfl, fun _ => rfl, fun _ => rfl⟩

theorem Kept.trans_kept {s t u : IOScheduler W} (h1 : Kept s t) (h2 : Kept t u) : Kept s u :=
  ⟨h2.next_free.trans h1.next_free, fun p => (h2.op p).trans (h1.op p),
    fun p => (h2.lba p).trans (h1.lba p), fun p => (h2.type p).trans (h1.type p),
    fun p => (h2.flexible_read p).trans (h1.flexible_read p)⟩

theorem Same.kept {s t : IOScheduler W} (h : Same s t) : Kept s t :=
  ⟨h.next_free, h.op, h.lba, h.type, h.flexible_read⟩

theorem Kept.ok {s t : IOScheduler W} (h : Kept s t) (p : Nat) :
    t.skeleton.ok p = s.skeleton.ok p := by
  simp only [skeleton, h.type, h.flexible_read]

theorem Resolved.intro {s t : IOScheduler W} {Fn Fx Fut : List Nat} {e : Nat} {k : Skeleton}
    {Act : List Nat} (hS : Safe s Fn Fx Fut) (hk : Kept s t)
    (hI : Skeleton.Inv k Act Fx Fut)
    (hk1 : k.next_free = s.next_free) (hk2 : k.op = s.skeleton.op)
    (hk3 : k.lba = s.skeleton.lba)
    (hcur : (t.current_pointers ++ Fn).Perm Act)
    (hnoop : ∀ p, (t.heap p).noop = k.noop p)
    (hpend : ∀ N, t.dependencies.get N = k.pending N)
    (hdts : ∀ O, t.op_code_to_dependent_op_codes.get O = k.dependents O)
    (hown : ∀ l, t.LBA_currently_executing l = k.owner l)
    (hlbaof : ∀ N, t.dependency_code_to_LBA N = k.lba_of N)
    (hA : k.owner (s.heap e).logical_address = some (s.heap e).application_io_id →
      Skeleton.Adm k (Act ++ (Fx ++ Fut)) e) : Resolved s t Fn Fx Fut e := by
  have hop : ∀ p, t.skeleton.op p = k.op p := fun p => by
    rw [hk2]; exact hk.op p
  have hlba : ∀ p, t.skeleton.lba p = k.lba p := fun p => by
    rw [hk3]; exact hk.lba p
  have hnf : t.skeleton.next_free = k.next_free := by
    rw [hk1]; exact hk.next_free
  refine ⟨?_, ?_, hk⟩
  · have h1 : Skeleton.Inv t.skeleton Act Fx Fut :=
      hI.of_eq hnf hop hlba hnoop
        (fun p hp => by rw [hk.ok]; exact hS.ok_all p (show p < s.next_free from hk1 ▸ hp))
        hpend hdts hown hlbaof
    exact h1.perm hcur (List.Perm.refl _) (List.Perm.refl _)
  · intro ho
    have h1 := hA (by rw [← hown]; exact ho)
    have h2 : Skeleton.Adm t.skeleton (Act ++ (Fx ++ Fut)) e :=
      h1.of_eq_adm (le_of_eq hnf.symm) (fun p _ => hop p) (hop e) (hlba e)
        (fun O D hD => by rw [← hdts]; exact hD) (hlbaof _)
    exact h2.mono (fun p hp => by
      rcases List.mem_append.mp hp with hp | hp
      · exact List.mem_append_left _ (hcur.subset hp)
      · exact List.mem_append_right _ hp)

theorem Resolved.same {s t : IOScheduler W} {Fn Fx Fut : List Nat} {e : Nat}
    (hS : Safe s Fn Fx Fut) (hA : Admissible s Fn Fx Fut e) (h : Same s t) :
    Resolved s t Fn Fx Fut e :=
  ⟨h.safe hS, fun _ => h.admissible hA, h.kept⟩

theorem Resolved.of_same {s s0 t : IOScheduler W} {Fn Fx Fut : List Nat} {e : Nat}
    (h : Same s s0) (hr : Resolved s0 t Fn Fx Fut e) : Resolved s t Fn Fx Fut e :=
  ⟨hr.safe, fun ho => hr.admissible (by rw [h.lba, h.op]; exact ho), h.kept.trans_kept hr.kept⟩

theorem current_append_perm {a b : List Nat} (Fn : List Nat) (h : a = b) :
    (a ++ Fn).Perm (b ++ Fn) := by rw [h]

/-- The lock of an address without owner is taken. -/
theorem Resolved.take_resolved {s t : IOScheduler W} {Fn Fx Fut : List Nat} {e : Nat}
    (hS : Safe s Fn Fx Fut) (hA : Admissible s Fn Fx Fut e) (la : Nat) (v : Option Nat)
    (ho : s.LBA_currently_executing la = none) (hk : Kept s t)
    (hcur : t.current_events = s.current_events)
    (hnoop : ∀ p, (t.heap p).noop = (s.heap p).noop)
    (hpend : ∀ N, t.dependencies.get N = s.dependencies.get N)
    (hdts : t.op_code_to_dependent_op_codes = s.op_code_to_dependent_op_codes)
    (hown : ∀ l, t.LBA_currently_executing l = if l = la then v else s.LBA_currently_executing l)
    (hlbaof : t.dependency_code_to_LBA = s.dependency_code_to_LBA) :
    Resolved s t Fn Fx Fut e :=
  Resolved.intro hS hk (Skeleton.Inv.take hS la v ho) rfl rfl rfl
    (current_append_perm Fn (by unfold current_pointers; rw [hcur]))
    hnoop hpend (fun O => by rw [hdts]; rfl) hown (fun N => by rw [hlbaof]; rfl)
    (fun _ => ⟨hA.1, hA.2, hA.3, hA.4⟩)

/-- The scheduled event of the owner is cancelled and the lock passes on. -/
theorem Resolved.cancel_existing_resolved {s t : IOScheduler W} {Fn Fx Fut : List Nat} {e : Nat}
    (hS : Safe s Fn Fx Fut) (hA : Admissible s Fn Fx Fut e) (E : Nat)
    (hE : E ∈ s.current_pointers) (la : Nat) (v : Option Nat)
    (ho : s.LBA_currently_executing la = some (s.heap E).application_io_id) (hk : Kept s t)
    (hcur : t.current_events = s.current_events)
    (hnoop : ∀ p, (t.heap p).noop = if p = E then true else (s.heap p).noop)
    (hpend : ∀ N, t.dependencies.get N = s.dependencies.get N)
    (hdts : t.op_code_to_dependent_op_codes = s.op_code_to_dependent_op_codes)
    (hown : ∀ l, t.LBA_currently_executing l = if l = la then v else s.LBA_currently_executing l)
    (hlbaof : t.dependency_code_to_LBA = s.dependency_code_to_LBA) :
    Resolved s t Fn Fx Fut e :=
  Resolved.intro hS hk
    (Skeleton.Inv.cancel_existing hS E (List.mem_append_left _ hE) la v ho) rfl rfl rfl
    (current_append_perm Fn (by unfold current_pointers; rw [hcur]))
    hnoop hpend (fun O => by rw [hdts]; rfl) hown (fun N => by rw [hlbaof]; rfl)
    (fun _ => ⟨hA.1, hA.2, hA.3, hA.4⟩)

/-- The new event is cancelled and inserted as a noop event; the lock stays. -/
theorem Resolved.cancel_new {s t : IOScheduler W} {Fn Fx Fut : List Nat} {e : Nat}
    (hS : Safe s Fn Fx Fut) (hA : Admissible s Fn Fx Fut e) (O : Nat)
    (ho : s.LBA_currently_executing (s.heap e).logical_address = some O)
    (hne : O ≠ (s.heap e).application_io_id) (hk : Kept s t)
    (hcur : t.current_pointers.Perm (e :: s.current_pointers))
    (hnoop : ∀ p, (t.heap p).noop = if p = e then true else (s.heap p).noop)
    (hpend : ∀ N, t.dependencies.get N = s.dependencies.get N)
    (hdts : t.op_code_to_dependent_op_codes = s.op_code_to_dependent_op_codes)
    (hown : ∀ l, t.LBA_currently_executing l
      = if l = (s.heap e).logical_address then some O else s.LBA_currently_executing l)
    (hlbaof : t.dependency_code_to_LBA = s.dependency_code_to_LBA) :
    Resolved s t Fn Fx Fut e := by
  have hnL := Skeleton.Adm.not_mem hA
  have h1 := Skeleton.Inv.set_noop hS e true
    (fun hm => hnL (List.mem_append_right _ (List.mem_append_left _ hm))) (Or.inl rfl)
  have h2 := Skeleton.Inv.add_act h1 ⟨hA.1, hA.2, hA.3, hA.4⟩
    (fun hn => by
      have hn' : (if e = e then true else s.skeleton.noop e) = false := hn
      rw [if_pos rfl] at hn'
      exact Bool.noConfusion hn')
  have hown' : ∀ l, t.LBA_currently_executing l = s.LBA_currently_executing l := fun l => by
    rw [hown]
    split
    · next hl => rw [hl, ho]
    · rfl
  refine Resolved.intro hS hk h2 rfl rfl rfl ?_ hnoop hpend (fun O => by rw [hdts]; rfl) hown'
    (fun N => by rw [hlbaof]; rfl) ?_
  · exact (hcur.append_right Fn)
  · intro h
    have h' : s.LBA_currently_executing (s.heap e).logical_address
        = some (s.heap e).application_io_id := h
    rw [ho] at h'
    exact absurd (Option.some.inj h') hne

/-- The new event is made to wait for the owner of the lock. -/
theorem Resolved.make_dependent_resolved {s t : IOScheduler W} {Fn Fx Fut : List Nat} {e : Nat}
    (hS : Safe s Fn Fx Fut) (hA : Admissible s Fn Fx Fut e) (O : Nat) (b : Bool)
    (ho : s.LBA_currently_executing (s.heap e).logical_address = some O)
    (hne : O ≠ (s.heap e).application_io_id) (hk : Kept s t)
    (hcur : t.current_events = s.current_events)
    (hnoop : ∀ p, (t.heap p).noop = if p = e then b else (s.heap p).noop)
    (hpend : ∀ N, t.dependencies.get N = if N = (s.heap e).application_io_id
      then e :: s.dependencies.get (s.heap e).application_io_id else s.dependencies.get N)
    (hdts : ∀ X, t.op_code_to_dependent_op_codes.get X = if X = O
      then s.op_code_to_dependent_op_codes.get O ++ [(s.heap e).application_io_id]
      else s.op_code_to_dependent_op_codes.get X)
    (hown : t.LBA_currently_executing = s.LBA_currently_executing)
    (hlbaof : t.dependency_code_to_LBA = s.dependency_code_to_LBA) :
    Resolved s t Fn Fx Fut e := by
  have hnL := Skeleton.Adm.not_mem hA
  have h1 := Skeleton.Inv.make_dependent_inv hS hA O
  have h2 := Skeleton.Inv.set_noop h1 e b
    (fun hm => hnL (List.mem_append_right _ (List.mem_append_left _ hm)))
    (Or.inr (fun hm => hnL (List.mem_append_left _ hm)))
  refine Resolved.intro hS hk h2 rfl rfl rfl
    (current_append_perm Fn (by unfold current_pointers; rw [hcur]))
    hnoop hpend hdts (fun l => by rw [hown]; rfl) (fun N => by rw [hlbaof]; rfl) ?_
  intro h
  have h' : s.LBA_currently_executing (s.heap e).logical_address
      = some (s.heap e).application_io_id := h
  rw [ho] at h'
  exact absurd (Option.some.inj h') hne

/-- The new event is cancelled and dropped. -/
theorem Resolved.lost {s t : IOScheduler W} {Fn Fx Fut : List Nat} {e : Nat}
    (hS : Safe s Fn Fx Fut) (hA : Admissible s Fn Fx Fut e) (b : Bool) (hk : Kept s t)
    (hcur : t.current_events = s.current_events)
    (hnoop : ∀ p, (t.heap p).noop = if p = e then b else (s.heap p).noop)
    (hpend : ∀ N, t.dependencies.get N = s.dependencies.get N)
    (hdts : t.op_code_to_dependent_op_codes = s.op_code_to_dependent_op_codes)
    (hown : t.LBA_currently_executing = s.LBA_currently_executing)
    (hlbaof : t.dependency_code_to_LBA = s.dependency_code_to_LBA) :
    Resolved s t Fn Fx Fut e := by
  have hnL := Skeleton.Adm.not_mem hA
  have h2 := Skeleton.Inv.set_noop hS e b
    (fun hm => hnL (List.mem_append_right _ (List.mem_append_left _ hm)))
    (Or.inr (fun hm => hnL (List.mem_append_left _ hm)))
  exact Resolved.intro hS hk h2 rfl rfl rfl
    (current_append_perm Fn (by unfold current_pointers; rw [hcur]))
    hnoop hpend (fun O => by rw [hdts]; rfl) (fun l => by rw [hown]; rfl)
    (fun N => by rw [hlbaof]; rfl) (fun _ => ⟨hA.1, hA.2, hA.3, hA.4⟩)

theorem Resolved.made_dependent (C : Collaborators W) {s : IOScheduler W} {Fn Fx Fut : List Nat}
    {e : Nat} (hS : Safe s Fn Fx Fut) (hA : Admissible s Fn Fx Fut e) (O : Nat)
    (ho : s.LBA_currently_executing (s.heap e).logical_address = some O)
    (hne : O ≠ (s.heap e).application_io_id) :
    Resolved s (s.make_dependent e O) Fn Fx Fut e
    ∧ Resolved s ((s.make_dependent e O).remove_current_operation C e) Fn Fx Fut e := by
  constructor
  · refine Resolved.make_dependent_resolved hS hA O (s.heap e).noop ho hne ?_ ?_ ?_ ?_ ?_ ?_ ?_
    · constructor <;> intros <;> rfl
    · rfl
    · intro p
      show (s.heap p).noop = _
      split
      · next h => rw [h]
      · rfl
    · intro N
      by_cases h : N = (s.heap e).application_io_id <;>
        simp [IOScheduler.make_dependent, Table.get, Table.set, h]
    · intro X
      by_cases h : X = O <;> simp [IOScheduler.make_dependent, Table.get, Table.set, h]
    · rfl
    · rfl
  · refine Resolved.make_dependent_resolved hS hA O true ho hne ?_ ?_ ?_ ?_ ?_ ?_ ?_
    · constructor <;> intros <;>
        simp [rco_next_free, rco_heap_application_io_id, rco_heap_logical_address,
          rco_heap_type, rco_heap_flexible_read, IOScheduler.make_dependent]
    · rw [rco_current_events]; rfl
    · intro p
      rw [rco_heap_noop]; rfl
    · intro N
      rw [rco_dependencies]
      by_cases h : N = (s.heap e).application_io_id <;>
        simp [IOScheduler.make_dependent, Table.get, Table.set, h]
    · intro X
      rw [rco_op_code_to_dependent_op_codes]
      by_cases h : X = O <;> simp [IOScheduler.make_dependent, Table.get, Table.set, h]
    · rw [rco_LBA_currently_executing]; rfl
    · rw [rco_dependency_code_to_LBA]; rfl

theorem remove_redundant_events_rest_resolved (C : Collaborators W) (e : Nat)
    (existing : Option Nat) (tn ts : event_type) (O : Nat) (s t : IOScheduler W)
    (Fn Fx Fut : List Nat) (hS : Safe s Fn Fx Fut) (hA : Admissible s Fn Fx Fut e)
    (hex : ∀ E, existing = some E → E ∈ s.current_pointers ∧ (s.heap E).application_io_id = O)
    (ho : s.LBA_currently_executing (s.heap e).logical_address = some O)
    (hne : O ≠ (s.heap e).application_io_id)
    (hrun : remove_redundant_events_rest C e existing tn ts (s.heap e).application_io_id O
      (s.heap e).logical_address s = Except.ok t) : Resolved s t Fn Fx Fut e := by
  have hmd := Resolved.made_dependent C hS hA O ho hne
  unfold remove_redundant_events_rest at hrun
  simp only [pure, Except.pure] at hrun
  split at hrun
  · split at hrun
    · cases hrun
    · next E hc =>
      obtain ⟨hE, hEO⟩ := hex E rfl
      simp only [Except.ok.injEq] at hrun
      subst hrun
      refine Resolved.cancel_existing_resolved hS hA E hE (s.heap e).logical_address
        (some (s.heap e).application_io_id) (by rw [hEO]; exact ho) ?_ ?_ ?_ ?_ ?_ ?_ ?_
      all_goals first
        | (constructor <;> intros <;> simp [rco_next_free, rco_heap_application_io_id,
            rco_heap_logical_address, rco_heap_type, rco_heap_flexible_read]; done)
        | (intros; simp [rco_current_events, rco_dependencies, rco_LBA_currently_executing,
            rco_dependency_code_to_LBA, rco_op_code_to_dependent_op_codes, rco_heap_noop,
            Table.set]; done)
  · split at hrun
    · cases hrun; exact hmd.1
    · split at hrun
      · cases hrun; exact hmd.1
      · split at hrun
        · split at hrun
          · cases hrun; exact hmd.2
          · cases hrun; exact hmd.1
        · split at hrun
          · split at hrun
            · cases hrun
            · next E hc =>
              obtain ⟨hE, hEO⟩ := hex E rfl
              simp only [Except.ok.injEq] at hrun
              subst hrun
              refine Resolved.cancel_existing_resolved hS hA E hE (s.heap e).logical_address
                (some (s.heap e).application_io_id) (by rw [hEO]; exact ho)
                ?_ ?_ ?_ ?_ ?_ ?_ ?_
              all_goals first
                | (constructor <;> intros <;> split <;>
                    simp [rco_next_free, rco_heap_application_io_id,
                      rco_heap_logical_address, rco_heap_type, rco_heap_flexible_read,
                      IOScheduler.call]; done)
                | (intros; split <;>
                    simp [rco_current_events, rco_dependencies, rco_LBA_currently_executing,
                    rco_dependency_code_to_LBA, rco_op_code_to_dependent_op_codes,
                    rco_heap_noop, Table.set, IOScheduler.call]; done)
          · split at hrun
            · cases hrun; exact hmd.1
            · split at hrun
              · cases hrun; exact hmd.1
              · split at hrun
                · split at hrun
                  · cases hrun
                    refine Resolved.lost hS hA true ?_ ?_ ?_ ?_ ?_ ?_ ?_
                    all_goals first
                      | (constructor <;> intros <;>
                          simp [rco_next_free, rco_heap_application_io_id,
                            rco_heap_logical_address, rco_heap_type, rco_heap_flexible_read,
                            IOScheduler.call]; done)
                      | (intros;
                          simp [rco_current_events, rco_dependencies,
                          rco_LBA_currently_executing,
                          rco_dependency_code_to_LBA, rco_op_code_to_dependent_op_codes,
                          rco_heap_noop, Table.set, IOScheduler.call]; done)
                  · cases hrun
                    exact Resolved.same hS hA (Same.refl _)
                · cases hrun

theorem remove_redundant_events_resolved (C : Collaborators W) (e : Nat)
    (s t : IOScheduler W) (Fn Fx Fut : List Nat) (hS : Safe s Fn Fx Fut)
    (hA : Admissible s Fn Fx Fut e) (hrun : remove_redundant_events C e s = Except.ok t) :
    Resolved s t Fn Fx Fut e := by
  have hsame : ∀ v, Same s { s with dependency_code_to_type := v } :=
    fun v => Same.of_fields rfl rfl rfl rfl rfl rfl rfl
  unfold remove_redundant_events at hrun
  simp only [pure, Except.pure] at hrun
  split at hrun
  · next ho =>
    simp only [Except.ok.injEq] at hrun
    subst hrun
    refine Resolved.take_resolved hS hA (s.heap e).logical_address (some (s.heap e).application_io_id)
      ho ?_ ?_ ?_ ?_ ?_ ?_ ?_
    all_goals first
      | (constructor <;> intros <;> rfl)
      | (intros; rfl)
  · next O ho =>
    split at hrun
    · cases hrun
      exact Resolved.same hS hA (Same.refl _)
    · next hne =>
      have hex : ∀ E, s.find_scheduled_event O = some E →
          E ∈ s.current_pointers ∧ (s.heap E).application_io_id = O :=
        fun E h => find_scheduled_event_spec s O E h
      have hs0 := hsame ((s.dependency_code_to_type.touch (s.heap e).application_io_id).touch O)
      split at hrun
      · split at hrun
        · cases hrun
        · next E hfind =>
          obtain ⟨hE, hEO⟩ := hex E hfind
          simp only [Except.ok.injEq] at hrun
          subst hrun
          refine Resolved.of_same (hsame _)
            (Resolved.cancel_new ((hsame _).safe hS) ((hsame _).admissible hA) O ho hne
              ?_ ?_ ?_ ?_ ?_ ?_ ?_)
          · constructor <;> intros <;>
              simp [rco_next_free, rco_heap_application_io_id, rco_heap_logical_address,
                rco_heap_type, rco_heap_flexible_read, promote_next_free,
                promote_heap_application_io_id, promote_heap_logical_address,
                promote_heap_type, promote_heap_flexible_read,
                IOScheduler.push_into_current_events]
          · refine (current_pointers_push_perm e _).trans ?_
            rw [current_pointers_rco, current_pointers_promote]; rfl
          · intro p
            simp [rco_heap_noop, promote_heap_noop, IOScheduler.push_into_current_events]
          · intro N
            simp [rco_dependencies, promote_dependencies_get,
              IOScheduler.push_into_current_events]
          · simp [rco_op_code_to_dependent_op_codes, promote_op_code_to_dependent_op_codes,
              IOScheduler.push_into_current_events]
          · intro l
            simp [rco_LBA_currently_executing, promote_LBA_currently_executing,
              IOScheduler.push_into_current_events, Table.set]
          · simp [rco_dependency_code_to_LBA, promote_dependency_code_to_LBA,
              IOScheduler.push_into_current_events]
      · split at hrun
        · cases hrun
          refine Resolved.of_same (hsame _)
            (Resolved.cancel_new ((hsame _).safe hS) ((hsame _).admissible hA) O ho hne
              ?_ ?_ ?_ ?_ ?_ ?_ ?_)
          · constructor <;> intros <;>
              simp [rco_next_free, rco_heap_application_io_id, rco_heap_logical_address,
                rco_heap_type, rco_heap_flexible_read, IOScheduler.call,
                IOScheduler.push_into_current_events]
          · exact (current_pointers_push_perm e _).trans (by rw [current_pointers_rco]; rfl)
          · intro p
            simp [rco_heap_noop, IOScheduler.push_into_current_events, IOScheduler.call]
          · intro N
            simp [rco_dependencies, IOScheduler.call, IOScheduler.push_into_current_events]
          · simp [rco_op_code_to_dependent_op_codes, IOScheduler.call,
              IOScheduler.push_into_current_events]
          · intro l
            simp [rco_LBA_currently_executing, IOScheduler.call,
              IOScheduler.push_into_current_events, Table.set]
          · simp [rco_dependency_code_to_LBA, IOScheduler.call,
              IOScheduler.push_into_current_events]
        · split at hrun
          · split at hrun
            · cases hrun
            · next E hfind =>
              obtain ⟨hE, hEO⟩ := hex E hfind
              simp only [Except.ok.injEq] at hrun
              subst hrun
              refine Resolved.of_same (hsame _)
                (Resolved.cancel_existing_resolved ((hsame _).safe hS) ((hsame _).admissible hA) E hE
                  (s.heap e).logical_address (some (s.heap e).application_io_id)
                  (by rw [← hEO] at ho; exact ho) ?_ ?_ ?_ ?_ ?_ ?_ ?_)
              all_goals first
                | (constructor <;> intros <;> split <;>
                    simp [rco_next_free, rco_heap_application_io_id, rco_heap_logical_address,
                      rco_heap_type, rco_heap_flexible_read, promote_next_free,
                      promote_heap_application_io_id, promote_heap_logical_address,
                      promote_heap_type, promote_heap_flexible_read, IOScheduler.call]; done)
                | (intros; split <;>
                    simp [rco_current_events, rco_dependencies, rco_LBA_currently_executing,
                      rco_dependency_code_to_LBA, rco_op_code_to_dependent_op_codes,
                      rco_heap_noop, promote_current_events, promote_dependencies_get,
                      promote_LBA_currently_executing, promote_dependency_code_to_LBA,
                      promote_op_code_to_dependent_op_codes, promote_heap_noop, Table.set,
                      IOScheduler.call]; done)
          · split at hrun
            · split at hrun
              · cases hrun
              · next E hfind =>
                obtain ⟨hE, hEO⟩ := hex E hfind
                simp only [Except.ok.injEq] at hrun
                subst hrun
                refine Resolved.of_same (hsame _)
                  (Resolved.cancel_existing_resolved ((hsame _).safe hS) ((hsame _).admissible hA) E hE
                    (s.heap e).logical_address (some (s.heap e).application_io_id)
                    (by rw [← hEO] at ho; exact ho) ?_ ?_ ?_ ?_ ?_ ?_ ?_)
                all_goals first
                  | (constructor <;> intros <;>
                      simp [rco_next_free, rco_heap_application_io_id, rco_heap_logical_address,
                        rco_heap_type, rco_heap_flexible_read]; done)
                  | (intros;
                      simp [rco_current_events, rco_dependencies, rco_LBA_currently_executing,
                        rco_dependency_code_to_LBA, rco_op_code_to_dependent_op_codes,
                        rco_heap_noop, Table.set]; done)
            · split at hrun
              · split at hrun
                · cases hrun
                · next E hfind =>
                  split at hrun
                  ·
                    obtain ⟨hE, hEO⟩ := hex E hfind
                    simp only [Except.ok.injEq] at hrun
                    subst hrun
                    refine Resolved.of_same (hsame _)
                      (Resolved.cancel_existing_resolved ((hsame _).safe hS) ((hsame _).admissible hA) E hE
                        (s.heap e).logical_address (some (s.heap e).application_io_id)
                        (by rw [← hEO] at ho; exact ho) ?_ ?_ ?_ ?_ ?_ ?_ ?_)
                    all_goals first
                      | (constructor <;> intros <;>
                          simp [rco_next_free, rco_heap_application_io_id, rco_heap_logical_address,
                            rco_heap_type, rco_heap_flexible_read]; done)
                      | (intros;
                          simp [rco_current_events, rco_dependencies, rco_LBA_currently_executing,
                            rco_dependency_code_to_LBA, rco_op_code_to_dependent_op_codes,
                            rco_heap_noop, Table.set]; done)
                  ·
                    exact Resolved.of_same hs0
                      (remove_redundant_events_rest_resolved C e _ _ _ O _ t Fn Fx Fut (hs0.safe hS)
                        (hs0.admissible hA) hex ho hne hrun)
              ·
                exact Resolved.of_same hs0
                  (remove_redundant_events_rest_resolved C e _ _ _ O _ t Fn Fx Fut (hs0.safe hS)
                    (hs0.admissible hA) hex ho hne hrun)

/-- An admissible event is inserted into `current_events`: it is noop or holds its lock. -/
theorem Safe.push {s : IOScheduler W} {Fn Fx Fut : List Nat} {e : Nat}
    (hS : Safe s Fn Fx Fut) (hA : Admissible s Fn Fx Fut e)
    (ho : (s.heap e).noop = false →
      s.LBA_currently_executing (s.heap e).logical_address = some (s.heap e).application_io_id) :
    Safe (s.push_into_current_events e) Fn Fx Fut := by
  have h1 : Skeleton.Inv s.skeleton (e :: (s.current_pointers ++ Fn)) Fx Fut :=
    Skeleton.Inv.add_act hS hA ho
  exact h1.perm ((current_pointers_push_perm e s).append_right Fn) (List.Perm.refl _)
    (List.Perm.refl _)

/-- The facts about an admissible event that the guard flags give. -/
theorem Safe.guarded {s : IOScheduler W} {Fn Fx Fut : List Nat} {e : Nat}
    (hS : Safe s Fn Fx Fut) (he : e < s.next_free) :
    (s.heap e).flexible_read = false ∧ (s.heap e).type ≠ event_type.ERASE
      ∧ (s.heap e).type ≠ event_type.GARBAGE_COLLECTION := by
  have h := hS.ok_all e he
  simpa [skeleton, and_assoc] using h

theorem Safe.decompose_read_safe {s : IOScheduler W} {Fn Fx Fut : List Nat} {e : Nat}
    (hS : Safe s Fn Fx Fut) (hA : Admissible s Fn Fx Fut e) :
    Safe (s.decompose_read e (s.heap e).application_io_id) Fn Fx Fut
    ∧ Admissible (s.decompose_read e (s.heap e).application_io_id) Fn Fx Fut e := by
  have he : e < s.next_free := hA.bound
  have hne : e ≠ s.next_free := Nat.ne_of_lt he
  have hg := hS.guarded he
  have hf := decompose_read_frame s e (s.heap e).application_io_id
  have hself := decompose_read_heap_self s e (s.heap e).application_io_id he
  have hnew := decompose_read_heap_new s e (s.heap e).application_io_id
  have hother := fun p (hp : p < s.next_free) (hpe : p ≠ e) =>
    decompose_read_heap_ne s e (s.heap e).application_io_id p hp hpe
  have hheap : ∀ p, ((s.decompose_read e (s.heap e).application_io_id).heap p).application_io_id
        = (if p = s.next_free then (s.heap e).application_io_id
            else (s.heap p).application_io_id)
      ∧ ((s.decompose_read e (s.heap e).application_io_id).heap p).logical_address
        = (if p = s.next_free then (s.heap e).logical_address else (s.heap p).logical_address)
      ∧ ((s.decompose_read e (s.heap e).application_io_id).heap p).noop
        = (if p = s.next_free then (s.heap e).noop else (s.heap p).noop) := by
    intro p
    by_cases hp : p = s.next_free
    · subst hp; rw [hnew]; simp
    · by_cases hpe : p = e
      · subst hpe; simp [IOScheduler.decompose_read, IOScheduler.alloc, IOScheduler.modify, hp]
      · simp [IOScheduler.decompose_read, IOScheduler.alloc, IOScheduler.modify, hp, hpe]
  have hI := Skeleton.Inv.alloc_pending hS e he hA.not_held (s.heap e).noop
    (s.next_free :: s.dependencies.get (s.heap e).application_io_id)
    (fun q hq => by
      rcases List.mem_cons.mp hq with hq | hq
      · exact Or.inl hq
      · exact Or.inr hq)
  have hcur : (s.decompose_read e (s.heap e).application_io_id).current_pointers
      = s.current_pointers := by
    unfold current_pointers; rw [hf.1]
  constructor
  · unfold Safe
    rw [hcur]
    refine hI.of_eq hf.2.2.2.2.2.2.2.2.1 (fun p => (hheap p).1) (fun p => (hheap p).2.1)
      (fun p => (hheap p).2.2) ?_ ?_ ?_ ?_ ?_
    · intro p hp
      by_cases hpn : p = s.next_free
      · subst hpn
        simp [skeleton, hnew, hg.1]
      · by_cases hpe : p = e
        · subst hpe
          simp [skeleton, hself, hg.1]
        · have hlt : p < s.next_free := by
            have : p < s.next_free + 1 := hp
            omega
          have := hS.ok_all p hlt
          simpa [skeleton, hother p hlt hpe] using this
    · intro N
      show (s.decompose_read e (s.heap e).application_io_id).dependencies.get N = _
      rw [hf.2.2.1]
      by_cases hN : N = (s.heap e).application_io_id
      · subst hN; simp [Table.get, Table.set, skeleton]
      · simp [Table.get, Table.set, skeleton, hN]
    · intro O
      show (s.decompose_read e (s.heap e).application_io_id).op_code_to_dependent_op_codes.get O
        = _
      rw [hf.2.2.2.2.2.2.1]; rfl
    · intro l
      show (s.decompose_read e (s.heap e).application_io_id).LBA_currently_executing l = _
      rw [hf.2.2.2.1]; rfl
    · intro N
      show (s.decompose_read e (s.heap e).application_io_id).dependency_code_to_LBA N = _
      rw [hf.2.2.2.2.1]; rfl
  · unfold Admissible
    rw [hcur]
    have hb : ∀ p, p ∈ (s.current_pointers ++ Fn) ++ (Fx ++ Fut) → p ≠ s.next_free :=
      fun p hp => Nat.ne_of_lt (hS.bound p hp)
    have hle : s.skeleton.next_free
        ≤ (s.decompose_read e (s.heap e).application_io_id).skeleton.next_free := by
      show s.next_free ≤ (s.decompose_read e (s.heap e).application_io_id).next_free
      rw [hf.2.2.2.2.2.2.2.2.1]; exact Nat.le_succ _
    refine Skeleton.Adm.of_eq_adm hA hle ?_ ?_ ?_ ?_ ?_
    · intro p hp
      have := (hheap p).1
      rw [if_neg (hb p hp)] at this
      exact this
    · have := (hheap e).1
      rw [if_neg hne] at this
      exact this
    · have := (hheap e).2.1
      rw [if_neg hne] at this
      exact this
    · intro O D hD
      have h' : D ∈ (s.decompose_read e (s.heap e).application_io_id
        ).op_code_to_dependent_op_codes.get O := hD
      rw [hf.2.2.2.2.2.2.1] at h'
      exact h'
    · show (s.decompose_read e (s.heap e).application_io_id).dependency_code_to_LBA _ = _
      rw [hf.2.2.2.2.1]; rfl

/-- The guarded branch of `init_event`: the event is inserted when it holds its lock. -/
theorem should_event_be_scheduled_safe (C : Collaborators W) (e : Nat) (s : IOScheduler W)
    (r : Bool × IOScheduler W) (Fn Fx Fut : List Nat) (hS : Safe s Fn Fx Fut)
    (hA : Admissible s Fn Fx Fut e) (hrun : should_event_be_scheduled C e s = Except.ok r) :
    Safe (if r.1 = true then r.2.push_into_current_events e else r.2) Fn Fx Fut
    ∧ Kept s (if r.1 = true then r.2.push_into_current_events e else r.2) := by
  unfold should_event_be_scheduled at hrun
  cases hres : remove_redundant_events C e s with
  | error x => rw [hres] at hrun; cases hrun
  | ok s1 =>
    rw [hres] at hrun
    simp only [bind, Except.bind, pure, Except.pure, Except.ok.injEq] at hrun
    have hR := remove_redundant_events_resolved C e s s1 Fn Fx Fut hS hA hres
    subst hrun
    by_cases hd : s1.LBA_currently_executing.count (s1.heap e).logical_address = 1
        ∧ s1.LBA_currently_executing (s1.heap e).logical_address
          = some (s1.heap e).application_io_id
    · simp only [hd, and_self, decide_True, if_true]
      have ho : s1.LBA_currently_executing (s.heap e).logical_address
          = some (s.heap e).application_io_id := by
        rw [← hR.kept.lba, ← hR.kept.op]; exact hd.2
      exact ⟨Safe.push hR.safe (hR.admissible ho) (fun _ => hd.2),
        hR.kept.trans_kept ⟨rfl, fun _ => rfl, fun _ => rfl, fun _ => rfl, fun _ => rfl⟩⟩
    · simp only [hd, decide_False, Bool.false_eq_true, if_false]
      exact ⟨hR.safe, hR.kept⟩

/-- The second decision chain of `init_event`, for an event that is not decomposed: the
collaborators are told, nothing the lock discipline depends on changes. -/
theorem init_event_tail_safe (C : Collaborators W) (fuel e : Nat) (T : event_type)
    (s1 t : IOScheduler W) (Fn Fx Fut : List Nat) (hS : Safe s1 Fn Fx Fut)
    (hT1 : T ≠ event_type.GARBAGE_COLLECTION) (hT2 : T ≠ event_type.ERASE)
    (hrun : (if T = event_type.READ_COMMAND ∨ T = event_type.READ_TRANSFER then
          pure ((s1.modify e
                  (fun x => { x with address := C.set_read_address s1.world x })).call C
                  (Call.set_read_address (s1.heap e)))
        else if T = event_type.WRITE then
          pure (s1.call C (Call.register_write_arrival (s1.heap e)))
        else if T = event_type.TRIM then
          pure ((s1.modify e
                  (fun x => { x with replace_address := C.set_replace_address s1.world x })).call
                  C (Call.set_replace_address (s1.heap e)))
        else if T = event_type.GARBAGE_COLLECTION then
          ((s1.call C (Call.migrate (s1.heap e))).alloc_migrations
              (C.migrate s1.world (s1.heap e))).1.reverse.foldlM
            (fun acc migration => init_migration (init_event C fuel) migration acc)
            ((s1.call C (Call.migrate (s1.heap e))).alloc_migrations
              (C.migrate s1.world (s1.heap e))).2
        else if T = event_type.ERASE then
          pure (s1.push_into_current_events e)
        else pure s1 : Run W (IOScheduler W)) = Except.ok t) : Safe t Fn Fx Fut := by
  split at hrun
  · cases hrun
    exact Same.safe (Same.trans (Same.modify_same s1 e
      (fun x => { x with address := C.set_read_address s1.world x }) (fun _ => rfl)
      (fun _ => rfl) (fun _ => rfl) (fun _ => rfl) (fun _ => rfl)) (Same.call _ _ _)) hS
  · split at hrun
    · cases hrun
      exact (Same.call C _ _).safe hS
    · split at hrun
      · cases hrun
        exact Same.safe (Same.trans (Same.modify_same s1 e
          (fun x => { x with replace_address := C.set_replace_address s1.world x })
          (fun _ => rfl) (fun _ => rfl) (fun _ => rfl) (fun _ => rfl) (fun _ => rfl))
          (Same.call _ _ _)) hS
      · cases hrun
        exact hS

/-- Admission keeps the lock discipline. -/
theorem init_event_safe (C : Collaborators W) : ∀ (fuel e : Nat) (s t : IOScheduler W)
    (Fn Fx Fut : List Nat), Safe s Fn Fx Fut → Admissible s Fn Fx Fut e →
    init_event C fuel e s = Except.ok t → Safe t Fn Fx Fut := by
  intro fuel
  induction fuel with
  | zero =>
    intro e s t Fn Fx Fut _ _ hrun
    rw [init_event] at hrun
    cases hrun
  | succ fuel ih =>
    intro e s t Fn Fx Fut hS hA hrun
    rw [init_event_succ] at hrun
    have hg := hS.guarded hA.bound
    split at hrun
    · next hn =>
      simp only [pure, Except.pure, Except.ok.injEq] at hrun
      subst hrun
      exact Safe.push hS hA (fun h => by rw [hn.1] at h; exact Bool.noConfusion h)
    · rw [if_neg (by rw [hg.1]; simp)] at hrun
      split at hrun
      · next hty =>
        cases hres : should_event_be_scheduled C e s with
        | error x => rw [hres] at hrun; cases hrun
        | ok r =>
          rw [hres] at hrun
          obtain ⟨hS1, hK1⟩ := should_event_be_scheduled_safe C e s r Fn Fx Fut hS hA hres
          simp only [bind, Except.bind] at hrun
          have hpure : (if r.1 = true then (pure (r.2.push_into_current_events e) :
              Run W (IOScheduler W)) else pure r.2)
              = Except.ok (if r.1 = true then r.2.push_into_current_events e else r.2) := by
            split <;> rfl
          rw [hpure] at hrun
          simp only [] at hrun
          have htype := hK1.type e
          have hnr : ¬ (s.heap e).type = event_type.READ := by
            rcases hty with h | h | h | h | h <;> rw [h] <;> decide
          rw [if_neg (by rw [htype]; exact hnr)] at hrun
          exact init_event_tail_safe C fuel e _ _ t Fn Fx Fut hS1 hg.2.2 hg.2.1 hrun
      · simp only [bind, Except.bind, pure, Except.pure] at hrun
        split at hrun
        · obtain ⟨hS2, hA2⟩ := Safe.decompose_read_safe hS hA
          exact ih e _ t Fn Fx Fut hS2 hA2 hrun
        · exact init_event_tail_safe C fuel e _ _ t Fn Fx Fut hS hg.2.2 hg.2.1 hrun

end IOScheduler

namespace IOScheduler
variable {W : Type}

/-- The admission loop of `manage_operation_completion` keeps the lock discipline. -/
theorem admit_dependents_safe (C : Collaborators W) :
    ∀ (fuel ev O : Nat) (s t : IOScheduler W) (Fn Fx Fut : List Nat), Safe s Fn Fx Fut →
      admit_dependents C fuel ev O s = Except.ok t → Safe t Fn Fx Fut := by
  intro fuel
  induction fuel with
  | zero => intro ev O s t Fn Fx Fut _ h; simp [admit_dependents, fail] at h
  | succ n ih =>
    intro ev O s t Fn Fx Fut hS hrun
    cases hQ : s.op_code_to_dependent_op_codes O with
    | none =>
      simp only [admit_dependents, hQ, pure, Except.pure, Except.ok.injEq] at hrun
      subst hrun; exact hS
    | some Qs =>
      cases Qs with
      | nil =>
        simp only [admit_dependents, hQ, pure, Except.pure, Except.ok.injEq] at hrun
        subst hrun; exact hS
      | cons D rest =>
        cases hp : s.dependencies D with
        | none => simp [admit_dependents, hQ, Table.touch, Table.get, hp, fail] at hrun
        | some l =>
          cases l with
          | nil => simp [admit_dependents, hQ, Table.touch, Table.get, hp, fail] at hrun
          | cons f tl =>
            rw [admit_dependents_step C n ev O D f rest tl s hQ hp] at hrun
            obtain ⟨s5, h5, hrest⟩ := bind_ok hrun
            have hd : s.skeleton.dependents O = D :: rest := by
              simp [skeleton, Table.get, hQ]
            have hpd : s.skeleton.pending D = f :: tl := by
              simp [skeleton, Table.get, hp]
            obtain ⟨hI, hA⟩ := Skeleton.Inv.pop_dependent hS O D f rest tl hd hpd
            have key : ∀ T : IOScheduler W,
                T = ({ (({ s with op_code_to_dependent_op_codes :=
                  s.op_code_to_dependent_op_codes.set O rest } : IOScheduler W).modify f
                    (fun x => x.incr_bus_wait_time
                      ((s.heap ev).current_time - (s.heap f).current_time))) with
                  dependencies := s.dependencies.set D tl } : IOScheduler W) →
                Safe T Fn Fx Fut ∧ Admissible T Fn Fx Fut f := by
              intro T hT
              have hk : T.skeleton = { s.skeleton with
                    dependents := fun x => if x = O then rest else s.skeleton.dependents x,
                    pending := fun x => if x = D then tl else s.skeleton.pending x } := by
                subst hT
                simp only [skeleton, IOScheduler.modify]
                congr 1 <;> funext x <;>
                  first
                  | (by_cases hx : x = f <;> simp [hx, Event.incr_bus_wait_time])
                  | simp [Table.get_set]
              have hc : T.current_pointers = s.current_pointers := by subst hT; rfl
              constructor
              · unfold Safe; rw [hk, hc]; exact hI
              · unfold Admissible; rw [hk, hc]
                exact hA.mono (fun p hp => by simpa [List.append_assoc] using hp)
            obtain ⟨hS4, hA4⟩ := key _ rfl
            exact ih ev O s5 t Fn Fx Fut (init_event_safe C n f _ s5 Fn Fx Fut hS4 hA4 h5) hrest

end IOScheduler

namespace IOScheduler
variable {W : Type}

theorem Safe.of_skeleton {s t : IOScheduler W} {k : Skeleton} {Fn Fx Fut : List Nat}
    (hk : t.skeleton = k) (hc : t.current_pointers = s.current_pointers)
    (hI : Skeleton.Inv k (s.current_pointers ++ Fn) Fx Fut) : Safe t Fn Fx Fut := by
  unfold Safe; rw [hk, hc]; exact hI

theorem Admissible.of_skeleton_adm {s t : IOScheduler W} {k : Skeleton} {Fn Fx Fut : List Nat}
    {e : Nat} (hk : t.skeleton = k) (hc : t.current_pointers = s.current_pointers)
    (hA : Skeleton.Adm k ((s.current_pointers ++ Fn) ++ (Fx ++ Fut)) e) :
    Admissible t Fn Fx Fut e := by
  unfold Admissible; rw [hk, hc]; exact hA

/-- Completion of the op of `e`, which has no live event and is no dependent, keeps the lock
discipline. -/
theorem manage_operation_completion_safe (C : Collaborators W) (fuel e : Nat)
    (s t : IOScheduler W) (Fn Fx Fut : List Nat) (hS : Safe s Fn Fx Fut)
    (hfresh : ∀ p ∈ (s.current_pointers ++ Fn) ++ (Fx ++ Fut),
      (s.heap p).application_io_id ≠ (s.heap e).application_io_id)
    (hnh : ∀ O', (s.heap e).application_io_id ∉ s.op_code_to_dependent_op_codes.get O')
    (hrun : manage_operation_completion C fuel e s = Except.ok t) : Safe t Fn Fx Fut := by
  unfold manage_operation_completion at hrun
  simp only [] at hrun
  obtain ⟨s3, h3, hfin⟩ := bind_ok hrun
  simp only [pure, Except.pure, Except.ok.injEq] at hfin
  subst hfin
  have h1 := Skeleton.Inv.set_lba_of hS
    (s.dependency_code_to_LBA.erase (s.heap e).application_io_id)
    (fun q hq => by
      have := hfresh q (by simpa [List.append_assoc] using hq)
      simp [skeleton, Table.erase, this])
    (fun O' D hD => by
      have : D ≠ (s.heap e).application_io_id := fun hc => hnh O' (hc ▸ hD)
      simp [skeleton, Table.erase, this])
  have hS2 : Safe ({ ({ s with dependency_code_to_LBA :=
        s.dependency_code_to_LBA.erase (s.heap e).application_io_id } : IOScheduler W) with
      dependency_code_to_type :=
        s.dependency_code_to_type.erase (s.heap e).application_io_id } : IOScheduler W)
      Fn Fx Fut :=
    Safe.of_skeleton (s := s) rfl rfl h1
  have hS3 := admit_dependents_safe C fuel e _ _ s3 Fn Fx Fut hS2 h3
  have h4 := Skeleton.Inv.set_dependents hS3 (s.heap e).application_io_id []
    (List.nil_sublist _)
  refine Safe.of_skeleton (s := s3) ?_ rfl h4
  simp only [skeleton]
  congr 1
  funext x
  by_cases hx : x = (s.heap e).application_io_id
  · subst hx; simp [Table.get, Table.erase]; rfl
  · simp [Table.get, Table.erase, hx]

end IOScheduler

namespace IOScheduler
variable {W : Type}

theorem execute_next_unfold (C : Collaborators W) (fuel e : Nat) (s : IOScheduler W) :
    execute_next C fuel e s
      = (handle_finished_event C e (C.issue s.world (s.heap e)).1
          ((s.call C (Call.issue (s.heap e))).modify e
            (fun x => { x with current_time := x.current_time + (C.issue s.world (s.heap e)).2 }))
          >>= fun s2 =>
            (if (C.issue s.world (s.heap e)).1 = status.SUCCESS then
              execute_next_rest C fuel e s2
             else pure (f := Run W)
              { s2 with dependencies := s2.dependencies.erase (s2.heap e).application_io_id })
            >>= fun s3 =>
              pure ((C.issue s.world (s.heap e)).1,
                s3.call C (Call.register_event_completion (s3.heap e)))) := by
  unfold execute_next execute_next_rest
  dsimp only
  cases handle_finished_event C e (C.issue s.world (s.heap e)).1
      ((s.call C (Call.issue (s.heap e))).modify e
        (fun x => { x with current_time := x.current_time + (C.issue s.world (s.heap e)).2 }))
    with
  | error x => rfl
  | ok s2 =>
    simp only [bind, Except.bind]
    by_cases hr : (C.issue s.world (s.heap e)).1 = status.SUCCESS
    · simp only [if_pos hr]
      generalize (s2.dependencies.touch (s2.heap e).application_io_id).get
        (s2.heap e).application_io_id = q
      cases q with
      | nil =>
        dsimp only
        split_ifs <;> rfl
      | cons d tl => rfl
    · simp only [if_neg hr]

theorem execute_next_eq (C : Collaborators W) (fuel e : Nat) (s : IOScheduler W)
    (r : status × IOScheduler W) (hrun : execute_next C fuel e s = Except.ok r) :
    ∃ (s2 s3 : IOScheduler W), Same s s2 ∧ execute_next_rest C fuel e s2 = Except.ok s3
      ∧ r.2 = s3.call C (Call.register_event_completion (s3.heap e)) := by
  rw [execute_next_unfold] at hrun
  cases hres : (C.issue s.world (s.heap e)).1 with
  | FAILURE =>
    rw [hres] at hrun
    simp [handle_finished_event, fail, bind, Except.bind] at hrun
  | SUCCESS =>
    rw [hres] at hrun
    obtain ⟨w, l, hfin, _⟩ := handle_finished_event_success C e
      ((s.call C (Call.issue (s.heap e))).modify e
        (fun x => { x with current_time := x.current_time + (C.issue s.world (s.heap e)).2 }))
    obtain ⟨s2, h2, hrest⟩ := bind_ok hrun
    obtain ⟨s3, h3, hfin3⟩ := bind_ok hrest
    simp only [pure, Except.pure, Except.ok.injEq] at hfin3
    have hr2 : r.2 = s3.call C (Call.register_event_completion (s3.heap e)) := by
      rw [← hfin3]
    rw [if_pos rfl] at h3
    rw [hfin] at h2
    simp only [Except.ok.injEq] at h2
    subst h2
    refine ⟨_, s3, ?_, h3, hr2⟩
    refine ⟨rfl, rfl, ?_, ?_, ?_, ?_, ?_, fun _ => rfl, rfl, rfl, rfl⟩ <;>
      intro p <;> by_cases hp : p = e <;> simp [IOScheduler.modify, call, hp]

end IOScheduler

theorem Table.get_erase_list (m : Table (List Nat)) (k x : Nat) :
    (m.erase k).get x = if x = k then [] else m.get x := by
  by_cases h : x = k
  · subst h; simp [Table.get, Table.erase]; rfl
  · simp [Table.get, Table.erase, h]

namespace IOScheduler
variable {W : Type}

/-- The rest of `execute_next` keeps the lock discipline: the event executed has been taken out
of the live events and holds the lock of its address. -/
theorem execute_next_rest_safe (C : Collaborators W) (fuel e : Nat) (s t : IOScheduler W)
    (Fn Fx Fut : List Nat) (hS : Safe s Fn Fx Fut) (hA : Admissible s Fn Fx Fut e)
    (ho : s.LBA_currently_executing (s.heap e).logical_address
      = some (s.heap e).application_io_id)
    (hrun : execute_next_rest C fuel e s = Except.ok t) : Safe t Fn Fx Fut := by
  have he : e < s.next_free := hA.bound
  have hg := hS.guarded he
  have hknown : s.dependency_code_to_LBA (s.heap e).application_io_id
      = some (s.heap e).logical_address := hA.known
  have hrel := Skeleton.Inv.release hS hA ho none
  unfold execute_next_rest at hrun
  dsimp only at hrun
  rw [Table.get_touch] at hrun
  cases hq : s.dependencies.get (s.heap e).application_io_id with
  | nil =>
    rw [hq] at hrun
    dsimp only at hrun
    rw [if_pos ⟨hg.2.1, by rw [hg.1]; simp⟩] at hrun
    have hlba : (s.dependency_code_to_LBA.touch (s.heap e).application_io_id).get
        (s.heap e).application_io_id = (s.heap e).logical_address := by
      rw [Table.get_touch]; exact Table.get_of_some hknown
    rw [hlba] at hrun
    split at hrun
    · refine manage_operation_completion_safe C fuel e _ t Fn Fx Fut ?_ ?_ ?_ hrun
      · refine Safe.of_skeleton (s := s) ?_ rfl hrel
        simp only [skeleton]
        congr 1
        · funext x
          rw [Table.get_erase_list, Table.get_touch_all]
          split
          · next hx => rw [hx, hq]
          · rfl
        · exact Table.touch_of_some hknown
      · intro p hp
        exact hA.fresh p hp
      · intro O'
        exact hA.not_held O'
    · simp [fail] at hrun
  | cons dep tail =>
    rw [hq] at hrun
    dsimp only at hrun
    obtain ⟨hI2, hA2, hlba, hop⟩ := Skeleton.Inv.advance hS hA dep tail (s.heap e).noop hq
    have hlba' : (s.heap dep).logical_address = (s.heap e).logical_address := hlba
    have hop' : (s.heap dep).application_io_id = (s.heap e).application_io_id := hop
    have key : ∀ T : IOScheduler W,
        init_event C fuel dep T = Except.ok t →
        T.skeleton = { s.skeleton with
          noop := fun p => if p = dep then (s.heap e).noop else s.skeleton.noop p,
          pending := fun x => if x = s.skeleton.op e then tail else s.skeleton.pending x } →
        T.current_pointers = s.current_pointers → Safe t Fn Fx Fut := by
      intro T hT hk hc
      exact init_event_safe C fuel dep T t Fn Fx Fut (Safe.of_skeleton hk hc hI2)
        (Admissible.of_skeleton_adm hk hc hA2) hT
    refine key _ hrun ?_ rfl
    simp only [skeleton, IOScheduler.modify]
    congr 1
    · funext p
      by_cases hp : p = dep
      · subst hp; simp [Event.incr_accumulated_wait_time]; exact hop'.symm
      · simp [hp]
    · funext p
      by_cases hp : p = dep
      · subst hp; simp [Event.incr_accumulated_wait_time]
      · simp [hp]
    · funext p
      by_cases hp : p = dep
      · subst hp
        by_cases hpe : e = p
        · subst hpe; simp [Event.incr_accumulated_wait_time]
        · simp [Event.incr_accumulated_wait_time, hpe]
      · simp [hp]
    · funext p
      by_cases hp : p = dep
      · subst hp; simp [Event.incr_accumulated_wait_time]
      · simp [hp]
    · funext x
      rw [Table.get_set, Table.get_touch_all]
    · funext x
      by_cases hx : x = (s.heap e).logical_address
      · subst hx; simp [Table.set, Table.erase, Event.incr_accumulated_wait_time, hlba', ho]
      · simp [Table.set, Table.erase, Event.incr_accumulated_wait_time, hlba', hx]
    · funext x
      by_cases hx : x = (s.heap e).application_io_id
      · subst hx; simp [Table.set, Event.incr_accumulated_wait_time, hlba', hknown]
      · simp [Table.set, hx]

end IOScheduler

theorem Skeleton.Inv.drop_Fx {k : Skeleton} {Act Fx Fx' Fut : List Nat} {e : Nat}
    (h : Skeleton.Inv k Act Fx Fut) (hp : Fx.Perm (e :: Fx')) :
    Skeleton.Inv k Act Fx' Fut ∧ Skeleton.Adm k (Act ++ (Fx' ++ Fut)) e
      ∧ k.owner (k.lba e) = some (k.op e) := by
  have hsub : ∀ p ∈ Fx', p ∈ Fx := fun p hp' => hp.symm.subset (List.mem_cons_of_mem _ hp')
  have he : e ∈ Fx := hp.symm.subset (List.mem_cons_self _ _)
  have hP : (Act ++ (Fx ++ Fut)).Perm (e :: (Act ++ (Fx' ++ Fut))) :=
    (List.Perm.append_left Act (hp.append_right Fut)).trans List.perm_middle
  refine ⟨?_, h.adm hP, h.excl e (List.mem_append_right _ he) (h.nn e he)⟩
  refine h.relist ?_ ?_ ?_
  · exact (List.sublist_cons_self e _).subperm.trans hP.symm.subperm
  · intro p hp'
    rcases List.mem_append.mp hp' with h1 | h1
    · exact Or.inl (List.mem_append_left _ h1)
    · exact Or.inl (List.mem_append_right _ (hsub p h1))
  · intro p hp'
    exact h.nn p (hsub p hp')

theorem Skeleton.Inv.drop_Act {k : Skeleton} {Act Act' Fx Fut : List Nat} {e : Nat}
    (h : Skeleton.Inv k Act Fx Fut) (hp : Act.Perm (e :: Act')) :
    Skeleton.Inv k Act' Fx Fut ∧ Skeleton.Adm k (Act' ++ (Fx ++ Fut)) e
      ∧ (k.noop e = false → k.owner (k.lba e) = some (k.op e)) := by
  have hsub : ∀ p ∈ Act', p ∈ Act := fun p hp' => hp.symm.subset (List.mem_cons_of_mem _ hp')
  have he : e ∈ Act := hp.symm.subset (List.mem_cons_self _ _)
  have hP : (Act ++ (Fx ++ Fut)).Perm (e :: (Act' ++ (Fx ++ Fut))) :=
    hp.append_right (Fx ++ Fut)
  refine ⟨?_, h.adm hP, h.excl e (List.mem_append_left _ he)⟩
  refine h.relist ?_ ?_ h.nn
  · exact (List.sublist_cons_self e _).subperm.trans hP.symm.subperm
  · intro p hp'
    rcases List.mem_append.mp hp' with h1 | h1
    · exact Or.inl (List.mem_append_left _ (hsub p h1))
    · exact Or.inl (List.mem_append_right _ h1)

namespace IOScheduler
variable {W : Type}

theorem execute_next_safe (C : Collaborators W) (fuel e : Nat) (s : IOScheduler W)
    (r : status × IOScheduler W) (Fn Fx Fut : List Nat) (hS : Safe s Fn Fx Fut)
    (hA : Admissible s Fn Fx Fut e)
    (ho : s.LBA_currently_executing (s.heap e).logical_address
      = some (s.heap e).application_io_id)
    (hrun : execute_next C fuel e s = Except.ok r) : Safe r.2 Fn Fx Fut := by
  obtain ⟨s2, s3, h2, h3, hr⟩ := execute_next_eq C fuel e s r hrun
  rw [hr]
  refine (Same.call C _ s3).safe ?_
  refine execute_next_rest_safe C fuel e s2 s3 Fn Fx Fut (h2.safe hS) (h2.admissible hA) ?_ h3
  rw [h2.owner, h2.lba, h2.op]
  exact ho

/-- An event of the bucket that is handed to its handler: without it the lock discipline holds,
the event is admissible and it holds its lock. -/
theorem Safe.take_Fx {s : IOScheduler W} {Fn F Fut : List Nat} {e : Nat}
    (hS : Safe s Fn (e :: F) Fut) :
    Safe s Fn F Fut ∧ Admissible s Fn F Fut e
      ∧ s.LBA_currently_executing (s.heap e).logical_address
        = some (s.heap e).application_io_id :=
  Skeleton.Inv.drop_Fx hS (List.Perm.refl _)

theorem handle_event_safe (C : Collaborators W) (fuel e : Nat) (s t : IOScheduler W)
    (Fn F Fut : List Nat) (hS : Safe s Fn (e :: F) Fut)
    (hrun : handle_event C fuel e s = Except.ok t) : Safe t Fn F Fut := by
  unfold handle_event at hrun
  dsimp only at hrun
  have key : ∀ T : IOScheduler W, Same s T → Safe T Fn F Fut ∧ Admissible T Fn F Fut e
      ∧ T.LBA_currently_executing (T.heap e).logical_address
        = some (T.heap e).application_io_id := by
    intro T hT
    exact (hT.safe hS).take_Fx
  have kx : ∀ (T : IOScheduler W) (r : status × IOScheduler W), Same s T →
      execute_next C fuel e T = Except.ok r → Safe r.2 Fn F Fut := by
    intro T r hT h1
    have hk := key T hT
    exact execute_next_safe C fuel e _ r Fn F Fut hk.1 hk.2.1 hk.2.2 h1
  have kp : ∀ T : IOScheduler W, Same s T → Safe (T.push_into_current_events e) Fn F Fut := by
    intro T hT
    have hk := key T hT
    exact hk.1.push hk.2.1 (fun _ => hk.2.2)
  split at hrun
  · obtain ⟨r, h1, h2⟩ := bind_ok hrun
    simp only [pure, Except.pure, Except.ok.injEq] at h2
    subst h2
    exact kx _ r ((Same.call C _ s).trans (Same.call C _ _)) h1
  · simp only [pure, Except.pure, Except.ok.injEq] at hrun
    subst hrun
    exact kp _ (((Same.call C _ s).trans (Same.call C _ _)).trans
      (Same.modify_same _ e _ (fun _ => rfl) (fun _ => rfl) (fun _ => rfl) (fun _ => rfl)
        (fun _ => rfl)))

theorem wait_time_at_same (C : Collaborators W) (a : Address) (e : Nat) (s : IOScheduler W) :
    Same s (wait_time_at C a e s).2 := by
  unfold wait_time_at
  dsimp only
  split
  · exact (Same.call C _ s).trans (Same.call C _ _)
  · exact Same.call C _ s

theorem Safe.transform_copyback_safe {s : IOScheduler W} {Fn Fx Fut : List Nat} {e : Nat}
    (hS : Safe s Fn Fx Fut) (hA : Admissible s Fn Fx Fut e)
    (ho : s.LBA_currently_executing (s.heap e).logical_address
      = some (s.heap e).application_io_id) :
    Safe (s.transform_copyback e) Fn Fx Fut ∧ Admissible (s.transform_copyback e) Fn Fx Fut e
      ∧ (s.transform_copyback e).LBA_currently_executing
          ((s.transform_copyback e).heap e).logical_address
        = some ((s.transform_copyback e).heap e).application_io_id := by
  have he : e < s.next_free := hA.bound
  have hne : e ≠ s.next_free := Nat.ne_of_lt he
  have hg := hS.guarded he
  have hI := Skeleton.Inv.alloc_pending hS e he hA.not_held false
    (s.dependencies.get (s.heap e).application_io_id ++ [s.next_free])
    (fun q hq => by
      rcases List.mem_append.mp hq with hq | hq
      · exact Or.inr hq
      · exact Or.inl (List.mem_singleton.mp hq))
  have hcur : (s.transform_copyback e).current_pointers = s.current_pointers := rfl
  have hheap : ∀ p, ((s.transform_copyback e).heap p).application_io_id
        = (if p = s.next_free then (s.heap e).application_io_id
            else (s.heap p).application_io_id)
      ∧ ((s.transform_copyback e).heap p).logical_address
        = (if p = s.next_free then (s.heap e).logical_address else (s.heap p).logical_address)
      ∧ ((s.transform_copyback e).heap p).noop
        = (if p = s.next_free then false else (s.heap p).noop) := by
    intro p
    by_cases hp : p = s.next_free
    · subst hp
      simp [IOScheduler.transform_copyback, IOScheduler.alloc, IOScheduler.modify, Event.create]
      rfl
    · by_cases hpe : p = e
      · subst hpe
        simp [IOScheduler.transform_copyback, IOScheduler.alloc, IOScheduler.modify, hp]
      · simp [IOScheduler.transform_copyback, IOScheduler.alloc, IOScheduler.modify, hp, hpe]
  refine ⟨?_, ?_, ?_⟩
  · unfold Safe
    rw [hcur]
    refine hI.of_eq rfl (fun p => (hheap p).1) (fun p => (hheap p).2.1)
      (fun p => (hheap p).2.2) ?_ ?_ ?_ ?_ ?_
    · intro p hp
      by_cases hpn : p = s.next_free
      · subst hpn
        simp [skeleton, IOScheduler.transform_copyback, IOScheduler.alloc, IOScheduler.modify,
          Event.create]
        rfl
      · by_cases hpe : p = e
        · subst hpe
          simp [skeleton, IOScheduler.transform_copyback, IOScheduler.alloc, IOScheduler.modify,
            hpn, hg.1]
        · have hlt : p < s.next_free := by
            have : p < s.next_free + 1 := hp
            omega
          have := hS.ok_all p hlt
          simpa [skeleton, IOScheduler.transform_copyback, IOScheduler.alloc,
            IOScheduler.modify, hpn, hpe] using this
    · intro N
      show (s.transform_copyback e).dependencies.get N = _
      by_cases hN : N = (s.heap e).application_io_id
      · subst hN
        simp [IOScheduler.transform_copyback, IOScheduler.alloc, IOScheduler.modify,
          Table.get, Table.set, Table.touch, skeleton, hne]
      · simp [IOScheduler.transform_copyback, IOScheduler.alloc, IOScheduler.modify,
          Table.get, Table.set, Table.touch, skeleton, hN, hne]
    · intro O; rfl
    · intro l; rfl
    · intro N; rfl
  · unfold Admissible
    rw [hcur]
    refine Skeleton.Adm.of_eq_adm hA (Nat.le_succ _) ?_ ?_ ?_ (fun _ _ h => h) rfl
    · intro p hp
      have hlt : p < s.next_free := hS.bound p hp
      show ((s.transform_copyback e).heap p).application_io_id = _
      rw [(hheap p).1, if_neg (Nat.ne_of_lt hlt)]; rfl
    · show ((s.transform_copyback e).heap e).application_io_id = _
      rw [(hheap e).1, if_neg hne]; rfl
    · show ((s.transform_copyback e).heap e).logical_address = _
      rw [(hheap e).2.1, if_neg hne]; rfl
  · rw [(hheap e).1, (hheap e).2.1, if_neg hne, if_neg hne]
    exact ho

theorem handle_write_safe (C : Collaborators W) (fuel e : Nat) (s t : IOScheduler W)
    (Fn F Fut : List Nat) (hS : Safe s Fn (e :: F) Fut)
    (hrun : handle_write C fuel e s = Except.ok t) : Safe t Fn F Fut := by
  unfold handle_write at hrun
  dsimp only at hrun
  have key : ∀ T : IOScheduler W, Same s T → Safe T Fn F Fut ∧ Admissible T Fn F Fut e
      ∧ T.LBA_currently_executing (T.heap e).logical_address
        = some (T.heap e).application_io_id := by
    intro T hT
    exact (hT.safe hS).take_Fx
  have kx : ∀ (T : IOScheduler W) (r : status × IOScheduler W), Same s T →
      execute_next C fuel e T = Except.ok r → Safe r.2 Fn F Fut := by
    intro T r hT h1
    have hk := key T hT
    exact execute_next_safe C fuel e _ r Fn F Fut hk.1 hk.2.1 hk.2.2 h1
  have kp : ∀ T : IOScheduler W, Same s T → Safe (T.push_into_current_events e) Fn F Fut := by
    intro T hT
    have hk := key T hT
    exact hk.1.push hk.2.1 (fun _ => hk.2.2)
  have kt : ∀ T : IOScheduler W, Same s T →
      Safe ((T.transform_copyback e).push_into_current_events e) Fn F Fut := by
    intro T hT
    have hk := key T hT
    have hc := hk.1.transform_copyback_safe hk.2.1 hk.2.2
    exact hc.1.push hc.2.1 (fun _ => hc.2.2)
  have hw := wait_time_at_same C (C.choose_write_address s.world (s.heap e)) e
    (s.call C (Call.choose_write_address (s.heap e)))
  have h0 := (Same.call C (Call.choose_write_address (s.heap e)) s).trans hw
  split at hrun
  · split at hrun
    · obtain ⟨r, h1, h2⟩ := bind_ok hrun
      simp only [pure, Except.pure, Except.ok.injEq] at h2
      subst h2
      refine kx _ r ?_ h1
      refine Same.trans ?_ (Same.call C _ _)
      refine Same.trans ?_ (Same.modify_same _ _ _ (fun _ => rfl) (fun _ => rfl) (fun _ => rfl)
        (fun _ => rfl) (fun _ => rfl))
      refine Same.trans ?_ (Same.modify_same _ _ _ (fun _ => rfl) (fun _ => rfl) (fun _ => rfl)
        (fun _ => rfl) (fun _ => rfl))
      exact h0
    · simp [fail] at hrun
  · simp only [pure, Except.pure, Except.ok.injEq] at hrun
    subst hrun
    have h1 := h0.trans (Same.modify_same _ e (fun x => x.incr_bus_wait_time
      (wait_time_at C (C.choose_write_address s.world (s.heap e)) e
        (s.call C (Call.choose_write_address (s.heap e)))).1) (fun _ => rfl) (fun _ => rfl)
      (fun _ => rfl) (fun _ => rfl) (fun _ => rfl))
    split
    · exact kt _ h1
    · exact kp _ h1

theorem handle_step_safe (C : Collaborators W) (fuel e : Nat) (s t : IOScheduler W)
    (Fn F Fut : List Nat) (hS : Safe s Fn (e :: F) Fut)
    (hrun : (if (s.heap e).type = event_type.WRITE ∨ (s.heap e).type = event_type.COPY_BACK
        then handle_write C fuel e s
      else if (s.heap e).type = event_type.READ_COMMAND ∧ (s.heap e).flexible_read = true then
        handle_flexible_read C fuel e s
      else handle_event C fuel e s) = Except.ok t) : Safe t Fn F Fut := by
  have he : e < s.next_free := hS.bound e (by simp)
  have hg := hS.guarded he
  split at hrun
  · exact handle_write_safe C fuel e s t Fn F Fut hS hrun
  · split at hrun
    · next h => rw [hg.1] at h; exact absurd h.2 (by simp)
    · exact handle_event_safe C fuel e s t Fn F Fut hS hrun

theorem handle_fold_safe (C : Collaborators W) (fuel : Nat) (Fn Fut : List Nat) :
    ∀ (l F : List Nat) (s t : IOScheduler W), Safe s Fn (l ++ F) Fut →
      l.foldlM
        (fun acc event =>
          let type := (acc.heap event).type
          if type = event_type.WRITE ∨ type = event_type.COPY_BACK then
            handle_write C fuel event acc
          else if type = event_type.READ_COMMAND ∧ (acc.heap event).flexible_read = true then
            handle_flexible_read C fuel event acc
          else handle_event C fuel event acc) s = Except.ok t → Safe t Fn F Fut := by
  intro l
  induction l with
  | nil =>
    intro F s t hS hrun
    simp only [List.foldlM, pure, Except.pure, Except.ok.injEq] at hrun
    subst hrun
    exact hS
  | cons e rest ih =>
    intro F s t hS hrun
    rw [List.foldlM_cons] at hrun
    obtain ⟨s1, h1, h2⟩ := bind_ok hrun
    exact ih F s1 t (handle_step_safe C fuel e s s1 Fn (rest ++ F) Fut hS h1) h2

/-- The loop of `handle`: the events of the vector leave the bucket one by one. -/
theorem handle_safe (C : Collaborators W) (fuel : Nat) (Fn Fut : List Nat)
    (v F : List Nat) (s t : IOScheduler W) (hS : Safe s Fn (v ++ F) Fut)
    (hrun : handle C fuel v s = Except.ok t) : Safe t Fn F Fut := by
  unfold handle at hrun
  refine handle_fold_safe C fuel Fn Fut v.reverse F s t ?_ hrun
  exact Skeleton.Inv.perm hS (List.Perm.refl _)
    ((List.reverse_perm v).append_right F) (List.Perm.refl _)

end IOScheduler

namespace IOScheduler
variable {W : Type}

theorem Same.foldl_call_same (C : Collaborators W) (g : IOScheduler W → Nat → Call) :
    ∀ (l : List Nat) (s : IOScheduler W), Same s (l.foldl (fun st e => st.call C (g st e)) s) := by
  intro l
  induction l with
  | nil => intro s; exact Same.refl s
  | cons e rest ih =>
    intro s
    rw [List.foldl_cons]
    exact (Same.call C _ s).trans (ih _)

theorem Safe.take_Fn {s : IOScheduler W} {N Fx Fut : List Nat} {e : Nat}
    (hS : Safe s (e :: N) Fx Fut) :
    Safe s N Fx Fut ∧ Admissible s N Fx Fut e
      ∧ ((s.heap e).noop = false → s.LBA_currently_executing (s.heap e).logical_address
        = some (s.heap e).application_io_id) :=
  Skeleton.Inv.drop_Act hS List.perm_middle

theorem Safe.clear_op {s T : IOScheduler W} {N Fx Fut : List Nat} {e : Nat}
    (hT : Same s T) (hS1 : Safe s N Fx Fut) (hA : Admissible s N Fx Fut e) (ty : Table event_type) :
    Safe { T with dependencies := T.dependencies.erase (s.heap e).application_io_id,
                  dependency_code_to_LBA :=
                    T.dependency_code_to_LBA.erase (s.heap e).application_io_id,
                  dependency_code_to_type := ty } N Fx Fut := by
  have hI1 := Skeleton.Inv.set_pending hS1 (s.heap e).application_io_id [] (by simp)
  have hI2 := Skeleton.Inv.set_lba_of hI1
    (fun x => if x = (s.heap e).application_io_id then none else s.dependency_code_to_LBA x)
    (by
      intro q hq
      have := hA.fresh q hq
      simp only [skeleton] at this ⊢
      rw [if_neg this])
    (by
      intro O D hD
      have : D ≠ (s.heap e).application_io_id := by
        rintro rfl; exact hA.not_held O hD
      simp only [skeleton]
      rw [if_neg this])
  have hc : ∀ (U : IOScheduler W), U.current_events = s.current_events →
      U.current_pointers = s.current_pointers := by
    intro U h; unfold current_pointers; rw [h]
  refine Safe.of_skeleton (s := s) rfl (hc _ hT.current) ?_
  refine hI2.of_eq hT.next_free hT.op hT.lba hT.noop ?_ ?_ ?_ ?_ ?_
  · intro p hp
    have := hS1.ok_all p hp
    simpa [skeleton, hT.flexible_read p, hT.type p] using this
  · intro x
    simp only [skeleton]
    by_cases hx : x = (s.heap e).application_io_id
    · subst hx; simp [Table.get, Table.erase]; rfl
    · rw [if_neg hx, ← hT.pending x]
      simp [Table.get, Table.erase, hx]
  · intro O
    simp only [skeleton]
    rw [← hT.dependents]
  · intro l
    simp only [skeleton]
    rw [← hT.owner]
  · intro x
    simp only [skeleton]
    rw [← hT.lba_of]
    by_cases hx : x = (s.heap e).application_io_id
    · subst hx; simp [Table.erase]
    · simp [Table.erase, hx]

theorem handle_noop_step_safe (C : Collaborators W) (fuel e : Nat) (s t : IOScheduler W)
    (N Fx Fut : List Nat) (hS : Safe s (e :: N) Fx Fut)
    (hrun : (do
      let dependency_code := (s.heap e).application_io_id
      let s1 := { s with dependencies := s.dependencies.touch dependency_code }
      let s2 := (s1.dependencies.get dependency_code).foldl
        (fun st e => st.call C (Call.register_event_completion (st.heap e))) s1
      let s3 := { s2 with dependencies := s2.dependencies.erase dependency_code }
      let s4 := { s3 with dependency_code_to_LBA :=
                    s3.dependency_code_to_LBA.erase dependency_code }
      let s5 := { s4 with dependency_code_to_type :=
                    s4.dependency_code_to_type.erase dependency_code }
      let s6 ← manage_operation_completion C fuel e s5
      pure (f := Run W) (s6.call C (Call.register_event_completion (s6.heap e))))
      = Except.ok t) : Safe t N Fx Fut := by
  obtain ⟨hS1, hA, -⟩ := hS.take_Fn
  dsimp only at hrun
  obtain ⟨s6, h6, h7⟩ := bind_ok hrun
  simp only [pure, Except.pure, Except.ok.injEq] at h7
  subst h7
  refine (Same.call C _ s6).safe ?_
  have hf := Same.foldl_call_same C (fun st x => Call.register_event_completion (st.heap x))
    (({ s with dependencies := s.dependencies.touch (s.heap e).application_io_id } :
      IOScheduler W).dependencies.get (s.heap e).application_io_id)
    { s with dependencies := s.dependencies.touch (s.heap e).application_io_id }
  have hS0 : Same s { s with dependencies := s.dependencies.touch (s.heap e).application_io_id } :=
    { next_free := rfl, current := rfl, op := fun _ => rfl, lba := fun _ => rfl,
      noop := fun _ => rfl, flexible_read := fun _ => rfl, type := fun _ => rfl,
      pending := fun N => Table.get_touch_all _ _ _, dependents := rfl, owner := rfl,
      lba_of := rfl }
  have hf2 := hS0.trans hf
  revert h6
  generalize (List.foldl (fun st e => call C (Call.register_event_completion (st.heap e)) st)
    ({ s with dependencies := s.dependencies.touch (s.heap e).application_io_id } : IOScheduler W)
    (({ s with dependencies := s.dependencies.touch (s.heap e).application_io_id } :
      IOScheduler W).dependencies.get (s.heap e).application_io_id)) = T at hf2 ⊢
  intro h6
  have hc : ∀ (U : IOScheduler W), U.current_events = s.current_events →
      U.current_pointers = s.current_pointers := by
    intro U h; unfold current_pointers; rw [h]
  refine manage_operation_completion_safe C fuel e _ s6 N Fx Fut
    (Safe.clear_op hf2 hS1 hA _) ?_ ?_ h6
  · intro p hp
    have hp2 : p ∈ (s.current_pointers ++ N) ++ (Fx ++ Fut) := by
      rw [← hc _ hf2.current]; exact hp
    have := hA.fresh p hp2
    show (T.heap p).application_io_id ≠ (T.heap e).application_io_id
    rw [hf2.op p, hf2.op e]
    exact this
  · intro O
    show (T.heap e).application_io_id ∉ T.op_code_to_dependent_op_codes.get O
    have := hA.not_held O
    rw [hf2.op e, hf2.dependents]
    exact this

theorem handle_noop_events_safe (C : Collaborators W) (fuel : Nat) (Fx Fut : List Nat)
    (v N : List Nat) (s t : IOScheduler W) (hS : Safe s (v ++ N) Fx Fut)
    (hrun : handle_noop_events C fuel v s = Except.ok t) : Safe t N Fx Fut := by
  unfold handle_noop_events at hrun
  have key : ∀ (l N : List Nat) (s t : IOScheduler W), Safe s (l ++ N) Fx Fut →
      l.foldlM
        (fun acc event => do
          let dependency_code := (acc.heap event).application_io_id
          let s1 := { acc with dependencies := acc.dependencies.touch dependency_code }
          let s2 := (s1.dependencies.get dependency_code).foldl
            (fun st e => st.call C (Call.register_event_completion (st.heap e))) s1
          let s3 := { s2 with dependencies := s2.dependencies.erase dependency_code }
          let s4 := { s3 with dependency_code_to_LBA :=
                        s3.dependency_code_to_LBA.erase dependency_code }
          let s5 := { s4 with dependency_code_to_type :=
                        s4.dependency_code_to_type.erase dependency_code }
          let s6 ← manage_operation_completion C fuel event s5
          pure (f := Run W) (s6.call C (Call.register_event_completion (s6.heap event)))) s
        = Except.ok t → Safe t N Fx Fut := by
    intro l
    induction l with
    | nil =>
      intro N s t hS hrun
      simp only [List.foldlM, pure, Except.pure, Except.ok.injEq] at hrun
      subst hrun
      exact hS
    | cons e rest ih =>
      intro N s t hS hrun
      rw [List.foldlM_cons] at hrun
      obtain ⟨s1, h1, h2⟩ := bind_ok hrun
      exact ih N s1 t (handle_noop_step_safe C fuel e s s1 (rest ++ N) Fx Fut hS h1) h2
  refine key v.reverse N s t ?_ hrun
  exact Skeleton.Inv.perm hS
    (List.Perm.append_left _ ((List.reverse_perm v).append_right N)) (List.Perm.refl _)
    (List.Perm.refl _)

end IOScheduler

theorem Skeleton.Inv.classified {k : Skeleton} {Act Act' Fx Fx' Fut : List Nat} {e : Nat}
    (h : Skeleton.Inv k Act Fx Fut) (hp : Act.Perm (e :: Act')) (hq : Fx'.Perm (e :: Fx))
    (hn : k.noop e = false) : Skeleton.Inv k Act' Fx' Fut := by
  have hP : (Act' ++ (Fx' ++ Fut)).Perm (Act ++ (Fx ++ Fut)) := by
    have h1 : (Act ++ (Fx ++ Fut)).Perm (e :: (Act' ++ (Fx ++ Fut))) := hp.append_right _
    have h2 : (Act' ++ (Fx' ++ Fut)).Perm (e :: (Act' ++ (Fx ++ Fut))) :=
      (List.Perm.append_left Act' (hq.append_right Fut)).trans List.perm_middle
    exact h2.trans h1.symm
  refine h.relist hP.subperm ?_ ?_
  · intro p hp'
    rcases List.mem_append.mp hp' with h1 | h1
    · exact Or.inl (List.mem_append_left _ (hp.symm.subset (List.mem_cons_of_mem _ h1)))
    · rcases List.mem_cons.mp (hq.subset h1) with h2 | h2
      · subst h2
        exact Or.inl (List.mem_append_left _ (hp.symm.subset (List.mem_cons_self _ _)))
      · exact Or.inl (List.mem_append_right _ h2)
  · intro p hp'
    rcases List.mem_cons.mp (hq.subset hp') with h2 | h2
    · subst h2; exact hn
    · exact h.nn p h2

namespace IOScheduler
variable {W : Type}

theorem Safe.classified_safe {s : IOScheduler W} {e : Nat} {rest N N' Fx Fx' Fut : List Nat}
    (hS : Safe s ((e :: rest) ++ N) Fx Fut) (hN : N' = N) (hq : Fx'.Perm (e :: Fx))
    (hn : (s.heap e).noop = false) : Safe s (rest ++ N') Fx' Fut := by
  subst hN
  exact Skeleton.Inv.classified hS List.perm_middle hq hn

theorem Safe.touch_type {s : IOScheduler W} {Fn Fx Fut : List Nat} (hS : Safe s Fn Fx Fut)
    (ty : Table event_type) : Safe { s with dependency_code_to_type := ty } Fn Fx Fut := hS

theorem classify_safe (C : Collaborators W) (fuel : Nat) (Fut : List Nat) :
    ∀ (l : List Nat) (cl : Classes) (s : IOScheduler W) (r : Classes × IOScheduler W),
      Safe s (l ++ cl.noop_events) cl.handled Fut → classify C fuel l cl s = Except.ok r →
      Safe r.2 r.1.noop_events r.1.handled Fut := by
  intro l
  induction l with
  | nil =>
    intro cl s r hS hrun
    simp only [classify, pure, Except.pure, Except.ok.injEq] at hrun
    subst hrun
    exact hS
  | cons e rest ih =>
    intro cl s r hS hrun
    rw [classify] at hrun
    dsimp only at hrun
    have hcount : ∀ (a b : List Nat), (∀ x, a.count x = b.count x) → a.Perm b :=
      fun a b h => List.perm_iff_count.mpr h
    split at hrun
    · refine ih _ s r ?_ hrun
      refine Skeleton.Inv.perm hS (List.Perm.append_left _ ?_) (List.Perm.refl _)
        (List.Perm.refl _)
      show (rest ++ (cl.noop_events ++ [e])).Perm ((e :: rest) ++ cl.noop_events)
      refine hcount _ _ (fun x => ?_)
      simp [List.count_append, List.count_cons]
      omega
    · next hnoop =>
      have hn : (s.heap e).noop = false := by simpa using hnoop
      have mv : ∀ (cl' : Classes) (T : IOScheduler W), T.skeleton = s.skeleton →
          T.current_pointers = s.current_pointers → cl'.noop_events = cl.noop_events →
          (∀ x, cl'.handled.count x = (e :: cl.handled).count x) →
          Safe T (rest ++ cl'.noop_events) cl'.handled Fut :=
        fun cl' T hk hc h1 h2 =>
          Safe.of_skeleton hk hc (hS.classified_safe h1 (List.perm_iff_count.mpr h2) hn)
      have kk : ∀ (cl' : Classes) (T : IOScheduler W),
          classify C fuel rest cl' T = Except.ok r →
          Safe T (rest ++ cl'.noop_events) cl'.handled Fut →
          Safe r.2 r.1.noop_events r.1.handled Fut := fun cl' T h hs => ih cl' T r hs h
      have pm : ∀ (a b : List Nat), (∀ x, a.count x = b.count x) → a.Perm b := hcount
      have hS' : Safe s (e :: (rest ++ cl.noop_events)) cl.handled Fut := hS
      obtain ⟨hd1, hd2, hd3⟩ := hS'.take_Fn
      split at hrun
      · split at hrun
        · refine kk _ _ hrun (mv _ _ rfl rfl rfl (fun x => ?_))
          by_cases hx : e = x
          · subst hx; simp [Classes.handled, List.count_append]; omega
          · simp [Classes.handled, List.count_append, List.count_cons, hx]
        · split at hrun
          · refine kk _ _ hrun (mv _ _ rfl rfl rfl (fun x => ?_))
            by_cases hx : e = x
            · subst hx; simp [Classes.handled, List.count_append]; omega
            · simp [Classes.handled, List.count_append, List.count_cons, hx]
          · refine kk _ _ hrun (mv _ _ rfl rfl rfl (fun x => ?_))
            by_cases hx : e = x
            · subst hx; simp [Classes.handled, List.count_append]; omega
            · simp [Classes.handled, List.count_append, List.count_cons, hx]
      · split at hrun
        · refine kk _ _ hrun (mv _ _ rfl rfl rfl (fun x => ?_))
          by_cases hx : e = x
          · subst hx; simp [Classes.handled, List.count_append]; omega
          · simp [Classes.handled, List.count_append, List.count_cons, hx]
        · split at hrun
          · split at hrun
            · refine kk _ _ hrun (mv _ _ rfl rfl rfl (fun x => ?_))
              by_cases hx : e = x
              · subst hx; simp [Classes.handled, List.count_append]; omega
              · simp [Classes.handled, List.count_append, List.count_cons, hx]
            · refine kk _ _ hrun (mv _ _ rfl rfl rfl (fun x => ?_))
              by_cases hx : e = x
              · subst hx; simp [Classes.handled, List.count_append]; omega
              · simp [Classes.handled, List.count_append, List.count_cons, hx]
          · split at hrun
            · refine kk _ _ hrun (mv _ _ rfl rfl rfl (fun x => ?_))
              by_cases hx : e = x
              · subst hx; simp [Classes.handled, List.count_append]; omega
              · simp [Classes.handled, List.count_append, List.count_cons, hx]
            · split at hrun
              · refine kk _ _ hrun (mv _ _ rfl rfl rfl (fun x => ?_))
                by_cases hx : e = x
                · subst hx; simp [Classes.handled, List.count_append]; omega
                · simp [Classes.handled, List.count_append, List.count_cons, hx]
              · split at hrun
                · obtain ⟨r1, h1, h2⟩ := bind_ok hrun
                  exact ih _ _ r
                    (execute_next_safe C fuel e s r1 _ _ Fut hd1 hd2 (hd3 hn) h1) h2
                · exact ih _ _ r hd1 hrun

theorem Safe.collected {s : IOScheduler W} {Fut : List Nat} (hS : Safe s [] [] Fut)
    (r : List Nat × IOScheduler W) (hrun : s.collect_soonest_events = Except.ok r) :
    Safe r.2 (r.1.reverse ++ Classes.empty.noop_events) Classes.empty.handled Fut := by
  unfold collect_soonest_events at hrun
  split at hrun
  · simp [fail] at hrun
  · next k b rest hce =>
    simp only [pure, Except.pure, Except.ok.injEq] at hrun
    subst hrun
    refine Skeleton.Inv.perm hS ?_ (List.Perm.refl _) (List.Perm.refl _)
    show (List.flatten (List.map Prod.snd rest) ++ (b.reverse ++ [])).Perm
      (s.current_pointers ++ [])
    unfold current_pointers
    rw [hce]
    simp only [List.map_cons, List.flatten_cons, List.append_nil]
    exact List.perm_append_comm.trans ((List.reverse_perm b).append_right _)

theorem dispatch_order_subperm (C : Collaborators W) (s : IOScheduler W) (cl : Classes) :
    (dispatch_order C s cl).flatten.Subperm cl.handled := by
  have hs1 : ∀ (v : List Nat) (x : Nat), (s.sort_by_current_wait_time v).count x = v.count x :=
    fun v x => (List.perm_insertionSort _ v).count_eq x
  have hs2 : ∀ (v : List Nat) (x : Nat), (s.sort_by_overall_wait_time v).count x = v.count x :=
    fun v x => (List.perm_insertionSort _ v).count_eq x
  refine List.subperm_ext_iff.mpr (fun x _ => ?_)
  unfold dispatch_order
  dsimp only
  split
  · simp [Classes.handled, List.count_append, hs1, hs2]; omega
  · split
    · simp [Classes.handled, List.count_append, hs1, hs2]; omega
    · split
      · simp [Classes.handled, List.count_append, hs1, hs2]; omega
      · split
        · simp [Classes.handled, List.count_append, hs1, hs2]; omega
        · simp

theorem dispatch_safe (C : Collaborators W) (fuel : Nat) (Fn Fut : List Nat) :
    ∀ (vs : List (List Nat)) (F : List Nat) (s t : IOScheduler W),
      Safe s Fn (vs.flatten ++ F) Fut →
      vs.foldlM (fun acc v => handle C fuel v acc) s = Except.ok t → Safe t Fn F Fut := by
  intro vs
  induction vs with
  | nil =>
    intro F s t hS hrun
    simp only [List.foldlM, pure, Except.pure, Except.ok.injEq] at hrun
    subst hrun
    exact hS
  | cons v rest ih =>
    intro F s t hS hrun
    rw [List.foldlM_cons] at hrun
    obtain ⟨s1, h1, h2⟩ := bind_ok hrun
    refine ih F s1 t (handle_safe C fuel Fn Fut v (rest.flatten ++ F) s s1 ?_ h1) h2
    rw [← List.append_assoc]
    exact hS

theorem execute_current_waiting_ios_safe (C : Collaborators W) (fuel : Nat) (Fut : List Nat)
    (s t : IOScheduler W) (hS : Safe s [] [] Fut)
    (hrun : execute_current_waiting_ios C fuel s = Except.ok t) : Safe t [] [] Fut := by
  unfold execute_current_waiting_ios at hrun
  obtain ⟨r, h1, hrun⟩ := bind_ok hrun
  obtain ⟨c, h2, hrun⟩ := bind_ok hrun
  obtain ⟨s1, h3, h4⟩ := bind_ok hrun
  have hc := classify_safe C fuel Fut r.1.reverse Classes.empty r.2 c (hS.collected r h1) h2
  have hd : Safe c.2 c.1.noop_events ((dispatch_order C c.2 c.1).flatten ++ []) Fut := by
    refine Skeleton.Inv.relist hc ?_ ?_ ?_
    · rw [List.append_nil]
      exact (List.subperm_append_left _).mpr ((List.subperm_append_right Fut).mpr
        (dispatch_order_subperm C c.2 c.1))
    · intro p hp
      rw [List.append_nil] at hp
      rcases List.mem_append.mp hp with h | h
      · exact Or.inl (List.mem_append_left _ h)
      · exact Or.inl (List.mem_append_right _ (List.Subperm.subset (dispatch_order_subperm C c.2 c.1) h))
    · intro p hp
      rw [List.append_nil] at hp
      exact hc.nn p (List.Subperm.subset (dispatch_order_subperm C c.2 c.1) hp)
  have hs1 := dispatch_safe C fuel c.1.noop_events Fut _ [] c.2 s1 hd h3
  refine handle_noop_events_safe C fuel [] Fut c.1.noop_events [] s1 t ?_ h4
  rw [List.append_nil]
  exact hs1

end IOScheduler

namespace IOScheduler
variable {W : Type}

variable {C : Collaborators W} {P : IOScheduler W → Prop}

theorem Steady.execute_next_steady (St : Steady C P) (fuel e : Nat)
    {s : IOScheduler W} (h : P s) :
    Run.All P Prod.snd (IOScheduler.execute_next C fuel e s) :=
  St.toStable.execute_next fuel e (St.issue _ _ h)

theorem Steady.call_steady (St : Steady C P) (c : Call) {s : IOScheduler W} (h : P s) :
    P (s.call C c) := by
  cases hc : Call.issued c with
  | none => exact St.toStable.call c s hc h
  | some e =>
    cases c <;> simp [Call.issued] at hc
    subst hc
    exact St.issue _ _ h

theorem Steady.handle_event_steady (St : Steady C P) (fuel e : Nat) {s : IOScheduler W}
    (h : P s) : Run.All P id (IOScheduler.handle_event C fuel e s) := by
  unfold IOScheduler.handle_event
  simp only []
  split
  · exact Run.All_bind (St.execute_next_steady fuel e (St.call_steady _ (St.call_steady _ h)))
      (fun a ha => Run.All_pure ha)
  · exact Run.All_pure (St.toStable.push_into_current_events _
      (St.toStable.modify _ _ (St.call_steady _ (St.call_steady _ h))))

theorem Steady.wait_time_at_steady (St : Steady C P) (a : Address) (e : Nat)
    {s : IOScheduler W} (h : P s) : P (IOScheduler.wait_time_at C a e s).2 := by
  unfold IOScheduler.wait_time_at
  simp only []
  split
  · exact St.call_steady _ (St.call_steady _ h)
  · exact St.call_steady _ h

theorem Steady.handle_flexible_read_steady (St : Steady C P) (fuel e : Nat)
    {s : IOScheduler W} (h : P s) :
    Run.All P id (IOScheduler.handle_flexible_read C fuel e s) := by
  unfold IOScheduler.handle_flexible_read
  simp only []
  have h2 := St.wait_time_at_steady (C.choose_flexible_read_address s.world (s.heap e)) e
    (St.call_steady (Call.choose_flexible_read_address (s.heap e)) h)
  repeat' first
    | assumption
    | apply Run.All_pure
    | apply Run.All_fail
    | refine Run.All_bind_snd (St.execute_next_steady _ _ ?_) ?_
    | intro _ _
    | apply St.toStable.push_into_current_events
    | apply St.toStable.modify
    | apply St.call_steady
    | split
    | apply St.toStable.fields

theorem Steady.handle_write_steady (St : Steady C P) (fuel e : Nat) {s : IOScheduler W}
    (h : P s) : Run.All P id (IOScheduler.handle_write C fuel e s) := by
  unfold IOScheduler.handle_write
  simp only []
  have h2 := St.wait_time_at_steady (C.choose_write_address s.world (s.heap e)) e
    (St.call_steady (Call.choose_write_address (s.heap e)) h)
  repeat' first
    | assumption
    | apply Run.All_pure
    | apply Run.All_fail
    | refine Run.All_bind_snd (St.execute_next_steady _ _ ?_) ?_
    | intro _ _
    | apply St.toStable.push_into_current_events
    | apply St.toStable.transform_copyback
    | apply St.toStable.modify
    | apply St.call_steady
    | split

theorem Steady.handle_steady (St : Steady C P) (fuel : Nat) (v : List Nat) {s : IOScheduler W}
    (h : P s) : Run.All P id (IOScheduler.handle C fuel v s) := by
  unfold IOScheduler.handle
  apply Run.All_foldlM _ _ _ _ h
  intro acc e hacc
  simp only []
  split
  · exact St.handle_write_steady fuel e hacc
  · split
    · exact St.handle_flexible_read_steady fuel e hacc
    · exact St.handle_event_steady fuel e hacc

theorem Steady.foldl_call_steady (St : Steady C P) (f : IOScheduler W → Nat → Call)
    (l : List Nat) :
    ∀ {s : IOScheduler W}, P s → P (l.foldl (fun st e => st.call C (f st e)) s) := by
  induction l with
  | nil => intro s h; exact h
  | cons p l ih => intro s h; exact ih (St.call_steady _ h)

theorem Steady.handle_noop_events_steady (St : Steady C P) (fuel : Nat) (v : List Nat)
    {s : IOScheduler W} (h : P s) : Run.All P id (IOScheduler.handle_noop_events C fuel v s) := by
  unfold IOScheduler.handle_noop_events
  apply Run.All_foldlM _ _ _ _ h
  intro acc e hacc
  simp only []
  refine Run.All_bind_state (St.toStable.manage_operation_completion fuel e ?_) ?_
  · refine St.toStable.fields ?_ _ _ _ _ _ _ _ _
    refine St.foldl_call_steady (fun st e => Call.register_event_completion (st.heap e)) _ ?_
    exact St.toStable.fields hacc _ _ _ _ _ _ _ _
  · intro a ha
    exact Run.All_pure (St.call_steady _ ha)

theorem Steady.collect_soonest_events_steady (St : Steady C P) {s : IOScheduler W} (h : P s) :
    Run.All P Prod.snd (IOScheduler.collect_soonest_events s) := by
  unfold IOScheduler.collect_soonest_events
  split
  · exact Run.All_fail h
  · next b rest heq => exact Run.All_pure (St.pop s _ rest heq h)

theorem Steady.classify_steady (St : Steady C P) (fuel : Nat) (l : List Nat) :
    ∀ (cl : Classes) {s : IOScheduler W}, P s →
      Run.All P Prod.snd (IOScheduler.classify C fuel l cl s) := by
  induction l with
  | nil => intro cl s h; exact Run.All_pure h
  | cons e rest ih =>
    intro cl s h
    rw [IOScheduler.classify]
    simp only []
    have ht : P { s with dependency_code_to_type :=
        s.dependency_code_to_type.touch (s.heap e).application_io_id } :=
      St.toStable.fields h _ _ _ _ _ _ _ _
    repeat' first
      | assumption
      | apply ih
      | refine Run.All_bind_snd (St.execute_next_steady _ _ h) ?_
      | intro _ _
      | split

theorem Steady.execute_current_waiting_ios_steady (St : Steady C P) (fuel : Nat)
    {s : IOScheduler W} (h : P s) :
    Run.All P id (IOScheduler.execute_current_waiting_ios C fuel s) := by
  unfold IOScheduler.execute_current_waiting_ios
  refine Run.All_bind (St.collect_soonest_events_steady h) ?_
  intro r hr
  refine Run.All_bind (St.classify_steady fuel _ _ hr) ?_
  intro c hc
  refine Run.All_bind_state ?_ ?_
  · exact Run.All_foldlM _ (fun acc v hacc => St.handle_steady fuel v hacc) _ _ hc
  · intro s1 h1
    exact St.handle_noop_events_steady fuel _ h1

/-- The steps of `execute_current_waiting_ios` leave `future_events` as it is. -/
theorem steady_future_events (C : Collaborators W) (F : List Nat) :
    Steady C (fun s => s.future_events = F) where
  call := fun _ _ _ h => h
  heap := fun _ _ _ h => h
  dependencies := fun _ _ h => h
  LBA_currently_executing := fun _ _ h => h
  dependency_code_to_LBA := fun _ _ h => h
  dependency_code_to_type := fun _ _ h => h
  op_code_to_dependent_op_codes := fun _ _ h => h
  num_write_cancellations := fun _ _ h => h
  push := fun _ _ _ h => h
  issue := fun _ _ h => h
  pop := fun _ _ _ _ h => h

theorem execute_current_waiting_ios_future_events (C : Collaborators W) (fuel : Nat)
    (s t : IOScheduler W) (hrun : execute_current_waiting_ios C fuel s = Except.ok t) :
    t.future_events = s.future_events := by
  have h := (steady_future_events C s.future_events).execute_current_waiting_ios_steady fuel
    (s := s) rfl
  rw [hrun] at h
  exact Run.All_ok_iff.mp h

end IOScheduler

theorem Skeleton.Inv.drop_Fut {k : Skeleton} {Act Fx Fut Fut' : List Nat} {e : Nat}
    (h : Skeleton.Inv k Act Fx Fut) (hp : Fut.Perm (e :: Fut')) :
    Skeleton.Inv k Act Fx Fut' ∧ Skeleton.Adm k (Act ++ (Fx ++ Fut')) e := by
  have hP : (Act ++ (Fx ++ Fut)).Perm (e :: (Act ++ (Fx ++ Fut'))) :=
    (List.Perm.append_left Act ((List.Perm.append_left Fx hp).trans List.perm_middle)).trans
      List.perm_middle
  refine ⟨?_, h.adm hP⟩
  refine h.relist ?_ (fun p hp' => Or.inl hp') h.nn
  exact (List.sublist_cons_self e _).subperm.trans hP.symm.subperm

namespace IOScheduler
variable {W : Type}

theorem sweep_future_events_safe (C : Collaborators W) (fuel : Nat) (c : ℚ) :
    ∀ (l kept : List Nat) (s t : IOScheduler W), Safe s [] [] (kept ++ l) →
      s.future_events = kept ++ l → sweep_future_events C fuel c kept l s = Except.ok t →
      Safe t [] [] t.future_events := by
  intro l
  induction l with
  | nil =>
    intro kept s t hS hf hrun
    simp only [sweep_future_events, pure, Except.pure, Except.ok.injEq] at hrun
    subst hrun
    rw [hf]; exact hS
  | cons e rest ih =>
    intro kept s t hS hf hrun
    rw [sweep_future_events] at hrun
    split at hrun
    · obtain ⟨s1, h1, h2⟩ := bind_ok hrun
      obtain ⟨hI, hA⟩ := Skeleton.Inv.drop_Fut hS
        (List.perm_middle : (kept ++ e :: rest).Perm (e :: (kept ++ rest)))
      have hS1 : Safe s1 [] [] (kept ++ rest) :=
        init_event_safe C fuel e s s1 [] [] (kept ++ rest) hI hA h1
      exact ih kept { s1 with future_events := kept ++ rest } t hS1 rfl h2
    · refine ih (kept ++ [e]) s t ?_ ?_ hrun
      · rw [List.append_assoc]; exact hS
      · rw [List.append_assoc]; exact hf

theorem update_current_events_safe (C : Collaborators W) (fuel : Nat) (s t : IOScheduler W)
    (hS : Safe s [] [] s.future_events)
    (hrun : update_current_events C fuel s = Except.ok t) : Safe t [] [] t.future_events := by
  unfold update_current_events at hrun
  dsimp only at hrun
  refine sweep_future_events_safe C fuel _ _ [] _ t ?_ rfl hrun
  refine Skeleton.Inv.perm hS (List.Perm.refl _) (List.Perm.refl _) ?_
  exact C.shuffle_perm _ _

theorem finish_loop_safe (C : Collaborators W) : ∀ (fuel : Nat) (time : ℚ)
    (s t : IOScheduler W), Safe s [] [] s.future_events →
    finish_loop C fuel time s = Except.ok t → Safe t [] [] t.future_events := by
  intro fuel
  induction fuel with
  | zero =>
    intro time s t _ hrun
    simp [finish_loop, fail] at hrun
  | succ n ih =>
    intro time s t hS hrun
    rw [finish_loop] at hrun
    split at hrun
    · obtain ⟨s1, h1, hrun⟩ := bind_ok hrun
      obtain ⟨s2, h2, h3⟩ := bind_ok hrun
      have hS1 := execute_current_waiting_ios_safe C n s.future_events s s1 hS h1
      rw [← execute_current_waiting_ios_future_events C n s s1 h1] at hS1
      exact ih time s2 t (update_current_events_safe C n s1 s2 hS1 h2) h3
    · simp only [pure, Except.pure, Except.ok.injEq] at hrun
      subst hrun
      exact hS

theorem finish_all_events_until_this_time_safe (C : Collaborators W) (fuel : Nat) (time : ℚ)
    (s t : IOScheduler W) (hS : Safe s [] [] s.future_events)
    (hrun : finish_all_events_until_this_time C fuel time s = Except.ok t) :
    Safe t [] [] t.future_events := by
  unfold finish_all_events_until_this_time at hrun
  obtain ⟨s1, h1, h2⟩ := bind_ok hrun
  exact finish_loop_safe C fuel time s1 t (update_current_events_safe C fuel s s1 hS h1) h2

theorem execute_soonest_events_safe (C : Collaborators W) (fuel : Nat)
    (s t : IOScheduler W) (hS : Safe s [] [] s.future_events)
    (hrun : execute_soonest_events C fuel s = Except.ok t) :
    Safe t [] [] t.future_events :=
  finish_all_events_until_this_time_safe C fuel _ s t hS hrun

end IOScheduler

namespace IOScheduler
variable {W : Type}

theorem alloc_list_spec : ∀ (es : List Event) (s : IOScheduler W),
    (s.alloc_list es).2.next_free = s.next_free + es.length
    ∧ (∀ q ∈ (s.alloc_list es).1, s.next_free ≤ q ∧ q < s.next_free + es.length)
    ∧ (∀ p, p < s.next_free → (s.alloc_list es).2.heap p = s.heap p)
    ∧ (∀ p, s.next_free ≤ p → p < s.next_free + es.length → (s.alloc_list es).2.heap p ∈ es)
    ∧ (s.alloc_list es).2.current_events = s.current_events
    ∧ (s.alloc_list es).2.future_events = s.future_events
    ∧ (s.alloc_list es).2.dependencies = s.dependencies
    ∧ (s.alloc_list es).2.op_code_to_dependent_op_codes = s.op_code_to_dependent_op_codes
    ∧ (s.alloc_list es).2.LBA_currently_executing = s.LBA_currently_executing
    ∧ (s.alloc_list es).2.dependency_code_to_LBA = s.dependency_code_to_LBA := by
  intro es
  induction es with
  | nil =>
    intro s
    refine ⟨rfl, ?_, fun _ _ => rfl, ?_, rfl, rfl, rfl, rfl, rfl, rfl⟩
    · intro q hq; simp [alloc_list] at hq
    · intro p h1 h2; simp at h2; omega
  | cons e rest ih =>
    intro s
    obtain ⟨h1, h2, h3, h4, h5, h6, h7, h8, h9, h10⟩ := ih (s.alloc e).2
    have hn : (s.alloc e).2.next_free = s.next_free + 1 := rfl
    rw [hn] at h1 h2 h3 h4
    refine ⟨?_, ?_, ?_, ?_, h5, h6, h7, h8, h9, h10⟩
    · show ((s.alloc e).2.alloc_list rest).2.next_free = _
      rw [h1, List.length_cons]; omega
    · intro q hq
      rw [List.length_cons]
      rcases List.mem_cons.mp hq with hq | hq
      · have : q = s.next_free := hq
        omega
      · have := h2 q hq
        omega
    · intro p hp
      show ((s.alloc e).2.alloc_list rest).2.heap p = _
      rw [h3 p (by omega)]
      simp [alloc, Nat.ne_of_lt hp]
    · intro p hp1 hp2
      rw [List.length_cons] at hp2
      show ((s.alloc e).2.alloc_list rest).2.heap p ∈ _
      by_cases hp : p = s.next_free
      · subst hp
        rw [h3 _ (by omega)]
        simp [alloc]
      · exact List.mem_cons_of_mem _ (h4 p (by omega) (by omega))

end IOScheduler

theorem Skeleton.Inv.submitted {k k' : Skeleton} {Act Fx Fut : List Nat}
    (h : Skeleton.Inv k Act Fx Fut) (O L first : Nat) (tail : List Nat)
    (hnf : k.next_free ≤ k'.next_free)
    (hold : ∀ p, p < k.next_free →
      k'.op p = k.op p ∧ k'.lba p = k.lba p ∧ k'.noop p = k.noop p)
    (hnew : ∀ p, k.next_free ≤ p → p < k'.next_free → k'.op p = O ∧ k'.lba p = L)
    (hok : ∀ p, p < k'.next_free → k'.ok p = true)
    (hfresh : ∀ p, p < k.next_free → k.op p ≠ O)
    (hfirst : k.next_free ≤ first ∧ first < k'.next_free)
    (htail : ∀ q ∈ tail, k.next_free ≤ q ∧ q < k'.next_free)
    (hpend : ∀ N, k'.pending N = if N = O then tail else k.pending N)
    (hdts : ∀ O', k'.dependents O' = k.dependents O')
    (hown : ∀ l, k'.owner l = k.owner l)
    (hlbaof : ∀ N, k'.lba_of N = if N = O then some L else k.lba_of N) :
    Skeleton.Inv k' Act Fx (Fut ++ [first]) := by
  have hmem : ∀ p ∈ Act ++ (Fx ++ (Fut ++ [first])), p ∈ Act ++ (Fx ++ Fut) ∨ p = first := by
    intro p hp
    simp only [List.mem_append, List.mem_singleton] at hp ⊢
    tauto
  have hlive : ∀ p ∈ Act ++ (Fx ++ Fut), p < k.next_free := h.bound
  have hnotheld : ∀ O', O ∉ k.dependents O' := by
    intro O' hO
    obtain ⟨p, hp, hpo⟩ := h.held_used O' O hO
    exact hfresh p hp hpo
  have hopfirst := (hnew first hfirst.1 hfirst.2)
  constructor
  · intro p hp
    rcases hmem p hp with hp | hp
    · exact lt_of_lt_of_le (hlive p hp) hnf
    · rw [hp]; exact hfirst.2
  · intro N q hq
    rw [hpend] at hq
    split at hq
    · exact (htail q hq).2
    · exact lt_of_lt_of_le (h.bound_pending N q hq) hnf
  · exact hok
  · intro p q hp hq hpq
    by_cases h1 : p < k.next_free
    · by_cases h2 : q < k.next_free
      · rw [(hold p h1).2.1, (hold q h2).2.1]
        rw [(hold p h1).1, (hold q h2).1] at hpq
        exact h.same_lba p q h1 h2 hpq
      · rw [(hold p h1).1, (hnew q (by omega) hq).1] at hpq
        exact absurd hpq (hfresh p h1)
    · by_cases h2 : q < k.next_free
      · rw [(hnew p (by omega) hp).1, (hold q h2).1] at hpq
        exact absurd hpq.symm (hfresh q h2)
      · rw [(hnew p (by omega) hp).2, (hnew q (by omega) hq).2]
  · intro N q hq
    rw [hpend] at hq
    split at hq
    · next hN => rw [hN]; exact (hnew q (htail q hq).1 (htail q hq).2).1
    · rw [(hold q (h.bound_pending N q hq)).1]
      exact h.pending_op N q hq
  · have e1 : Act ++ (Fx ++ (Fut ++ [first])) = (Act ++ (Fx ++ Fut)) ++ [first] := by
      simp [List.append_assoc]
    rw [e1, List.map_append, List.nodup_append]
    refine ⟨?_, by simp, ?_⟩
    · have : (Act ++ (Fx ++ Fut)).map k'.op = (Act ++ (Fx ++ Fut)).map k.op :=
        List.map_congr_left (fun p hp => (hold p (hlive p hp)).1)
      rw [this]; exact h.nodup
    · intro x hx1 hx2
      simp only [List.map_cons, List.map_nil, List.mem_singleton] at hx2
      obtain ⟨p, hp, hpx⟩ := List.mem_map.mp hx1
      rw [(hold p (hlive p hp)).1] at hpx
      rw [hx2, hopfirst.1] at hpx
      exact hfresh p (hlive p hp) hpx
  · intro O' D hD p hp
    rw [hdts] at hD
    rcases hmem p hp with hp | hp
    · rw [(hold p (hlive p hp)).1]
      exact h.held_fresh O' D hD p hp
    · rw [hp, hopfirst.1]
      rintro rfl
      exact hnotheld O' hD
  · intro O' D hD
    rw [hdts] at hD
    obtain ⟨p, hp, hpo⟩ := h.held_used O' D hD
    exact ⟨p, lt_of_lt_of_le hp hnf, by rw [(hold p hp).1]; exact hpo⟩
  · intro O' D hD
    rw [hdts] at hD ⊢
    refine ⟨(h.held_once O' D hD).1, fun O'' hne => ?_⟩
    rw [hdts]
    exact (h.held_once O' D hD).2 O'' hne
  · intro p hp hn
    have hp' : p ∈ Act ++ (Fx ++ Fut) := by
      simp only [List.mem_append] at hp ⊢
      tauto
    have hlt := hlive p hp'
    rw [(hold p hlt).2.2] at hn
    rw [hown, (hold p hlt).2.1, (hold p hlt).1]
    exact h.excl p hp hn
  · intro q hq
    rcases hmem q hq with hq | hq
    · have hlt := hlive q hq
      rw [hlbaof, (hold q hlt).1, (hold q hlt).2.1, if_neg (hfresh q hlt)]
      exact h.known_live q hq
    · rw [hq, hlbaof, hopfirst.1, hopfirst.2, if_pos rfl]
  · intro O' D hD q hq
    rw [hdts] at hD
    have hDO : D ≠ O := by
      rintro rfl; exact hnotheld O' hD
    rw [hpend, if_neg hDO] at hq
    have hlt := h.bound_pending D q hq
    rw [hlbaof, if_neg hDO, (hold q hlt).2.1]
    exact h.known_held O' D hD q hq
  · intro p hp
    have hlt := hlive p (List.mem_append_right _ (List.mem_append_left _ hp))
    rw [(hold p hlt).2.2]
    exact h.nn p hp

namespace IOScheduler
variable {W : Type}

theorem submit_queue_safe (events : List Event) (O L : Nat) (s t : IOScheduler W)
    (hS : Safe s [] [] s.future_events) (hW : WellFormed s events O L)
    (hrun : submit_queue events s = Except.ok t) : Safe t [] [] t.future_events := by
  have hspec := alloc_list_spec events s
  unfold submit_queue at hrun
  revert hspec hrun
  generalize s.alloc_list events = r
  obtain ⟨ptrs, s'⟩ := r
  intro hrun ⟨a1, a2, a3, a4, a5, a6, a7, a8, a9, a10⟩
  dsimp only at hrun a1 a2 a3 a4 a5 a6 a7 a8 a9 a10
  unfold schedule_events_queue at hrun
  split at hrun
  · simp [fail] at hrun
  · next back hback =>
    have hbm : back ∈ ptrs := List.mem_of_getLast?_eq_some hback
    have hbb := a2 back hbm
    have hbe := (hW.1 _ (a4 back hbb.1 hbb.2))
    dsimp only at hrun
    have ht : (s'.heap back).type ≠ event_type.GARBAGE_COLLECTION
        ∧ (s'.heap back).type ≠ event_type.ERASE := ⟨hbe.2.2.2.2.1, hbe.2.2.2.1⟩
    rw [if_pos ht] at hrun
    split at hrun
    · next hcount =>
      cases ptrs with
      | nil => simp at hbm
      | cons first tail =>
        dsimp only at hrun
        have hfm : first ∈ first :: tail := List.mem_cons_self _ _
        have hfb := a2 first hfm
        have hfe := (hW.1 _ (a4 first hfb.1 hfb.2))
        rw [if_neg (by rw [hfe.2.2.2.2.2]; simp)] at hrun
        simp only [pure, Except.pure, Except.ok.injEq] at hrun
        subst hrun
        have hcp : ∀ (U : IOScheduler W), U.current_events = s.current_events →
            U.current_pointers = s.current_pointers := by
          intro U h; unfold current_pointers; rw [h]
        have key : ∀ T : IOScheduler W, T.heap = s'.heap → T.next_free = s'.next_free →
            T.current_events = s'.current_events →
            T.dependencies = s'.dependencies.set O tail →
            T.op_code_to_dependent_op_codes = s'.op_code_to_dependent_op_codes →
            T.LBA_currently_executing = s'.LBA_currently_executing →
            T.dependency_code_to_LBA = s'.dependency_code_to_LBA.set O L →
            T.future_events = s'.future_events ++ [first] →
            Safe T [] [] T.future_events := by
          intro T t1 t2 t3 t4 t5 t6 t7 t8
          unfold Safe
          rw [t8, a6, hcp T (t3.trans a5)]
          refine Skeleton.Inv.submitted hS O L first tail ?_ ?_ ?_ ?_ hW.2 ?_ ?_ ?_ ?_ ?_ ?_
          · show s.next_free ≤ T.next_free
            rw [t2, a1]; omega
          · intro p hp
            have hp' : p < s.next_free := hp
            simp [skeleton, t1, a3 p hp']
          · intro p hp1 hp2
            have hp1' : s.next_free ≤ p := hp1
            have hp2' : p < s.next_free + events.length := by
              have : p < T.next_free := hp2
              rw [t2, a1] at this; exact this
            have := hW.1 _ (a4 p hp1' hp2')
            simp only [skeleton, t1]
            exact ⟨this.1, this.2.1⟩
          · intro p hp
            have hp2' : p < s.next_free + events.length := by
              have : p < T.next_free := hp
              rw [t2, a1] at this; exact this
            by_cases hlt : p < s.next_free
            · have := hS.ok_all p hlt
              simpa [skeleton, t1, a3 p hlt] using this
            · have := hW.1 _ (a4 p (by omega) hp2')
              simp [skeleton, t1, this.2.2.1, this.2.2.2.1, this.2.2.2.2.1]
          · constructor
            · exact hfb.1
            · show first < T.next_free
              rw [t2, a1]; exact hfb.2
          · intro q hq
            have := a2 q (List.mem_cons_of_mem _ hq)
            refine ⟨this.1, ?_⟩
            show q < T.next_free
            rw [t2, a1]; exact this.2
          · intro N
            show T.dependencies.get N = _
            rw [t4, a7, Table.get_set]
            rfl
          · intro O'
            show T.op_code_to_dependent_op_codes.get O' = _
            rw [t5, a8]; rfl
          · intro l
            show T.LBA_currently_executing l = _
            rw [t6, a9]; rfl
          · intro N
            show T.dependency_code_to_LBA N = _
            rw [t7, a10]
            by_cases hN : N = O
            · subst hN; simp [Table.set]
            · simp [Table.set, hN]; rfl
        refine key _ rfl rfl rfl ?_ rfl rfl ?_ rfl
        · show Table.set _ _ _ = _
          rw [hbe.1]
        · show Table.set _ _ _ = _
          rw [hbe.1, hbe.2.1]
    · simp [fail] at hrun

theorem init_safe (w : W) : Safe (IOScheduler.init w) [] [] [] := by
  unfold Safe
  have hc : (IOScheduler.init w).current_pointers = [] := rfl
  rw [hc]
  refine ⟨fun p hp => by simp at hp, fun N q hq => ?_, fun p hp => ?_, fun p q hp _ _ => ?_,
    fun N q hq => ?_, by simp, fun O D hD => ?_, fun O D hD => ?_, fun O D hD => ?_,
    fun p hp => ?_, fun q hq => by simp at hq, fun O D hD => ?_, fun p hp => by simp at hp⟩
  · exact absurd hq (List.not_mem_nil q)
  · exact absurd hp (Nat.not_lt_zero p)
  · exact absurd hp (Nat.not_lt_zero p)
  · exact absurd hq (List.not_mem_nil q)
  · exact absurd hD (List.not_mem_nil D)
  · exact absurd hD (List.not_mem_nil D)
  · exact absurd hD (List.not_mem_nil D)
  · exact absurd hp (List.not_mem_nil p)
  · exact absurd hD (List.not_mem_nil D)

theorem ReachableWellFormed.lock_discipline (C : Collaborators W) {s : IOScheduler W}
    (h : ReachableWellFormed C s) : Safe s [] [] s.future_events := by
  induction h with
  | init w => exact init_safe w
  | schedule_events_queue events O L _ hW hrun ih => exact submit_queue_safe events O L _ _ ih hW hrun
  | execute_soonest_events fuel _ hrun ih => exact execute_soonest_events_safe C fuel _ _ ih hrun
  | finish_all_events_until_this_time fuel time _ hrun ih =>
    exact finish_all_events_until_this_time_safe C fuel time _ _ ih hrun

end IOScheduler

namespace IOScheduler
variable {W : Type}

theorem classify_partition (C : Collaborators W) (fuel : Nat) :
    ∀ (l : List Nat) (cl : Classes) (s : IOScheduler W) (c : Classes × IOScheduler W),
      classify C fuel l cl s = Except.ok c → Partition C fuel l cl s c.1 c.2 := by
  intro l
  induction l with
  | nil =>
    intro cl s c hc
    simp only [classify, pure, Except.pure, Except.ok.injEq] at hc
    subst hc
    exact Partition.done cl s
  | cons e rest ih =>
    intro cl s c hc
    rw [classify] at hc
    dsimp only at hc
    have hs1 : ∀ k, (s.dependency_code_to_type.touch (s.heap e).application_io_id).get k
        = s.dependency_code_to_type.get k := fun k => Table.get_touch_all _ _ _
    have same : ∀ (k : dispatch_class) (cl2 : Classes), s.class_of e = some k →
        cl2 = cl.add k e → classify C fuel rest cl2 s = Except.ok c →
        Partition C fuel (e :: rest) cl s c.1 c.2 := by
      intro k cl2 hk hcl h
      subst hcl
      exact Partition.classed s.dependency_code_to_type hk (fun _ => rfl) (ih _ s c h)
    have touched : ∀ (k : dispatch_class) (cl2 : Classes) (ty : Table event_type),
        s.class_of e = some k → cl2 = cl.add k e →
        (∀ x, ty.get x = s.dependency_code_to_type.get x) →
        classify C fuel rest cl2 { s with dependency_code_to_type := ty } = Except.ok c →
        Partition C fuel (e :: rest) cl s c.1 c.2 := by
      intro k cl2 ty hk hcl hty h
      subst hcl
      exact Partition.classed ty hk hty (ih _ _ c h)
    by_cases hn : (s.heap e).noop = true
    · rw [if_pos hn] at hc
      exact same dispatch_class.noop_event _ (by simp [class_of, hn]) rfl hc
    · rw [if_neg hn] at hc
      cases hty : (s.heap e).type with
      | TRIM =>
        simp only [hty] at hc
        simp only [reduceCtorEq, if_false, if_true] at hc
        obtain ⟨r, h1, h2⟩ := bind_ok hc
        exact Partition.trim (by simpa using hn) hty h1 (ih _ _ c h2)
      | READ =>
        simp only [hty, reduceCtorEq, if_false] at hc
        exact Partition.passed (by simp [class_of, hn, hty]) (by simp [hty]) (ih _ _ c hc)
      | GARBAGE_COLLECTION =>
        simp only [hty, reduceCtorEq, if_false] at hc
        exact Partition.passed (by simp [class_of, hn, hty]) (by simp [hty]) (ih _ _ c hc)
      | READ_TRANSFER =>
        simp only [hty, reduceCtorEq, if_false, if_true] at hc
        exact same dispatch_class.read_transfer _ (by simp [class_of, hn, hty]) rfl hc
      | ERASE =>
        simp only [hty, reduceCtorEq, if_false, if_true] at hc
        exact same dispatch_class.erase _ (by simp [class_of, hn, hty]) rfl hc
      | COPY_BACK =>
        simp only [hty, reduceCtorEq, if_false, if_true] at hc
        exact same dispatch_class.copy_back _ (by simp [class_of, hn, hty]) rfl hc
      | WRITE =>
        simp only [hty, reduceCtorEq, if_false, if_true] at hc
        by_cases hg : (s.heap e).garbage_collection_op = true
        · rw [if_pos hg] at hc
          exact same dispatch_class.gc_write _ (by simp [class_of, hn, hty, hg]) rfl hc
        · rw [if_neg hg] at hc
          exact same dispatch_class.write _ (by simp [class_of, hn, hty, hg]) rfl hc
      | READ_COMMAND =>
        simp only [hty, reduceCtorEq, if_false, if_true] at hc
        rw [hs1] at hc
        by_cases hcb : s.dependency_code_to_type.get (s.heap e).application_io_id
            = event_type.COPY_BACK
        · rw [if_pos hcb] at hc
          exact touched dispatch_class.read_command_copyback _ _
            (by simp [class_of, hn, hty, hcb]) rfl hs1 hc
        · rw [if_neg hcb] at hc
          by_cases hf : (s.heap e).flexible_read = true
          · rw [if_pos hf] at hc
            exact touched dispatch_class.read_command_flexible _ _
              (by simp [class_of, hn, hty, hcb, hf]) rfl hs1 hc
          · rw [if_neg hf] at hc
            exact touched dispatch_class.read_command _ _
              (by simp [class_of, hn, hty, hcb, hf]) rfl hs1 hc

end IOScheduler

/-! ## The claims -/

open IOScheduler

/-- C1: `is_empty()` is claimed to return false exactly while some event remains.  The code
returns the disjunction "`current_events` or `future_events` is non-empty": on the scheduler as
constructed, where no event remains, it returns false, and with one submitted event waiting in
`future_events` it returns true. -/
theorem is_empty_inverted :
    Scenario.empty.is_empty = false
    ∧ (Run.final (Scenario.after_submitting [Scenario.event event_type.WRITE 1 7 0])).map
        (fun s => (s.future_events, s.is_empty)) = some ([0], true) := by
  decide!


theorem Scenario.reachable_after_submitting (C : Collaborators Unit) :
    ∀ (es : List Event) (s0 s : IOScheduler Unit), Reachable C s0 →
      es.foldlM (fun s e => s.submit e) s0 = Except.ok s → Reachable C s := by
  intro es
  induction es with
  | nil => intro s0 s h0 h; cases h; exact h0
  | cons e es ih =>
    intro s0 s h0 h
    rw [List.foldlM_cons] at h
    obtain ⟨s1, h1, h2⟩ := bind_ok h
    exact ih s1 s (Reachable.schedule_events_queue [e] h0 h1) h2

/-- C3, counterexample: with a device that is always ready, after one WRITE was submitted at
time 5 the clock reads 5; `execute_soonest_events()` executes it, both queues are empty and the
clock reads 0. -/
theorem clock_not_monotone :
    ¬ ∀ (s s' : IOScheduler Unit) (fuel : Nat), Reachable (Scenario.device 0) s →
        execute_soonest_events (Scenario.device 0) fuel s = Except.ok s' →
        s.get_current_time ≤ s'.get_current_time := by
  intro h
  have h1 : Reachable (Scenario.device 0) Scenario.one_write :=
    Scenario.reachable_after_submitting _ _ _ _ (Reachable.init ())
      (Run.eq_ok_state _ (by decide!))
  have h2 := h Scenario.one_write _ 10 h1 (Run.eq_ok_state _ (by decide!))
  revert h2
  decide!

/-- C3 (amended): after a call of `execute_soonest_events()` that leaves `current_events`
non-empty, `get_current_time()` is at least its value before the call plus 1; after a call that
leaves both queues empty it is 0. -/
theorem clock_after_execute_soonest_events (C : Collaborators W) (fuel : Nat)
    (s s' : IOScheduler W) (h : execute_soonest_events C fuel s = Except.ok s') :
    (s'.current_events ≠ [] → s.get_current_time + 1 ≤ s'.get_current_time)
    ∧ (s'.current_events = [] → s'.future_events = [] → s'.get_current_time = 0) := by
  constructor
  · intro hne
    obtain ⟨s1, _, h1⟩ := bind_ok h
    have hx := finish_loop_exit C _ _ _ _ h1
    have hl : s'.current_events.length > 0 := List.length_pos.mpr hne
    by_contra hc
    exact hx ⟨lt_of_not_le hc, hl⟩
  · intro hc hf
    simp [get_current_time, hc, hf]


theorem clock_after_execute_soonest_events_witness :
    (execute_soonest_events (Scenario.device 5) 10 Scenario.one_write).state.current_events ≠ []
    ∧ Scenario.one_write.get_current_time + 1
        ≤ (execute_soonest_events (Scenario.device 5) 10 Scenario.one_write).state.get_current_time :=
  ⟨by decide!,
    (clock_after_execute_soonest_events (Scenario.device 5) 10 Scenario.one_write _
      (Run.eq_ok_state _ (by decide!))).1 (by decide!)⟩

/-- C4, counterexample: a GARBAGE_COLLECTION request at time 50 for which the block manager
proposes no migration and a WRITE at time 60 are waiting; `finish_all_events_until_this_time(100)`
admits the request, which puts nothing into `current_events`, and returns with the clock at 60
and the WRITE still in `future_events`. -/
theorem finish_all_events_leaves_future_events :
    ¬ ∀ (s s' : IOScheduler Unit) (fuel : Nat) (t : ℚ),
        finish_all_events_until_this_time (Scenario.device 0) fuel t s = Except.ok s' →
        t ≤ s'.get_current_time ∨ (s'.future_events = [] ∧ s'.current_events = []) := by
  intro h
  have h2 := h Scenario.gc_request_then_write _ 10 100 (Run.eq_ok_state _ (by decide!))
  revert h2
  decide!

/-- C4 (amended): whenever `finish_all_events_until_this_time(t)` returns, either
`get_current_time() >= t` or `current_events` is empty; `future_events` may still hold events. -/
theorem finish_all_events_until_this_time_returns (C : Collaborators W) (fuel : Nat) (t : ℚ)
    (s s' : IOScheduler W) (h : finish_all_events_until_this_time C fuel t s = Except.ok s') :
    t ≤ s'.get_current_time ∨ s'.current_events = [] := by
  obtain ⟨s1, _, h1⟩ := bind_ok h
  have hx := finish_loop_exit C _ _ _ _ h1
  by_cases hc : s'.current_events = []
  · exact Or.inr hc
  · left
    by_contra hlt
    exact hx ⟨lt_of_not_le hlt, List.length_pos.mpr hc⟩

theorem finish_all_events_until_this_time_returns_witness :
    (finish_all_events_until_this_time (Scenario.device 0) 10 100
        Scenario.gc_request_then_write).final.isSome = true
    ∧ ((100 : ℚ) ≤ (finish_all_events_until_this_time (Scenario.device 0) 10 100
          Scenario.gc_request_then_write).state.get_current_time
      ∨ (finish_all_events_until_this_time (Scenario.device 0) 10 100
          Scenario.gc_request_then_write).state.current_events = []) :=
  ⟨by decide!,
    finish_all_events_until_this_time_returns (Scenario.device 0) 10 100
      Scenario.gc_request_then_write _ (Run.eq_ok_state _ (by decide!))⟩


/-- C5: write coalescing.  A WRITE event `e` of op `N` (not GC, recorded type WRITE) is passed to
admission while its LBA is owned by another op `O` of recorded type WRITE whose scheduled event
`E` (not GC) is in `current_events`.  Then `init_event` returns; `E` is still in `current_events`
and is flagged noop, the LBA is owned by `N`, `num_write_cancellations` has grown by exactly 1,
`e` has been pushed into `current_events` exactly once and is a WRITE that is not noop. -/
theorem write_coalescing (C : Collaborators W) (fuel : Nat) (s : IOScheduler W) (e E N O : Nat)
    (htype : (s.heap e).type = event_type.WRITE)
    (hnoop : (s.heap e).noop = false)
    (hgN : (s.heap e).garbage_collection_op = false)
    (hN : (s.heap e).application_io_id = N)
    (htN : s.dependency_code_to_type N = some event_type.WRITE)
    (hown : s.LBA_currently_executing (s.heap e).logical_address = some O) (hne : O ≠ N)
    (htO : s.dependency_code_to_type O = some event_type.WRITE)
    (hE : s.find_scheduled_event O = some E)
    (hgE : (s.heap E).garbage_collection_op = false) :
    ∃ s', init_event C (fuel + 1) e s = Except.ok s'
      ∧ E ∈ s'.current_pointers ∧ (s'.heap E).noop = true
      ∧ s'.LBA_currently_executing (s.heap e).logical_address = some N
      ∧ s'.num_write_cancellations = s.num_write_cancellations + 1
      ∧ s'.current_pointers.count e = s.current_pointers.count e + 1
      ∧ (s'.heap e).noop = false ∧ (s'.heap e).type = event_type.WRITE := by
  obtain ⟨hEmem, hEop⟩ := find_scheduled_event_spec s O E hE
  have hEe : e ≠ E := by
    intro h; rw [h, hEop] at hN; exact hne hN
  obtain ⟨f1, -, -, -, -, -, -, f8, -⟩ := remove_current_operation_frame C s E
  have hrun : init_event C (fuel + 1) e s = Except.ok
      ((push_into_current_events e { (s.remove_current_operation C E) with
          LBA_currently_executing :=
            (s.remove_current_operation C E).LBA_currently_executing.set
              (s.heap e).logical_address N,
          num_write_cancellations :=
            (s.remove_current_operation C E).num_write_cancellations + 1 }).call C
        (Call.register_write_arrival (s.heap e))) := by
    simp [init_event, htype, hnoop, should_event_be_scheduled,
      remove_redundant_events_write_write C s e E N O hN hown hne htN htO hE hgN hgE, bind,
      Except.bind, pure, Except.pure, remove_current_operation_heap_ne C s hEe, Table.count,
      Table.set, hN, push_into_current_events, call]
  refine ⟨_, hrun, ?_, ?_, ?_, ?_, ?_, ?_, ?_⟩
  · show E ∈ ((bucket_insert _ e _).map Prod.snd).flatten
    rw [mem_bucket_insert, f1]
    exact Or.inr hEmem
  · simp [call, push_into_current_events, remove_current_operation_heap_self]
  · simp [call, push_into_current_events, Table.set]
  · simp [call, push_into_current_events, f8]
  · show ((bucket_insert _ e _).map Prod.snd).flatten.count e = _
    rw [count_bucket_insert, f1]
    simp [current_pointers]
  · simp [call, push_into_current_events, remove_current_operation_heap_ne C s hEe, hnoop]
  · simp [call, push_into_current_events, remove_current_operation_heap_ne C s hEe, htype]

theorem write_coalescing_witness :
    ∃ s', init_event (Scenario.device 0) 1 1 Scenario.write_then_write = Except.ok s'
      ∧ 0 ∈ s'.current_pointers ∧ (s'.heap 0).noop = true
      ∧ s'.LBA_currently_executing (Scenario.write_then_write.heap 1).logical_address = some 2
      ∧ s'.num_write_cancellations = Scenario.write_then_write.num_write_cancellations + 1
      ∧ s'.current_pointers.count 1 = Scenario.write_then_write.current_pointers.count 1 + 1
      ∧ (s'.heap 1).noop = false ∧ (s'.heap 1).type = event_type.WRITE :=
  write_coalescing (Scenario.device 0) 0 Scenario.write_then_write 1 0 2 1 (by decide!)
    (by decide!) (by decide!) (by decide!) (by decide!) (by decide!) (by decide!) (by decide!)
    (by decide!) (by decide!)


/-- C7: GC preempts a user write.  A GC-flagged event `e` of op `N` is passed to the admission
guard while its LBA is owned by another op `O` of recorded type WRITE whose scheduled event is
`E`.  Then `should_event_be_scheduled` returns false; the GC flag is set on `E` and on every
event remaining in the dependency queue of `O`, `e` is flagged noop and has been pushed into
`current_events` once, `O` is still the owner of the LBA and `num_write_cancellations` has grown
by exactly 1. -/
theorem gc_preempts_user_write (C : Collaborators W) (s : IOScheduler W) (e E N O : Nat)
    (hgN : (s.heap e).garbage_collection_op = true)
    (hN : (s.heap e).application_io_id = N)
    (hown : s.LBA_currently_executing (s.heap e).logical_address = some O) (hne : O ≠ N)
    (htO : s.dependency_code_to_type O = some event_type.WRITE)
    (hE : s.find_scheduled_event O = some E) :
    ∃ s', should_event_be_scheduled C e s = Except.ok (false, s')
      ∧ (s'.heap E).garbage_collection_op = true
      ∧ (∀ p ∈ s.dependencies.get O, (s'.heap p).garbage_collection_op = true)
      ∧ (s'.heap e).noop = true
      ∧ s'.current_pointers.count e = s.current_pointers.count e + 1
      ∧ s'.LBA_currently_executing (s.heap e).logical_address = some O
      ∧ s'.num_write_cancellations = s.num_write_cancellations + 1 := by
  obtain ⟨hEmem, hEop⟩ := find_scheduled_event_spec s O E hE
  have hrun := remove_redundant_events_gc_write C s e E N O hN hown hne htO hE hgN
  set s0 : IOScheduler W :=
    { s with dependency_code_to_type := s.dependency_code_to_type.touch N } with hs0
  obtain ⟨g1, -⟩ := promote_to_gc_frame s0 E
  obtain ⟨f1, -⟩ := remove_current_operation_frame C (promote_to_gc E s0) e
  obtain ⟨r1, r2, -⟩ := remove_current_operation_heap_fields C (promote_to_gc E s0) e e
  obtain ⟨p1, p2, -⟩ := promote_to_gc_heap_fields s0 E e
  have hgc : ∀ q, ((remove_current_operation C e (promote_to_gc E s0)).heap q).garbage_collection_op
      = ((promote_to_gc E s0).heap q).garbage_collection_op :=
    fun q => (remove_current_operation_heap_fields C (promote_to_gc E s0) e q).2.2.2.1
  have hla : ((remove_current_operation C e (promote_to_gc E s0)).heap e).logical_address
      = (s.heap e).logical_address := by rw [r1, p1]
  have hop : ((remove_current_operation C e (promote_to_gc E s0)).heap e).application_io_id
      = N := by rw [r2, p2]; exact hN
  have hsched : should_event_be_scheduled C e s = Except.ok (false,
      { (push_into_current_events e (remove_current_operation C e (promote_to_gc E s0))) with
        LBA_currently_executing := s.LBA_currently_executing.set (s.heap e).logical_address O,
        num_write_cancellations := s.num_write_cancellations + 1 }) := by
    simp [should_event_be_scheduled, hrun, bind, Except.bind, pure, Except.pure,
      push_into_current_events, hla, hop, Table.set, hne]
  refine ⟨_, hsched, ?_, ?_, ?_, ?_, ?_, ?_⟩
  · show ((remove_current_operation C e (promote_to_gc E s0)).heap E).garbage_collection_op = true
    rw [hgc, promote_to_gc_heap]; simp
  · intro p hp
    show ((remove_current_operation C e (promote_to_gc E s0)).heap p).garbage_collection_op = true
    have hp' : p ∈ s0.dependencies.get (s0.heap E).application_io_id := by
      show p ∈ s.dependencies.get (s.heap E).application_io_id
      rw [hEop]; exact hp
    rw [hgc, promote_to_gc_heap]; simp [hp']
  · show ((remove_current_operation C e (promote_to_gc E s0)).heap e).noop = true
    rw [remove_current_operation_heap_self]
  · show ((bucket_insert _ e _).map Prod.snd).flatten.count e = _
    rw [count_bucket_insert, f1, g1]
    simp [current_pointers, hs0]
  · simp [Table.set]
  · simp


theorem gc_preempts_user_write_witness :
    ∃ s', should_event_be_scheduled (Scenario.device 0) 2 Scenario.write_chain_then_gc_write
        = Except.ok (false, s')
      ∧ (s'.heap 0).garbage_collection_op = true
      ∧ (∀ p ∈ Scenario.write_chain_then_gc_write.dependencies.get 1,
          (s'.heap p).garbage_collection_op = true)
      ∧ (s'.heap 2).noop = true
      ∧ s'.current_pointers.count 2
          = Scenario.write_chain_then_gc_write.current_pointers.count 2 + 1
      ∧ s'.LBA_currently_executing
          (Scenario.write_chain_then_gc_write.heap 2).logical_address = some 1
      ∧ s'.num_write_cancellations
          = Scenario.write_chain_then_gc_write.num_write_cancellations + 1 :=
  gc_preempts_user_write (Scenario.device 0) Scenario.write_chain_then_gc_write 2 0 2 1
    (by decide!) (by decide!) (by decide!) (by decide!) (by decide!) (by decide!)

/-- C8: read-after-write serialization.  An event `e` of a non-GC op `N` of recorded type READ
(the READ itself, or its READ_COMMAND or READ_TRANSFER) is passed to admission while its LBA is
owned by another op `O` of recorded type WRITE or COPY_BACK.  Then `init_event` returns and
`current_events` and `future_events` are as before (`e` is not pushed), `e` is at the front of
the dependency queue of `N`, `N` has been appended to the dependents of `O`, the lock table is
unchanged (`O` stays owner), no other event has been modified (the event of `O` is not noop),
and `manage_operation_completion` of an event of `O` passes `e` to `init_event`. -/
theorem read_after_write_serialization (C : Collaborators W) (fuel : Nat) (s : IOScheduler W)
    (e N O : Nat)
    (htype : (s.heap e).type = event_type.READ ∨ (s.heap e).type = event_type.READ_COMMAND
      ∨ (s.heap e).type = event_type.READ_TRANSFER)
    (halloc : e < s.next_free)
    (hnoop : (s.heap e).noop = false) (hflex : (s.heap e).flexible_read = false)
    (hgN : (s.heap e).garbage_collection_op = false)
    (hN : (s.heap e).application_io_id = N)
    (htN : s.dependency_code_to_type N = some event_type.READ)
    (hown : s.LBA_currently_executing (s.heap e).logical_address = some O) (hne : O ≠ N)
    (htO : s.dependency_code_to_type O = some event_type.WRITE
      ∨ s.dependency_code_to_type O = some event_type.COPY_BACK) :
    ∃ s', init_event C (fuel + 2) e s = Except.ok s'
      ∧ s'.current_events = s.current_events ∧ s'.future_events = s.future_events
      ∧ (∃ tl, s'.dependencies N = some (e :: tl))
      ∧ s'.op_code_to_dependent_op_codes O
          = some (s.op_code_to_dependent_op_codes.get O ++ [N])
      ∧ s'.LBA_currently_executing = s.LBA_currently_executing
      ∧ (∀ p, p ≠ e → p < s.next_free → s'.heap p = s.heap p)
      ∧ (s'.heap e).noop = false
      ∧ (∀ ev k, (s'.heap ev).application_io_id = O →
          s.op_code_to_dependent_op_codes.get O = [] →
          ∃ T : IOScheduler W, T.current_events = s'.current_events
            ∧ T.LBA_currently_executing = s'.LBA_currently_executing
            ∧ manage_operation_completion C (k + 1) ev s'
              = (init_event C k e T >>= fun s5 => admit_dependents C k ev O s5) >>= fun s3 =>
                  pure { s3 with op_code_to_dependent_op_codes :=
                           s3.op_code_to_dependent_op_codes.erase O }) := by
  -- the state in which the READ_COMMAND or READ_TRANSFER reaches the resolver
  obtain ⟨s0, hinit, hc, hf, hdep, hdo, hl, hh, hn0, ht0, hfl0, hg0, hN0, htN0, hown0, htO0⟩ :
      ∃ s0 : IOScheduler W, init_event C (fuel + 2) e s = init_event C (fuel + 1) e s0
        ∧ s0.current_events = s.current_events ∧ s0.future_events = s.future_events
        ∧ True
        ∧ s0.op_code_to_dependent_op_codes = s.op_code_to_dependent_op_codes
        ∧ s0.LBA_currently_executing = s.LBA_currently_executing
        ∧ (∀ p, p ≠ e → p < s.next_free → s0.heap p = s.heap p)
        ∧ (s0.heap e).noop = false
        ∧ ((s0.heap e).type = event_type.READ_COMMAND
            ∨ (s0.heap e).type = event_type.READ_TRANSFER)
        ∧ (s0.heap e).flexible_read = false
        ∧ (s0.heap e).garbage_collection_op = false
        ∧ (s0.heap e).application_io_id = N
        ∧ s0.dependency_code_to_type N = some event_type.READ
        ∧ s0.LBA_currently_executing (s0.heap e).logical_address = some O
        ∧ (s0.dependency_code_to_type O = some event_type.WRITE
            ∨ s0.dependency_code_to_type O = some event_type.COPY_BACK) := by
    rcases htype with htype | htype
    · refine ⟨s.decompose_read e (s.heap e).application_io_id,
        init_event_read C (fuel + 1) s e htype hnoop, rfl, rfl, trivial, rfl, rfl, ?_, ?_, ?_,
        ?_, ?_, ?_, htN, ?_, htO⟩
      · intro p hp hlt; exact decompose_read_heap_ne s e _ p hlt hp
      all_goals rw [decompose_read_heap_self s e _ halloc]
      · exact hnoop
      · exact Or.inl rfl
      · exact hflex
      · exact hgN
      · exact hN
      · exact hown
    · refine ⟨s, ?_, rfl, rfl, trivial, rfl, rfl, fun _ _ _ => rfl, hnoop, htype, hflex, hgN,
        hN, htN, hown, htO⟩
      rw [init_event_read_made_dependent C (fuel + 1) s e N O htype hnoop hflex hgN hN htN hown
        hne htO, init_event_read_made_dependent C fuel s e N O htype hnoop hflex hgN hN htN
        hown hne htO]
  have hrun := init_event_read_made_dependent C fuel s0 e N O ht0 hn0 hfl0 hg0 hN0 htN0 hown0
    hne htO0
  obtain ⟨x1, x2, x3, x4, x5, x6, x7⟩ := made_dependent_state C s0 e N O hN0 s0.world
    (Call.set_read_address (s0.heap e))
  refine ⟨_, hinit.trans hrun, x1.trans hc, x2.trans hf, ⟨_, x3⟩, ?_, x5.trans hl, ?_, ?_, ?_⟩
  · rw [x4, hdo]
  · intro p hp hlt; rw [x6 p hp, hh p hp hlt]
  · rw [x7, hn0]
  · intro ev k hev hempty
    have hd : (((s0.make_dependent e O).modify e
        (fun x => { x with address := C.set_read_address s0.world x })).call C
        (Call.set_read_address (s0.heap e))).op_code_to_dependent_op_codes O = some (N :: []) := by
      rw [x4, hdo, hempty]; rfl
    obtain ⟨T, -, -, t3, t4, t5⟩ :=
      manage_operation_completion_admits_head C k _ ev O N e _ [] hev hd x3
    exact ⟨T, t3, t4, t5⟩

theorem read_after_write_serialization_witness :
    ∃ s', init_event (Scenario.device 0) 2 1 Scenario.write_then_read = Except.ok s'
      ∧ s'.current_events = Scenario.write_then_read.current_events
      ∧ (∃ tl, s'.dependencies 2 = some (1 :: tl))
      ∧ s'.op_code_to_dependent_op_codes 1
          = some (Scenario.write_then_read.op_code_to_dependent_op_codes.get 1 ++ [2]) := by
  obtain ⟨s', h1, h2, -, h3, h4, -⟩ :=
    read_after_write_serialization (Scenario.device 0) 0 Scenario.write_then_read 1 2 1
      (by decide!) (by decide!) (by decide!) (by decide!) (by decide!) (by decide!) (by decide!)
      (by decide!) (by decide!) (by decide!)
  exact ⟨s', h1, h2, h3, h4⟩

/-- C9: the admission guard is claimed to lose no event.  A non-GC READ (op 2, LBA 7) arrives
while a TRIM (op 1) owns LBA 7: `update_current_events` passes it to `init_event`, which turns
it into a READ_COMMAND and puts its READ_TRANSFER (pointer 2) into the dependency queue; the
resolver's last branch (lines 857-863) does nothing for it.  Afterwards the READ_COMMAND
(pointer 1) is in neither queue, is not noop, is not in its op's dependency queue, and op 1
has no dependents. -/
theorem read_after_trim_is_lost :
    (Run.final (update_current_events (Scenario.device 0) 3 Scenario.trim_then_read)).map
        (fun s => (s.future_events, s.current_pointers, (s.heap 1).type, (s.heap 1).noop))
      = some ([], [0], event_type.READ_COMMAND, false)
    ∧ (Run.final (update_current_events (Scenario.device 0) 3 Scenario.trim_then_read)).map
        (fun s => (s.dependencies 2, s.op_code_to_dependent_op_codes 1,
          s.LBA_currently_executing 7))
      = some (some [2], none, some 1) := by
  decide!


/-- C6: a TRIM that cancels a pending write is claimed to count as a write cancellation.
`num_write_cancellations` is 0, the application WRITE of op 1 for LBA 7 is pending (pointer 0)
and the TRIM of op 2 for LBA 7 (pointer 1) is admitted.  The WRITE becomes noop, the TRIM owns
LBA 7 and is in `current_events`, as claimed; but the TRIM/WRITE branch (lines 841-847) lacks the
`stats.num_write_cancellations++` of the sibling branches that cancel a write (lines 785, 801 and
808), and `num_write_cancellations` is still 0, not 1. -/
theorem trim_cancellation_is_not_counted :
    Scenario.write_then_trim.num_write_cancellations = 0
    ∧ (Run.final (init_event (Scenario.device 0) 1 1 Scenario.write_then_trim)).map
        (fun s => ((s.heap 0).noop, s.LBA_currently_executing 7, s.current_pointers,
          s.num_write_cancellations))
      = some (true, some 2, [0, 1], 0) := by
  decide!

/-- The TRIM/WRITE branch on every state: a TRIM event `e` of op `N` (recorded type TRIM, not
GC) is passed to admission while its LBA is owned by another op `O` of recorded type WRITE whose
scheduled event `E` is an application write (not GC) in `current_events`.  Then `init_event`
returns; `E` is still in `current_events` and is flagged noop, the LBA is owned by `N`, `e` has
been pushed into `current_events` exactly once and is a TRIM that is not noop; the cancellation
is not counted, `num_write_cancellations` is what it was. -/
theorem trim_cancels_pending_write (C : Collaborators W) (fuel : Nat) (s : IOScheduler W)
    (e E N O : Nat)
    (htype : (s.heap e).type = event_type.TRIM)
    (hnoop : (s.heap e).noop = false)
    (hgN : (s.heap e).garbage_collection_op = false)
    (hN : (s.heap e).application_io_id = N)
    (htN : s.dependency_code_to_type N = some event_type.TRIM)
    (hown : s.LBA_currently_executing (s.heap e).logical_address = some O) (hne : O ≠ N)
    (htO : s.dependency_code_to_type O = some event_type.WRITE)
    (hE : s.find_scheduled_event O = some E)
    (hgE : (s.heap E).garbage_collection_op = false) :
    ∃ s', init_event C (fuel + 1) e s = Except.ok s'
      ∧ E ∈ s'.current_pointers ∧ (s'.heap E).noop = true
      ∧ s'.LBA_currently_executing (s.heap e).logical_address = some N
      ∧ s'.num_write_cancellations = s.num_write_cancellations
      ∧ s'.current_pointers.count e = s.current_pointers.count e + 1
      ∧ (s'.heap e).noop = false ∧ (s'.heap e).type = event_type.TRIM := by
  obtain ⟨hEmem, hEop⟩ := find_scheduled_event_spec s O E hE
  have hEe : e ≠ E := by
    intro h; rw [h, hEop] at hN; exact hne hN
  have hEe' : E ≠ e := fun h => hEe h.symm
  obtain ⟨f1, -, -, -, -, -, -, f8, -⟩ := remove_current_operation_frame C s E
  have hrun : init_event C (fuel + 1) e s = Except.ok
      (((push_into_current_events e { (s.remove_current_operation C E) with
          LBA_currently_executing :=
            s.LBA_currently_executing.set (s.heap e).logical_address N }).modify e
          (fun x => { x with replace_address :=
            C.set_replace_address (s.remove_current_operation C E).world x })).call C
        (Call.set_replace_address (s.heap e))) := by
    simp [init_event, htype, hnoop, should_event_be_scheduled,
      remove_redundant_events_trim_write C s e E N O hN hown hne htN htO hE hgN hgE, bind,
      Except.bind, pure, Except.pure, remove_current_operation_heap_ne C s hEe, Table.count,
      Table.set, hN, push_into_current_events, call, IOScheduler.modify]
  refine ⟨_, hrun, ?_, ?_, ?_, ?_, ?_, ?_, ?_⟩
  · show E ∈ ((bucket_insert _ e _).map Prod.snd).flatten
    rw [mem_bucket_insert, f1]
    exact Or.inr hEmem
  · simp [call, push_into_current_events, IOScheduler.modify, hEe', remove_current_operation_heap_self]
  · simp [call, push_into_current_events, IOScheduler.modify, Table.set]
  · simp [call, push_into_current_events, IOScheduler.modify, f8]
  · show ((bucket_insert _ e _).map Prod.snd).flatten.count e = _
    rw [count_bucket_insert, f1]
    simp [current_pointers]
  · simp [call, push_into_current_events, IOScheduler.modify, remove_current_operation_heap_ne C s hEe,
      hnoop]
  · simp [call, push_into_current_events, IOScheduler.modify, remove_current_operation_heap_ne C s hEe,
      htype]

theorem trim_cancels_pending_write_witness :
    ∃ s', init_event (Scenario.device 0) 1 1 Scenario.write_then_trim = Except.ok s'
      ∧ 0 ∈ s'.current_pointers ∧ (s'.heap 0).noop = true
      ∧ s'.LBA_currently_executing (Scenario.write_then_trim.heap 1).logical_address = some 2
      ∧ s'.num_write_cancellations = Scenario.write_then_trim.num_write_cancellations
      ∧ s'.current_pointers.count 1 = Scenario.write_then_trim.current_pointers.count 1 + 1
      ∧ (s'.heap 1).noop = false ∧ (s'.heap 1).type = event_type.TRIM :=
  trim_cancels_pending_write (Scenario.device 0) 0 Scenario.write_then_trim 1 0 2 1
    (by decide!) (by decide!) (by decide!) (by decide!) (by decide!) (by decide!) (by decide!)
    (by decide!) (by decide!) (by decide!)


/-- C10, counterexample: a READ flagged as flexible read (op 1, LBA 100, no owner) is admitted.
It becomes a READ_COMMAND, is pushed into `current_events` once and its READ_TRANSFER is put
into the dependency queue, but the test of line 664 pushes it without the admission guard and
LBA 100 has no owner afterwards. -/
theorem flexible_read_takes_no_lock :
    (Scenario.one_flexible_read.heap 0).type = event_type.READ
    ∧ Scenario.one_flexible_read.LBA_currently_executing 100 = none
    ∧ (Run.final (init_event (Scenario.device 0) 2 0 Scenario.one_flexible_read)).map
        (fun s => ((s.heap 0).type, s.current_pointers, s.dependencies 1,
          s.LBA_currently_executing 100))
      = some (event_type.READ_COMMAND, [0], some [1], none) := by
  decide!

/-- C10 (amended): read decomposition.  Admitting (`init_event`) an event `e` of type READ that
is neither a flexible read nor flagged noop, with op id `N`, whose LBA has no owner, rewrites
its type to READ_COMMAND, pushes it into `current_events` exactly once, makes `N` the owner of
the LBA and puts at the front of the dependency queue of `N` a new event (at the next free
pointer) of type READ_TRANSFER with the same op id and logical address; admission itself
issues nothing.  In scenario S1 (one READ at LBA 100, device always ready) the run issues
exactly a READ_COMMAND and then a READ_TRANSFER of op 1, after which the op and its lock are
released and `current_events` is empty. -/
theorem read_decomposition (C : Collaborators W) (fuel : Nat) (s : IOScheduler W) (e N : Nat)
    (htype : (s.heap e).type = event_type.READ)
    (halloc : e < s.next_free)
    (hnoop : (s.heap e).noop = false) (hflex : (s.heap e).flexible_read = false)
    (hN : (s.heap e).application_io_id = N)
    (hown : s.LBA_currently_executing (s.heap e).logical_address = none) :
    ∃ s', init_event C (fuel + 2) e s = Except.ok s'
      ∧ (s'.heap e).type = event_type.READ_COMMAND
      ∧ s'.current_pointers.count e = s.current_pointers.count e + 1
      ∧ s'.LBA_currently_executing (s.heap e).logical_address = some N
      ∧ s'.dependencies N = some (s.next_free :: s.dependencies.get N)
      ∧ s'.next_free = s.next_free + 1
      ∧ (s'.heap s.next_free).type = event_type.READ_TRANSFER
      ∧ (s'.heap s.next_free).application_io_id = N
      ∧ (s'.heap s.next_free).logical_address = (s.heap e).logical_address
      ∧ s'.log.filterMap Call.issued = s.log.filterMap Call.issued
      ∧ (Run.final (execute_soonest_events (Scenario.device 0) 6 Scenario.one_read)).map
          (fun t => (t.log.filterMap Call.issued).map (fun x => (x.type, x.application_io_id)))
        = some [(event_type.READ_COMMAND, 1), (event_type.READ_TRANSFER, 1)]
      ∧ (Run.final (execute_soonest_events (Scenario.device 0) 6 Scenario.one_read)).map
          (fun t => (t.dependencies 1, t.LBA_currently_executing 100, t.current_events))
        = some (none, none, []) := by
  have hne : e ≠ s.next_free := Nat.ne_of_lt halloc
  have hne' : s.next_free ≠ e := fun h => hne h.symm
  obtain ⟨d1, -, d3, d4, -, -, -, -, d9, -⟩ := decompose_read_frame s e N
  have hself := decompose_read_heap_self s e N halloc
  have hnew := decompose_read_heap_new s e N
  have h1 := init_event_read C (fuel + 1) s e htype hnoop
  rw [hN] at h1
  have h2 := init_event_read_command_no_owner C fuel (s.decompose_read e N) e
    (by rw [hself]; exact Or.inl rfl) (by rw [hself]; exact hnoop) (by rw [hself]; exact hflex)
    (by rw [hself, d4]; exact hown)
  refine ⟨_, h1.trans h2, ?_, ?_, ?_, ?_, ?_, ?_, ?_, ?_, ?_, by decide!, by decide!⟩
  · simp [call, push_into_current_events, IOScheduler.modify, hself]
  · show ((bucket_insert _ e _).map Prod.snd).flatten.count e = _
    rw [count_bucket_insert, d1]
    simp [current_pointers]
  · simp [call, push_into_current_events, IOScheduler.modify, hself, Table.set, hN]
  · simp [call, push_into_current_events, IOScheduler.modify, d3, Table.set]
  · simp [call, push_into_current_events, IOScheduler.modify, d9]
  · simp [call, push_into_current_events, IOScheduler.modify, hne', hnew]
  · simp [call, push_into_current_events, IOScheduler.modify, hne', hnew, hN]
  · simp [call, push_into_current_events, IOScheduler.modify, hne', hnew]
  · simp [call, push_into_current_events, IOScheduler.modify, Call.issued,
      (decompose_read_frame s e N).2.2.2.2.2.2.2.2.2.2]

theorem read_decomposition_witness :
    ∃ s', init_event (Scenario.device 0) 2 0 Scenario.one_read = Except.ok s'
      ∧ (s'.heap 0).type = event_type.READ_COMMAND
      ∧ s'.current_pointers.count 0 = Scenario.one_read.current_pointers.count 0 + 1
      ∧ s'.LBA_currently_executing (Scenario.one_read.heap 0).logical_address = some 1 := by
  obtain ⟨s', h1, h2, h3, h4, -⟩ :=
    read_decomposition (Scenario.device 0) 0 Scenario.one_read 0 1
      (by decide!) (by decide!) (by decide!) (by decide!) (by decide!) (by decide!)
  exact ⟨s', h1, h2, h3, h4⟩

/-- C11, counterexample: a READ_COMMAND (pointer 0, bus wait 0) waits in `current_events`; the
block manager reports that the die is free in 1 time unit and can be scheduled.  `handle_event`
pushes the event back with its bus wait incremented by 1, the reported wait, and not by
`max(1, WAIT_TIME) = 3`.  With a die that cannot be scheduled and a reported wait of 5 the
increment is `WAIT_TIME = 3`, and not 5. -/
theorem handle_event_wait_is_not_the_maximum :
    ((Scenario.pending (Scenario.event event_type.READ 1 100 0)).heap 0).type
        = event_type.READ_COMMAND
    ∧ ((Scenario.pending (Scenario.event event_type.READ 1 100 0)).heap 0).bus_wait_time = 0
    ∧ (Run.final (handle_event (Scenario.configured 1 true status.SUCCESS 0 0) 4 0
          (Scenario.pending (Scenario.event event_type.READ 1 100 0)))).map
        (fun s => (s.heap 0).bus_wait_time) = some 1
    ∧ (Run.final (handle_event (Scenario.configured 5 false status.SUCCESS 0 0) 4 0
          (Scenario.pending (Scenario.event event_type.READ 1 100 0)))).map
        (fun s => (s.heap 0).bus_wait_time) = some 3
    ∧ max (1 : ℚ) WAIT_TIME = 3 ∧ max (5 : ℚ) WAIT_TIME = 5 := by
  decide!

/-- C11 (amended): `handle_event` asks the block manager for the wait `w` and the availability
`c` of the die.  When `c` holds and `w = 0` the event is dispatched: the handler is
`execute_next` on the state after the two calls.  Otherwise the handler returns, the event's bus
wait time has been incremented by `w` when `c` holds and by `WAIT_TIME = 3` when it does not,
the event has been pushed into `current_events` once, and the only calls made are the two
questions to the block manager: the device's `issue` is not called. -/
theorem handle_event_back_off {W : Type} (C : Collaborators W) (fuel e : Nat)
    (s : IOScheduler W) :
    let w := C.in_how_long_can_this_event_be_scheduled s.world (s.heap e).address
      (s.heap e).current_time
    let q1 := Call.in_how_long_can_this_event_be_scheduled (s.heap e).address
      (s.heap e).current_time
    let c := C.can_schedule_on_die (s.call C q1).world (s.heap e).address (s.heap e).type
      (s.heap e).application_io_id
    let q2 := Call.can_schedule_on_die (s.heap e).address (s.heap e).type
      (s.heap e).application_io_id
    (c = true ∧ w = 0 →
      handle_event C fuel e s
        = (execute_next C fuel e ((s.call C q1).call C q2) >>= fun r => pure r.2))
    ∧ (¬ (c = true ∧ w = 0) →
      ∃ s', handle_event C fuel e s = Except.ok s'
        ∧ (s'.heap e).bus_wait_time
            = (s.heap e).bus_wait_time + (if c = true then w else WAIT_TIME)
        ∧ s'.current_pointers.count e = s.current_pointers.count e + 1
        ∧ (∀ p, p ≠ e → s'.current_pointers.count p = s.current_pointers.count p)
        ∧ s'.log = s.log ++ [q1, q2]
        ∧ Call.issued q1 = none ∧ Call.issued q2 = none)
    ∧ WAIT_TIME = 3 := by
  intro w q1 c q2
  refine ⟨?_, ?_, rfl⟩
  · intro h
    simp only [handle_event]
    rw [if_pos h]
  · intro h
    have hrun : handle_event C fuel e s = Except.ok
        ((((s.call C q1).call C q2).modify e
          (fun x => x.incr_bus_wait_time (if c = true then w else WAIT_TIME))
          ).push_into_current_events e) := by
      simp only [handle_event]
      rw [if_neg h]
      rfl
    refine ⟨_, hrun, ?_, ?_, ?_, ?_, rfl, rfl⟩
    · simp [push_into_current_events, IOScheduler.modify, call, Event.incr_bus_wait_time]
    · show ((bucket_insert _ e _).map Prod.snd).flatten.count e = _
      rw [count_bucket_insert]
      simp [current_pointers, IOScheduler.modify, call]
    · intro p hp
      show ((bucket_insert _ e _).map Prod.snd).flatten.count p = _
      rw [count_bucket_insert]
      simp [current_pointers, IOScheduler.modify, call, Ne.symm hp]
    · simp [push_into_current_events, IOScheduler.modify, call]

theorem handle_event_back_off_witness :
    ∃ s', handle_event (Scenario.configured 5 false status.SUCCESS 0 0) 4 0
          (Scenario.pending (Scenario.event event_type.READ 1 100 0)) = Except.ok s'
      ∧ (s'.heap 0).bus_wait_time
          = ((Scenario.pending (Scenario.event event_type.READ 1 100 0)).heap 0).bus_wait_time
            + WAIT_TIME :=
  have h := (handle_event_back_off (Scenario.configured 5 false status.SUCCESS 0 0) 4 0
    (Scenario.pending (Scenario.event event_type.READ 1 100 0))).2.1 (by decide!)
  h.imp (fun _ hs => ⟨hs.1, hs.2.1⟩)

/-- C14: in every reachable state, `get_current_time()` is the smallest key of `current_events`
when `current_events` is non-empty; otherwise, when `future_events` is non-empty, it is the floor
of the smallest `current_time` of the events in `future_events`; otherwise it is 0. -/
theorem get_current_time_value {W : Type} (C : Collaborators W) (s : IOScheduler W)
    (h : Reachable C s) :
    (s.current_events ≠ [] →
      ∃ k ∈ s.current_events.map Prod.fst,
        (∀ x ∈ s.current_events.map Prod.fst, k ≤ x) ∧ s.get_current_time = (k : ℚ))
    ∧ (s.current_events = [] → s.future_events ≠ [] →
      ∃ m ∈ s.future_events,
        (∀ p ∈ s.future_events, (s.heap m).current_time ≤ (s.heap p).current_time)
        ∧ s.get_current_time = (⌊(s.heap m).current_time⌋ : ℚ))
    ∧ (s.current_events = [] → s.future_events = [] → s.get_current_time = 0) := by
  have hs := reachable_sorted_keys C h
  refine ⟨?_, ?_, ?_⟩
  · intro hne
    cases hc : s.current_events with
    | nil => exact absurd hc hne
    | cons b rest =>
      rw [hc] at hs
      simp only [List.map_cons, List.pairwise_cons] at hs
      refine ⟨b.1, by simp, ?_, ?_⟩
      · intro x hx
        simp only [List.map_cons, List.mem_cons] at hx
        rcases hx with hx | hx
        · rw [hx]
        · exact le_of_lt (hs.1 x hx)
      · simp [get_current_time, hc]
  · intro hc hne
    cases hf : s.future_events with
    | nil => exact absurd hf hne
    | cons e es =>
      obtain ⟨⟨m, hm, hmin⟩, hle⟩ := get_soonest_event_time_min s es e
      refine ⟨m, hm, ?_, ?_⟩
      · intro p hp
        rw [← hmin]
        exact hle p hp
      · simp [get_current_time, hc, hf, hmin]
  · intro hc hf
    simp [get_current_time, hc, hf]

theorem get_current_time_value_witness :
    (execute_soonest_events (Scenario.device 5) 10 Scenario.one_write).state.current_events ≠ []
    ∧ (∃ k ∈ (execute_soonest_events (Scenario.device 5) 10
            Scenario.one_write).state.current_events.map Prod.fst,
        (∀ x ∈ (execute_soonest_events (Scenario.device 5) 10
            Scenario.one_write).state.current_events.map Prod.fst, k ≤ x)
        ∧ (execute_soonest_events (Scenario.device 5) 10
            Scenario.one_write).state.get_current_time = (k : ℚ)) :=
  ⟨by decide!,
    (get_current_time_value (Scenario.device 5) _
      (Reachable.execute_soonest_events 10
        (Scenario.reachable_after_submitting _ _ _ _ (Reachable.init ())
          (Run.eq_ok_state _ (by decide!)))
        (Run.eq_ok_state (execute_soonest_events (Scenario.device 5) 10 Scenario.one_write)
          (by decide!)))).1 (by decide!)⟩

/-- C12, counterexample: the FTL gives the read of LBA 100 an address with page number 100 while
`BLOCK_SIZE` is 64.  `execute_soonest_events` admits the READ and hands its READ_COMMAND and then
its READ_TRANSFER to `issue` through `handle_event`, each with page number 100: `handle_event`
does not check the page number. -/
theorem handle_event_issues_any_page :
    ((execute_soonest_events (Scenario.configured 0 true status.SUCCESS 100 0) 10
        Scenario.one_read).state.log.filterMap Call.issued).map
      (fun ev => (ev.type, ev.address.page))
      = [(event_type.READ_COMMAND, 100), (event_type.READ_TRANSFER, 100)]
    ∧ (Scenario.configured 0 true status.SUCCESS 100 0).BLOCK_SIZE = 64 := by
  decide!

/-- C12 (amended): every event that `handle_write` or `handle_flexible_read` hands to the
device's `issue` has `address.page < BLOCK_SIZE` at the moment of the call, whether the handler
returns or aborts: the calls the handler appends to the log contain `issue` only for such
events.  (`handle_event` and the TRIM path make no such check.) -/
theorem issue_page_checked_by_write_handlers {W : Type} (C : Collaborators W) (fuel e : Nat)
    (s : IOScheduler W) :
    (∀ s', (handle_write C fuel e s = Except.ok s'
          ∨ ∃ f, handle_write C fuel e s = Except.error (f, s')) →
        ∃ l, s'.log = s.log ++ l ∧ ∀ ev, Call.issue ev ∈ l → ev.address.page < C.BLOCK_SIZE)
    ∧ (∀ s', (handle_flexible_read C fuel e s = Except.ok s'
          ∨ ∃ f, handle_flexible_read C fuel e s = Except.error (f, s')) →
        ∃ l, s'.log = s.log ++ l ∧ ∀ ev, Call.issue ev ∈ l → ev.address.page < C.BLOCK_SIZE) := by
  constructor
  · intro s' h
    have hall := handle_write_issued_pages C fuel e s
    rcases h with h | ⟨f, h⟩
    · rw [h] at hall; exact Run.All_ok_iff.mp hall
    · rw [h] at hall; exact Run.All_error_iff.mp hall
  · intro s' h
    have hall := handle_flexible_read_issued_pages C fuel e s
    rcases h with h | ⟨f, h⟩
    · rw [h] at hall; exact Run.All_ok_iff.mp hall
    · rw [h] at hall; exact Run.All_error_iff.mp hall

theorem issue_page_checked_by_write_handlers_witness :
    ((handle_write (Scenario.device 0) 4 0
        (Scenario.pending (Scenario.event event_type.WRITE 1 7 0))).state.log.filterMap
      Call.issued).length = 1
    ∧ ∃ l, (handle_write (Scenario.device 0) 4 0
          (Scenario.pending (Scenario.event event_type.WRITE 1 7 0))).state.log
        = (Scenario.pending (Scenario.event event_type.WRITE 1 7 0)).log ++ l
      ∧ ∀ ev, Call.issue ev ∈ l → ev.address.page < (Scenario.device 0).BLOCK_SIZE :=
  ⟨by decide!,
    (issue_page_checked_by_write_handlers (Scenario.device 0) 4 0
      (Scenario.pending (Scenario.event event_type.WRITE 1 7 0))).1 _
      (Or.inl (Run.eq_ok_state _ (by decide!)))⟩

/-- C13, counterexample: in a reachable state the ERASE of op 1 (pointer 2), the last event of
the op, waits in `current_events`; op 1 owns LBA 7 and op 2, a READ of LBA 7, is its dependent.
`execute_soonest_events` executes the ERASE through `execute_next`: the completion of an ERASE
skips the release of the lock, so the head of op 2 (pointer 3) is passed to admission while op 1
still owns LBA 7, is flagged noop and completes as a noop.  At the end op 1 has no entry left,
both queues are empty, and op 1 still owns LBA 7. -/
theorem erase_completion_keeps_the_lock :
    Reachable (Scenario.device 0) Scenario.erase_ends_locked_chain
    ∧ (Scenario.erase_ends_locked_chain.current_events,
        (Scenario.erase_ends_locked_chain.heap 2).type,
        (Scenario.erase_ends_locked_chain.heap 2).application_io_id,
        Scenario.erase_ends_locked_chain.dependencies 1)
      = ([(20, [2])], event_type.ERASE, 1, some [])
    ∧ (Scenario.erase_ends_locked_chain.LBA_currently_executing 7,
        Scenario.erase_ends_locked_chain.op_code_to_dependent_op_codes 1,
        Scenario.erase_ends_locked_chain.dependencies 2,
        (Scenario.erase_ends_locked_chain.heap 3).noop)
      = (some 1, some [2], some [3, 4], false)
    ∧ (Run.final (execute_soonest_events (Scenario.device 0) 10
          Scenario.erase_ends_locked_chain)).map
        (fun t => (t.LBA_currently_executing 7, t.dependencies 1,
          t.op_code_to_dependent_op_codes 1, (t.heap 3).noop))
      = some (some 1, none, none, true)
    ∧ (Run.final (execute_soonest_events (Scenario.device 0) 10
          Scenario.erase_ends_locked_chain)).map
        (fun t => (t.current_events, t.future_events)) = some ([], []) := by
  refine ⟨?_, by decide!, by decide!, by decide!, by decide!⟩
  exact Reachable.execute_soonest_events 10
    (Reachable.schedule_events_queue [Scenario.event event_type.READ 2 7 0]
      (Reachable.execute_soonest_events 10
        (Reachable.schedule_events_queue _ (Reachable.init ())
          (Run.eq_ok_state (submit_queue _ Scenario.empty) (by decide!)))
        (Run.eq_ok_state (execute_soonest_events (Scenario.device 0) 10 _) (by decide!)))
      (Run.eq_ok_state (submit_queue _ _) (by decide!)))
    (Run.eq_ok_state (execute_soonest_events (Scenario.device 0) 10 _) (by decide!))

/-- C13 (amended): let `execute_next` succeed on the last event `e` of op `o` (nothing is pending
for `o`), `e` being neither an ERASE nor a flexible read, and let `lba` be the address recorded
for `o`.  If `lba` is not locked the run aborts.  Otherwise the run continues with the admission
loop of `manage_operation_completion` from a state in which the lock of `lba` has been removed,
the other locks, the dependents and `current_events` being as before; the loop, when it returns,
has emptied the dependents of `o`, and each of its rounds takes the first dependent op `D` off
the list and passes the head of the pending events of `D` to `init_event`, the lock table being
the one the previous round left.  (The completion of an ERASE or of a flexible read, and the
completion of a noop event in `handle_noop_events`, release no lock.) -/
theorem lock_released_before_dependents_are_admitted {W : Type} (C : Collaborators W)
    (fuel e : Nat) (s : IOScheduler W)
    (hsucc : (C.issue s.world (s.heap e)).1 = status.SUCCESS)
    (hlast : s.dependencies.get (s.heap e).application_io_id = [])
    (htype : (s.heap e).type ≠ event_type.ERASE) (hflex : (s.heap e).flexible_read = false) :
    (s.LBA_currently_executing.count
          (s.dependency_code_to_LBA.get (s.heap e).application_io_id) ≠ 1 →
        ∃ t, execute_next C fuel e s = Except.error (Fault.assertion, t))
    ∧ (s.LBA_currently_executing.count
          (s.dependency_code_to_LBA.get (s.heap e).application_io_id) = 1 →
        ∃ sR : IOScheduler W,
          sR.LBA_currently_executing = s.LBA_currently_executing.erase
            (s.dependency_code_to_LBA.get (s.heap e).application_io_id)
          ∧ sR.LBA_currently_executing
              (s.dependency_code_to_LBA.get (s.heap e).application_io_id) = none
          ∧ sR.op_code_to_dependent_op_codes = s.op_code_to_dependent_op_codes
          ∧ sR.current_events = s.current_events
          ∧ execute_next C fuel e s
              = ((admit_dependents C fuel e (s.heap e).application_io_id sR >>= fun s3 =>
                    pure { s3 with op_code_to_dependent_op_codes :=
                      s3.op_code_to_dependent_op_codes.erase (s.heap e).application_io_id })
                  >>= fun s3 =>
                    pure (status.SUCCESS,
                      s3.call C (Call.register_event_completion (s3.heap e)))))
    ∧ (∀ k ev code t t', admit_dependents C k ev code t = Except.ok t' →
        t'.op_code_to_dependent_op_codes.get code = [])
    ∧ (∀ k ev code D f rest tl (t : IOScheduler W),
        t.op_code_to_dependent_op_codes code = some (D :: rest) →
        t.dependencies D = some (f :: tl) →
        ∃ T : IOScheduler W, T.LBA_currently_executing = t.LBA_currently_executing
          ∧ T.op_code_to_dependent_op_codes code = some rest
          ∧ T.dependencies D = some tl
          ∧ admit_dependents C (k + 1) ev code t
              = init_event C k f T >>= admit_dependents C k ev code) := by
  obtain ⟨w, l, hfin, _⟩ := handle_finished_event_success C e
    ((s.call C (Call.issue (s.heap e))).modify e
      (fun x => { x with current_time := x.current_time + (C.issue s.world (s.heap e)).2 }))
  refine ⟨?_, ?_, fun k ev code t t' h => admit_dependents_drains C k ev code t t' h, ?_⟩
  · intro hc
    refine ⟨{ ((s.call C (Call.issue (s.heap e))).modify e
        (fun x => { x with current_time := x.current_time + (C.issue s.world (s.heap e)).2 })) with
        world := w,
        log := s.log ++ [Call.issue (s.heap e)] ++ l,
        dependencies := (s.dependencies.touch (s.heap e).application_io_id).erase
          (s.heap e).application_io_id,
        dependency_code_to_LBA := s.dependency_code_to_LBA.touch (s.heap e).application_io_id },
      ?_⟩
    simp only [execute_next, hfin, hsucc]
    simp [bind, Except.bind, IOScheduler.modify, call, Table.get_touch, hlast, htype, hflex, hc,
      fail]
  · intro hc
    have hrun : execute_next C fuel e s
        = ((admit_dependents C fuel e (s.heap e).application_io_id
              { ((s.call C (Call.issue (s.heap e))).modify e
                  (fun x => { x with
                    current_time := x.current_time + (C.issue s.world (s.heap e)).2 })) with
                world := w,
                log := s.log ++ [Call.issue (s.heap e)] ++ l,
                dependencies := (s.dependencies.touch (s.heap e).application_io_id).erase
                  (s.heap e).application_io_id,
                LBA_currently_executing := s.LBA_currently_executing.erase
                  (s.dependency_code_to_LBA.get (s.heap e).application_io_id),
                dependency_code_to_LBA :=
                  (s.dependency_code_to_LBA.touch (s.heap e).application_io_id).erase
                    (s.heap e).application_io_id,
                dependency_code_to_type :=
                  s.dependency_code_to_type.erase (s.heap e).application_io_id } >>= fun s3 =>
              pure { s3 with op_code_to_dependent_op_codes :=
                s3.op_code_to_dependent_op_codes.erase (s.heap e).application_io_id })
            >>= fun s3 =>
              pure (status.SUCCESS,
                s3.call C (Call.register_event_completion (s3.heap e)))) := by
      simp only [execute_next, hfin, hsucc]
      simp [bind, Except.bind, IOScheduler.modify, call, Table.get_touch, hlast, htype, hflex, hc,
        manage_operation_completion, pure, Except.pure]
    refine ⟨_, ?_, ?_, ?_, ?_, hrun⟩
    · rfl
    · simp [Table.erase]
    · rfl
    · rfl
  · intro k ev code D f rest tl t hd hp
    refine ⟨_, ?_, ?_, ?_, admit_dependents_step C k ev code D f rest tl t hd hp⟩
    · rfl
    · simp [Table.set, IOScheduler.modify]
    · simp [Table.set]

theorem lock_released_before_dependents_are_admitted_witness :
    Scenario.write_pending.LBA_currently_executing 7 = some 1
    ∧ ∃ sR : IOScheduler Unit,
        sR.LBA_currently_executing = Scenario.write_pending.LBA_currently_executing.erase
          (Scenario.write_pending.dependency_code_to_LBA.get
            (Scenario.write_pending.heap 0).application_io_id)
        ∧ sR.LBA_currently_executing
            (Scenario.write_pending.dependency_code_to_LBA.get
              (Scenario.write_pending.heap 0).application_io_id) = none
        ∧ sR.op_code_to_dependent_op_codes = Scenario.write_pending.op_code_to_dependent_op_codes
        ∧ sR.current_events = Scenario.write_pending.current_events
        ∧ execute_next (Scenario.device 0) 4 0 Scenario.write_pending
            = ((admit_dependents (Scenario.device 0) 4 0
                  (Scenario.write_pending.heap 0).application_io_id sR >>= fun s3 =>
                  pure { s3 with op_code_to_dependent_op_codes :=
                    (s3.op_code_to_dependent_op_codes.erase
                      (Scenario.write_pending.heap 0).application_io_id) })
                >>= fun s3 =>
                  pure (status.SUCCESS,
                    s3.call (Scenario.device 0)
                      (Call.register_event_completion (s3.heap 0)))) :=
  ⟨by decide!,
    (lock_released_before_dependents_are_admitted (Scenario.device 0) 4 0
      Scenario.write_pending (by decide!) (by decide!) (by decide!) (by decide!)).2.1
      (by decide!)⟩

/-- C15: scheme 0.  In a tick under `SCHEDULING_SCHEME = 0` the vectors are filled by the
partition rule (`Partition`: every event of the bucket that has a class is in the vector of its
class); if the bucket holds no TRIM that is not noop, every vector holds exactly the events of
the bucket that are of its class, by their type and flags in the state before the tick.  The
handlers are then called one event at a time on a sequence made of five consecutive segments:
the read commands together with the flexible read commands, the read transfers, the application
writes, the GC writes, the erases (each segment a permutation of its class: the class is sorted
and consumed from the back); the noop events are processed after the last of them. -/
theorem scheme_0_dispatch_order {W : Type} (C : Collaborators W) (fuel : Nat)
    (s : IOScheduler W) (h0 : C.SCHEDULING_SCHEME = 0)
    (r : List Nat × IOScheduler W) (hr : s.collect_soonest_events = Except.ok r)
    (c : Classes × IOScheduler W)
    (hc : classify C fuel r.1.reverse Classes.empty r.2 = Except.ok c) :
    Partition C fuel r.1.reverse Classes.empty r.2 c.1 c.2
    ∧ ((∀ p ∈ r.1, (s.heap p).noop = true ∨ (s.heap p).type ≠ event_type.TRIM) →
        c.2.heap = s.heap
        ∧ c.1.read_commands = s.of_class dispatch_class.read_command r.1.reverse
        ∧ c.1.read_commands_flexible
            = s.of_class dispatch_class.read_command_flexible r.1.reverse
        ∧ c.1.read_transfers = s.of_class dispatch_class.read_transfer r.1.reverse
        ∧ c.1.writes = s.of_class dispatch_class.write r.1.reverse
        ∧ c.1.gc_writes = s.of_class dispatch_class.gc_write r.1.reverse
        ∧ c.1.erases = s.of_class dispatch_class.erase r.1.reverse
        ∧ c.1.noop_events = s.of_class dispatch_class.noop_event r.1.reverse)
    ∧ ∃ read_commands read_transfers writes gc_writes erases : List Nat,
      read_commands.Perm (c.1.read_commands ++ c.1.read_commands_flexible)
      ∧ read_transfers.Perm c.1.read_transfers
      ∧ writes.Perm c.1.writes
      ∧ gc_writes.Perm c.1.gc_writes
      ∧ erases.Perm c.1.erases
      ∧ execute_current_waiting_ios C fuel s
          = ((read_commands ++ (read_transfers ++ (writes ++ (gc_writes ++ erases)))).foldlM
                (fun acc e => handle C fuel [e] acc) c.2
              >>= handle_noop_events C fuel c.1.noop_events) := by
  refine ⟨classify_partition C fuel _ _ _ c hc, ?_, ?_⟩
  · intro hT
    obtain ⟨hh, hty, _⟩ := collect_soonest_events_ok s r hr
    have hT2 : ∀ p ∈ r.1.reverse,
        (r.2.heap p).noop = true ∨ (r.2.heap p).type ≠ event_type.TRIM := by
      intro p hp
      rw [hh]
      exact hT p (List.mem_reverse.mp hp)
    obtain ⟨t, ht1, _, _, _, hc2⟩ :=
      classify_of_class C fuel r.1.reverse Classes.empty r.2 hT2
    have hoc : ∀ k l, r.2.of_class k l = s.of_class k l :=
      fun k l => of_class_congr s r.2 hh (fun x => by rw [hty]) k l
    simp only [hoc, Classes.empty, List.nil_append] at hc2
    rw [show classify C fuel r.1.reverse Classes.empty r.2
      = classify C fuel r.1.reverse
          { read_commands := [], read_commands_copybacks := [], read_commands_flexible := [],
            read_transfers := [], gc_writes := [], writes := [], erases := [], copy_backs := [],
            noop_events := [] } r.2 from rfl, hc2] at hc
    cases hc
    exact ⟨ht1.trans hh, rfl, rfl, rfl, rfl, rfl, rfl, rfl⟩
  refine ⟨(c.2.sort_by_current_wait_time
      (c.1.read_commands ++ c.1.read_commands_flexible)).reverse,
    (c.2.sort_by_overall_wait_time c.1.read_transfers).reverse,
    (c.2.sort_by_current_wait_time c.1.writes).reverse,
    (c.2.sort_by_overall_wait_time c.1.gc_writes).reverse,
    (c.2.sort_by_current_wait_time c.1.erases).reverse, ?_, ?_, ?_, ?_, ?_, ?_⟩
  rotate_right
  · rw [execute_current_waiting_ios_eq C fuel s r hr c hc]
    simp only [dispatch_order, h0, if_true, List.map_cons, List.map_nil, List.flatten_cons,
      List.flatten_nil, List.append_nil]
  · exact (List.reverse_perm _).trans (List.perm_insertionSort _ _)
  · exact (List.reverse_perm _).trans (List.perm_insertionSort _ _)
  · exact (List.reverse_perm _).trans (List.perm_insertionSort _ _)
  · exact (List.reverse_perm _).trans (List.perm_insertionSort _ _)
  · exact (List.reverse_perm _).trans (List.perm_insertionSort _ _)

theorem scheme_0_dispatch_order_witness :
    ∃ (r : List Nat × IOScheduler Unit) (c : Classes × IOScheduler Unit),
      Scenario.mixed_bucket.collect_soonest_events = Except.ok r ∧ r.1 = [0, 1, 2]
      ∧ classify (Scenario.device 0) 4 r.1.reverse Classes.empty r.2 = Except.ok c
      ∧ Partition (Scenario.device 0) 4 r.1.reverse Classes.empty r.2 c.1 c.2
      ∧ ((Scenario.mixed_bucket.heap 0).type, (Scenario.mixed_bucket.heap 1).type,
          (Scenario.mixed_bucket.heap 1).garbage_collection_op,
          (Scenario.mixed_bucket.heap 2).type,
          (Scenario.mixed_bucket.heap 2).garbage_collection_op)
        = (event_type.READ_COMMAND, event_type.WRITE, false, event_type.WRITE, true)
      ∧ c.1.read_commands = [0] ∧ c.1.read_commands_flexible = []
      ∧ c.1.read_transfers = [] ∧ c.1.writes = [1] ∧ c.1.gc_writes = [2]
      ∧ c.1.erases = [] ∧ c.1.noop_events = []
      ∧ ∃ read_commands read_transfers writes gc_writes erases : List Nat,
        read_commands.Perm (c.1.read_commands ++ c.1.read_commands_flexible)
        ∧ read_transfers.Perm c.1.read_transfers
        ∧ writes.Perm c.1.writes
        ∧ gc_writes.Perm c.1.gc_writes
        ∧ erases.Perm c.1.erases
        ∧ execute_current_waiting_ios (Scenario.device 0) 4 Scenario.mixed_bucket
            = ((read_commands ++ (read_transfers ++ (writes ++ (gc_writes ++ erases)))).foldlM
                  (fun acc e => handle (Scenario.device 0) 4 [e] acc) c.2
                >>= handle_noop_events (Scenario.device 0) 4 c.1.noop_events) := by
  obtain ⟨c, hc⟩ := Run.eq_ok_of_isSome
    (classify (Scenario.device 0) 4 [2, 1, 0] Classes.empty
      { Scenario.mixed_bucket with current_events := [] }) (by decide!)
  obtain ⟨h1, h2, h3⟩ := scheme_0_dispatch_order (Scenario.device 0) 4 Scenario.mixed_bucket
    rfl _ Scenario.mixed_bucket_collect c hc
  obtain ⟨_, k1, k2, k3, k4, k5, k6, k7⟩ := h2 (by decide!)
  exact ⟨_, c, Scenario.mixed_bucket_collect, rfl, hc, h1, by decide!,
    k1.trans (by decide!), k2.trans (by decide!), k3.trans (by decide!), k4.trans (by decide!),
    k5.trans (by decide!), k6.trans (by decide!), k7.trans (by decide!), h3⟩

/-- C16: scheme 1.  In a tick under `SCHEDULING_SCHEME = 1` the vectors are filled by the
partition rule (`Partition`: every event of the bucket that has a class is in the vector of its
class); if the bucket holds no TRIM that is not noop, every vector holds exactly the events of
the bucket that are of its class, by their type and flags in the state before the tick.  The
handlers are then called one event at a time on a sequence made of five consecutive segments:
the erases, the GC writes, the read commands together with the flexible read commands, the
application writes, the read transfers (each segment a permutation of its class); so every GC
write is handled before every read command and every application write.  The noop events are
processed after the last of them. -/
theorem scheme_1_dispatch_order {W : Type} (C : Collaborators W) (fuel : Nat)
    (s : IOScheduler W) (h1 : C.SCHEDULING_SCHEME = 1)
    (r : List Nat × IOScheduler W) (hr : s.collect_soonest_events = Except.ok r)
    (c : Classes × IOScheduler W)
    (hc : classify C fuel r.1.reverse Classes.empty r.2 = Except.ok c) :
    Partition C fuel r.1.reverse Classes.empty r.2 c.1 c.2
    ∧ ((∀ p ∈ r.1, (s.heap p).noop = true ∨ (s.heap p).type ≠ event_type.TRIM) →
        c.2.heap = s.heap
        ∧ c.1.erases = s.of_class dispatch_class.erase r.1.reverse
        ∧ c.1.gc_writes = s.of_class dispatch_class.gc_write r.1.reverse
        ∧ c.1.read_commands = s.of_class dispatch_class.read_command r.1.reverse
        ∧ c.1.read_commands_flexible
            = s.of_class dispatch_class.read_command_flexible r.1.reverse
        ∧ c.1.writes = s.of_class dispatch_class.write r.1.reverse
        ∧ c.1.read_transfers = s.of_class dispatch_class.read_transfer r.1.reverse
        ∧ c.1.noop_events = s.of_class dispatch_class.noop_event r.1.reverse)
    ∧ ∃ erases gc_writes read_commands writes read_transfers : List Nat,
      erases.Perm c.1.erases
      ∧ gc_writes.Perm c.1.gc_writes
      ∧ read_commands.Perm (c.1.read_commands ++ c.1.read_commands_flexible)
      ∧ writes.Perm c.1.writes
      ∧ read_transfers.Perm c.1.read_transfers
      ∧ execute_current_waiting_ios C fuel s
          = ((erases ++ (gc_writes ++ (read_commands ++ (writes ++ read_transfers)))).foldlM
                (fun acc e => handle C fuel [e] acc) c.2
              >>= handle_noop_events C fuel c.1.noop_events) := by
  refine ⟨classify_partition C fuel _ _ _ c hc, ?_, ?_⟩
  · intro hT
    obtain ⟨hh, hty, _⟩ := collect_soonest_events_ok s r hr
    have hT2 : ∀ p ∈ r.1.reverse,
        (r.2.heap p).noop = true ∨ (r.2.heap p).type ≠ event_type.TRIM := by
      intro p hp
      rw [hh]
      exact hT p (List.mem_reverse.mp hp)
    obtain ⟨t, ht1, _, _, _, hc2⟩ :=
      classify_of_class C fuel r.1.reverse Classes.empty r.2 hT2
    have hoc : ∀ k l, r.2.of_class k l = s.of_class k l :=
      fun k l => of_class_congr s r.2 hh (fun x => by rw [hty]) k l
    simp only [hoc, Classes.empty, List.nil_append] at hc2
    rw [show classify C fuel r.1.reverse Classes.empty r.2
      = classify C fuel r.1.reverse
          { read_commands := [], read_commands_copybacks := [], read_commands_flexible := [],
            read_transfers := [], gc_writes := [], writes := [], erases := [], copy_backs := [],
            noop_events := [] } r.2 from rfl, hc2] at hc
    cases hc
    exact ⟨ht1.trans hh, rfl, rfl, rfl, rfl, rfl, rfl, rfl⟩
  refine ⟨c.1.erases.reverse, c.1.gc_writes.reverse,
    (c.1.read_commands ++ c.1.read_commands_flexible).reverse, c.1.writes.reverse,
    c.1.read_transfers.reverse, ?_, ?_, ?_, ?_, ?_, ?_⟩
  rotate_right
  · rw [execute_current_waiting_ios_eq C fuel s r hr c hc]
    simp [dispatch_order, h1]
  · exact List.reverse_perm _
  · exact List.reverse_perm _
  · exact List.reverse_perm _
  · exact List.reverse_perm _
  · exact List.reverse_perm _

theorem scheme_1_dispatch_order_witness :
    ∃ (r : List Nat × IOScheduler Unit) (c : Classes × IOScheduler Unit),
      Scenario.mixed_bucket.collect_soonest_events = Except.ok r ∧ r.1 = [0, 1, 2]
      ∧ classify (Scenario.configured 0 true status.SUCCESS 0 1) 4 r.1.reverse Classes.empty r.2
          = Except.ok c
      ∧ Partition (Scenario.configured 0 true status.SUCCESS 0 1) 4 r.1.reverse Classes.empty
          r.2 c.1 c.2
      ∧ ((Scenario.mixed_bucket.heap 0).type, (Scenario.mixed_bucket.heap 1).type,
          (Scenario.mixed_bucket.heap 1).garbage_collection_op,
          (Scenario.mixed_bucket.heap 2).type,
          (Scenario.mixed_bucket.heap 2).garbage_collection_op)
        = (event_type.READ_COMMAND, event_type.WRITE, false, event_type.WRITE, true)
      ∧ c.1.erases = [] ∧ c.1.gc_writes = [2] ∧ c.1.read_commands = [0]
      ∧ c.1.read_commands_flexible = [] ∧ c.1.writes = [1] ∧ c.1.read_transfers = []
      ∧ c.1.noop_events = []
      ∧ ∃ erases gc_writes read_commands writes read_transfers : List Nat,
        erases.Perm c.1.erases
        ∧ gc_writes.Perm c.1.gc_writes
        ∧ read_commands.Perm (c.1.read_commands ++ c.1.read_commands_flexible)
        ∧ writes.Perm c.1.writes
        ∧ read_transfers.Perm c.1.read_transfers
        ∧ execute_current_waiting_ios (Scenario.configured 0 true status.SUCCESS 0 1) 4
              Scenario.mixed_bucket
            = ((erases ++ (gc_writes ++ (read_commands ++ (writes ++ read_transfers)))).foldlM
                  (fun acc e => handle (Scenario.configured 0 true status.SUCCESS 0 1) 4 [e] acc)
                  c.2
                >>= handle_noop_events (Scenario.configured 0 true status.SUCCESS 0 1) 4
                      c.1.noop_events) := by
  obtain ⟨c, hc⟩ := Run.eq_ok_of_isSome
    (classify (Scenario.configured 0 true status.SUCCESS 0 1) 4 [2, 1, 0] Classes.empty
      { Scenario.mixed_bucket with current_events := [] }) (by decide!)
  obtain ⟨h1, h2, h3⟩ := scheme_1_dispatch_order (Scenario.configured 0 true status.SUCCESS 0 1)
    4 Scenario.mixed_bucket rfl _ Scenario.mixed_bucket_collect c hc
  obtain ⟨_, k1, k2, k3, k4, k5, k6, k7⟩ := h2 (by decide!)
  exact ⟨_, c, Scenario.mixed_bucket_collect, rfl, hc, h1, by decide!,
    k1.trans (by decide!), k2.trans (by decide!), k3.trans (by decide!), k4.trans (by decide!),
    k5.trans (by decide!), k6.trans (by decide!), k7.trans (by decide!), h3⟩


/-- C18: registering an operation.  Let `first :: tail` be the queue, `back` its last event and
`op` the op id of `back`, with no entry for `op` in the dependency store, the queue not being
the mapping-read case.  Then `schedule_events_queue` returns; `first`, and nothing else, has been
appended to `future_events`; the pending events of `op` are `tail`, in order; the type recorded
for `op` is the type of `back`, and the address recorded for `op` is the logical address of
`back` unless that type is GARBAGE_COLLECTION or ERASE, in which case no address is recorded; the
heap, `current_events`, the lock table, the dependents and the entries of every other op are
unchanged, and no call is made.  If `op` has an entry, the call aborts. -/
theorem register_operation {W : Type} (first : Nat) (tail : List Nat) (back : Nat)
    (s : IOScheduler W) (hback : (first :: tail).getLast? = some back)
    (hmap : ¬ ((s.heap back).original_application_io = true ∧ (s.heap first).mapping_op = true
      ∧ (s.heap first).type = event_type.READ)) :
    (s.dependencies (s.heap back).application_io_id = none →
      ∃ s', schedule_events_queue (first :: tail) s = Except.ok s'
        ∧ s'.future_events = s.future_events ++ [first]
        ∧ s'.dependencies (s.heap back).application_io_id = some tail
        ∧ s'.dependency_code_to_type (s.heap back).application_io_id = some (s.heap back).type
        ∧ (((s.heap back).type ≠ event_type.GARBAGE_COLLECTION
              ∧ (s.heap back).type ≠ event_type.ERASE) →
            s'.dependency_code_to_LBA (s.heap back).application_io_id
              = some (s.heap back).logical_address)
        ∧ (¬ ((s.heap back).type ≠ event_type.GARBAGE_COLLECTION
              ∧ (s.heap back).type ≠ event_type.ERASE) →
            s'.dependency_code_to_LBA = s.dependency_code_to_LBA)
        ∧ (∀ x, x ≠ (s.heap back).application_io_id →
            s'.dependencies x = s.dependencies x
            ∧ s'.dependency_code_to_type x = s.dependency_code_to_type x
            ∧ s'.dependency_code_to_LBA x = s.dependency_code_to_LBA x)
        ∧ s'.current_events = s.current_events
        ∧ s'.LBA_currently_executing = s.LBA_currently_executing
        ∧ s'.op_code_to_dependent_op_codes = s.op_code_to_dependent_op_codes
        ∧ s'.heap = s.heap ∧ s'.next_free = s.next_free
        ∧ s'.num_write_cancellations = s.num_write_cancellations ∧ s'.log = s.log)
    ∧ (s.dependencies (s.heap back).application_io_id ≠ none →
      ∃ t, schedule_events_queue (first :: tail) s = Except.error (Fault.assertion, t)) := by
  constructor
  · intro hnew
    have hcount : s.dependencies.count (s.heap back).application_io_id = 0 := by
      simp [Table.count, hnew]
    have hrun : schedule_events_queue (first :: tail) s = Except.ok
        { s with
          dependency_code_to_LBA :=
            (if (s.heap back).type ≠ event_type.GARBAGE_COLLECTION
                ∧ (s.heap back).type ≠ event_type.ERASE then
              s.dependency_code_to_LBA.set (s.heap back).application_io_id
                (s.heap back).logical_address
            else s.dependency_code_to_LBA),
          dependency_code_to_type :=
            s.dependency_code_to_type.set (s.heap back).application_io_id (s.heap back).type,
          dependencies := s.dependencies.set (s.heap back).application_io_id tail,
          future_events := s.future_events ++ [first] } := by
      unfold schedule_events_queue
      rw [hback]
      simp only []
      by_cases ht : (s.heap back).type ≠ event_type.GARBAGE_COLLECTION
          ∧ (s.heap back).type ≠ event_type.ERASE
      · simp only [if_pos ht]
        rw [if_pos hcount, if_neg hmap]
        rfl
      · simp only [if_neg ht]
        rw [if_pos hcount, if_neg hmap]
        rfl
    refine ⟨_, hrun, rfl, ?_, ?_, ?_, ?_, ?_, rfl, rfl, rfl, rfl, rfl, rfl, rfl⟩
    · simp [Table.set]
    · simp [Table.set]
    · intro ht
      simp [ht, Table.set]
    · intro ht
      simp [ht]
    · intro x hx
      refine ⟨by simp [Table.set, hx], by simp [Table.set, hx], ?_⟩
      show (if _ then _ else _ : Table Nat) x = _
      split
      · simp [Table.set, hx]
      · rfl
  · intro hold
    have hcount : ¬ s.dependencies.count (s.heap back).application_io_id = 0 := by
      cases h : s.dependencies (s.heap back).application_io_id with
      | none => exact absurd h hold
      | some v => simp [Table.count, h]
    refine ⟨{ s with
      dependency_code_to_LBA :=
        (if (s.heap back).type ≠ event_type.GARBAGE_COLLECTION
            ∧ (s.heap back).type ≠ event_type.ERASE then
          s.dependency_code_to_LBA.set (s.heap back).application_io_id
            (s.heap back).logical_address
        else s.dependency_code_to_LBA),
      dependency_code_to_type :=
        s.dependency_code_to_type.set (s.heap back).application_io_id (s.heap back).type }, ?_⟩
    unfold schedule_events_queue
    rw [hback]
    simp only []
    by_cases ht : (s.heap back).type ≠ event_type.GARBAGE_COLLECTION
        ∧ (s.heap back).type ≠ event_type.ERASE
    · simp only [if_pos ht]
      rw [if_neg hcount]
      rfl
    · simp only [if_neg ht]
      rw [if_neg hcount]
      rfl

theorem register_operation_witness :
    ∃ s', schedule_events_queue [0, 1]
        (Scenario.empty.alloc_list [Scenario.event event_type.WRITE 1 7 0,
          Scenario.event event_type.WRITE 1 7 0]).2 = Except.ok s'
      ∧ s'.future_events = [0] ∧ s'.dependencies 1 = some [1]
      ∧ s'.dependency_code_to_type 1 = some event_type.WRITE
      ∧ s'.dependency_code_to_LBA 1 = some 7 :=
  have h := (register_operation 0 [1] 1
    (Scenario.empty.alloc_list [Scenario.event event_type.WRITE 1 7 0,
      Scenario.event event_type.WRITE 1 7 0]).2 rfl (by decide!)).1 (by decide!)
  h.imp (fun _ hs => ⟨hs.1, hs.2.1, hs.2.2.1, hs.2.2.2.1, hs.2.2.2.2.1 (by decide!)⟩)

/-- C19, counterexample: the first WRITE of op 1 (pointer 0) waits in `current_events`, the
second one (pointer 1) is pending.  The device answers FAILURE: `execute_next` aborts in
`handle_finished_event`, and in the state of the abort the pending queue of op 1 is still `[1]`:
the entry of the dependency store has not been erased. -/
theorem device_failure_keeps_the_pending_queue :
    Scenario.write_chain_pending.dependencies 1 = some [1]
    ∧ ((Scenario.configured 0 true status.FAILURE 0 0).issue
          Scenario.write_chain_pending.world (Scenario.write_chain_pending.heap 0)).1
        = status.FAILURE
    ∧ (Run.final (execute_next (Scenario.configured 0 true status.FAILURE 0 0) 4 0
          Scenario.write_chain_pending >>= fun r => pure r.2)).isSome = false
    ∧ (Run.state (execute_next (Scenario.configured 0 true status.FAILURE 0 0) 4 0
          Scenario.write_chain_pending >>= fun r => pure r.2)).dependencies 1 = some [1] := by
  decide!

/-- C19 (amended): when the device's `issue` answers FAILURE, `execute_next` aborts, with the
fault of a failed assertion, in the state reached by the call of `issue` and the update of the
event's time (the abort is the `assert(false)` of `handle_finished_event`): the dependency
store, with the pending queue of the event's op, is as it was before the call, and so are the
dependents, the lock table and the queues; no dependent is admitted and the chain is not
advanced; the only call made is `issue`. -/
theorem device_failure_aborts {W : Type} (C : Collaborators W) (fuel e : Nat)
    (s : IOScheduler W) (hfail : (C.issue s.world (s.heap e)).1 = status.FAILURE) :
    ∃ t, execute_next C fuel e s = Except.error (Fault.assertion, t)
      ∧ t.dependencies = s.dependencies
      ∧ t.op_code_to_dependent_op_codes = s.op_code_to_dependent_op_codes
      ∧ t.LBA_currently_executing = s.LBA_currently_executing
      ∧ t.dependency_code_to_LBA = s.dependency_code_to_LBA
      ∧ t.dependency_code_to_type = s.dependency_code_to_type
      ∧ t.current_events = s.current_events ∧ t.future_events = s.future_events
      ∧ (∀ p, p ≠ e → t.heap p = s.heap p)
      ∧ t.log = s.log ++ [Call.issue (s.heap e)] := by
  refine ⟨(s.call C (Call.issue (s.heap e))).modify e
      (fun x => { x with current_time := x.current_time + (C.issue s.world (s.heap e)).2 }),
    ?_, rfl, rfl, rfl, rfl, rfl, rfl, rfl, ?_, rfl⟩
  · simp only [execute_next, hfail, handle_finished_event, if_true]
    rfl
  · intro p hp
    simp [IOScheduler.modify, call, hp]

theorem device_failure_aborts_witness :
    ∃ t, execute_next (Scenario.configured 0 true status.FAILURE 0 0) 4 0
        Scenario.write_chain_pending = Except.error (Fault.assertion, t)
      ∧ t.dependencies = Scenario.write_chain_pending.dependencies :=
  have h := device_failure_aborts (Scenario.configured 0 true status.FAILURE 0 0) 4 0
    Scenario.write_chain_pending (by decide!)
  h.imp (fun _ hs => ⟨hs.1, hs.2.1⟩)

/-- C20: a GC operation superseded by a newcomer.  An event `e` that is not GC-flagged, of op `N`
whose recorded type `T` is WRITE or TRIM, is passed to the admission guard while its LBA is owned
by another op `O` whose scheduled event `E` is GC-flagged.  Then `should_event_be_scheduled`
returns true (the event is to be pushed into `current_events`); the GC flag is set on `e` and on
every event remaining in the dependency queue of `N`; `E`, still in `current_events`, is flagged
noop and `e` keeps its noop flag; `N` owns the LBA; `num_write_cancellations` has grown by 1; and
the block manager has been told that a trim made GC redundant once if `T` is TRIM and not at all
if `T` is WRITE. -/
theorem gc_superseded_by_newcomer {W : Type} (C : Collaborators W) (s : IOScheduler W)
    (e E N O : Nat) (T : event_type)
    (hgN : (s.heap e).garbage_collection_op = false)
    (hN : (s.heap e).application_io_id = N)
    (htN : s.dependency_code_to_type N = some T)
    (hT : T = event_type.WRITE ∨ T = event_type.TRIM)
    (hown : s.LBA_currently_executing (s.heap e).logical_address = some O) (hne : O ≠ N)
    (hE : s.find_scheduled_event O = some E)
    (hgE : (s.heap E).garbage_collection_op = true) :
    ∃ s', should_event_be_scheduled C e s = Except.ok (true, s')
      ∧ (s'.heap e).garbage_collection_op = true
      ∧ (∀ p ∈ s.dependencies.get N, (s'.heap p).garbage_collection_op = true)
      ∧ (s'.heap E).noop = true
      ∧ (s'.heap e).noop = (s.heap e).noop
      ∧ s'.current_events = s.current_events
      ∧ s'.LBA_currently_executing (s.heap e).logical_address = some N
      ∧ s'.num_write_cancellations = s.num_write_cancellations + 1
      ∧ s'.log.count Call.register_trim_making_gc_redundant
          = s.log.count Call.register_trim_making_gc_redundant
            + (if T = event_type.TRIM then 1 else 0) := by
  obtain ⟨hEmem, hEop⟩ := find_scheduled_event_spec s O E hE
  have hneE : e ≠ E := by
    intro h
    rw [h, hEop] at hN
    exact hne hN
  have hrun := remove_redundant_events_gc_superseded C s e E N O T hN hown hne htN hT hE hgE hgN
  obtain ⟨s1, hs1, hh1, hd1, hc1, hl1⟩ : ∃ s1 : IOScheduler W,
      s1 = (if T = event_type.TRIM then
        ({ s with dependency_code_to_type := s.dependency_code_to_type.touch O }
          : IOScheduler W).call C Call.register_trim_making_gc_redundant
        else { s with dependency_code_to_type := s.dependency_code_to_type.touch O })
      ∧ s1.heap = s.heap ∧ s1.dependencies = s.dependencies
      ∧ s1.current_events = s.current_events
      ∧ s1.log.count Call.register_trim_making_gc_redundant
          = s.log.count Call.register_trim_making_gc_redundant
            + (if T = event_type.TRIM then 1 else 0) := by
    refine ⟨_, rfl, ?_, ?_, ?_, ?_⟩
    · split <;> rfl
    · split <;> rfl
    · split <;> rfl
    · split
      · simp [call]
      · simp
  rw [← hs1] at hrun
  obtain ⟨g1, -, -, -, -, -, -, -, -, -, g11⟩ := promote_to_gc_frame s1 e
  obtain ⟨f1, -⟩ := remove_current_operation_frame C (promote_to_gc e s1) E
  have hflds := fun q => remove_current_operation_heap_fields C (promote_to_gc e s1) E q
  have pflds := fun q => promote_to_gc_heap_fields s1 e q
  have hla : ((remove_current_operation C E (promote_to_gc e s1)).heap e).logical_address
      = (s.heap e).logical_address := by rw [(hflds e).1, (pflds e).1, hh1]
  have hop : ((remove_current_operation C E (promote_to_gc e s1)).heap e).application_io_id
      = N := by rw [(hflds e).2.1, (pflds e).2.1, hh1]; exact hN
  have hsched : should_event_be_scheduled C e s = Except.ok (true,
      { (remove_current_operation C E (promote_to_gc e s1)) with
        LBA_currently_executing := s.LBA_currently_executing.set (s.heap e).logical_address N,
        num_write_cancellations := s.num_write_cancellations + 1 }) := by
    simp [should_event_be_scheduled, hrun, bind, Except.bind, pure, Except.pure, hla, hop,
      Table.set, Table.count]
  refine ⟨_, hsched, ?_, ?_, ?_, ?_, ?_, ?_, rfl, ?_⟩
  · show ((remove_current_operation C E (promote_to_gc e s1)).heap e).garbage_collection_op = true
    rw [(hflds e).2.2.2.1, promote_to_gc_heap]; simp
  · intro p hp
    show ((remove_current_operation C E (promote_to_gc e s1)).heap p).garbage_collection_op = true
    have hp' : p ∈ s1.dependencies.get (s1.heap e).application_io_id := by
      rw [hd1, hh1, hN]; exact hp
    rw [(hflds p).2.2.2.1, promote_to_gc_heap]; simp [hp']
  · show ((remove_current_operation C E (promote_to_gc e s1)).heap E).noop = true
    rw [remove_current_operation_heap_self]
  · show ((remove_current_operation C E (promote_to_gc e s1)).heap e).noop = _
    rw [remove_current_operation_heap_ne C _ hneE, (pflds e).2.2.2.1, hh1]
  · show (remove_current_operation C E (promote_to_gc e s1)).current_events = _
    rw [f1, g1, hc1]
  · simp [Table.set]
  · show (remove_current_operation C E (promote_to_gc e s1)).log.count _ = _
    rw [← hl1, ← g11]
    unfold remove_current_operation
    simp only []
    split
    · simp [call, IOScheduler.modify]
    · split
      · simp [call, IOScheduler.modify]
      · simp [IOScheduler.modify]

theorem gc_superseded_by_newcomer_witness :
    ∃ s', should_event_be_scheduled (Scenario.device 0) 1 Scenario.gc_write_then_trim
        = Except.ok (true, s')
      ∧ (s'.heap 1).garbage_collection_op = true
      ∧ (∀ p ∈ Scenario.gc_write_then_trim.dependencies.get 2,
          (s'.heap p).garbage_collection_op = true)
      ∧ (s'.heap 0).noop = true
      ∧ (s'.heap 1).noop = (Scenario.gc_write_then_trim.heap 1).noop
      ∧ s'.current_events = Scenario.gc_write_then_trim.current_events
      ∧ s'.LBA_currently_executing (Scenario.gc_write_then_trim.heap 1).logical_address = some 2
      ∧ s'.num_write_cancellations = Scenario.gc_write_then_trim.num_write_cancellations + 1
      ∧ s'.log.count Call.register_trim_making_gc_redundant
          = Scenario.gc_write_then_trim.log.count Call.register_trim_making_gc_redundant
            + (if event_type.TRIM = event_type.TRIM then 1 else 0) :=
  gc_superseded_by_newcomer (Scenario.device 0) Scenario.gc_write_then_trim 1 0 2 1
    event_type.TRIM (by decide!) (by decide!) (by decide!) (by decide!) (by decide!) (by decide!)
    (by decide!) (by decide!)

/-- C21: the admission sweep of `update_current_events`.  With `c` the value of
`get_current_time()` at the start of the call and the events of `future_events` allocated, a
call that returns leaves in `future_events` events whose current time is at least `c + 1`, they
are (as a multiset) the events of the original `future_events` with current time at least
`c + 1`, and the original events with current time below `c + 1` (as a multiset) have been
passed to `init_event`, each one once, starting from the state after the shuffle; the current
time of no event allocated before has changed. -/
theorem update_current_events_admits_the_due_events {W : Type} (C : Collaborators W)
    (fuel : Nat) (s s' : IOScheduler W)
    (hb : ∀ e ∈ s.future_events, e < s.next_free)
    (hrun : update_current_events C fuel s = Except.ok s') :
    (∀ e ∈ s'.future_events, s.get_current_time + 1 ≤ (s'.heap e).current_time)
    ∧ s'.future_events.Perm
        (s.future_events.filter
          (fun e => decide (s.get_current_time + 1 ≤ (s.heap e).current_time)))
    ∧ (∃ due : List Nat,
        due.Perm (s.future_events.filter
          (fun e => decide ((s.heap e).current_time < s.get_current_time + 1)))
        ∧ Admitted C fuel due
            (({ s.call C (Call.register_events_queue_length s.get_current_events_size
                  s.get_current_time) with
                future_events := C.shuffle (s.call C (Call.register_events_queue_length
                  s.get_current_events_size s.get_current_time)).world s.future_events }
              : IOScheduler W).call C Call.random_shuffle) s')
    ∧ ∀ p, p < s.next_free → (s'.heap p).current_time = (s.heap p).current_time := by
  unfold update_current_events at hrun
  have hperm := C.shuffle_perm (s.call C (Call.register_events_queue_length
    s.get_current_events_size s.get_current_time)).world s.future_events
  obtain ⟨hP, hfut, hadm⟩ := sweep_future_events_spec C fuel s.get_current_time s.next_free
    (fun p => (s.heap p).current_time)
    (C.shuffle (s.call C (Call.register_events_queue_length s.get_current_events_size
      s.get_current_time)).world s.future_events) []
    (({ s.call C (Call.register_events_queue_length s.get_current_events_size
          s.get_current_time) with
        future_events := C.shuffle (s.call C (Call.register_events_queue_length
          s.get_current_events_size s.get_current_time)).world s.future_events }
      : IOScheduler W).call C Call.random_shuffle) s' ⟨le_refl _, fun _ _ => rfl⟩
    (fun e he => hb e (hperm.subset he)) rfl hrun
  refine ⟨?_, ?_, ⟨_, ?_, hadm⟩, hP.2⟩
  · intro e he
    rw [hfut, List.nil_append] at he
    have he' := List.mem_filter.mp he
    rw [hP.2 e (hb e (hperm.subset he'.1))]
    exact of_decide_eq_true he'.2
  · rw [hfut]
    simpa using hperm.filter _
  · exact hperm.filter _

theorem update_current_events_admits_the_due_events_witness :
    (∀ e ∈ Scenario.two_writes_submitted.future_events,
      e < Scenario.two_writes_submitted.next_free)
    ∧ Scenario.two_writes_submitted.future_events = [0, 1]
    ∧ Scenario.two_writes_submitted.get_current_time = 0
    ∧ ∃ s', update_current_events (Scenario.device 0) 10 Scenario.two_writes_submitted
        = Except.ok s'
      ∧ (∀ e ∈ s'.future_events,
          Scenario.two_writes_submitted.get_current_time + 1 ≤ (s'.heap e).current_time)
      ∧ s'.future_events.Perm
          (Scenario.two_writes_submitted.future_events.filter
            (fun e => decide (Scenario.two_writes_submitted.get_current_time + 1
              ≤ (Scenario.two_writes_submitted.heap e).current_time))) := by
  obtain ⟨s', hs'⟩ := Run.eq_ok_of_isSome
    (update_current_events (Scenario.device 0) 10 Scenario.two_writes_submitted) (by decide!)
  have h := update_current_events_admits_the_due_events (Scenario.device 0) 10
    Scenario.two_writes_submitted s' (by decide!) hs'
  exact ⟨by decide!, by decide!, by decide!, s', hs', h.1, h.2.1⟩

/-- C22, counterexample: op 1 is the queue WRITE, READ for LBA 7; the WRITE (pointer 0) is
executed with success while the READ (pointer 1) is the head of the pending events of op 1, the
tail being empty.  When `execute_next` has returned, the pending events of op 1 are not the
tail: they hold the READ_TRANSFER (pointer 2) made by the decomposition of the READ; and the
type recorded for op 1 is READ while the head has become a READ_COMMAND. -/
theorem chain_head_read_is_decomposed_on_admission :
    Scenario.write_read_chain_pending.dependencies.get
        (Scenario.write_read_chain_pending.heap 0).application_io_id = [1]
    ∧ (Scenario.write_read_chain_pending.heap 0).application_io_id = 1
    ∧ ((execute_next (Scenario.device 0) 10 0 Scenario.write_read_chain_pending).final.map
        (fun r => (r.1, r.2.dependencies.get 1, (r.2.heap 1).type,
          r.2.dependency_code_to_type 1)))
      = some (status.SUCCESS, [2], event_type.READ_COMMAND, some event_type.READ) := by
  refine ⟨by decide!, by decide!, by decide!⟩


/-- C22 (amended): advancing a dependency chain.  Let the device succeed on the event `e` of op
`o` while the pending events of `o` are `h :: t`.  Then `execute_next` passes `h`, and no later
event of `o`, to `init_event`, in a state `sA` in which the pending events of `o` are `t`, `h`
carries the op id `o` and the noop flag of `e`, the lock of the address of `e` has been removed
and the lock of the address of `h` is held by `o`, and the address and the type of `h` are
recorded for `o`.  When `execute_next` has returned, the same holds, and `h` is in
`current_events`, provided the type of `h` is neither READ nor GARBAGE_COLLECTION (a READ is
decomposed on admission: its READ_TRANSFER is put in front of `t` and `h` becomes a
READ_COMMAND). -/
theorem execute_next_advances_the_chain {W : Type} (C : Collaborators W) (fuel e : Nat)
    (s : IOScheduler W) (h : Nat) (t : List Nat)
    (hsucc : (C.issue s.world (s.heap e)).1 = status.SUCCESS)
    (hpend : s.dependencies.get (s.heap e).application_io_id = h :: t) :
    ∃ sA : IOScheduler W,
      execute_next C fuel e s
        = (init_event C fuel h sA >>= fun s3 =>
            pure (status.SUCCESS, s3.call C (Call.register_event_completion (s3.heap e))))
      ∧ sA.dependencies.get (s.heap e).application_io_id = t
      ∧ (sA.heap h).application_io_id = (s.heap e).application_io_id
      ∧ (sA.heap h).noop = (s.heap e).noop
      ∧ (sA.heap h).logical_address = (s.heap h).logical_address
      ∧ (sA.heap h).type = (s.heap h).type
      ∧ sA.LBA_currently_executing
          = (s.LBA_currently_executing.erase (s.heap e).logical_address).set
              (s.heap h).logical_address (s.heap e).application_io_id
      ∧ sA.dependency_code_to_LBA (s.heap e).application_io_id
          = some (s.heap h).logical_address
      ∧ sA.dependency_code_to_type (s.heap e).application_io_id = some (s.heap h).type
      ∧ ∀ r, execute_next C fuel e s = Except.ok r →
          (s.heap h).type ≠ event_type.READ →
          (s.heap h).type ≠ event_type.GARBAGE_COLLECTION →
          h ∈ r.2.current_pointers
          ∧ r.2.dependencies.get (s.heap e).application_io_id = t
          ∧ (r.2.heap h).application_io_id = (s.heap e).application_io_id
          ∧ (r.2.heap h).noop = (s.heap e).noop
          ∧ r.2.LBA_currently_executing (r.2.heap h).logical_address
              = some (s.heap e).application_io_id
          ∧ r.2.dependency_code_to_LBA (s.heap e).application_io_id
              = some (r.2.heap h).logical_address
          ∧ r.2.dependency_code_to_type (s.heap e).application_io_id
              = some (r.2.heap h).type := by
  obtain ⟨w, l, hfin, _⟩ := handle_finished_event_success C e
    ((s.call C (Call.issue (s.heap e))).modify e
      (fun x => { x with current_time := x.current_time + (C.issue s.world (s.heap e)).2 }))
  simp only [execute_next, hfin, hsucc, bind, Except.bind, if_true]
  split
  · next dep tail heq =>
    simp only [IOScheduler.modify, call, Table.get_touch, if_pos, hpend, List.cons.injEq] at heq
    obtain ⟨rfl, rfl⟩ := heq
    clear hfin
    refine ⟨_, rfl, ?_⟩
    have key : ∀ sA : IOScheduler W,
        sA.dependencies.get (s.heap e).application_io_id = t
        ∧ (sA.heap h).application_io_id = (s.heap e).application_io_id
        ∧ (sA.heap h).noop = (s.heap e).noop
        ∧ (sA.heap h).logical_address = (s.heap h).logical_address
        ∧ (sA.heap h).type = (s.heap h).type
        ∧ sA.LBA_currently_executing
            = (s.LBA_currently_executing.erase (s.heap e).logical_address).set
                (s.heap h).logical_address (s.heap e).application_io_id
        ∧ sA.dependency_code_to_LBA (s.heap e).application_io_id
            = some (s.heap h).logical_address
        ∧ sA.dependency_code_to_type (s.heap e).application_io_id = some (s.heap h).type →
        sA.dependencies.get (s.heap e).application_io_id = t
        ∧ (sA.heap h).application_io_id = (s.heap e).application_io_id
        ∧ (sA.heap h).noop = (s.heap e).noop
        ∧ (sA.heap h).logical_address = (s.heap h).logical_address
        ∧ (sA.heap h).type = (s.heap h).type
        ∧ sA.LBA_currently_executing
            = (s.LBA_currently_executing.erase (s.heap e).logical_address).set
                (s.heap h).logical_address (s.heap e).application_io_id
        ∧ sA.dependency_code_to_LBA (s.heap e).application_io_id
            = some (s.heap h).logical_address
        ∧ sA.dependency_code_to_type (s.heap e).application_io_id = some (s.heap h).type
        ∧ ∀ r, (init_event C fuel h sA >>= fun s3 =>
              (pure (status.SUCCESS, s3.call C (Call.register_event_completion (s3.heap e)))
                : Run W (status × IOScheduler W))) = Except.ok r →
            (s.heap h).type ≠ event_type.READ →
            (s.heap h).type ≠ event_type.GARBAGE_COLLECTION →
            h ∈ r.2.current_pointers
            ∧ r.2.dependencies.get (s.heap e).application_io_id = t
            ∧ (r.2.heap h).application_io_id = (s.heap e).application_io_id
            ∧ (r.2.heap h).noop = (s.heap e).noop
            ∧ r.2.LBA_currently_executing (r.2.heap h).logical_address
                = some (s.heap e).application_io_id
            ∧ r.2.dependency_code_to_LBA (s.heap e).application_io_id
                = some (r.2.heap h).logical_address
            ∧ r.2.dependency_code_to_type (s.heap e).application_io_id
                = some (r.2.heap h).type := by
      intro sA hA
      obtain ⟨a1, a2, a3, a4, a5, a6, a7, a8⟩ := hA
      refine ⟨a1, a2, a3, a4, a5, a6, a7, a8, ?_⟩
      intro r hr hR hG
      cases hinit : init_event C fuel h sA with
      | error x => rw [hinit] at hr; cases hr
      | ok s3 =>
        rw [hinit] at hr
        simp only [bind, Except.bind, pure, Except.pure, Except.ok.injEq] at hr
        subst hr
        have hown : sA.LBA_currently_executing (sA.heap h).logical_address
            = some (sA.heap h).application_io_id := by
          rw [a6, a4, a2]; simp [Table.set]
        obtain ⟨b1, b2, b3, b4, b5, _, b7⟩ := init_event_of_owner C fuel h sA s3 hown
          (by rw [a5]; exact hR) (by rw [a5]; exact hG) hinit
        obtain ⟨c1, c2, c3, c4⟩ := b7 h
        refine ⟨b1, ?_, ?_, ?_, ?_, ?_, ?_⟩
        · show s3.dependencies.get _ = t
          rw [b2]; exact a1
        · show (s3.heap h).application_io_id = _
          rw [c1]; exact a2
        · show (s3.heap h).noop = _
          rw [c4]; exact a3
        · show s3.LBA_currently_executing (s3.heap h).logical_address = _
          rw [b3, c2, hown, a2]
        · show s3.dependency_code_to_LBA _ = some (s3.heap h).logical_address
          rw [b4, c2, a4]; exact a7
        · show s3.dependency_code_to_type _ = some (s3.heap h).type
          rw [b5, c3, a5]; exact a8
    apply key
    refine ⟨?_, ?_, ?_, ?_, ?_, ?_, ?_, ?_⟩
    · simp [IOScheduler.modify, call, Table.set, Table.get]
    · rcases eq_or_ne h e with hhe | hhe
      · subst hhe; simp [IOScheduler.modify, call, Event.incr_accumulated_wait_time]
      · have hhe' := hhe.symm
        simp [IOScheduler.modify, call, Event.incr_accumulated_wait_time, hhe, hhe']
    · rcases eq_or_ne h e with hhe | hhe
      · subst hhe; simp [IOScheduler.modify, call, Event.incr_accumulated_wait_time]
      · have hhe' := hhe.symm
        simp [IOScheduler.modify, call, Event.incr_accumulated_wait_time, hhe, hhe']
    · rcases eq_or_ne h e with hhe | hhe
      · subst hhe; simp [IOScheduler.modify, call, Event.incr_accumulated_wait_time]
      · have hhe' := hhe.symm
        simp [IOScheduler.modify, call, Event.incr_accumulated_wait_time, hhe, hhe']
    · rcases eq_or_ne h e with hhe | hhe
      · subst hhe; simp [IOScheduler.modify, call, Event.incr_accumulated_wait_time]
      · have hhe' := hhe.symm
        simp [IOScheduler.modify, call, Event.incr_accumulated_wait_time, hhe, hhe']
    · rcases eq_or_ne h e with hhe | hhe
      · subst hhe; simp [IOScheduler.modify, call, Event.incr_accumulated_wait_time]
      · have hhe' := hhe.symm
        simp [IOScheduler.modify, call, Event.incr_accumulated_wait_time, hhe, hhe']
    · rcases eq_or_ne h e with hhe | hhe
      · subst hhe; simp [IOScheduler.modify, call, Event.incr_accumulated_wait_time, Table.set]
      · have hhe' := hhe.symm
        simp [IOScheduler.modify, call, Event.incr_accumulated_wait_time, Table.set, hhe, hhe']
    · rcases eq_or_ne h e with hhe | hhe
      · subst hhe; simp [IOScheduler.modify, call, Event.incr_accumulated_wait_time, Table.set]
      · have hhe' := hhe.symm
        simp [IOScheduler.modify, call, Event.incr_accumulated_wait_time, Table.set, hhe, hhe']
  · next heq =>
    simp only [IOScheduler.modify, call, Table.get_touch, if_pos, hpend] at heq
    cases heq

theorem execute_next_advances_the_chain_witness :
    ((Scenario.device 0).issue Scenario.write_chain_pending.world
        (Scenario.write_chain_pending.heap 0)).1 = status.SUCCESS
    ∧ Scenario.write_chain_pending.dependencies.get
        (Scenario.write_chain_pending.heap 0).application_io_id = [1]
    ∧ ∃ sA : IOScheduler Unit,
        execute_next (Scenario.device 0) 10 0 Scenario.write_chain_pending
          = (init_event (Scenario.device 0) 10 1 sA >>= fun s3 =>
              pure (status.SUCCESS,
                s3.call (Scenario.device 0) (Call.register_event_completion (s3.heap 0))))
        ∧ sA.dependencies.get (Scenario.write_chain_pending.heap 0).application_io_id = []
        ∧ (sA.heap 1).application_io_id
            = (Scenario.write_chain_pending.heap 0).application_io_id := by
  obtain ⟨sA, h1, h2, h3, _⟩ := execute_next_advances_the_chain (Scenario.device 0) 10 0
    Scenario.write_chain_pending 1 [] (by decide!) (by decide!)
  exact ⟨by decide!, by decide!, sA, h1, h2, h3⟩

/-- C25: dispatch is claimed to lose no event of the bucket.  Under `SCHEDULING_SCHEME = 0` the
vector `copy_backs`, filled by the partition (lines 197-199), is passed to no `handle` call
(lines 207-221; the schemes 2 and 3 do handle it): a tick on a bucket that holds a COPY_BACK
event (not noop) makes no call at all, on no collaborator, and leaves the event in no queue: the
event is neither dispatched nor completed nor re-queued, it is still a COPY_BACK that is not
noop, and its op keeps the lock of LBA 7. -/
theorem copy_back_is_dropped_under_scheme_0 :
    (Scenario.device 0).SCHEDULING_SCHEME = 0
    ∧ Scenario.copy_back_pending.current_events = [(0, [0])]
    ∧ (Scenario.copy_back_pending.heap 0).type = event_type.COPY_BACK
    ∧ (Scenario.copy_back_pending.heap 0).noop = false
    ∧ (execute_current_waiting_ios (Scenario.device 0) 10 Scenario.copy_back_pending).final.map
        (fun t => (t.current_events, t.future_events, t.dependencies.get 1,
          decide (t.log = Scenario.copy_back_pending.log)))
      = some ([], [], [], true)
    ∧ (execute_current_waiting_ios (Scenario.device 0) 10 Scenario.copy_back_pending).final.map
        (fun t => ((t.heap 0).type, (t.heap 0).noop, t.LBA_currently_executing 7))
      = some (event_type.COPY_BACK, false, some 1) := by
  refine ⟨rfl, by decide!, by decide!, by decide!, by decide!, by decide!⟩

/-- The extent of the loss: dispatch conserves the events of the dispatched classes.  Let the
scheme be 0, 1, 2 or 3 and let the bucket hold no TRIM that is not noop (such a TRIM is executed
during the partition).  The tick is one pass of single calls of `handle` (each one call of
`handle_write`, `handle_flexible_read` or `handle_event`) over a sequence `handled`, followed by
`handle_noop_events` on the noop events of the bucket.  An event of the bucket that is noop is
among the noop events as often as in the bucket and not in `handled`; an event that is not noop
is in `handled` as often as in the bucket (once, if the bucket holds it once) if it is a
READ_TRANSFER, a WRITE or an ERASE, a READ_COMMAND of an op not recorded as COPY_BACK, or, under
the schemes 2 and 3 only, a COPY_BACK or a READ_COMMAND of an op recorded as COPY_BACK; every
other event is not in `handled`: under the schemes 0 and 1 the COPY_BACK events and the
READ_COMMANDs of copy-back ops are dropped. -/
theorem dispatch_conserves_the_dispatched_classes {W : Type} (C : Collaborators W) (fuel : Nat)
    (s : IOScheduler W)
    (hs : C.SCHEDULING_SCHEME = 0 ∨ C.SCHEDULING_SCHEME = 1 ∨ C.SCHEDULING_SCHEME = 2
      ∨ C.SCHEDULING_SCHEME = 3)
    (r : List Nat × IOScheduler W) (hr : s.collect_soonest_events = Except.ok r)
    (hT : ∀ p ∈ r.1, (s.heap p).noop = true ∨ (s.heap p).type ≠ event_type.TRIM) :
    ∃ (t : IOScheduler W) (handled : List Nat),
      t.heap = s.heap
      ∧ execute_current_waiting_ios C fuel s
          = (handled.foldlM (fun acc e => handle C fuel [e] acc) t
              >>= handle_noop_events C fuel (s.of_class dispatch_class.noop_event r.1.reverse))
      ∧ (∀ p, (s.of_class dispatch_class.noop_event r.1.reverse).count p
          = if (s.heap p).noop = true then r.1.count p else 0)
      ∧ (∀ p, handled.count p
          = if (s.heap p).noop = false
              ∧ ((s.heap p).type = event_type.READ_TRANSFER
                ∨ (s.heap p).type = event_type.WRITE
                ∨ (s.heap p).type = event_type.ERASE
                ∨ ((s.heap p).type = event_type.READ_COMMAND
                    ∧ ((C.SCHEDULING_SCHEME = 2 ∨ C.SCHEDULING_SCHEME = 3)
                      ∨ s.dependency_code_to_type.get (s.heap p).application_io_id
                          ≠ event_type.COPY_BACK))
                ∨ ((s.heap p).type = event_type.COPY_BACK
                    ∧ (C.SCHEDULING_SCHEME = 2 ∨ C.SCHEDULING_SCHEME = 3)))
            then r.1.count p else 0) := by
  obtain ⟨hh, hty, _⟩ := collect_soonest_events_ok s r hr
  have hT2 : ∀ p ∈ r.1.reverse,
      (r.2.heap p).noop = true ∨ (r.2.heap p).type ≠ event_type.TRIM := by
    intro p hp
    rw [hh]
    exact hT p (List.mem_reverse.mp hp)
  obtain ⟨t, ht1, ht2, _, _, hc⟩ := classify_of_class C fuel r.1.reverse Classes.empty r.2 hT2
  have hoc : ∀ k l, r.2.of_class k l = s.of_class k l :=
    fun k l => of_class_congr s r.2 hh (fun x => by rw [hty]) k l
  simp only [hoc, Classes.empty, List.nil_append] at hc
  have hcount : ∀ k p, (s.of_class k r.1.reverse).count p
      = if s.class_of p = some k then r.1.count p else 0 := by
    intro k p
    rw [count_of_class, List.count_reverse]
  have hsort1 : ∀ (l : List Nat) p, (t.sort_by_current_wait_time l).count p = l.count p :=
    fun l p => (List.perm_insertionSort _ l).count_eq p
  have hsort2 : ∀ (l : List Nat) p, (t.sort_by_overall_wait_time l).count p = l.count p :=
    fun l p => (List.perm_insertionSort _ l).count_eq p
  have hrun := execute_current_waiting_ios_eq C fuel s r hr _ hc
  refine ⟨t, _, ht1.trans hh, hrun, ?_, ?_⟩
  · intro p
    rw [hcount]
    unfold class_of
    by_cases hn : (s.heap p).noop = true
    · simp [hn]
    · have hn2 : (s.heap p).noop = false := by simpa using hn
      cases hty : (s.heap p).type <;> simp [hn2]
      · by_cases hcb : s.dependency_code_to_type.get (s.heap p).application_io_id
            = event_type.COPY_BACK
        · simp [hcb]
        · by_cases hf : (s.heap p).flexible_read = true <;> simp [hcb, hf]
      · by_cases hg : (s.heap p).garbage_collection_op = true <;> simp [hg]
  · intro p
    rcases hs with h0 | h0 | h0 | h0 <;>
    · simp only [dispatch_order, h0, if_true, List.map_cons, List.map_nil, List.flatten_cons,
        List.flatten_nil, List.append_nil, List.count_append, List.count_reverse, hsort1,
        hsort2, hcount, show ¬ (1 = 0) by decide, show ¬ (2 = 0) by decide,
        show ¬ (2 = 1) by decide, show ¬ (3 = 0) by decide, show ¬ (3 = 1) by decide,
        show ¬ (3 = 2) by decide, if_false]
      unfold class_of
      by_cases hn : (s.heap p).noop = true
      · simp [hn]
      · have hn2 : (s.heap p).noop = false := by simpa using hn
        cases hty : (s.heap p).type <;> simp [hn2]
        · by_cases hcb : s.dependency_code_to_type.get (s.heap p).application_io_id
              = event_type.COPY_BACK
          · simp [hcb]
          · by_cases hf : (s.heap p).flexible_read = true <;> simp [hcb, hf]
        · by_cases hg : (s.heap p).garbage_collection_op = true <;> simp [hg]

theorem dispatch_conserves_the_dispatched_classes_witness :
    (Scenario.configured 0 true status.SUCCESS 0 2).SCHEDULING_SCHEME = 2
    ∧ Scenario.mixed_bucket.collect_soonest_events
        = Except.ok ([0, 1, 2], { Scenario.mixed_bucket with current_events := [] })
    ∧ (∀ p ∈ [0, 1, 2], (Scenario.mixed_bucket.heap p).noop = true
        ∨ (Scenario.mixed_bucket.heap p).type ≠ event_type.TRIM)
    ∧ ∃ (t : IOScheduler Unit) (handled : List Nat),
        execute_current_waiting_ios (Scenario.configured 0 true status.SUCCESS 0 2) 4
            Scenario.mixed_bucket
          = (handled.foldlM
                (fun acc e => handle (Scenario.configured 0 true status.SUCCESS 0 2) 4 [e] acc) t
              >>= handle_noop_events (Scenario.configured 0 true status.SUCCESS 0 2) 4
                    (Scenario.mixed_bucket.of_class dispatch_class.noop_event [2, 1, 0]))
        ∧ handled.count 0 = 1 ∧ handled.count 1 = 1 ∧ handled.count 2 = 1 := by
  obtain ⟨t, handled, _, h2, _, h4⟩ :=
    dispatch_conserves_the_dispatched_classes (Scenario.configured 0 true status.SUCCESS 0 2) 4
      Scenario.mixed_bucket (Or.inr (Or.inr (Or.inl rfl))) _ Scenario.mixed_bucket_collect
      (by decide!)
  exact ⟨rfl, Scenario.mixed_bucket_collect, by decide!, t, handled, h2,
    (h4 0).trans (by decide!), (h4 1).trans (by decide!), (h4 2).trans (by decide!)⟩

/-- C27, counterexample: under `SCHEDULING_SCHEME = 2`, and under 3, the GC writes are merged
into the vector of the writes, which is sorted by bus wait time.  Of the two GC writes of the
bucket the one of op 2 (bus wait 5, overall wait 5) is issued before the one of op 1 (bus wait
1, overall wait 11): in increasing order of the overall wait time. -/
theorem gc_writes_are_not_ordered_by_overall_wait :
    Scenario.two_gc_writes_pending.current_events = [(0, [0, 1])]
    ∧ (execute_current_waiting_ios (Scenario.configured 0 true status.SUCCESS 0 2) 10
        Scenario.two_gc_writes_pending).final.map
        (fun t => (t.log.filterMap Call.issued).map
          (fun e => (e.application_io_id, e.garbage_collection_op, e.bus_wait_time,
            e.get_overall_wait_time)))
      = some [(2, true, 5, 5), (1, true, 1, 11)]
    ∧ (execute_current_waiting_ios (Scenario.configured 0 true status.SUCCESS 0 3) 10
        Scenario.two_gc_writes_pending).final.map
        (fun t => (t.log.filterMap Call.issued).map
          (fun e => (e.application_io_id, e.garbage_collection_op, e.bus_wait_time,
            e.get_overall_wait_time)))
      = some [(2, true, 5, 5), (1, true, 1, 11)] := by
  refine ⟨by decide!, by decide!, by decide!⟩

/-- C27 (amended): longest-waiting first within a sorted vector.  `handle` consumes a vector
from the back, one event at a time.  Under the schemes 0, 2 and 3 every vector passed to
`handle`, read from the back, is in non-increasing order of the key it was sorted by, the keys
being those of the state `t` in which the vectors are sorted.  Scheme 0: bus wait time for the
read commands (flexible ones included), the writes and the erases, overall wait time for the
read transfers and the GC writes.  Scheme 2: bus wait time for the erases and for the writes,
GC writes included; overall wait time for the read commands (flexible ones included), the read
commands of copy-back ops, and the read transfers, copy-backs included.  Scheme 3: as scheme 2,
the flexible read commands being in the vector of the writes. -/
theorem sorted_vectors_are_handled_longest_waiting_first {W : Type} (C : Collaborators W)
    (fuel : Nat) (t : IOScheduler W) (cl : Classes) :
    (∀ (v : List Nat) (s : IOScheduler W),
      handle C fuel v s = v.reverse.foldlM (fun acc e => handle C fuel [e] acc) s)
    ∧ (C.SCHEDULING_SCHEME = 0 →
        ∃ rc rt w gw e : List Nat, dispatch_order C t cl = [rc, rt, w, gw, e]
          ∧ rc.Perm (cl.read_commands ++ cl.read_commands_flexible)
          ∧ rt.Perm cl.read_transfers ∧ w.Perm cl.writes ∧ gw.Perm cl.gc_writes
          ∧ e.Perm cl.erases
          ∧ rc.reverse.Pairwise
              (fun a b => (t.heap b).bus_wait_time ≤ (t.heap a).bus_wait_time)
          ∧ rt.reverse.Pairwise
              (fun a b => (t.heap b).get_overall_wait_time ≤ (t.heap a).get_overall_wait_time)
          ∧ w.reverse.Pairwise
              (fun a b => (t.heap b).bus_wait_time ≤ (t.heap a).bus_wait_time)
          ∧ gw.reverse.Pairwise
              (fun a b => (t.heap b).get_overall_wait_time ≤ (t.heap a).get_overall_wait_time)
          ∧ e.reverse.Pairwise
              (fun a b => (t.heap b).bus_wait_time ≤ (t.heap a).bus_wait_time))
    ∧ (C.SCHEDULING_SCHEME = 2 →
        ∃ e rc cb w rt : List Nat, dispatch_order C t cl = [e, rc, cb, w, rt]
          ∧ e.Perm cl.erases
          ∧ rc.Perm (cl.read_commands ++ cl.read_commands_flexible)
          ∧ cb.Perm cl.read_commands_copybacks
          ∧ w.Perm (cl.writes ++ cl.gc_writes)
          ∧ rt.Perm (cl.read_transfers ++ cl.copy_backs)
          ∧ e.reverse.Pairwise
              (fun a b => (t.heap b).bus_wait_time ≤ (t.heap a).bus_wait_time)
          ∧ rc.reverse.Pairwise
              (fun a b => (t.heap b).get_overall_wait_time ≤ (t.heap a).get_overall_wait_time)
          ∧ cb.reverse.Pairwise
              (fun a b => (t.heap b).get_overall_wait_time ≤ (t.heap a).get_overall_wait_time)
          ∧ w.reverse.Pairwise
              (fun a b => (t.heap b).bus_wait_time ≤ (t.heap a).bus_wait_time)
          ∧ rt.reverse.Pairwise
              (fun a b => (t.heap b).get_overall_wait_time ≤ (t.heap a).get_overall_wait_time))
    ∧ (C.SCHEDULING_SCHEME = 3 →
        ∃ e rc cb w rt : List Nat, dispatch_order C t cl = [e, rc, cb, w, rt]
          ∧ e.Perm cl.erases
          ∧ rc.Perm cl.read_commands
          ∧ cb.Perm cl.read_commands_copybacks
          ∧ w.Perm ((cl.writes ++ cl.gc_writes) ++ cl.read_commands_flexible)
          ∧ rt.Perm (cl.read_transfers ++ cl.copy_backs)
          ∧ e.reverse.Pairwise
              (fun a b => (t.heap b).bus_wait_time ≤ (t.heap a).bus_wait_time)
          ∧ rc.reverse.Pairwise
              (fun a b => (t.heap b).get_overall_wait_time ≤ (t.heap a).get_overall_wait_time)
          ∧ cb.reverse.Pairwise
              (fun a b => (t.heap b).get_overall_wait_time ≤ (t.heap a).get_overall_wait_time)
          ∧ w.reverse.Pairwise
              (fun a b => (t.heap b).bus_wait_time ≤ (t.heap a).bus_wait_time)
          ∧ rt.reverse.Pairwise
              (fun a b => (t.heap b).get_overall_wait_time ≤ (t.heap a).get_overall_wait_time)) := by
  refine ⟨fun v s => handle_eq_foldlM C fuel v s, ?_, ?_, ?_⟩
  · intro h0
    refine ⟨_, _, _, _, _, by simp only [dispatch_order, h0, if_true]; rfl,
      List.perm_insertionSort _ _, List.perm_insertionSort _ _, List.perm_insertionSort _ _,
      List.perm_insertionSort _ _, List.perm_insertionSort _ _,
      sort_by_current_wait_time_reverse t _, sort_by_overall_wait_time_reverse t _,
      sort_by_current_wait_time_reverse t _, sort_by_overall_wait_time_reverse t _,
      sort_by_current_wait_time_reverse t _⟩
  · intro h2
    refine ⟨_, _, _, _, _, by simp only [dispatch_order, h2, show ¬ (2 = 0) by decide,
        show ¬ (2 = 1) by decide, if_false, if_true]; rfl,
      List.perm_insertionSort _ _, List.perm_insertionSort _ _, List.perm_insertionSort _ _,
      List.perm_insertionSort _ _, List.perm_insertionSort _ _,
      sort_by_current_wait_time_reverse t _, sort_by_overall_wait_time_reverse t _,
      sort_by_overall_wait_time_reverse t _, sort_by_current_wait_time_reverse t _,
      sort_by_overall_wait_time_reverse t _⟩
  · intro h3
    refine ⟨_, _, _, _, _, by simp only [dispatch_order, h3, show ¬ (3 = 0) by decide,
        show ¬ (3 = 1) by decide, show ¬ (3 = 2) by decide, if_false, if_true]; rfl,
      List.perm_insertionSort _ _, List.perm_insertionSort _ _, List.perm_insertionSort _ _,
      List.perm_insertionSort _ _, List.perm_insertionSort _ _,
      sort_by_current_wait_time_reverse t _, sort_by_overall_wait_time_reverse t _,
      sort_by_overall_wait_time_reverse t _, sort_by_current_wait_time_reverse t _,
      sort_by_overall_wait_time_reverse t _⟩

theorem sorted_vectors_are_handled_longest_waiting_first_witness :
    (Scenario.configured 0 true status.SUCCESS 0 2).SCHEDULING_SCHEME = 2
    ∧ ∃ e rc cb w rt : List Nat,
        dispatch_order (Scenario.configured 0 true status.SUCCESS 0 2)
          Scenario.two_gc_writes_pending
          { Classes.empty with gc_writes := [0, 1] } = [e, rc, cb, w, rt]
        ∧ w.Perm ([] ++ [0, 1])
        ∧ w.reverse.Pairwise
            (fun a b => (Scenario.two_gc_writes_pending.heap b).bus_wait_time
              ≤ (Scenario.two_gc_writes_pending.heap a).bus_wait_time) := by
  obtain ⟨e, rc, cb, w, rt, h1, _, _, _, h5, _, _, _, _, h10, _⟩ :=
    (sorted_vectors_are_handled_longest_waiting_first
      (Scenario.configured 0 true status.SUCCESS 0 2) 4 Scenario.two_gc_writes_pending
      { Classes.empty with gc_writes := [0, 1] }).2.2.1 rfl
  exact ⟨rfl, e, rc, cb, w, rt, h1, h5, h10⟩

/-- C26: progress of re-queueing.  Let the block manager return non-negative waits and let the
event be allocated.  When `handle_event` or `handle_write` re-pushes the event instead of
dispatching it, the bus wait time and the current time of the event have been incremented by an
amount `d > 0`.  When `handle_flexible_read` re-pushes the event, they have been incremented by
the wait computed at lines 391-394, which is 0 when the die is free and the event is re-pushed
because the logical address of its candidate is locked: the event is then re-queued with its bus
wait time and its timestamp unchanged. -/
theorem requeue_progress_but_for_a_locked_flexible_read {W : Type} (C : Collaborators W) (fuel e : Nat) (s : IOScheduler W)
    (hnn : ∀ w a t, 0 ≤ C.in_how_long_can_this_event_be_scheduled w a t)
    (he : e < s.next_free) :
    (¬ (C.can_schedule_on_die
            (s.call C (Call.in_how_long_can_this_event_be_scheduled (s.heap e).address
              (s.heap e).current_time)).world (s.heap e).address (s.heap e).type
            (s.heap e).application_io_id = true
          ∧ C.in_how_long_can_this_event_be_scheduled s.world (s.heap e).address
              (s.heap e).current_time = 0) →
      ∃ (s' : IOScheduler W) (d : ℚ), 0 < d ∧ handle_event C fuel e s = Except.ok s'
        ∧ e ∈ s'.current_pointers
        ∧ (s'.heap e).bus_wait_time = (s.heap e).bus_wait_time + d
        ∧ (s'.heap e).current_time = (s.heap e).current_time + d)
    ∧ ((wait_time_at C (C.choose_write_address s.world (s.heap e)) e
          (s.call C (Call.choose_write_address (s.heap e)))).1 ≠ 0 →
      ∃ (s' : IOScheduler W) (d : ℚ), 0 < d ∧ handle_write C fuel e s = Except.ok s'
        ∧ e ∈ s'.current_pointers
        ∧ (s'.heap e).bus_wait_time = (s.heap e).bus_wait_time + d
        ∧ (s'.heap e).current_time = (s.heap e).current_time + d)
    ∧ (¬ ((wait_time_at C (C.choose_flexible_read_address s.world (s.heap e)) e
            (s.call C (Call.choose_flexible_read_address (s.heap e)))).1 = 0
          ∧ ¬ s.LBA_currently_executing.count
              (C.candidates_lba
                (wait_time_at C (C.choose_flexible_read_address s.world (s.heap e)) e
                  (s.call C (Call.choose_flexible_read_address (s.heap e)))).2.world
                (s.heap e) (C.choose_flexible_read_address s.world (s.heap e)).package
                (C.choose_flexible_read_address s.world (s.heap e)).die) = 1) →
      ∃ s' : IOScheduler W, handle_flexible_read C fuel e s = Except.ok s'
        ∧ e ∈ s'.current_pointers
        ∧ (s'.heap e).bus_wait_time = (s.heap e).bus_wait_time
            + (wait_time_at C (C.choose_flexible_read_address s.world (s.heap e)) e
                (s.call C (Call.choose_flexible_read_address (s.heap e)))).1
        ∧ (s'.heap e).current_time = (s.heap e).current_time
            + (wait_time_at C (C.choose_flexible_read_address s.world (s.heap e)) e
                (s.call C (Call.choose_flexible_read_address (s.heap e)))).1) := by
  have hne : e ≠ s.next_free := Nat.ne_of_lt he
  refine ⟨?_, ?_, ?_⟩
  · intro h
    have hrun : handle_event C fuel e s = Except.ok
        ((((s.call C (Call.in_how_long_can_this_event_be_scheduled (s.heap e).address
              (s.heap e).current_time)).call C
            (Call.can_schedule_on_die (s.heap e).address (s.heap e).type
              (s.heap e).application_io_id)).modify e
          (fun x => x.incr_bus_wait_time
            (if C.can_schedule_on_die
                (s.call C (Call.in_how_long_can_this_event_be_scheduled (s.heap e).address
                  (s.heap e).current_time)).world (s.heap e).address (s.heap e).type
                (s.heap e).application_io_id = true then
              C.in_how_long_can_this_event_be_scheduled s.world (s.heap e).address
                (s.heap e).current_time else WAIT_TIME))).push_into_current_events e) := by
      simp only [handle_event]
      rw [if_neg h]
      rfl
    refine ⟨_, (if C.can_schedule_on_die
                (s.call C (Call.in_how_long_can_this_event_be_scheduled (s.heap e).address
                  (s.heap e).current_time)).world (s.heap e).address (s.heap e).type
                (s.heap e).application_io_id = true then
              C.in_how_long_can_this_event_be_scheduled s.world (s.heap e).address
                (s.heap e).current_time else WAIT_TIME), ?_, hrun,
      (mem_bucket_insert _ _ _ _).mpr (Or.inl rfl), ?_, ?_⟩
    · split
      · next hc =>
        have h0 := hnn s.world (s.heap e).address (s.heap e).current_time
        rcases lt_or_eq_of_le h0 with hlt | heq
        · exact hlt
        · exact absurd ⟨hc, heq.symm⟩ h
      · unfold WAIT_TIME; norm_num
    · simp [IOScheduler.modify, call, push_into_current_events, Event.incr_bus_wait_time]
    · simp [IOScheduler.modify, call, push_into_current_events, Event.incr_bus_wait_time]
  · intro h
    have hw := wait_time_at_heap C (C.choose_write_address s.world (s.heap e)) e
      (s.call C (Call.choose_write_address (s.heap e)))
    have h0 := wait_time_at_nonneg C hnn (C.choose_write_address s.world (s.heap e)) e
      (s.call C (Call.choose_write_address (s.heap e)))
    have hrun : handle_write C fuel e s = Except.ok
        ((if (((wait_time_at C (C.choose_write_address s.world (s.heap e)) e
                (s.call C (Call.choose_write_address (s.heap e)))).2.modify e
              (fun x => x.incr_bus_wait_time
                (wait_time_at C (C.choose_write_address s.world (s.heap e)) e
                  (s.call C (Call.choose_write_address (s.heap e)))).1)).heap e).type
              = event_type.COPY_BACK
            ∧ (C.choose_write_address s.world (s.heap e)).valid = address_valid.NONE then
          ((wait_time_at C (C.choose_write_address s.world (s.heap e)) e
              (s.call C (Call.choose_write_address (s.heap e)))).2.modify e
            (fun x => x.incr_bus_wait_time
              (wait_time_at C (C.choose_write_address s.world (s.heap e)) e
                (s.call C (Call.choose_write_address (s.heap e)))).1)).transform_copyback e
          else
          (wait_time_at C (C.choose_write_address s.world (s.heap e)) e
              (s.call C (Call.choose_write_address (s.heap e)))).2.modify e
            (fun x => x.incr_bus_wait_time
              (wait_time_at C (C.choose_write_address s.world (s.heap e)) e
                (s.call C (Call.choose_write_address (s.heap e)))).1)).push_into_current_events
          e) := by
      simp only [handle_write]
      rw [if_neg h]
      rfl
    refine ⟨_, (wait_time_at C (C.choose_write_address s.world (s.heap e)) e
        (s.call C (Call.choose_write_address (s.heap e)))).1, lt_of_le_of_ne h0 (Ne.symm h),
      hrun, (mem_bucket_insert _ _ _ _).mpr (Or.inl rfl), ?_, ?_⟩
    all_goals
      clear hrun
      generalize wait_time_at C (C.choose_write_address s.world (s.heap e)) e
        (s.call C (Call.choose_write_address (s.heap e))) = r at *
      have hr1 : r.2.heap = s.heap := hw.1
      have hr2 : r.2.next_free = s.next_free := hw.2.2
      split <;>
        simp [IOScheduler.modify, push_into_current_events, Event.incr_bus_wait_time,
          transform_copyback, alloc, hr1, hr2, hne]
  · intro h
    have hw := wait_time_at_heap C (C.choose_flexible_read_address s.world (s.heap e)) e
      (s.call C (Call.choose_flexible_read_address (s.heap e)))
    have hrun : handle_flexible_read C fuel e s = Except.ok
        (((if s.LBA_currently_executing.count
              (C.candidates_lba
                (wait_time_at C (C.choose_flexible_read_address s.world (s.heap e)) e
                  (s.call C (Call.choose_flexible_read_address (s.heap e)))).2.world
                (s.heap e) (C.choose_flexible_read_address s.world (s.heap e)).package
                (C.choose_flexible_read_address s.world (s.heap e)).die) = 1 then
            (wait_time_at C (C.choose_flexible_read_address s.world (s.heap e)) e
              (s.call C (Call.choose_flexible_read_address (s.heap e)))).2.call C
              (Call.find_alternative_immediate_candidate (s.heap e)
                (C.choose_flexible_read_address s.world (s.heap e)).package
                (C.choose_flexible_read_address s.world (s.heap e)).die)
          else (wait_time_at C (C.choose_flexible_read_address s.world (s.heap e)) e
              (s.call C (Call.choose_flexible_read_address (s.heap e)))).2).modify e
          (fun x => x.incr_bus_wait_time
            (wait_time_at C (C.choose_flexible_read_address s.world (s.heap e)) e
              (s.call C (Call.choose_flexible_read_address (s.heap e)))).1)
          ).push_into_current_events e) := by
      simp only [handle_flexible_read, hw.1, hw.2.1]
      split
      · next hc => exact absurd hc h
      · rfl
    refine ⟨_, hrun, (mem_bucket_insert _ _ _ _).mpr (Or.inl rfl), ?_, ?_⟩
    all_goals
      clear hrun
      generalize wait_time_at C (C.choose_flexible_read_address s.world (s.heap e)) e
        (s.call C (Call.choose_flexible_read_address (s.heap e))) = r at *
      have hr1 : r.2.heap = s.heap := hw.1
      split <;>
        simp [IOScheduler.modify, call, push_into_current_events, Event.incr_bus_wait_time,
          hr1]

theorem requeue_progress_but_for_a_locked_flexible_read_witness :
    (∀ (w : Unit) (a : Address) (t : ℚ),
      0 ≤ (Scenario.device 0).in_how_long_can_this_event_be_scheduled w a t)
    ∧ 0 < Scenario.flexible_read_candidate_locked.next_free
    ∧ (Scenario.flexible_read_candidate_locked.heap 0).flexible_read = true
    ∧ (Scenario.flexible_read_candidate_locked.heap 0).type = event_type.READ_COMMAND
    ∧ Scenario.flexible_read_candidate_locked.LBA_currently_executing 0 = some 2
    ∧ (∃ s' : IOScheduler Unit,
        handle_flexible_read (Scenario.device 0) 10 0 Scenario.flexible_read_candidate_locked
          = Except.ok s'
        ∧ 0 ∈ s'.current_pointers
        ∧ (s'.heap 0).bus_wait_time
            = (Scenario.flexible_read_candidate_locked.heap 0).bus_wait_time
        ∧ (s'.heap 0).current_time
            = (Scenario.flexible_read_candidate_locked.heap 0).current_time)
    ∧ (execute_current_waiting_ios (Scenario.device 0) 10
          Scenario.flexible_read_candidate_locked).final.map
        (fun t => (t.current_events, (t.heap 0).bus_wait_time, (t.heap 0).current_time,
          t.LBA_currently_executing 0))
      = some ([(0, [0])], 0, 0, some 2)
    ∧ (execute_soonest_events (Scenario.device 0) 30
          Scenario.flexible_read_candidate_locked).final.isSome = false := by
  have hw : (wait_time_at (Scenario.device 0)
      ((Scenario.device 0).choose_flexible_read_address
        Scenario.flexible_read_candidate_locked.world
        (Scenario.flexible_read_candidate_locked.heap 0)) 0
      (Scenario.flexible_read_candidate_locked.call (Scenario.device 0)
        (Call.choose_flexible_read_address
          (Scenario.flexible_read_candidate_locked.heap 0)))).1 = 0 := by decide!
  obtain ⟨s', h1, h2, h3, h4⟩ :=
    (requeue_progress_but_for_a_locked_flexible_read (Scenario.device 0) 10 0
      Scenario.flexible_read_candidate_locked (fun _ _ _ => le_refl _) (by decide!)).2.2
      (by decide!)
  rw [hw, add_zero] at h3 h4
  exact ⟨fun _ _ _ => le_refl _, by decide!, by decide!, by decide!, by decide!,
    ⟨s', h1, h2, h3, h4⟩, by decide!, by decide!⟩

/-- C24: copy-back transformation.  Let the event `e` be allocated and let `handle_write` find
that it cannot be dispatched now (the wait computed for the chosen address is not 0).  If the
event is a COPY_BACK and the chosen address is invalid (NONE), then `handle_write` returns, the
type of the event has become READ_TRANSFER and its address its replace address (its times are
incremented by the wait), exactly one event is allocated, a GC-flagged WRITE with the op id, the
logical address and the replace address of the event, which is appended to the back of
`dependencies[op]`, `dependency_code_to_type[op]` has become WRITE, and the transformed event is
pushed back into `current_events` once.  For every other event that cannot be dispatched
`handle_write` returns, nothing is allocated, the event is unchanged except for its bus wait
time and timestamp, no queue and no recorded type changes, and the event is pushed back into
`current_events` once. -/
theorem copy_back_transformation {W : Type} (C : Collaborators W) (fuel e : Nat)
    (s : IOScheduler W) (he : e < s.next_free)
    (hw : (wait_time_at C (C.choose_write_address s.world (s.heap e)) e
      (s.call C (Call.choose_write_address (s.heap e)))).1 ≠ 0) :
    ((s.heap e).type = event_type.COPY_BACK
        ∧ (C.choose_write_address s.world (s.heap e)).valid = address_valid.NONE →
      ∃ s' : IOScheduler W, handle_write C fuel e s = Except.ok s'
        ∧ s'.heap e = { (s.heap e).incr_bus_wait_time
              (wait_time_at C (C.choose_write_address s.world (s.heap e)) e
                (s.call C (Call.choose_write_address (s.heap e)))).1 with
            type := event_type.READ_TRANSFER, address := (s.heap e).replace_address }
        ∧ s'.next_free = s.next_free + 1
        ∧ (s'.heap s.next_free).type = event_type.WRITE
        ∧ (s'.heap s.next_free).garbage_collection_op = true
        ∧ (s'.heap s.next_free).application_io_id = (s.heap e).application_io_id
        ∧ (s'.heap s.next_free).logical_address = (s.heap e).logical_address
        ∧ (s'.heap s.next_free).replace_address = (s.heap e).replace_address
        ∧ (∀ p, p ≠ e → p ≠ s.next_free → s'.heap p = s.heap p)
        ∧ s'.dependencies.get (s.heap e).application_io_id
            = s.dependencies.get (s.heap e).application_io_id ++ [s.next_free]
        ∧ (∀ k, k ≠ (s.heap e).application_io_id →
            s'.dependencies.get k = s.dependencies.get k)
        ∧ s'.dependency_code_to_type
            = s.dependency_code_to_type.set (s.heap e).application_io_id event_type.WRITE
        ∧ s'.current_pointers.count e = s.current_pointers.count e + 1
        ∧ (∀ p, p ≠ e → s'.current_pointers.count p = s.current_pointers.count p))
    ∧ (¬ ((s.heap e).type = event_type.COPY_BACK
        ∧ (C.choose_write_address s.world (s.heap e)).valid = address_valid.NONE) →
      ∃ s' : IOScheduler W, handle_write C fuel e s = Except.ok s'
        ∧ s'.heap e = (s.heap e).incr_bus_wait_time
              (wait_time_at C (C.choose_write_address s.world (s.heap e)) e
                (s.call C (Call.choose_write_address (s.heap e)))).1
        ∧ s'.next_free = s.next_free
        ∧ (∀ p, p ≠ e → s'.heap p = s.heap p)
        ∧ s'.dependencies = s.dependencies
        ∧ s'.dependency_code_to_type = s.dependency_code_to_type
        ∧ s'.current_pointers.count e = s.current_pointers.count e + 1
        ∧ (∀ p, p ≠ e → s'.current_pointers.count p = s.current_pointers.count p)) := by
  have hne : e ≠ s.next_free := Nat.ne_of_lt he
  have hf := wait_time_at_frame C (C.choose_write_address s.world (s.heap e)) e
    (s.call C (Call.choose_write_address (s.heap e)))
  have hrun : handle_write C fuel e s = Except.ok
      ((if (((wait_time_at C (C.choose_write_address s.world (s.heap e)) e
              (s.call C (Call.choose_write_address (s.heap e)))).2.modify e
            (fun x => x.incr_bus_wait_time
              (wait_time_at C (C.choose_write_address s.world (s.heap e)) e
                (s.call C (Call.choose_write_address (s.heap e)))).1)).heap e).type
            = event_type.COPY_BACK
          ∧ (C.choose_write_address s.world (s.heap e)).valid = address_valid.NONE then
        ((wait_time_at C (C.choose_write_address s.world (s.heap e)) e
            (s.call C (Call.choose_write_address (s.heap e)))).2.modify e
          (fun x => x.incr_bus_wait_time
            (wait_time_at C (C.choose_write_address s.world (s.heap e)) e
              (s.call C (Call.choose_write_address (s.heap e)))).1)).transform_copyback e
        else
        (wait_time_at C (C.choose_write_address s.world (s.heap e)) e
            (s.call C (Call.choose_write_address (s.heap e)))).2.modify e
          (fun x => x.incr_bus_wait_time
            (wait_time_at C (C.choose_write_address s.world (s.heap e)) e
              (s.call C (Call.choose_write_address (s.heap e)))).1)).push_into_current_events
        e) := by
    simp only [handle_write]
    rw [if_neg hw]
    rfl
  clear hw
  generalize wait_time_at C (C.choose_write_address s.world (s.heap e)) e
    (s.call C (Call.choose_write_address (s.heap e))) = r at *
  have r1 : r.2.heap = s.heap := hf.1
  have r2 : r.2.next_free = s.next_free := hf.2.1
  have r3 : r.2.dependencies = s.dependencies := hf.2.2.1
  have r4 : r.2.dependency_code_to_type = s.dependency_code_to_type := hf.2.2.2.1
  have r5 : r.2.current_events = s.current_events := hf.2.2.2.2.1
  clear hf
  have hty : ((r.2.modify e (fun x => x.incr_bus_wait_time r.1)).heap e).type = (s.heap e).type := by
    simp [IOScheduler.modify, Event.incr_bus_wait_time, r1]
  rw [hty] at hrun
  constructor
  · intro hcb
    rw [if_pos hcb] at hrun
    refine ⟨_, hrun, ?_, ?_, ?_, ?_, ?_, ?_, ?_, ?_, ?_, ?_, ?_, ?_, ?_⟩
    · simp [IOScheduler.modify, push_into_current_events, Event.incr_bus_wait_time,
        transform_copyback, alloc, r1, r2, hne]
    · simp [IOScheduler.modify, push_into_current_events, transform_copyback, alloc, r2]
    · simp [IOScheduler.modify, push_into_current_events, transform_copyback, alloc, r1, r2,
        Event.create]
    · simp [IOScheduler.modify, push_into_current_events, transform_copyback, alloc, r1, r2]
    · simp [IOScheduler.modify, push_into_current_events, transform_copyback, alloc, r1, r2,
        Event.incr_bus_wait_time]
    · simp [IOScheduler.modify, push_into_current_events, transform_copyback, alloc, r1, r2,
        Event.incr_bus_wait_time, Event.create]
    · simp [IOScheduler.modify, push_into_current_events, transform_copyback, alloc, r1, r2,
        Event.incr_bus_wait_time]
    · intro p hp hpn
      simp [IOScheduler.modify, push_into_current_events, transform_copyback, alloc, r1, r2,
        hp, hpn]
    · simp [IOScheduler.modify, push_into_current_events, transform_copyback, alloc, r1, r2,
        r3, Event.incr_bus_wait_time, Table.get, Table.set, Table.touch]
    · intro k hk
      simp [IOScheduler.modify, push_into_current_events, transform_copyback, alloc, r1, r2,
        r3, Event.incr_bus_wait_time, Table.get, Table.set, Table.touch, hk]
    · simp [IOScheduler.modify, push_into_current_events, transform_copyback, alloc, r1, r2,
        r4, Event.incr_bus_wait_time]
    · show ((bucket_insert _ e _).map Prod.snd).flatten.count e = _
      rw [count_bucket_insert]
      simp [IOScheduler.modify, transform_copyback, alloc, r5, current_pointers]
    · intro p hp
      show ((bucket_insert _ e _).map Prod.snd).flatten.count p = _
      rw [count_bucket_insert]
      simp [IOScheduler.modify, transform_copyback, alloc, r5, current_pointers, Ne.symm hp]
  · intro hcb
    rw [if_neg hcb] at hrun
    refine ⟨_, hrun, ?_, ?_, ?_, ?_, ?_, ?_, ?_⟩
    · simp [IOScheduler.modify, push_into_current_events, r1]
    · simp [IOScheduler.modify, push_into_current_events, r2]
    · intro p hp
      simp [IOScheduler.modify, push_into_current_events, r1, hp]
    · simp [IOScheduler.modify, push_into_current_events, r3]
    · simp [IOScheduler.modify, push_into_current_events, r4]
    · show ((bucket_insert _ e _).map Prod.snd).flatten.count e = _
      rw [count_bucket_insert]
      simp [IOScheduler.modify, r5, current_pointers]
    · intro p hp
      show ((bucket_insert _ e _).map Prod.snd).flatten.count p = _
      rw [count_bucket_insert]
      simp [IOScheduler.modify, r5, current_pointers, Ne.symm hp]

theorem copy_back_transformation_witness :
    0 < Scenario.copy_back_pending.next_free
    ∧ (Scenario.copy_back_pending.heap 0).type = event_type.COPY_BACK
    ∧ ∃ s' : IOScheduler Unit,
        handle_write (Scenario.device 5) 10 0 Scenario.copy_back_pending = Except.ok s'
        ∧ (s'.heap 0).type = event_type.READ_TRANSFER
        ∧ s'.next_free = 2
        ∧ (s'.heap 1).type = event_type.WRITE
        ∧ (s'.heap 1).garbage_collection_op = true
        ∧ s'.dependencies.get 1 = [1] := by
  have hn : Scenario.copy_back_pending.next_free = 1 := by decide!
  have hd : Scenario.copy_back_pending.dependencies.get 1 = [] := by decide!
  have hop : (Scenario.copy_back_pending.heap 0).application_io_id = 1 := by decide!
  obtain ⟨s', h1, h2, h3, h4, h5, _, _, _, _, h6, _⟩ :=
    (copy_back_transformation (Scenario.device 5) 10 0 Scenario.copy_back_pending
      (by decide!) (by decide!)).1 ⟨by decide!, by decide!⟩
  rw [hn] at h3 h4 h5 h6
  rw [hop, hd] at h6
  exact ⟨by decide!, by decide!, s', h1, by rw [h2], h3, h4, h5, h6⟩

/-- C28: the resolver is claimed to dereference `existing_event` only when it is not null.  It
dereferences a null `existing_event` in a reachable state, where the sibling branches of lines
793 and 816 test `existing_event != NULL` and the assertion of line 764 is commented out.  Under the collaborators of `Scenario.device 0` the queue [WRITE, ERASE] of op 1 for LBA 7
is submitted and executed to its end, then a WRITE of LBA 7 of op 2 is submitted.  In the state
reached both the bucket map and `dependencies[1]` hold nothing of op 1, yet
`LBA_currently_executing[7]` is 1, so `find_scheduled_event(1)` returns null.
`remove_redundant_events` on the new WRITE reads `dependency_code_to_type[1]`, which inserts the
default READ, and evaluates `existing_event->is_mapping_op()` at line 811: it stops with a null
dereference, and so does `execute_soonest_events`, which admits the WRITE. -/
theorem write_after_erase_chain_dereferences_null :
    Reachable (Scenario.device 0) Scenario.write_after_erase_chain
    ∧ (Scenario.write_after_erase_chain.current_events,
        Scenario.write_after_erase_chain.future_events,
        Scenario.write_after_erase_chain.dependencies 1,
        Scenario.write_after_erase_chain.dependency_code_to_type 1)
      = ([], [2], none, none)
    ∧ (Scenario.write_after_erase_chain.LBA_currently_executing 7,
        Scenario.write_after_erase_chain.find_scheduled_event 1) = (some 1, none)
    ∧ ((Scenario.write_after_erase_chain.heap 2).type,
        (Scenario.write_after_erase_chain.heap 2).application_io_id,
        (Scenario.write_after_erase_chain.heap 2).logical_address,
        Scenario.write_after_erase_chain.dependency_code_to_type 2)
      = (event_type.WRITE, 2, 7, some event_type.WRITE)
    ∧ (remove_redundant_events (Scenario.device 0) 2 Scenario.write_after_erase_chain).fault
      = some Fault.null_dereference
    ∧ (execute_soonest_events (Scenario.device 0) 10 Scenario.write_after_erase_chain).fault
      = some Fault.null_dereference := by
  refine ⟨?_, by decide!, by decide!, by decide!, by decide!, by decide!⟩
  exact Reachable.schedule_events_queue [Scenario.event event_type.WRITE 2 7 30]
    (Reachable.execute_soonest_events 10
      (Reachable.execute_soonest_events 10
        (Reachable.schedule_events_queue _ (Reachable.init ())
          (Run.eq_ok_state (submit_queue _ Scenario.empty) (by decide!)))
        (Run.eq_ok_state (execute_soonest_events (Scenario.device 0) 10 _) (by decide!)))
      (Run.eq_ok_state (execute_soonest_events (Scenario.device 0) 10 _) (by decide!)))
    (Run.eq_ok_state (submit_queue _ _) (by decide!))

/-- The fault condition of the resolver on every state: it is null-safe exactly as far as the
owner has an event in `current_events`.  `remove_redundant_events` on the event `e` of op `N` stops with a null
dereference if and only if the LBA of `e` is owned by an op `o` other than `N`, no event in
`current_events` has the op id `o` (`find_scheduled_event` returns null), and the types read from
`dependency_code_to_type` select a branch that dereferences `existing_event`: the type of `o` is
WRITE and `e` is GC-flagged or the type of `N` is WRITE or TRIM, or the type of `N` is WRITE and
the type of `o` is READ.  In particular, when an event with the op id of the owner is in
`current_events`, the resolver never dereferences null. -/
theorem resolver_dereferences_null_iff {W : Type} (C : Collaborators W) (e : Nat)
    (s : IOScheduler W) :
    (remove_redundant_events C e s).fault = some Fault.null_dereference ↔
      ∃ o, s.LBA_currently_executing (s.heap e).logical_address = some o
        ∧ o ≠ (s.heap e).application_io_id
        ∧ (∀ p ∈ s.current_pointers, (s.heap p).application_io_id ≠ o)
        ∧ ((((s.dependency_code_to_type.touch (s.heap e).application_io_id).touch o).get o
              = event_type.WRITE
            ∧ ((s.heap e).garbage_collection_op = true
              ∨ (s.dependency_code_to_type.touch (s.heap e).application_io_id).get
                  (s.heap e).application_io_id = event_type.WRITE
              ∨ (s.dependency_code_to_type.touch (s.heap e).application_io_id).get
                  (s.heap e).application_io_id = event_type.TRIM))
          ∨ ((s.dependency_code_to_type.touch (s.heap e).application_io_id).get
                (s.heap e).application_io_id = event_type.WRITE
            ∧ ((s.dependency_code_to_type.touch (s.heap e).application_io_id).touch o).get o
              = event_type.READ)) := by
  unfold remove_redundant_events
  simp only []
  cases ho : s.LBA_currently_executing (s.heap e).logical_address with
  | none => simp [pure, Except.pure, Run.fault]
  | some o =>
    simp only []
    by_cases heq : o = (s.heap e).application_io_id
    · simp [heq, pure, Except.pure, Run.fault]
    · rw [if_neg heq]
      simp only [Option.some.injEq, exists_eq_left']
      generalize hnew : (s.dependency_code_to_type.touch (s.heap e).application_io_id).get
        (s.heap e).application_io_id = new
      generalize hsch : ((s.dependency_code_to_type.touch (s.heap e).application_io_id).touch
        o).get o = sched
      cases hf : s.find_scheduled_event o with
      | none =>
        have hnone : ∀ p ∈ s.current_pointers, (s.heap p).application_io_id ≠ o := by
          intro p hp hpo
          have := List.find?_eq_none.mp hf p hp
          simp [hpo] at this
        simp only [remove_redundant_events_rest, apply_ite Run.fault, Run.fault_pure,
          Run.fault_fail]
        cases hg : (s.heap e).garbage_collection_op <;> cases new <;> cases sched <;>
          simp [heq, hnone] <;> exact hnone
      | some E =>
        obtain ⟨hEm, hEo⟩ := find_scheduled_event_spec s o E hf
        constructor
        · intro h
          exfalso
          revert h
          repeat' first
            | exact Run.fault_pure_ne _ _
            | exact remove_redundant_events_rest_fault _ _ _ _ _ _ _ _ _
            | apply Run.fault_ite_ne
        · rintro ⟨-, hall, -⟩
          exact absurd hEo (hall E hEm)

/-- C23, counterexample: in a reachable state the noop completion of op 1 leaves an entry of
op 1.  In `Scenario.cancelled_write_of_lock_holder` the event at pointer 2 (op 1) is flagged
noop and is in `current_events`, op 2 is the dependent of op 1, and op 1 still owns LBA 7.
`handle_noop_events` on that event erases the entries of op 1 and then admits the READ_COMMAND of
op 2 for LBA 7: the resolver finds LBA 7 owned by op 1 and reads `dependency_code_to_type[1]`,
which inserts the default READ.  When `handle_noop_events` returns, op 1 has the entry READ in
`dependency_code_to_type`; the entry is still there when `execute_soonest_events` has emptied
both queues. -/
theorem noop_completion_leaves_a_type_entry :
    Reachable (Scenario.device 0) Scenario.cancelled_write_of_lock_holder
    ∧ (Scenario.cancelled_write_of_lock_holder.current_events,
        (Scenario.cancelled_write_of_lock_holder.heap 2).noop,
        (Scenario.cancelled_write_of_lock_holder.heap 2).application_io_id,
        Scenario.cancelled_write_of_lock_holder.op_code_to_dependent_op_codes 1,
        Scenario.cancelled_write_of_lock_holder.LBA_currently_executing 7)
      = ([(30, [2, 4])], true, 1, some [2], some 1)
    ∧ (handle_noop_events (Scenario.device 0) 10 [2]
          Scenario.cancelled_write_of_lock_holder).final.map
        (fun t => (t.dependencies 1, t.dependency_code_to_LBA 1, t.dependency_code_to_type 1))
      = some (none, none, some event_type.READ)
    ∧ (execute_soonest_events (Scenario.device 0) 10
          Scenario.cancelled_write_of_lock_holder).final.map
        (fun t => (t.current_events, t.future_events, t.dependency_code_to_type 1))
      = some ([], [], some event_type.READ) := by
  refine ⟨?_, by decide!, by decide!, by decide!⟩
  exact Reachable.finish_all_events_until_this_time 10 0
    (Reachable.schedule_events_queue [Scenario.event event_type.WRITE 3 9 30]
      (Reachable.schedule_events_queue [Scenario.event event_type.READ 2 7 30]
        (Reachable.schedule_events_queue [Scenario.event event_type.WRITE 1 9 30]
          (Reachable.execute_soonest_events 10
            (Reachable.execute_soonest_events 10
              (Reachable.schedule_events_queue _ (Reachable.init ())
                (Run.eq_ok_state (submit_queue _ Scenario.empty) (by decide!)))
              (Run.eq_ok_state (execute_soonest_events (Scenario.device 0) 10 _) (by decide!)))
            (Run.eq_ok_state (execute_soonest_events (Scenario.device 0) 10 _) (by decide!)))
          (Run.eq_ok_state (submit_queue _ _) (by decide!)))
        (Run.eq_ok_state (submit_queue _ _) (by decide!)))
      (Run.eq_ok_state (submit_queue _ _) (by decide!)))
    (Run.eq_ok_state (finish_all_events_until_this_time (Scenario.device 0) 10 0 _)
      (by decide!))

/-- C23 (amended): noop completion.  `handle_noop_events` processes the vector from the back,
one noop event at a time, and never calls `issue`.  For one event `e` of op `N`: every event remaining in
`dependencies[N]` is registered as completed, in the order of the queue, and the entries of `N`
in `dependencies`, `dependency_code_to_LBA` and `dependency_code_to_type` are erased; from the
state `cleared` so reached the admission loop of `manage_operation_completion` runs, then the
dependents of `N` are erased and `e` is registered as completed.  Without dependents the run
returns.  When it returns, `N` has no dependents left; and if `N` owns no logical address, no
pending event of another op carries the op id `N` and the block manager proposes no migration
under the op id `N`, then `N` has no entry left in `dependencies`, `dependency_code_to_LBA` and
`dependency_code_to_type`, the events registered as completed are those of the queue, each once,
followed by `e`, and the heads of the ops recorded as dependents of `N` have been passed to
admission one after the other in the order of that queue. -/
theorem noop_completion {W : Type} (C : Collaborators W) (fuel e N : Nat) (s : IOScheduler W)
    (hN : (s.heap e).application_io_id = N) :
    (∀ events, Run.All (fun t => t.log.filterMap Call.issued = s.log.filterMap Call.issued) id
        (handle_noop_events C fuel events s))
    ∧ (∀ events x, handle_noop_events C fuel (events ++ [x]) s
        = handle_noop_events C fuel [x] s >>= handle_noop_events C fuel events)
    ∧ ∃ cleared : IOScheduler W,
        cleared.log = s.log
          ++ (s.dependencies.get N).map (fun p => Call.register_event_completion (s.heap p))
        ∧ cleared.dependencies = s.dependencies.erase N
        ∧ cleared.dependency_code_to_LBA = s.dependency_code_to_LBA.erase N
        ∧ cleared.dependency_code_to_type = s.dependency_code_to_type.erase N
        ∧ cleared.heap = s.heap
        ∧ cleared.current_events = s.current_events
        ∧ cleared.LBA_currently_executing = s.LBA_currently_executing
        ∧ cleared.op_code_to_dependent_op_codes = s.op_code_to_dependent_op_codes
        ∧ handle_noop_events C fuel [e] s
            = (admit_dependents C fuel e N cleared >>= fun t =>
                pure (({ t with op_code_to_dependent_op_codes :=
                  t.op_code_to_dependent_op_codes.erase N } : IOScheduler W).call C
                    (Call.register_event_completion (t.heap e))))
        ∧ (s.op_code_to_dependent_op_codes.get N = [] →
            handle_noop_events C (fuel + 1) [e] s
              = Except.ok (({ cleared with op_code_to_dependent_op_codes :=
                  cleared.op_code_to_dependent_op_codes.erase N } : IOScheduler W).call C
                    (Call.register_event_completion (s.heap e))))
        ∧ (∀ t, handle_noop_events C fuel [e] s = Except.ok t →
            t.op_code_to_dependent_op_codes N = none)
        ∧ ((∀ l, s.LBA_currently_executing l ≠ some N) →
            (∀ k, k ≠ N → ∀ p ∈ s.dependencies.get k, (s.heap p).application_io_id ≠ N) →
            (∀ w ev, ∀ q ∈ C.migrate w ev, ∀ x ∈ q, x.application_io_id ≠ N) →
            ∀ t, handle_noop_events C fuel [e] s = Except.ok t →
              t.dependencies N = none ∧ t.dependency_code_to_LBA N = none
              ∧ t.dependency_code_to_type N = none
              ∧ t.log.filterMap Call.completed
                  = s.log.filterMap Call.completed ++ (s.dependencies.get N).map s.heap
                    ++ [t.heap e]
              ∧ ∃ t3, DependentsAdmitted C e N (s.op_code_to_dependent_op_codes.get N)
                        cleared t3
                  ∧ t = ({ t3 with op_code_to_dependent_op_codes :=
                            t3.op_code_to_dependent_op_codes.erase N } : IOScheduler W).call C
                          (Call.register_event_completion (t3.heap e))) := by
  subst hN
  refine ⟨fun events => (stable_issued C _).handle_noop_events_stable fuel events rfl, ?_, ?_⟩
  · intro events x
    exact foldlM_reverse_snoc _ events x s
  obtain ⟨w, hw⟩ := foldl_register_event_completion C
    (s.dependencies.get (s.heap e).application_io_id)
    { s with dependencies := s.dependencies.touch (s.heap e).application_io_id }
  have key : ∀ k, handle_noop_events C k [e] s
      = (admit_dependents C k e (s.heap e).application_io_id
          { s with
            world := w,
            log := s.log ++ (s.dependencies.get (s.heap e).application_io_id).map
              (fun p => Call.register_event_completion (s.heap p)),
            dependencies := s.dependencies.erase (s.heap e).application_io_id,
            dependency_code_to_LBA :=
              s.dependency_code_to_LBA.erase (s.heap e).application_io_id,
            dependency_code_to_type :=
              s.dependency_code_to_type.erase (s.heap e).application_io_id } >>= fun t =>
            pure (({ t with op_code_to_dependent_op_codes :=
              t.op_code_to_dependent_op_codes.erase (s.heap e).application_io_id }
                : IOScheduler W).call C (Call.register_event_completion (t.heap e)))) := by
    intro k
    have e1 : (s.dependencies.touch (s.heap e).application_io_id).erase
        (s.heap e).application_io_id = s.dependencies.erase (s.heap e).application_io_id := by
      funext x; simp only [Table.erase, Table.touch]; split <;> rfl
    have e2 : (s.dependency_code_to_LBA.erase (s.heap e).application_io_id).erase
          (s.heap e).application_io_id
        = s.dependency_code_to_LBA.erase (s.heap e).application_io_id := by
      funext x; simp only [Table.erase]; split <;> rfl
    have e3 : (s.dependency_code_to_type.erase (s.heap e).application_io_id).erase
          (s.heap e).application_io_id
        = s.dependency_code_to_type.erase (s.heap e).application_io_id := by
      funext x; simp only [Table.erase]; split <;> rfl
    simp only [handle_noop_events, List.reverse_cons, List.reverse_nil, List.nil_append,
      List.foldlM_cons, List.foldlM_nil, manage_operation_completion, bind_assoc, pure_bind,
      Table.get_touch, hw, e1, e2, e3]
  clear hw
  refine ⟨{ s with
      world := w,
      log := s.log ++ (s.dependencies.get (s.heap e).application_io_id).map
        (fun p => Call.register_event_completion (s.heap p)),
      dependencies := s.dependencies.erase (s.heap e).application_io_id,
      dependency_code_to_LBA := s.dependency_code_to_LBA.erase (s.heap e).application_io_id,
      dependency_code_to_type := s.dependency_code_to_type.erase (s.heap e).application_io_id },
    rfl, rfl, rfl, rfl, rfl, rfl, rfl, rfl, key fuel, ?_, ?_, ?_⟩
  · intro hd
    rw [key (fuel + 1)]
    refine (congrArg (fun r => r >>= _) (admit_dependents_none C fuel e _ _ ?_)).trans ?_
    · exact hd
    · rfl
  · intro t ht
    rw [key fuel] at ht
    obtain ⟨t3, _, h3⟩ := bind_ok ht
    cases h3
    simp [call, Table.erase]
  · intro H4 H5 HM t ht
    rw [key fuel] at ht
    obtain ⟨t3, h3, h4⟩ := bind_ok ht
    cases h4
    have hc : Cleared (s.heap e).application_io_id (fun _ => False)
        (s.op_code_to_dependent_op_codes (s.heap e).application_io_id)
        (s.log.filterMap Call.completed
          ++ (s.dependencies.get (s.heap e).application_io_id).map s.heap)
        { s with
            world := w,
            log := s.log ++ (s.dependencies.get (s.heap e).application_io_id).map
              (fun p => Call.register_event_completion (s.heap p)),
            dependencies := s.dependencies.erase (s.heap e).application_io_id,
            dependency_code_to_LBA :=
              s.dependency_code_to_LBA.erase (s.heap e).application_io_id,
            dependency_code_to_type :=
              s.dependency_code_to_type.erase (s.heap e).application_io_id } := by
      refine ⟨by simp [Table.erase], by simp [Table.erase], by simp [Table.erase], H4, ?_,
        fun _ h => h.elim, rfl, ?_⟩
      · intro k p hp
        by_cases hk : k = (s.heap e).application_io_id
        · exfalso
          have h0 : (s.dependencies.erase (s.heap e).application_io_id).get
              (s.heap e).application_io_id = [] := by
            simp [Table.erase, Table.get]
            rfl
          rw [hk] at hp
          exact absurd hp (by rw [h0]; exact List.not_mem_nil p)
        · refine H5 k hk p ?_
          simpa [Table.erase, Table.get, hk] using hp
      · simp [List.filterMap_append, List.filterMap_map, Call.completed, Function.comp_def,
          filterMap_some]
    obtain ⟨⟨Q', hc3⟩, hadm⟩ := Cleared.admit_dependents_cleared HM fuel e _ _ t3 hc h3
    refine ⟨hc3.pending, hc3.lba, hc3.type, ?_, t3, hadm, rfl⟩
    show (t3.log ++ [_]).filterMap Call.completed = _
    rw [List.filterMap_append, hc3.completed]
    simp [Call.completed, call]

theorem noop_completion_witness :
    ((Scenario.cancelled_write_with_dependent.heap 0).application_io_id,
        (Scenario.cancelled_write_with_dependent.heap 0).noop,
        Scenario.cancelled_write_with_dependent.op_code_to_dependent_op_codes 1,
        Scenario.cancelled_write_with_dependent.dependency_code_to_type 1)
      = (1, true, some [2], some event_type.WRITE)
    ∧ ∃ t : IOScheduler Unit,
        handle_noop_events (Scenario.device 0) 5 [0] Scenario.cancelled_write_with_dependent
          = Except.ok t
        ∧ t.dependencies 1 = none ∧ t.dependency_code_to_LBA 1 = none
        ∧ t.dependency_code_to_type 1 = none ∧ t.op_code_to_dependent_op_codes 1 = none
        ∧ t.log.filterMap Call.completed = [t.heap 0] := by
  have hO : Scenario.cancelled_write_with_dependent.LBA_currently_executing
      = Table.set (Table.set Table.empty 7 1) 7 3 := by
    with_unfolding_all rfl
  have hD : Scenario.cancelled_write_with_dependent.dependencies
      = Table.set (Table.set (Table.touch (Table.set (Table.set (Table.set Table.empty 1 [])
          2 []) 3 []) 2) 2 [3]) 2 [1, 3] := by
    with_unfolding_all rfl
  have h1 : (Scenario.cancelled_write_with_dependent.heap 1).application_io_id ≠ 1 := by decide!
  have h3 : (Scenario.cancelled_write_with_dependent.heap 3).application_io_id ≠ 1 := by decide!
  obtain ⟨_, _, cleared, _, _, _, _, _, _, _, _, _, _, hdep, hclean⟩ :=
    noop_completion (Scenario.device 0) 5 0 1 Scenario.cancelled_write_with_dependent
      (by decide!)
  have hrun := Run.eq_ok_state
    (handle_noop_events (Scenario.device 0) 5 [0] Scenario.cancelled_write_with_dependent)
    (by decide!)
  have hc := hclean
    (by
      intro l
      rw [hO]
      simp only [Table.set, Table.empty]
      split <;> simp)
    (by
      intro k hk p hp
      rw [hD] at hp
      by_cases h2 : k = 2
      · subst h2
        simp [Table.get, Table.set] at hp
        rcases hp with rfl | rfl <;> assumption
      · by_cases h3' : k = 3
        · subst h3'
          simp [Table.get, Table.set, Table.touch, Table.empty] at hp
        · simp [Table.get, Table.set, Table.touch, Table.empty, h2, h3', hk] at hp
          exact absurd hp (List.not_mem_nil p))
    (by intro w ev q hq; cases hq)
    _ hrun
  refine ⟨by decide!, _, hrun, hc.1, hc.2.1, hc.2.2.1, hdep _ hrun, ?_⟩
  rw [hc.2.2.2.1]
  have e1 : Scenario.cancelled_write_with_dependent.log.filterMap Call.completed = [] := by
    decide!
  have e2 : Scenario.cancelled_write_with_dependent.dependencies.get 1 = [] := by decide!
  rw [e1, e2]
  rfl

/-- C2 (counterexample): lock exclusivity fails in reachable states.  (1) A WRITE of op 1 and an
ERASE of op 2 for LBA 7 are submitted and `execute_soonest_events` is called while every die is
busy: `init_event` pushes the ERASE without consulting the lock table (lines 726-728), so in the
state reached op 1 owns LBA 7 while the ERASE of op 2 for LBA 7 is in `current_events`, not
noop.  (2) Op 1 is the queue [WRITE of LBA 7, WRITE of LBA 8], op 2 a WRITE of LBA 8 whose die
is busy: op 2 takes the lock of LBA 8 and is re-queued; when the first WRITE of op 1 has been
executed, `execute_next` assigns the lock of LBA 8 to op 1 (line 553), so in the state reached
op 1 owns LBA 8 while the WRITE of op 2 for LBA 8 is in `current_events`, not noop. -/
theorem lock_exclusivity_fails :
    Reachable (Scenario.device 5) Scenario.erase_beside_locked_write
    ∧ (Scenario.erase_beside_locked_write.current_events,
        Scenario.erase_beside_locked_write.LBA_currently_executing 7)
      = ([(5, [0, 1])], some 1)
    ∧ ((Scenario.erase_beside_locked_write.heap 1).type,
        (Scenario.erase_beside_locked_write.heap 1).application_io_id,
        (Scenario.erase_beside_locked_write.heap 1).logical_address,
        (Scenario.erase_beside_locked_write.heap 1).noop)
      = (event_type.ERASE, 2, 7, false)
    ∧ Reachable Scenario.second_die_busy Scenario.chain_moves_to_locked_lba
    ∧ (Scenario.chain_moves_to_locked_lba.current_events,
        Scenario.chain_moves_to_locked_lba.LBA_currently_executing 8)
      = ([(3, [1]), (5, [2])], some 1)
    ∧ ((Scenario.chain_moves_to_locked_lba.heap 2).type,
        (Scenario.chain_moves_to_locked_lba.heap 2).application_io_id,
        (Scenario.chain_moves_to_locked_lba.heap 2).logical_address,
        (Scenario.chain_moves_to_locked_lba.heap 2).noop)
      = (event_type.WRITE, 2, 8, false) := by
  refine ⟨?_, by decide!, by decide!, ?_, by decide!, by decide!⟩
  · exact Reachable.execute_soonest_events 10
      (Reachable.schedule_events_queue [Scenario.event event_type.ERASE 2 7 0]
        (Reachable.schedule_events_queue [Scenario.event event_type.WRITE 1 7 0]
          (Reachable.init ())
          (Run.eq_ok_state (submit_queue _ Scenario.empty) (by decide!)))
        (Run.eq_ok_state (submit_queue _ _) (by decide!)))
      (Run.eq_ok_state (execute_soonest_events (Scenario.device 5) 10 _) (by decide!))
  · exact Reachable.execute_soonest_events 10
      (Reachable.schedule_events_queue [Scenario.event event_type.WRITE 2 8 0]
        (Reachable.schedule_events_queue _ (Reachable.init ())
          (Run.eq_ok_state (submit_queue _ Scenario.empty) (by decide!)))
        (Run.eq_ok_state (submit_queue _ _) (by decide!)))
      (Run.eq_ok_state (execute_soonest_events Scenario.second_die_busy 10 _) (by decide!))

/-- Admission keeps the lock discipline, and the lock discipline gives exclusivity.  Let the lock discipline `Safe` hold of the state `s` (every allocated event is
one that admission guards: not flexible, neither ERASE nor GARBAGE_COLLECTION; the events of one
op have one logical address, which is the address recorded for the op; no two live events have
the same op; an op waiting as a dependent has no live event; every live event that is not noop
holds the lock of its address), and let `e` be admissible (allocated, of an op that has no live
event and is no dependent, for the address recorded for its op).  Then in `s` every event of
`current_events` that is not noop targets an address owned by its own op; and if `init_event`
returns on `e`, the lock discipline holds of the state it returns, so there too no event of
`current_events` that is not noop targets an address owned by another op. -/
theorem admission_keeps_lock_exclusivity {W : Type} (C : Collaborators W) (fuel e : Nat)
    (s t : IOScheduler W) (Fn Fx Fut : List Nat) (hS : Safe s Fn Fx Fut)
    (hA : Admissible s Fn Fx Fut e) (hrun : init_event C fuel e s = Except.ok t) :
    (∀ p ∈ s.current_pointers, (s.heap p).noop = false →
        s.LBA_currently_executing (s.heap p).logical_address
          = some (s.heap p).application_io_id)
    ∧ Safe t Fn Fx Fut
    ∧ (∀ p ∈ t.current_pointers, (t.heap p).noop = false →
        ∀ o, t.LBA_currently_executing (t.heap p).logical_address = some o →
          o = (t.heap p).application_io_id) := by
  have hT := init_event_safe C fuel e s t Fn Fx Fut hS hA hrun
  refine ⟨fun p hp hn => ?_, hT, fun p hp hn o ho => ?_⟩
  · exact hS.excl p (List.mem_append_left _ (List.mem_append_left _ hp)) hn
  · have := hT.excl p (List.mem_append_left _ (List.mem_append_left _ hp)) hn
    exact Option.some.inj (ho.symm.trans this)

theorem admission_keeps_lock_exclusivity_witness :
    ∃ t : IOScheduler Unit, init_event (Scenario.device 0) 4 0 Scenario.one_write = Except.ok t
      ∧ Safe t [] [] []
      ∧ t.current_pointers = [0]
      ∧ (t.heap 0).noop = false
      ∧ t.LBA_currently_executing (t.heap 0).logical_address
          = some (t.heap 0).application_io_id := by
  have hD : Scenario.one_write.dependencies = Table.set Table.empty 1 [] := by
    with_unfolding_all rfl
  have hQ : Scenario.one_write.op_code_to_dependent_op_codes = Table.empty := by
    with_unfolding_all rfl
  have hcur : Scenario.one_write.current_pointers = [] := by decide!
  have hnf : Scenario.one_write.next_free = 1 := by decide!
  have hpend : ∀ N, Scenario.one_write.dependencies.get N = [] := by
    intro N
    rw [hD]
    by_cases h : N = 1 <;> simp [Table.get, Table.set, Table.empty, h] <;> rfl
  have hdep : ∀ O, Scenario.one_write.op_code_to_dependent_op_codes.get O = [] := by
    intro O
    rw [hQ]
    rfl
  have hS : Safe Scenario.one_write [] [] [] := by
    unfold Safe
    rw [hcur]
    refine ⟨fun p hp => by simp at hp, fun N q hq => ?_, fun p hp => ?_, fun p q hp hq _ => ?_,
      fun N q hq => ?_, by simp, fun O D hD' => ?_, fun O D hD' => ?_, fun O D hD' => ?_,
      fun p hp => by simp at hp, fun q hq => by simp at hq, fun O D hD' => ?_,
      fun p hp => by simp at hp⟩
    · exact absurd hq (by show q ∉ Scenario.one_write.dependencies.get N; rw [hpend]; simp)
    · have : p = 0 := by
        have : p < 1 := hnf ▸ hp
        omega
      subst this
      decide!
    · have h1 : p = 0 := by
        have : p < 1 := hnf ▸ hp
        omega
      have h2 : q = 0 := by
        have : q < 1 := hnf ▸ hq
        omega
      rw [h1, h2]
    · exact absurd hq (by show q ∉ Scenario.one_write.dependencies.get N; rw [hpend]; simp)
    · exact absurd hD' (by
        show D ∉ Scenario.one_write.op_code_to_dependent_op_codes.get O; rw [hdep]; simp)
    · exact absurd hD' (by
        show D ∉ Scenario.one_write.op_code_to_dependent_op_codes.get O; rw [hdep]; simp)
    · exact absurd hD' (by
        show D ∉ Scenario.one_write.op_code_to_dependent_op_codes.get O; rw [hdep]; simp)
    · exact absurd hD' (by
        show D ∉ Scenario.one_write.op_code_to_dependent_op_codes.get O; rw [hdep]; simp)
  have hA : Admissible Scenario.one_write [] [] [] 0 := by
    unfold Admissible
    rw [hcur]
    refine ⟨by show 0 < Scenario.one_write.next_free; rw [hnf]; decide,
      fun p hp => by simp at hp, fun O hO => ?_, by decide!⟩
    exact absurd hO (by
      show _ ∉ Scenario.one_write.op_code_to_dependent_op_codes.get O; rw [hdep]; simp)
  have hrun := Run.eq_ok_state (init_event (Scenario.device 0) 4 0 Scenario.one_write)
    (by decide!)
  have h := admission_keeps_lock_exclusivity (Scenario.device 0) 4 0 Scenario.one_write _
    [] [] [] hS hA hrun
  exact ⟨_, hrun, h.2.1, by decide!, by decide!, by decide!⟩

/-- C2, amended: lock exclusivity holds in every state reached from the scheduler as constructed
through `schedule_events_queue`, `execute_soonest_events` and
`finish_all_events_until_this_time` when every queue passed by a caller is well formed (its
events belong to one operation that no event created before belongs to, have one logical
address, and none is a flexible read, an ERASE, a GARBAGE_COLLECTION request or a mapping
operation).  In such a state the lock discipline `Safe` holds, and for every LBA `l` with
`LBA_currently_executing[l] = o`, every event in `current_events` that is not flagged noop and
targets `l` has op id `o`. -/
theorem lock_exclusivity_of_well_formed_queues {W : Type} (C : Collaborators W)
    (s : IOScheduler W) (h : ReachableWellFormed C s) :
    Safe s [] [] s.future_events
    ∧ ∀ l o, s.LBA_currently_executing l = some o →
        ∀ p ∈ s.current_pointers, (s.heap p).noop = false →
          (s.heap p).logical_address = l → (s.heap p).application_io_id = o := by
  have hS := ReachableWellFormed.lock_discipline C h
  refine ⟨hS, ?_⟩
  intro l o hl p hp hn hlba
  have := hS.excl p (by simp [hp]) hn
  have h2 : s.LBA_currently_executing (s.heap p).logical_address
      = some (s.heap p).application_io_id := this
  rw [hlba, hl] at h2
  exact (Option.some.inj h2).symm

theorem lock_exclusivity_of_well_formed_queues_witness :
    ReachableWellFormed (Scenario.device 3) Scenario.two_writes_of_one_lba_admitted
    ∧ Scenario.two_writes_of_one_lba_admitted.current_pointers = [0, 1]
    ∧ (Scenario.two_writes_of_one_lba_admitted.heap 0).noop = true
    ∧ (Scenario.two_writes_of_one_lba_admitted.heap 1).noop = false
    ∧ Scenario.two_writes_of_one_lba_admitted.LBA_currently_executing 7 = some 2
    ∧ (Safe Scenario.two_writes_of_one_lba_admitted [] []
        Scenario.two_writes_of_one_lba_admitted.future_events
      ∧ ∀ l o, Scenario.two_writes_of_one_lba_admitted.LBA_currently_executing l = some o →
        ∀ p ∈ Scenario.two_writes_of_one_lba_admitted.current_pointers,
          (Scenario.two_writes_of_one_lba_admitted.heap p).noop = false →
          (Scenario.two_writes_of_one_lba_admitted.heap p).logical_address = l →
          (Scenario.two_writes_of_one_lba_admitted.heap p).application_io_id = o) := by
  have h1 : ReachableWellFormed (Scenario.device 3)
      (submit_queue [Scenario.event event_type.WRITE 1 7 0] Scenario.empty).state :=
    ReachableWellFormed.schedule_events_queue [Scenario.event event_type.WRITE 1 7 0] 1 7
      (ReachableWellFormed.init ()) ⟨by decide!, by decide!⟩ (Run.eq_ok_state _ (by decide!))
  have h2 : ReachableWellFormed (Scenario.device 3)
      (submit_queue [Scenario.event event_type.WRITE 2 7 0]
        (submit_queue [Scenario.event event_type.WRITE 1 7 0] Scenario.empty).state).state :=
    ReachableWellFormed.schedule_events_queue [Scenario.event event_type.WRITE 2 7 0] 2 7
      h1 ⟨by decide!, by decide!⟩ (Run.eq_ok_state _ (by decide!))
  have h3 : ReachableWellFormed (Scenario.device 3) Scenario.two_writes_of_one_lba_admitted :=
    ReachableWellFormed.finish_all_events_until_this_time 4 0 h2
      (Run.eq_ok_state _ (by decide!))
  exact ⟨h3, by decide!, by decide!, by decide!, by decide!,
    lock_exclusivity_of_well_formed_queues _ _ h3⟩

end ssd
